import Mathlib

/-!
# SimplyECS: a verification development of the ECS runtime core

Shallow embedding of `ecs_core` (DenseMap, EntityManager, ComponentManager,
System, SystemManager, Coordinator) and theorems about it.

Conventions of the embedding
* `Debug::Assert(cond, ...)` that fires, and a C++ exception thrown by the
  standard library (`unordered_map::at`, `bitset::set`), both end the call:
  the embedded operation returns `none`.  A call that runs to completion
  returns `some` of its result / successor state.
* `std::unordered_map<K, T>` is an association list `UMap K T`; iteration over
  the map is iteration over the list.
* `std::vector<T>` and `std::queue<T>` are `List T` (front of the queue is the
  head of the list); `std::array<Signature, MaxEntities>` is a `List Signature`.
* `std::bitset<MaxComponents>` is the natural number whose binary digits are
  the bits of the set.
* A component type `T` and a system type `S` are named by their `TypeName`;
  component values are drawn from one type `V`. A write through the `T&`
  returned by `GetComponent<T>` is the operation `AssignComponent`.
* The coordinator is modelled from `Init()` on: its three managers exist.
-/

namespace ecs

/-! ## Types.hpp -/

/-- Entity identifier (`std::uint32_t`). -/
abbrev Entity := Nat

/-- Component type identifier (`std::size_t`). -/
abbrev ComponentTypeID := Nat

/-- Identity of a C++ type as produced by `typeid(T).name()`. -/
abbrev TypeName := String

/-- Maximum number of entities that can exist simultaneously. -/
def MaxEntities : Nat := 5000

/-- Maximum number of different component types. -/
def MaxComponents : Nat := 32

/-- Bitset over component type ids (`std::bitset<MaxComponents>`), as the
natural number with the same binary digits. -/
abbrev Signature := Nat

namespace Signature

/-- Default-constructed bitset / result of `reset()`: no bit set. -/
def empty : Signature := 0

/-- Read of bit `pos`. -/
def test (s : Signature) (pos : Nat) : Bool := Nat.testBit s pos

/-- Member `bitset::set(pos, val)`: throws `std::out_of_range` when `pos` is not
below the width of the bitset. -/
def set (s : Signature) (pos : Nat) (val : Bool) : Option Signature :=
  if pos < MaxComponents then
    if val then some (s ||| (1 <<< pos)) else some (s ^^^ (s &&& (1 <<< pos)))
  else none

end Signature

/-! ## std::unordered_map -/

/-- Association list standing for `std::unordered_map<K, T>`. -/
abbrev UMap (K T : Type) := List (K × T)

namespace UMap

variable {K T : Type} [DecidableEq K]

/-- Lookup: `find(key)`, `at(key)` when the result is `some`. -/
def find : UMap K T → K → Option T
  | [], _ => none
  | (k, v) :: rest, key => if k = key then some v else find rest key

/-- Member `contains(key)`. -/
def contains (m : UMap K T) (key : K) : Bool := (find m key).isSome

/-- Assignment `m[key] = value`: overwrite the entry of `key` or add one. -/
def assign : UMap K T → K → T → UMap K T
  | [], key, value => [(key, value)]
  | (k, v) :: rest, key, value =>
    if k = key then (k, value) :: rest else (k, v) :: assign rest key value

/-- Member `erase(key)`. -/
def erase (m : UMap K T) (key : K) : UMap K T := m.filter (fun p => decide (p.1 ≠ key))

/-- Range-based `for (auto const& [key, value] : m)` whose body updates the
object the mapped value points to, or ends the call. -/
def forEachM (body : K → T → Option T) : UMap K T → Option (UMap K T)
  | [] => some []
  | (k, v) :: rest =>
    match body k v with
    | none => none
    | some v' =>
      match forEachM body rest with
      | none => none
      | some rest' => some ((k, v') :: rest')

end UMap

/-! ## DenseMap.hpp -/

/-- Class template `DenseMap<Key, Value>`. -/
structure DenseMap (K V : Type) where
  m_keyToIndex : UMap K Nat
  m_indexToKey : List K
  m_data : List V
deriving DecidableEq, Repr

namespace DenseMap

variable {K V : Type} [DecidableEq K]

/-- Default-constructed map. -/
def new : DenseMap K V := ⟨[], [], []⟩

/-- Member `Contains(key)`. -/
def Contains (d : DenseMap K V) (key : K) : Bool := d.m_keyToIndex.contains key

/-- Member `Insert(key, value)`. -/
def Insert (d : DenseMap K V) (key : K) (value : V) : Option (DenseMap K V) :=
  if d.m_keyToIndex.contains key then none
  else some
    { m_keyToIndex := d.m_keyToIndex.assign key d.m_data.length
      m_indexToKey := d.m_indexToKey ++ [key]
      m_data := d.m_data ++ [value] }

/-- Member `Update(key, value)`. -/
def Update (d : DenseMap K V) (key : K) (value : V) : Option (DenseMap K V) :=
  match d.m_keyToIndex.find key with
  | none => none
  | some indexOfUpdated => some { d with m_data := d.m_data.set indexOfUpdated value }

/-- Member `Erase(key)` (swap with last, then pop). Reads past the end of a
vector, which the C++ leaves undefined, end the call. -/
def Erase (d : DenseMap K V) (key : K) : Option (DenseMap K V) :=
  match d.m_keyToIndex.find key with
  | none => none
  | some indexOfRemoved =>
    let indexOfLast := d.m_data.length - 1
    match d.m_indexToKey[indexOfLast]?, d.m_data[indexOfLast]? with
    | some keyOfLast, some dataOfLast =>
      some
        { m_keyToIndex := (d.m_keyToIndex.assign keyOfLast indexOfRemoved).erase key
          m_indexToKey := (d.m_indexToKey.set indexOfRemoved keyOfLast).dropLast
          m_data := (d.m_data.set indexOfRemoved dataOfLast).dropLast }
    | _, _ => none

/-- Member `GetValue(key)`. -/
def GetValue (d : DenseMap K V) (key : K) : Option V :=
  match d.m_keyToIndex.find key with
  | none => none
  | some i => d.m_data[i]?

/-- Member `GetDataVector()`. -/
def GetDataVector (d : DenseMap K V) : List V := d.m_data

/-- Member `Size()`. -/
def Size (d : DenseMap K V) : Nat := d.m_data.length

/-- Member `IsEmpty()`. -/
def IsEmpty (d : DenseMap K V) : Bool := d.m_data.isEmpty

/-- Member `Clear()`. -/
def Clear (_d : DenseMap K V) : DenseMap K V := ⟨[], [], []⟩

end DenseMap

/-! ## EntityManager -/

/-- Class `EntityManager`. -/
structure EntityManager where
  m_availableEntities : List Entity
  m_livingEntities : DenseMap Entity Entity
  m_signatures : List Signature
deriving DecidableEq, Repr

namespace EntityManager

/-- Constructor: the pool holds the ids `0 .. MaxEntities-1` in increasing
order, nothing is alive, every signature is the default (empty) bitset. -/
def new : EntityManager :=
  { m_availableEntities := List.range MaxEntities
    m_livingEntities := DenseMap.new
    m_signatures := List.replicate MaxEntities Signature.empty }

/-- Member `CreateEntity()`: the issued id and the successor state. -/
def CreateEntity (em : EntityManager) : Option (Entity × EntityManager) :=
  match em.m_availableEntities with
  | [] => none
  | id :: rest =>
    match em.m_livingEntities.Insert id id with
    | none => none
    | some living => some (id, { em with m_availableEntities := rest, m_livingEntities := living })

/-- Member `DestroyEntity(entity)`. -/
def DestroyEntity (em : EntityManager) (entity : Entity) : Option EntityManager :=
  if em.m_livingEntities.Contains entity then
    match em.m_livingEntities.Erase entity with
    | none => none
    | some living =>
      some
        { m_livingEntities := living
          m_signatures := em.m_signatures.set entity Signature.empty
          m_availableEntities := em.m_availableEntities ++ [entity] }
  else none

/-- Member `GetLivingEntities()`. -/
def GetLivingEntities (em : EntityManager) : List Entity := em.m_livingEntities.GetDataVector

/-- Member `IsAlive(entity)`. -/
def IsAlive (em : EntityManager) (entity : Entity) : Option Bool :=
  if entity < MaxEntities then some (em.m_livingEntities.Contains entity) else none

/-- Member `SetSignature(entity, signature)`. -/
def SetSignature (em : EntityManager) (entity : Entity) (signature : Signature) :
    Option EntityManager :=
  if entity < MaxEntities then
    some { em with m_signatures := em.m_signatures.set entity signature }
  else none

/-- Member `GetSignature(entity)`. -/
def GetSignature (em : EntityManager) (entity : Entity) : Option Signature :=
  if entity < MaxEntities then em.m_signatures[entity]? else none

end EntityManager

/-! ## ComponentManager -/

/-- Class template `ComponentArray<T>`; `V` is the type of component values. -/
structure ComponentArray (V : Type) where
  m_components : DenseMap Entity V
deriving DecidableEq, Repr

namespace ComponentArray

variable {V : Type}

/-- Result of `std::make_shared<ComponentArray<T>>()`. -/
def new : ComponentArray V := ⟨DenseMap.new⟩

/-- Member `InsertData(entity, component)`. -/
def InsertData (a : ComponentArray V) (entity : Entity) (component : V) :
    Option (ComponentArray V) :=
  (a.m_components.Insert entity component).map (fun d => ⟨d⟩)

/-- Member `RemoveData(entity)`. -/
def RemoveData (a : ComponentArray V) (entity : Entity) : Option (ComponentArray V) :=
  (a.m_components.Erase entity).map (fun d => ⟨d⟩)

/-- Member `GetData(entity)`. -/
def GetData (a : ComponentArray V) (entity : Entity) : Option V :=
  a.m_components.GetValue entity

/-- Member `HasData(entity)`. -/
def HasData (a : ComponentArray V) (entity : Entity) : Bool := a.m_components.Contains entity

/-- Member `EntityDestroyed(entity)`. -/
def EntityDestroyed (a : ComponentArray V) (entity : Entity) : Option (ComponentArray V) :=
  (a.m_components.Erase entity).map (fun d => ⟨d⟩)

/-- Write through the reference returned by `GetData(entity)`. -/
def AssignData (a : ComponentArray V) (entity : Entity) (component : V) :
    Option (ComponentArray V) :=
  if a.m_components.Contains entity then
    (a.m_components.Update entity component).map (fun d => ⟨d⟩)
  else none

end ComponentArray

/-- Class `ComponentManager`; a component type `T` is named by its `TypeName`. -/
structure ComponentManager (V : Type) where
  m_componentTypes : UMap TypeName ComponentTypeID
  m_componentArrays : UMap TypeName (ComponentArray V)
  m_nextComponentTypeID : ComponentTypeID
deriving DecidableEq, Repr

namespace ComponentManager

variable {V : Type}

/-- Constructor. -/
def new : ComponentManager V := ⟨[], [], 0⟩

/-- Member `EntityDestroyed(entity)`. -/
def EntityDestroyed (cm : ComponentManager V) (entity : Entity) : Option (ComponentManager V) :=
  (cm.m_componentArrays.forEachM (fun _typeName componentArray =>
      if componentArray.HasData entity then componentArray.EntityDestroyed entity
      else some componentArray)).map
    (fun arrays => { cm with m_componentArrays := arrays })

/-- Member `RegisterComponentType<T>()`. -/
def RegisterComponentType (cm : ComponentManager V) (typeName : TypeName) :
    Option (ComponentManager V) :=
  if cm.m_nextComponentTypeID ≤ MaxComponents then
    if cm.m_componentTypes.contains typeName then none
    else some
      { m_componentTypes := cm.m_componentTypes.assign typeName cm.m_nextComponentTypeID
        m_componentArrays := cm.m_componentArrays.assign typeName ComponentArray.new
        m_nextComponentTypeID := cm.m_nextComponentTypeID + 1 }
  else none

/-- Member `GetComponentTypeID<T>()`. -/
def GetComponentTypeID (cm : ComponentManager V) (typeName : TypeName) : Option ComponentTypeID :=
  cm.m_componentTypes.find typeName

/-- Member `GetComponentArray<T>()`. -/
def GetComponentArray (cm : ComponentManager V) (typeName : TypeName) :
    Option (ComponentArray V) :=
  if cm.m_componentTypes.contains typeName then cm.m_componentArrays.find typeName else none

/-- Member `AddComponent<T>(entity, component)`. -/
def AddComponent (cm : ComponentManager V) (typeName : TypeName) (entity : Entity)
    (component : V) : Option (ComponentManager V) :=
  match cm.GetComponentArray typeName with
  | none => none
  | some componentArray =>
    if componentArray.HasData entity then none
    else
      (componentArray.InsertData entity component).map
        (fun a => { cm with m_componentArrays := cm.m_componentArrays.assign typeName a })

/-- Member `RemoveComponent<T>(entity)`. -/
def RemoveComponent (cm : ComponentManager V) (typeName : TypeName) (entity : Entity) :
    Option (ComponentManager V) :=
  match cm.GetComponentArray typeName with
  | none => none
  | some componentArray =>
    if componentArray.HasData entity then
      (componentArray.RemoveData entity).map
        (fun a => { cm with m_componentArrays := cm.m_componentArrays.assign typeName a })
    else none

/-- Member `GetComponent<T>(entity)`. -/
def GetComponent (cm : ComponentManager V) (typeName : TypeName) (entity : Entity) : Option V :=
  match cm.GetComponentArray typeName with
  | none => none
  | some componentArray =>
    if componentArray.HasData entity then componentArray.GetData entity else none

/-- Member `HasComponent<T>(entity)`. -/
def HasComponent (cm : ComponentManager V) (typeName : TypeName) (entity : Entity) :
    Option Bool :=
  (cm.GetComponentArray typeName).map (fun componentArray => componentArray.HasData entity)

/-- Write through the reference returned by `GetComponent<T>(entity)`. -/
def AssignComponent (cm : ComponentManager V) (typeName : TypeName) (entity : Entity)
    (component : V) : Option (ComponentManager V) :=
  match cm.GetComponentArray typeName with
  | none => none
  | some componentArray =>
    if componentArray.HasData entity then
      (componentArray.AssignData entity component).map
        (fun a => { cm with m_componentArrays := cm.m_componentArrays.assign typeName a })
    else none

end ComponentManager

/-! ## System and SystemManager -/

/-- Class `System` (base part: the entity set). -/
structure System where
  m_entities : DenseMap Entity Entity
deriving DecidableEq, Repr

namespace System

/-- Freshly constructed system: empty entity set. -/
def new : System := ⟨DenseMap.new⟩

/-- Member `HasEntity(entity)`. -/
def HasEntity (s : System) (entity : Entity) : Bool := s.m_entities.Contains entity

/-- Member `AddEntity(entity)`. -/
def AddEntity (s : System) (entity : Entity) : Option System :=
  if s.m_entities.Contains entity then some s
  else (s.m_entities.Insert entity entity).map (fun d => ⟨d⟩)

/-- Member `RemoveEntity(entity)`. -/
def RemoveEntity (s : System) (entity : Entity) : Option System :=
  if !s.m_entities.Contains entity then some s
  else (s.m_entities.Erase entity).map (fun d => ⟨d⟩)

end System

/-- Class `SystemManager`. -/
structure SystemManager where
  m_systems : UMap TypeName System
  m_signatures : UMap TypeName Signature
deriving DecidableEq, Repr

namespace SystemManager

/-- Default constructor. -/
def new : SystemManager := ⟨[], []⟩

/-- Member `RegisterSystem<T>(args...)`. -/
def RegisterSystem (sm : SystemManager) (typeName : TypeName) : Option SystemManager :=
  if sm.m_systems.contains typeName then none
  else some { sm with m_systems := sm.m_systems ++ [(typeName, System.new)] }

/-- Member `SetSystemSignature<T>(signature)`. -/
def SetSystemSignature (sm : SystemManager) (typeName : TypeName) (signature : Signature) :
    Option SystemManager :=
  if sm.m_systems.contains typeName then
    some { sm with m_signatures := sm.m_signatures.assign typeName signature }
  else none

/-- Member `GetSystem<T>()`. -/
def GetSystem (sm : SystemManager) (typeName : TypeName) : Option System :=
  if sm.m_systems.contains typeName then sm.m_systems.find typeName else none

/-- Member `EntitySignatureChanged(entity, entitySig)`; `m_signatures.at` throws
for a system without a recorded signature. -/
def EntitySignatureChanged (sm : SystemManager) (entity : Entity) (entitySig : Signature) :
    Option SystemManager :=
  (sm.m_systems.forEachM (fun typeName system =>
      match sm.m_signatures.find typeName with
      | none => none
      | some systemSig =>
        if (entitySig &&& systemSig) = systemSig then system.AddEntity entity
        else system.RemoveEntity entity)).map
    (fun systems => { sm with m_systems := systems })

end SystemManager

/-! ## Coordinator -/

/-- Class `Coordinator` after `Init()`: the three managers and the destroy queue. -/
structure Coordinator (V : Type) where
  m_entityManager : EntityManager
  m_componentManager : ComponentManager V
  m_systemManager : SystemManager
  m_entitiesToDestroy : List Entity
deriving DecidableEq, Repr

namespace Coordinator

variable {V : Type}

/-- Member `Init()`: three fresh managers; the destroy queue is not touched. -/
def Init (c : Coordinator V) : Coordinator V :=
  { m_entityManager := EntityManager.new
    m_componentManager := ComponentManager.new
    m_systemManager := SystemManager.new
    m_entitiesToDestroy := c.m_entitiesToDestroy }

/-- State after the first `Init()` on a default-constructed coordinator. -/
def initial : Coordinator V :=
  ⟨EntityManager.new, ComponentManager.new, SystemManager.new, []⟩

/-- Member `CreateEntity()`. -/
def CreateEntity (c : Coordinator V) : Option (Entity × Coordinator V) :=
  c.m_entityManager.CreateEntity.map (fun r => (r.1, { c with m_entityManager := r.2 }))

/-- Member `DestroyEntity(entity)`. -/
def DestroyEntity (c : Coordinator V) (entity : Entity) : Coordinator V :=
  { c with m_entitiesToDestroy := c.m_entitiesToDestroy ++ [entity] }

/-- Member `GetLivingEntities()`. -/
def GetLivingEntities (c : Coordinator V) : List Entity := c.m_entityManager.GetLivingEntities

/-- Member `IsEntityAlive(entity)`. -/
def IsEntityAlive (c : Coordinator V) (entity : Entity) : Option Bool :=
  c.m_entityManager.IsAlive entity

/-- Member `GetSignature(entity)`. -/
def GetSignature (c : Coordinator V) (entity : Entity) : Option Signature :=
  c.m_entityManager.GetSignature entity

/-- The three calls made for one entity by `DestroyQueuedEntities` and
`DestroyAllEntities`. -/
def destroyNow (c : Coordinator V) (e : Entity) : Option (Coordinator V) :=
  match c.m_entityManager.DestroyEntity e with
  | none => none
  | some em =>
    match c.m_componentManager.EntityDestroyed e with
    | none => none
    | some cm =>
      match c.m_systemManager.EntitySignatureChanged e Signature.empty with
      | none => none
      | some sm =>
        some { c with m_entityManager := em, m_componentManager := cm, m_systemManager := sm }

/-- The `for` loop of `DestroyQueuedEntities` over the queued ids. -/
def destroyQueuedLoop : Coordinator V → List Entity → Option (Coordinator V)
  | c, [] => some c
  | c, e :: rest =>
    match c.m_entityManager.IsAlive e with
    | none => none
    | some false => destroyQueuedLoop c rest
    | some true =>
      match destroyNow c e with
      | none => none
      | some c' => destroyQueuedLoop c' rest

/-- Member `DestroyQueuedEntities()`. -/
def DestroyQueuedEntities (c : Coordinator V) : Option (Coordinator V) :=
  if c.m_entitiesToDestroy.isEmpty then some c
  else
    (destroyQueuedLoop c c.m_entitiesToDestroy).map
      (fun c' => { c' with m_entitiesToDestroy := [] })

/-- The `for` loop of `DestroyAllEntities` over the copy of the living entities. -/
def destroyAllLoop : Coordinator V → List Entity → Option (Coordinator V)
  | c, [] => some c
  | c, e :: rest =>
    match destroyNow c e with
    | none => none
    | some c' => destroyAllLoop c' rest

/-- Member `DestroyAllEntities()`. -/
def DestroyAllEntities (c : Coordinator V) : Option (Coordinator V) :=
  destroyAllLoop { c with m_entitiesToDestroy := [] } c.m_entityManager.GetLivingEntities

/-- Member `RegisterComponent<T>()`. -/
def RegisterComponent (c : Coordinator V) (typeName : TypeName) : Option (Coordinator V) :=
  (c.m_componentManager.RegisterComponentType typeName).map
    (fun cm => { c with m_componentManager := cm })

/-- Common tail of `AddComponent` / `RemoveComponent`: store the signature with
bit `GetComponentTypeID<T>()` set to `val`, then notify the systems. -/
def updateSignature (c : Coordinator V) (cm : ComponentManager V) (typeName : TypeName)
    (entity : Entity) (val : Bool) : Option (Coordinator V) :=
  match c.m_entityManager.GetSignature entity with
  | none => none
  | some signature =>
    match cm.GetComponentTypeID typeName with
    | none => none
    | some id =>
      match Signature.set signature id val with
      | none => none
      | some signature' =>
        match c.m_entityManager.SetSignature entity signature' with
        | none => none
        | some em =>
          match c.m_systemManager.EntitySignatureChanged entity signature' with
          | none => none
          | some sm =>
            some { c with m_entityManager := em, m_componentManager := cm, m_systemManager := sm }

/-- Member `AddComponent<T>(entity, component)`. -/
def AddComponent (c : Coordinator V) (typeName : TypeName) (entity : Entity) (component : V) :
    Option (Coordinator V) :=
  match c.m_entityManager.IsAlive entity with
  | some true =>
    match c.m_componentManager.AddComponent typeName entity component with
    | none => none
    | some cm => updateSignature c cm typeName entity true
  | _ => none

/-- Member `RemoveComponent<T>(entity)`. -/
def RemoveComponent (c : Coordinator V) (typeName : TypeName) (entity : Entity) :
    Option (Coordinator V) :=
  match c.m_entityManager.IsAlive entity with
  | some true =>
    match c.m_componentManager.RemoveComponent typeName entity with
    | none => none
    | some cm => updateSignature c cm typeName entity false
  | _ => none

/-- Member `GetComponent<T>(entity)`. -/
def GetComponent (c : Coordinator V) (typeName : TypeName) (entity : Entity) : Option V :=
  match c.m_entityManager.IsAlive entity with
  | some true => c.m_componentManager.GetComponent typeName entity
  | _ => none

/-- Write through the reference returned by `GetComponent<T>(entity)`. -/
def AssignComponent (c : Coordinator V) (typeName : TypeName) (entity : Entity)
    (component : V) : Option (Coordinator V) :=
  match c.m_entityManager.IsAlive entity with
  | some true =>
    (c.m_componentManager.AssignComponent typeName entity component).map
      (fun cm => { c with m_componentManager := cm })
  | _ => none

/-- Member `GetComponentTypeID<T>()`. -/
def GetComponentTypeID (c : Coordinator V) (typeName : TypeName) : Option ComponentTypeID :=
  c.m_componentManager.GetComponentTypeID typeName

/-- Member `HasComponent<T>(entity)`. -/
def HasComponent (c : Coordinator V) (typeName : TypeName) (entity : Entity) : Option Bool :=
  match c.m_entityManager.IsAlive entity with
  | some true => c.m_componentManager.HasComponent typeName entity
  | _ => none

/-- Member `RegisterSystem<T>(args...)`. -/
def RegisterSystem (c : Coordinator V) (typeName : TypeName) : Option (Coordinator V) :=
  (c.m_systemManager.RegisterSystem typeName).map (fun sm => { c with m_systemManager := sm })

/-- Member `SetSystemSignature<T>(signature)`. -/
def SetSystemSignature (c : Coordinator V) (typeName : TypeName) (signature : Signature) :
    Option (Coordinator V) :=
  (c.m_systemManager.SetSystemSignature typeName signature).map
    (fun sm => { c with m_systemManager := sm })

/-- Member `GetSystem<T>()`. -/
def GetSystem (c : Coordinator V) (typeName : TypeName) : Option System :=
  c.m_systemManager.GetSystem typeName

end Coordinator

/-! # Invariants and reachable states -/

namespace DenseMap

variable {K V : Type} [DecidableEq K]

/-- Lock-step invariant of the three parts of a `DenseMap`: the two vectors
have one length and the key-to-index map is the inverse of the index-to-key
vector. -/
structure WF (d : DenseMap K V) : Prop where
  len : d.m_indexToKey.length = d.m_data.length
  idx : ∀ k i, d.m_keyToIndex.find k = some i ↔ d.m_indexToKey[i]? = some k

/-- Maps obtained from the default-constructed one by the mutating members. -/
inductive Built : DenseMap K V → Prop
  | new : Built DenseMap.new
  | insert {d d' : DenseMap K V} {k : K} {v : V} : Built d → d.Insert k v = some d' → Built d'
  | update {d d' : DenseMap K V} {k : K} {v : V} : Built d → d.Update k v = some d' → Built d'
  | erase {d d' : DenseMap K V} {k : K} : Built d → d.Erase k = some d' → Built d'
  | clear {d : DenseMap K V} : Built d → Built d.Clear

end DenseMap

namespace EntityManager

/-- Representation invariant of the Entity Registry: the living set is a
well-formed dense set, the free pool and the living set together hold each id
`0 .. MaxEntities-1` exactly once, and the signature array has its full length. -/
structure Inv (em : EntityManager) : Prop where
  wf : em.m_livingEntities.WF
  data : em.m_livingEntities.m_data = em.m_livingEntities.m_indexToKey
  ids : List.Perm (em.m_availableEntities ++ em.m_livingEntities.m_indexToKey)
    (List.range MaxEntities)
  sigs : em.m_signatures.length = MaxEntities

/-- States of the Entity Registry reachable from the constructed one by
successful `CreateEntity` and `DestroyEntity` calls and by those successful
`SetSignature` calls that `allowSet` admits. -/
inductive Reachable (allowSet : EntityManager → Entity → Signature → Prop) :
    EntityManager → Prop
  | init : Reachable allowSet EntityManager.new
  | create {em em' : EntityManager} {id : Entity} :
      Reachable allowSet em → em.CreateEntity = some (id, em') → Reachable allowSet em'
  | destroy {em em' : EntityManager} {e : Entity} :
      Reachable allowSet em → em.DestroyEntity e = some em' → Reachable allowSet em'
  | setSignature {em em' : EntityManager} {e : Entity} {sig : Signature} :
      Reachable allowSet em → allowSet em e sig → em.SetSignature e sig = some em' →
      Reachable allowSet em'

/-- No `SetSignature` call at all: sequences of create and destroy only. -/
def noSet : EntityManager → Entity → Signature → Prop := fun _ _ _ => False

/-- Every in-range `SetSignature` call, whether or not the id is alive. -/
def anySet : EntityManager → Entity → Signature → Prop := fun _ _ _ => True

/-- Only the `SetSignature` calls that store a signature for an alive id, or
the empty signature. -/
def aliveSet : EntityManager → Entity → Signature → Prop :=
  fun em e sig => em.IsAlive e = some true ∨ sig = Signature.empty

/-- Run of `n` consecutive `CreateEntity` calls; `none` as soon as one fails. -/
def createN : Nat → EntityManager → Option EntityManager
  | 0, em => some em
  | n + 1, em =>
    match em.CreateEntity with
    | none => none
    | some r => createN n r.2

end EntityManager

namespace Coordinator

variable {V : Type}

/-- One call of a state-changing Coordinator member that runs to completion. -/
inductive Step : Coordinator V → Coordinator V → Prop
  | init (c : Coordinator V) : Step c c.Init
  | createEntity {c c' : Coordinator V} {id : Entity} :
      c.CreateEntity = some (id, c') → Step c c'
  | destroyEntity (c : Coordinator V) (e : Entity) : Step c (c.DestroyEntity e)
  | destroyQueuedEntities {c c' : Coordinator V} :
      c.DestroyQueuedEntities = some c' → Step c c'
  | destroyAllEntities {c c' : Coordinator V} :
      c.DestroyAllEntities = some c' → Step c c'
  | registerComponent {c c' : Coordinator V} {T : TypeName} :
      c.RegisterComponent T = some c' → Step c c'
  | addComponent {c c' : Coordinator V} {T : TypeName} {e : Entity} {v : V} :
      c.AddComponent T e v = some c' → Step c c'
  | removeComponent {c c' : Coordinator V} {T : TypeName} {e : Entity} :
      c.RemoveComponent T e = some c' → Step c c'
  | assignComponent {c c' : Coordinator V} {T : TypeName} {e : Entity} {v : V} :
      c.AssignComponent T e v = some c' → Step c c'
  | registerSystem {c c' : Coordinator V} {S : TypeName} :
      c.RegisterSystem S = some c' → Step c c'
  | setSystemSignature {c c' : Coordinator V} {S : TypeName} {sig : Signature} :
      c.SetSystemSignature S sig = some c' → Step c c'

/-- States reachable from the initialised coordinator through its operations. -/
inductive Reachable : Coordinator V → Prop
  | initial : Reachable Coordinator.initial
  | step {c c' : Coordinator V} : Reachable c → Step c c' → Reachable c'

/-- Representation invariant of the coordinator: the entity registry invariant,
well-formed dense maps everywhere, type ids that are distinct and below the
next id, and signatures whose bit `id` tells whether the array of the type with
that id holds the entity. -/
structure Inv (c : Coordinator V) : Prop where
  em : c.m_entityManager.Inv
  arrays : ∀ T a, (T, a) ∈ c.m_componentManager.m_componentArrays → a.m_components.WF
  systems : ∀ S s, (S, s) ∈ c.m_systemManager.m_systems → s.m_entities.WF
  keys : ∀ T, c.m_componentManager.m_componentTypes.find T = none ↔
    c.m_componentManager.m_componentArrays.find T = none
  lt : ∀ T id, c.m_componentManager.m_componentTypes.find T = some id →
    id < c.m_componentManager.m_nextComponentTypeID
  inj : ∀ T T' id, c.m_componentManager.m_componentTypes.find T = some id →
    c.m_componentManager.m_componentTypes.find T' = some id → T = T'
  bits : ∀ (T : TypeName) (id : ComponentTypeID) (a : ComponentArray V) (e : Entity)
    (sig : Signature), c.m_componentManager.m_componentTypes.find T = some id →
    c.m_componentManager.m_componentArrays.find T = some a →
    c.m_entityManager.m_signatures[e]? = some sig →
    Signature.test sig id = a.HasData e
  high : ∀ (e : Entity) (sig : Signature) (i : Nat),
    c.m_entityManager.m_signatures[e]? = some sig →
    (c.m_componentManager.m_nextComponentTypeID ≤ i ∨ MaxComponents ≤ i) →
    Signature.test sig i = false

end Coordinator

namespace Coordinator

variable {V : Type}

/-- The state-changing calls a host can make on the coordinator. -/
inductive Op (V : Type) where
  | init
  | createEntity
  | destroyEntity (e : Entity)
  | destroyQueuedEntities
  | destroyAllEntities
  | registerComponent (T : TypeName)
  | addComponent (T : TypeName) (e : Entity) (v : V)
  | removeComponent (T : TypeName) (e : Entity)
  | assignComponent (T : TypeName) (e : Entity) (v : V)
  | registerSystem (S : TypeName)
  | setSystemSignature (S : TypeName) (sig : Signature)
deriving DecidableEq, Repr

/-- Run one call; `none` when it does not run to completion. -/
def applyOp (c : Coordinator V) : Op V → Option (Coordinator V)
  | .init => some c.Init
  | .createEntity => c.CreateEntity.map (fun r => r.2)
  | .destroyEntity e => some (c.DestroyEntity e)
  | .destroyQueuedEntities => c.DestroyQueuedEntities
  | .destroyAllEntities => c.DestroyAllEntities
  | .registerComponent T => c.RegisterComponent T
  | .addComponent T e v => c.AddComponent T e v
  | .removeComponent T e => c.RemoveComponent T e
  | .assignComponent T e v => c.AssignComponent T e v
  | .registerSystem S => c.RegisterSystem S
  | .setSystemSignature S sig => c.SetSystemSignature S sig

/-- Run a sequence of calls in order; `none` as soon as one fails. -/
def run (c : Coordinator V) : List (Op V) → Option (Coordinator V)
  | [] => some c
  | op :: ops =>
    match applyOp c op with
    | none => none
    | some c' => run c' ops

/-- Calls that destroy entities at once: the two flush members and `Init`. -/
def Op.purges : Op V → Bool
  | .init => true
  | .destroyQueuedEntities => true
  | .destroyAllEntities => true
  | _ => false

end Coordinator

namespace Coordinator

/-- Example state: component type `Position` registered, entity 0 created. -/
def positionWorld : Coordinator Nat :=
  ⟨⟨List.range' 1 4999, ⟨[(0, 0)], [0], [0]⟩, List.replicate 5000 0⟩,
    ⟨[("Position", 0)], [("Position", ComponentArray.new)], 1⟩, SystemManager.new, []⟩

end Coordinator

namespace SystemManager

/-- Example registry: `Mover` requires bits 0 and 1 and holds no entity,
`Spawner` requires nothing and holds entity 3. -/
def sampleRegistry : SystemManager :=
  ⟨[("Mover", System.new), ("Spawner", ⟨⟨[(3, 0)], [3], [3]⟩⟩)], [("Mover", 3), ("Spawner", 0)]⟩

end SystemManager

namespace Coordinator

variable {V : Type}

/-- The ids of `l` that are not in `seen`, each kept at its first occurrence. -/
def dedupFrom (seen : List Entity) : List Entity → List Entity
  | [] => []
  | e :: rest =>
    if e ∈ seen then dedupFrom seen rest else e :: dedupFrom (e :: seen) rest

/-- A destroy queue with duplicate ids removed (first occurrences kept). -/
def withoutDuplicates (l : List Entity) : List Entity := dedupFrom [] l

/-- Every registered system has a recorded required signature. -/
def AllSystemsHaveSignature (sm : SystemManager) : Prop :=
  ∀ S s, (S, s) ∈ sm.m_systems → ∃ Rs, sm.m_signatures.find S = some Rs

end Coordinator

namespace Coordinator

variable {V : Type}

/-- Calls of the setup phase: registrations and system signatures. -/
def Op.configures : Op V → Bool
  | .registerComponent _ => true
  | .registerSystem _ => true
  | .setSystemSignature _ _ => true
  | _ => false

/-- Calls that leave the set of registered systems and their required signatures
as they are (everything but `Init`, `RegisterSystem` and `SetSystemSignature`). -/
def Op.keepsSystems : Op V → Bool
  | .init => false
  | .registerSystem _ => false
  | .setSystemSignature _ _ => false
  | _ => true

/-- Coordinator states in which all systems were registered and given their
required signatures before any entity was created: a setup phase of
registrations from the initial state, then calls that keep the systems. -/
def Running (c : Coordinator V) : Prop :=
  ∃ setup ops c0, (∀ op, op ∈ setup → op.configures = true) ∧
    (∀ op, op ∈ ops → op.keepsSystems = true) ∧
    run Coordinator.initial setup = some c0 ∧ run c0 ops = some c

/-- Membership agrees with the match test for every system whose required
signature is not empty, and every slot of the signature array. -/
def NonEmptyMatch (signatures : List Signature) (sm : SystemManager) : Prop :=
  ∀ (S : TypeName) (s : System) (Rs : Signature) (e : Entity) (sig : Signature),
    sm.m_systems.find S = some s → sm.m_signatures.find S = some Rs →
    Rs ≠ Signature.empty → signatures[e]? = some sig →
    (s.HasEntity e = true ↔ sig &&& Rs = Rs)

/-- Nothing was created yet: the registry is as constructed and every
registered system is as constructed. -/
def Fresh (c : Coordinator V) : Prop :=
  c.m_entityManager = EntityManager.new ∧
    ∀ S s, (S, s) ∈ c.m_systemManager.m_systems → s = System.new

/-- Example state: `Position` registered, system `Spawner` registered with the
empty required signature, entities 0 and 1 created, a `Position` added to 1. -/
def spawnerWorld : Coordinator Nat :=
  ⟨⟨List.range' 2 4998, ⟨[(0, 0), (1, 1)], [0, 1], [0, 1]⟩, 0 :: 1 :: List.replicate 4998 0⟩,
    ⟨[("Position", 0)], [("Position", ⟨⟨[(1, 0)], [1], [7]⟩⟩)], 1⟩,
    ⟨[("Spawner", ⟨⟨[(1, 0)], [1], [1]⟩⟩)], [("Spawner", 0)]⟩, []⟩

/-- Example state: system `PlayerSpawnSystem` registered with the empty required
signature, entity 0 created and queued for destruction. -/
def queuedWorld : Coordinator Nat :=
  ⟨⟨List.range' 1 4999, ⟨[(0, 0)], [0], [0]⟩, List.replicate 5000 0⟩,
    ComponentManager.new,
    ⟨[("PlayerSpawnSystem", System.new)], [("PlayerSpawnSystem", 0)]⟩, [0]⟩

/-- Example state: `positionWorld` with the destroy queue `[0, 7, 0]`. -/
def flushWorld : Coordinator Nat :=
  { positionWorld with m_entitiesToDestroy := [0, 7, 0] }

end Coordinator

namespace Coordinator

/-- Example state: `spawnerWorld` just before the `Position` is added to entity 1. -/
def spawnerWorldBefore : Coordinator Nat :=
  ⟨⟨List.range' 2 4998, ⟨[(0, 0), (1, 1)], [0, 1], [0, 1]⟩, List.replicate 5000 0⟩,
    ⟨[("Position", 0)], [("Position", ComponentArray.new)], 1⟩,
    ⟨[("Spawner", System.new)], [("Spawner", 0)]⟩, []⟩

/-- Example state of the spec scenario: `Position` and `Velocity` registered,
system `Mover` requiring both, entity 0 with both components, entity 1 with a
`Position` only. -/
def moverWorld : Coordinator Nat :=
  ⟨⟨List.range' 2 4998, ⟨[(0, 0), (1, 1)], [0, 1], [0, 1]⟩, 3 :: 1 :: List.replicate 4998 0⟩,
    ⟨[("Position", 0), ("Velocity", 1)],
      [("Position", ⟨⟨[(0, 0), (1, 1)], [0, 1], [1, 3]⟩⟩), ("Velocity", ⟨⟨[(0, 0)], [0], [2]⟩⟩)],
      2⟩,
    ⟨[("Mover", ⟨⟨[(0, 0)], [0], [0]⟩⟩)], [("Mover", 3)]⟩, []⟩

end Coordinator

namespace Coordinator

variable {V : Type}

/-- Reference for `destroy_all_entities()` in the words of the spec: discard the
destroy queue, call `destroy_entity` on every living entity in
`living_entities()` order, then call `flush_destroyed_entities()`. -/
def destroyAllByQueue (c : Coordinator V) : Option (Coordinator V) :=
  DestroyQueuedEntities
    (c.GetLivingEntities.foldl DestroyEntity { c with m_entitiesToDestroy := [] })

end Coordinator

/-- What a call leaves behind: the state on completion, or the state at the
point where an assertion fired or an exception was thrown. -/
inductive Outcome (σ : Type) where
  | completed (s : σ)
  | stopped (s : σ)
deriving DecidableEq, Repr

namespace DenseMap

variable {K V : Type} [DecidableEq K]

/-- The mutating calls of a Dense Associative Store. -/
inductive Call (K V : Type) where
  | insert (k : K) (v : V)
  | update (k : K) (v : V)
  | erase (k : K)
  | clear
deriving DecidableEq, Repr

/-- One call on the store; `none` when it fails. -/
def applyCall (d : DenseMap K V) : Call K V → Option (DenseMap K V)
  | .insert k v => d.Insert k v
  | .update k v => d.Update k v
  | .erase k => d.Erase k
  | .clear => some d.Clear

/-- A sequence of calls on the store, in order; `none` as soon as one fails. -/
def runCalls (d : DenseMap K V) : List (Call K V) → Option (DenseMap K V)
  | [] => some d
  | call :: calls =>
    match applyCall d call with
    | none => none
    | some d' => runCalls d' calls

/-- One call on the reference finite map (an association list holding each
present key once with its current value): insert needs an absent key, update
and erase a present one. -/
def refApply (m : UMap K V) : Call K V → Option (UMap K V)
  | .insert k v => if m.contains k then none else some (m.assign k v)
  | .update k v => if m.contains k then some (m.assign k v) else none
  | .erase k => if m.contains k then some (m.erase k) else none
  | .clear => some []

/-- A sequence of calls on the reference finite map. -/
def refRun (m : UMap K V) : List (Call K V) → Option (UMap K V)
  | [] => some m
  | call :: calls =>
    match refApply m call with
    | none => none
    | some m' => refRun m' calls

/-- The store agrees with the reference map: same number of keys, same keys,
same value for each key. -/
def Agrees (d : DenseMap K V) (m : UMap K V) : Prop :=
  (m.map Prod.fst).Nodup ∧ d.Size = m.length ∧ (d.IsEmpty = m.isEmpty) ∧
    (∀ k, d.Contains k = m.contains k) ∧ (∀ k, d.GetValue k = m.find k)

/-- Member `Insert(key, value)` with the state left behind: the assertion is
the first statement, the three writes follow it. -/
def InsertOutcome (d : DenseMap K V) (key : K) (value : V) : Outcome (DenseMap K V) :=
  if d.m_keyToIndex.contains key then .stopped d
  else .completed
    { m_keyToIndex := d.m_keyToIndex.assign key d.m_data.length
      m_indexToKey := d.m_indexToKey ++ [key]
      m_data := d.m_data ++ [value] }

/-- Member `Update(key, value)` with the state left behind. -/
def UpdateOutcome (d : DenseMap K V) (key : K) (value : V) : Outcome (DenseMap K V) :=
  if d.m_keyToIndex.contains key then
    match d.m_keyToIndex.find key with
    | none => .stopped d
    | some indexOfUpdated => .completed { d with m_data := d.m_data.set indexOfUpdated value }
  else .stopped d

/-- Member `Erase(key)` with the state left behind: the assertion is the first
statement; the reads that follow it are in bounds in every store built by the
class's members. -/
def EraseOutcome (d : DenseMap K V) (key : K) : Outcome (DenseMap K V) :=
  if d.m_keyToIndex.contains key then
    match d.m_keyToIndex.find key with
    | none => .stopped d
    | some indexOfRemoved =>
      let indexOfLast := d.m_data.length - 1
      match d.m_indexToKey[indexOfLast]?, d.m_data[indexOfLast]? with
      | some keyOfLast, some dataOfLast =>
        .completed
          { m_keyToIndex := (d.m_keyToIndex.assign keyOfLast indexOfRemoved).erase key
            m_indexToKey := (d.m_indexToKey.set indexOfRemoved keyOfLast).dropLast
            m_data := (d.m_data.set indexOfRemoved dataOfLast).dropLast }
      | _, _ => .stopped d
  else .stopped d

/-- Example store: inserts of 4, 7, 9 (values 40, 70, 90), then erase of 4. -/
def sampleStore : DenseMap Nat Nat :=
  ⟨[(7, 1), (9, 0)], [9, 7], [90, 70]⟩

end DenseMap

namespace DenseMap

variable {K V : Type} [DecidableEq K]

/-- The value of each key after one more call, given the value of each key
before it: insert and update write the key, erase and clear remove. -/
def written (f : K → Option V) : Call K V → K → Option V
  | .insert k v => fun k' => if k = k' then some v else f k'
  | .update k v => fun k' => if k = k' then some v else f k'
  | .erase k => fun k' => if k = k' then none else f k'
  | .clear => fun _ => none

/-- The value most recently inserted or updated for each key and not erased or
cleared since, over a sequence of calls from the empty store. -/
def lastWritten (calls : List (Call K V)) : K → Option V :=
  calls.foldl written (fun _ => none)

end DenseMap

namespace DenseMap

/-- Example calls: three inserts, an update and an erase. -/
def sampleCalls : List (Call Nat Nat) :=
  [.insert 4 40, .insert 7 70, .insert 9 90, .update 7 71, .erase 4]

/-- The store `sampleCalls` leaves from the empty store. -/
def sampleCallsStore : DenseMap Nat Nat :=
  ⟨[(7, 1), (9, 0)], [9, 7], [90, 71]⟩

end DenseMap

namespace ComponentManager

variable {V : Type}

/-- Representation invariant of the Component Store: every component array is a
well-formed dense map, and a type has an id exactly when it has an array. -/
structure Inv (cm : ComponentManager V) : Prop where
  arrays : ∀ T a, (T, a) ∈ cm.m_componentArrays → a.m_components.WF
  keys : ∀ T, cm.m_componentTypes.find T = none ↔ cm.m_componentArrays.find T = none
  count : cm.m_componentTypes.length = cm.m_nextComponentTypeID
  below : ∀ T id, cm.m_componentTypes.find T = some id → id < cm.m_nextComponentTypeID

/-- States of the Component Store reachable from the constructed one by
successful calls of its mutating members. -/
inductive Reachable : ComponentManager V → Prop
  | init : Reachable ComponentManager.new
  | register {cm cm' : ComponentManager V} {T : TypeName} :
      Reachable cm → cm.RegisterComponentType T = some cm' → Reachable cm'
  | add {cm cm' : ComponentManager V} {T : TypeName} {e : Entity} {v : V} :
      Reachable cm → cm.AddComponent T e v = some cm' → Reachable cm'
  | remove {cm cm' : ComponentManager V} {T : TypeName} {e : Entity} :
      Reachable cm → cm.RemoveComponent T e = some cm' → Reachable cm'
  | assign {cm cm' : ComponentManager V} {T : TypeName} {e : Entity} {v : V} :
      Reachable cm → cm.AssignComponent T e v = some cm' → Reachable cm'
  | entityDestroyed {cm cm' : ComponentManager V} {e : Entity} :
      Reachable cm → cm.EntityDestroyed e = some cm' → Reachable cm'

/-- Successive `RegisterComponentType` calls for the listed types. -/
def registerAll (cm : ComponentManager V) : List TypeName → Option (ComponentManager V)
  | [] => some cm
  | T :: rest =>
    match cm.RegisterComponentType T with
    | none => none
    | some cm' => registerAll cm' rest

/-- Thirty-three distinct component type names. -/
def manyTypes : List TypeName :=
  ["T0", "T1", "T2", "T3", "T4", "T5", "T6", "T7", "T8", "T9", "T10", "T11", "T12", "T13",
   "T14", "T15", "T16", "T17", "T18", "T19", "T20", "T21", "T22", "T23", "T24", "T25", "T26",
   "T27", "T28", "T29", "T30", "T31", "T32"]

/-- The store after registering the first `n` of `manyTypes`, nothing added. -/
def typesStore (n : Nat) : ComponentManager Nat :=
  ⟨(manyTypes.take n).enum.map (fun p => (p.2, p.1)),
    (manyTypes.take n).map (fun T => (T, ComponentArray.new)), n⟩

/-- Example store: `MaxComponents` types registered. -/
def fullStore : ComponentManager Nat := typesStore 32

/-- Example store: one type more than `MaxComponents` registered. -/
def crowdedStore : ComponentManager Nat := typesStore 33

/-- Example store: `Position` and `Velocity` registered, entity 3 has both,
entity 5 has a `Position` only. -/
def pairStore : ComponentManager Nat :=
  ⟨[("Position", 0), ("Velocity", 1)],
    [("Position", ⟨⟨[(3, 0), (5, 1)], [3, 5], [30, 50]⟩⟩),
     ("Velocity", ⟨⟨[(3, 0)], [3], [31]⟩⟩)], 2⟩

end ComponentManager

namespace ComponentManager

variable {V : Type}

/-- The state-changing calls a host can make on the Component Store. -/
inductive Call (V : Type) where
  | register (T : TypeName)
  | add (T : TypeName) (e : Entity) (v : V)
  | remove (T : TypeName) (e : Entity)
  | assign (T : TypeName) (e : Entity) (v : V)
  | entityDestroyed (e : Entity)
deriving DecidableEq, Repr

/-- One call on the Component Store; `none` when it fails. -/
def applyCall (cm : ComponentManager V) : Call V → Option (ComponentManager V)
  | .register T => cm.RegisterComponentType T
  | .add T e v => cm.AddComponent T e v
  | .remove T e => cm.RemoveComponent T e
  | .assign T e v => cm.AssignComponent T e v
  | .entityDestroyed e => cm.EntityDestroyed e

/-- A sequence of calls in order; `none` as soon as one fails. -/
def runCalls (cm : ComponentManager V) : List (Call V) → Option (ComponentManager V)
  | [] => some cm
  | call :: calls =>
    match applyCall cm call with
    | none => none
    | some cm' => runCalls cm' calls

end ComponentManager

namespace UMap

variable {K T : Type} [DecidableEq K]

/-- The loop of `forEachM` with the state left behind: when the body ends the
call at some entry, the entries before it have been updated and the others
have not. -/
def forEachOutcome (body : K → T → Option T) : UMap K T → Outcome (UMap K T)
  | [] => .completed []
  | (k, v) :: rest =>
    match body k v with
    | none => .stopped ((k, v) :: rest)
    | some v' =>
      match forEachOutcome body rest with
      | .completed rest' => .completed ((k, v') :: rest')
      | .stopped rest' => .stopped ((k, v') :: rest')

end UMap

namespace SystemManager

/-- Member `EntitySignatureChanged(entity, entitySig)` with the state left
behind. -/
def EntitySignatureChangedOutcome (sm : SystemManager) (entity : Entity)
    (entitySig : Signature) : Outcome SystemManager :=
  match sm.m_systems.forEachOutcome (fun typeName system =>
      match sm.m_signatures.find typeName with
      | none => none
      | some systemSig =>
        if (entitySig &&& systemSig) = systemSig then system.AddEntity entity
        else system.RemoveEntity entity) with
  | .completed systems => .completed { sm with m_systems := systems }
  | .stopped systems => .stopped { sm with m_systems := systems }

end SystemManager

namespace Coordinator

variable {V : Type}

/-- Common tail of `AddComponent` / `RemoveComponent` with the state left
behind; the component store `cm` has already been changed when it starts. -/
def updateSignatureOutcome (c : Coordinator V) (cm : ComponentManager V) (typeName : TypeName)
    (entity : Entity) (val : Bool) : Outcome (Coordinator V) :=
  match c.m_entityManager.GetSignature entity with
  | none => .stopped { c with m_componentManager := cm }
  | some signature =>
    match cm.GetComponentTypeID typeName with
    | none => .stopped { c with m_componentManager := cm }
    | some id =>
      match Signature.set signature id val with
      | none => .stopped { c with m_componentManager := cm }
      | some signature' =>
        match c.m_entityManager.SetSignature entity signature' with
        | none => .stopped { c with m_componentManager := cm }
        | some em =>
          match c.m_systemManager.EntitySignatureChangedOutcome entity signature' with
          | .stopped sm =>
            .stopped { c with m_entityManager := em, m_componentManager := cm,
                              m_systemManager := sm }
          | .completed sm =>
            .completed { c with m_entityManager := em, m_componentManager := cm,
                                m_systemManager := sm }

/-- Member `AddComponent<T>(entity, component)` with the state left behind. -/
def AddComponentOutcome (c : Coordinator V) (typeName : TypeName) (entity : Entity)
    (component : V) : Outcome (Coordinator V) :=
  match c.m_entityManager.IsAlive entity with
  | some true =>
    match c.m_componentManager.AddComponent typeName entity component with
    | none => .stopped c
    | some cm => updateSignatureOutcome c cm typeName entity true
  | _ => .stopped c

/-- Member `RemoveComponent<T>(entity)` with the state left behind. -/
def RemoveComponentOutcome (c : Coordinator V) (typeName : TypeName) (entity : Entity) :
    Outcome (Coordinator V) :=
  match c.m_entityManager.IsAlive entity with
  | some true =>
    match c.m_componentManager.RemoveComponent typeName entity with
    | none => .stopped c
    | some cm => updateSignatureOutcome c cm typeName entity false
  | _ => .stopped c

/-- Example state: the thirty-three types of `manyTypes` registered, entity 0
created. -/
def crowdedWorld : Coordinator Nat :=
  ⟨⟨List.range' 1 4999, ⟨[(0, 0)], [0], [0]⟩, List.replicate 5000 0⟩,
    ComponentManager.crowdedStore, SystemManager.new, []⟩

/-- The state `crowdedWorld` is left in by the failing
`AddComponent<T32>(0, 7)`: the component is stored, nothing else changed. -/
def crowdedWorldAfter : Coordinator Nat :=
  { crowdedWorld with
    m_componentManager :=
      { ComponentManager.crowdedStore with
        m_componentArrays :=
          ComponentManager.crowdedStore.m_componentArrays.assign "T32" ⟨⟨[(0, 0)], [0], [7]⟩⟩ } }

/-- Example state: `Position` registered, system `Mover` registered without a
signature, entity 0 created. -/
def unsignedWorld : Coordinator Nat :=
  ⟨⟨List.range' 1 4999, ⟨[(0, 0)], [0], [0]⟩, List.replicate 5000 0⟩,
    ⟨[("Position", 0)], [("Position", ComponentArray.new)], 1⟩,
    ⟨[("Mover", System.new)], []⟩, []⟩

/-- The state `unsignedWorld` is left in by the failing
`AddComponent<Position>(0, 7)`: component and signature bit stored, no system
notified. -/
def unsignedWorldAfter : Coordinator Nat :=
  ⟨⟨List.range' 1 4999, ⟨[(0, 0)], [0], [0]⟩, 1 :: List.replicate 4999 0⟩,
    ⟨[("Position", 0)], [("Position", ⟨⟨[(0, 0)], [0], [7]⟩⟩)], 1⟩,
    ⟨[("Mover", System.new)], []⟩, []⟩

end Coordinator

namespace DenseMap

/-- Example store: inserts of 4, 7, 9 (values 40, 70, 90), nothing erased. -/
def threeStore : DenseMap Nat Nat :=
  ⟨[(4, 0), (7, 1), (9, 2)], [4, 7, 9], [40, 70, 90]⟩

end DenseMap

/-! ## EventBus -/

/-- Alias `ListenerID` (`std::size_t`). -/
abbrev ListenerID := Nat

/-- Number of values of `std::size_t`: the listener id counter wraps here. -/
def ListenerIDLimit : Nat := 2 ^ 64

/-- What a listener callback does to the bus when it is invoked: a sequence of
calls of the public members. `P` is the type of event values. -/
inductive BusCall (P : Type) where
  | emit (eventType : TypeName) (event : P) (fast : Bool)
  | addListener (eventType : TypeName) (listener : P → List (BusCall P))
  | removeListener (eventType : TypeName) (listenerID : ListenerID)
  | processEvents
  | unsubscribeAll

/-- Struct `EventBus::ItemListener`; the callback maps the event it receives to
the bus calls it makes. -/
structure ItemListener (P : Type) where
  id : ListenerID
  callback : P → List (BusCall P)

/-- Struct `EventBus::ItemEvent`. -/
structure ItemEvent (P : Type) where
  type : TypeName
  event : P
deriving DecidableEq, Repr

/-- Class `EventBus`. -/
structure EventBus (P : Type) where
  m_nextListenerID : ListenerID
  m_eventQueue : List (ItemEvent P)
  m_listeners : UMap TypeName (List (ItemListener P))

/-- One callback invocation: the listener called and the event passed to it. -/
structure Invocation (P : Type) where
  listener : ListenerID
  type : TypeName
  event : P
deriving DecidableEq, Repr

namespace EventBus

variable {P : Type}

/-- Constructor: ids start from 1, 0 is reserved as invalid. -/
def new : EventBus P := ⟨1, [], []⟩

/-- Member `AddListener<EventType>(listener)`. -/
def AddListener (bus : EventBus P) (eventTypeIndex : TypeName)
    (listener : P → List (BusCall P)) : ListenerID × EventBus P :=
  let newListenerID := bus.m_nextListenerID
  let listenerList := (bus.m_listeners.find eventTypeIndex).getD []
  (newListenerID,
    { bus with
      m_nextListenerID := (bus.m_nextListenerID + 1) % ListenerIDLimit
      m_listeners :=
        bus.m_listeners.assign eventTypeIndex (listenerList ++ [⟨newListenerID, listener⟩]) })

/-- Member `RemoveListener<EventType>(listenerID)`. `listenerVec` is a copy of
the stored vector (`auto listenerVec = it->second;`): the erase is made on the
copy, and only the removal of an emptied entry reaches `m_listeners`. -/
def RemoveListener (bus : EventBus P) (eventTypeIndex : TypeName) (listenerID : ListenerID) :
    Option (EventBus P) :=
  match bus.m_listeners.find eventTypeIndex with
  | none => none
  | some stored =>
    if stored.any (fun l => l.id = listenerID) then
      let listenerVec := stored.filter (fun l => ¬ l.id = listenerID)
      if listenerVec.isEmpty then
        some { bus with m_listeners := bus.m_listeners.erase eventTypeIndex }
      else some bus
    else none

/-- Member `UnsubscribeAll()`. -/
def UnsubscribeAll (bus : EventBus P) : EventBus P :=
  { bus with m_listeners := [], m_eventQueue := [] }

/-- Branch `fast == false` of `Emit`: the event is queued. -/
def enqueue (bus : EventBus P) (eventTypeIndex : TypeName) (event : P) : EventBus P :=
  { bus with m_eventQueue := bus.m_eventQueue ++ [⟨eventTypeIndex, event⟩] }

end EventBus

/-- A bus together with the record of the callback invocations made so far. -/
structure BusRun (P : Type) where
  bus : EventBus P
  calls : List (Invocation P)

/-- Work still to be done by the calls in progress, innermost first. -/
inductive Pending (P : Type) where
  | call (c : BusCall P)
  | processEvent (item : ItemEvent P)
  | invoke (listener : ItemListener P) (item : ItemEvent P)

/-- Result of running calls: completed with a state, ended by an assertion,
or still running when the step budget was used up. -/
inductive Ran (σ : Type) where
  | done (s : σ)
  | failed
  | unfinished

namespace EventBus

variable {P : Type}

/-- The invocation of `listener` with `item`. -/
def invocation (item : ItemEvent P) (listener : ItemListener P) : Invocation P :=
  ⟨listener.id, item.type, item.event⟩

/-- One step of the pending work. A call of a public member runs its body;
`processEvent` is the private member `ProcessEvent(item)`: it looks up the
listeners of the event type, copies the vector and has each copied listener
invoked in order; `invoke` records the invocation and has the bus calls of the
callback made before anything else that is pending. -/
def step (x : BusRun P) (rest : List (Pending P)) :
    Pending P → Option (BusRun P × List (Pending P))
  | .call (.emit eventType event true) => some (x, .processEvent ⟨eventType, event⟩ :: rest)
  | .call (.emit eventType event false) =>
    some ({ x with bus := x.bus.enqueue eventType event }, rest)
  | .call (.addListener eventType listener) =>
    some ({ x with bus := (x.bus.AddListener eventType listener).2 }, rest)
  | .call (.removeListener eventType listenerID) =>
    match x.bus.RemoveListener eventType listenerID with
    | none => none
    | some bus => some ({ x with bus := bus }, rest)
  | .call .processEvents =>
    let currentQueue := x.bus.m_eventQueue
    some ({ x with bus := { x.bus with m_eventQueue := [] } },
      currentQueue.map (fun eventItem => Pending.processEvent eventItem) ++ rest)
  | .call .unsubscribeAll => some ({ x with bus := x.bus.UnsubscribeAll }, rest)
  | .processEvent item =>
    match x.bus.m_listeners.find item.type with
    | none => none
    | some listenersToCall =>
      some (x, listenersToCall.map (fun listener => Pending.invoke listener item) ++ rest)
  | .invoke listener item =>
    some ({ x with calls := x.calls ++ [invocation item listener] },
      (listener.callback item.event).map (fun c => Pending.call c) ++ rest)

/-- Run the pending work for at most `fuel` steps. -/
def run : Nat → BusRun P → List (Pending P) → Ran (BusRun P)
  | _, x, [] => .done x
  | 0, _, _ :: _ => .unfinished
  | fuel + 1, x, next :: rest =>
    match step x rest next with
    | none => .failed
    | some (x', pending) => run fuel x' pending

/-- Member `Emit<EventType>(event, fast)` called by the host. -/
def Emit (fuel : Nat) (x : BusRun P) (eventType : TypeName) (event : P) (fast : Bool) :
    Ran (BusRun P) :=
  run fuel x [.call (.emit eventType event fast)]

/-- Member `ProcessEvents()` called by the host. -/
def ProcessEvents (fuel : Nat) (x : BusRun P) : Ran (BusRun P) :=
  run fuel x [.call .processEvents]

end EventBus

namespace BusCall

variable {P : Type}

/-- A bus call that only queues an event. -/
def isDeferred : BusCall P → Bool
  | .emit _ _ false => true
  | _ => false

/-- A bus call that delivers nothing and cannot fail: a queued publish or a
subscription. -/
def isQuiet : BusCall P → Bool
  | .emit _ _ false => true
  | .addListener _ _ => true
  | _ => false

end BusCall

namespace EventBus

variable {P : Type}

/-- The listeners stored for an event type (none when the type has no entry). -/
def listenersOf (bus : EventBus P) (eventType : TypeName) : List (ItemListener P) :=
  (bus.m_listeners.find eventType).getD []

/-- Effect of one quiet bus call on the bus. -/
def applyQuiet (bus : EventBus P) : BusCall P → EventBus P
  | .emit eventType event false => bus.enqueue eventType event
  | .addListener eventType listener => (bus.AddListener eventType listener).2
  | _ => bus

/-- The events a callback queues. -/
def published : List (BusCall P) → List (ItemEvent P)
  | [] => []
  | .emit eventType event false :: rest => ⟨eventType, event⟩ :: published rest
  | _ :: rest => published rest

/-- The bus calls made by the callbacks of `listeners` when each is invoked
with `item`, in invocation order. -/
def scripts (listeners : List (ItemListener P)) (item : ItemEvent P) : List (BusCall P) :=
  listeners.flatMap (fun l => l.callback item.event)

/-- State after `ProcessEvent(item)` has invoked `listeners`, when their
callbacks make quiet bus calls only. -/
def delivered (x : BusRun P) (listeners : List (ItemListener P)) (item : ItemEvent P) :
    BusRun P :=
  ⟨(scripts listeners item).foldl applyQuiet x.bus,
    x.calls ++ listeners.map (invocation item)⟩

/-- Steps taken by `ProcessEvent(item)` invoking `listeners` with quiet
callbacks. -/
def deliveryCost (listeners : List (ItemListener P)) (item : ItemEvent P) : Nat :=
  1 + listeners.length + (scripts listeners item).length

/-- The invocations a flush of `queue` makes when the listener lists are
`listeners` throughout: event by event, each to the listeners of its type. -/
def flushInvocations (listeners : UMap TypeName (List (ItemListener P)))
    (queue : List (ItemEvent P)) : List (Invocation P) :=
  queue.flatMap (fun item => ((listeners.find item.type).getD []).map (invocation item))

/-- The events queued by the callbacks during a flush of `queue`. -/
def flushPublished (listeners : UMap TypeName (List (ItemListener P)))
    (queue : List (ItemEvent P)) : List (ItemEvent P) :=
  queue.flatMap (fun item => published (scripts ((listeners.find item.type).getD []) item))

/-- Steps taken by a flush of `queue` (after the queue was swapped out). -/
def flushCost (listeners : UMap TypeName (List (ItemListener P)))
    (queue : List (ItemEvent P)) : Nat :=
  (queue.map (fun item => deliveryCost ((listeners.find item.type).getD []) item)).sum

/-- Every callback invoked by a flush of `queue` only queues events. -/
def flushDefers (listeners : UMap TypeName (List (ItemListener P)))
    (queue : List (ItemEvent P)) : Bool :=
  queue.all (fun item => (scripts ((listeners.find item.type).getD []) item).all
    BusCall.isDeferred)

/-- Every queued event's type has a listener list. -/
def allHeard (listeners : UMap TypeName (List (ItemListener P)))
    (queue : List (ItemEvent P)) : Bool :=
  queue.all (fun item => (listeners.find item.type).isSome)

end EventBus

namespace Ran

variable {P : Type}

/-- The invocations recorded by a completed run. -/
def callsOf : Ran (BusRun P) → Option (List (Invocation P))
  | .done x => some x.calls
  | _ => none

/-- The deferred queue left by a completed run. -/
def queueOf : Ran (BusRun P) → Option (List (ItemEvent P))
  | .done x => some x.bus.m_eventQueue
  | _ => none

/-- The run was ended by an assertion. -/
def isFailed {σ : Type} : Ran σ → Bool
  | .failed => true
  | _ => false

end Ran

namespace EventBus

/-- Example bus: listeners 1 and 2 subscribed to `Scored`, listener 3 to
`PlayerDead`; no callback calls the bus. -/
def scoreBus : EventBus Nat :=
  ⟨4, [], [("Scored", [⟨1, fun _ => []⟩, ⟨2, fun _ => []⟩]),
    ("PlayerDead", [⟨3, fun _ => []⟩])]⟩

/-- Example bus: listener 1 subscribed to `Scored`, one `Scored` event with
value 10 queued. -/
def queuedBus : EventBus Nat :=
  ⟨2, [⟨"Scored", 10⟩], [("Scored", [⟨1, fun _ => []⟩])]⟩

end EventBus

namespace EventBus

/-- Example bus: listener 1 on `Collision` publishes a queued `Scored` event
(value plus one) from its callback, listener 2 on `Scored` does not call the
bus; one `Collision` event with value 5 is queued. -/
def relayBus : EventBus Nat :=
  ⟨3, [⟨"Collision", 5⟩],
    [("Collision", [⟨1, fun v => [.emit "Scored" (v + 1) false]⟩]),
     ("Scored", [⟨2, fun _ => []⟩])]⟩

end EventBus

namespace EventBus

variable {P : Type}

/-- Member `RemoveListener<EventType>(listenerID)` with the state left behind:
both assertions come before the only write to `m_listeners`. -/
def RemoveListenerOutcome (bus : EventBus P) (eventTypeIndex : TypeName)
    (listenerID : ListenerID) : Outcome (EventBus P) :=
  match bus.m_listeners.find eventTypeIndex with
  | none => .stopped bus
  | some stored =>
    if stored.any (fun l => l.id = listenerID) then
      let listenerVec := stored.filter (fun l => ¬ l.id = listenerID)
      if listenerVec.isEmpty then
        .completed { bus with m_listeners := bus.m_listeners.erase eventTypeIndex }
      else .completed bus
    else .stopped bus

/-- The ids of the listeners stored for an event type, in list order. -/
def listenerIDs (bus : EventBus P) (eventType : TypeName) : List ListenerID :=
  (bus.listenersOf eventType).map (fun l => l.id)

end EventBus

namespace EventBus

/-- Example bus: listener 1 on `Scored`; one `PlayerDead` event (a type without
listeners) queued behind a `Scored` event. -/
def unheardBus : EventBus Nat :=
  ⟨2, [⟨"Scored", 10⟩, ⟨"PlayerDead", 0⟩], [("Scored", [⟨1, fun _ => []⟩])]⟩

end EventBus

namespace System

/-- Entity sets a system can hold: obtained from the freshly constructed one by
`AddEntity` and `RemoveEntity` calls. -/
inductive Reachable : System → Prop
  | init : Reachable System.new
  | add {s s' : System} {e : Entity} : Reachable s → s.AddEntity e = some s' → Reachable s'
  | remove {s s' : System} {e : Entity} :
      Reachable s → s.RemoveEntity e = some s' → Reachable s'

/-- Example system: entities 3 and 5 added. -/
def pairSystem : System := ⟨⟨[(3, 0), (5, 1)], [3, 5], [3, 5]⟩⟩

end System

namespace SystemManager

/-- States of the System Registry reachable from the constructed one by
successful calls of its members. -/
inductive Reachable : SystemManager → Prop
  | init : Reachable SystemManager.new
  | register {sm sm' : SystemManager} {S : TypeName} :
      Reachable sm → sm.RegisterSystem S = some sm' → Reachable sm'
  | setSignature {sm sm' : SystemManager} {S : TypeName} {sig : Signature} :
      Reachable sm → sm.SetSystemSignature S sig = some sm' → Reachable sm'
  | notify {sm sm' : SystemManager} {e : Entity} {sig : Signature} :
      Reachable sm → sm.EntitySignatureChanged e sig = some sm' → Reachable sm'

/-- Representation invariant of the System Registry: every entity set is a
well-formed dense set, and only registered systems have a recorded signature. -/
structure Inv (sm : SystemManager) : Prop where
  sets : ∀ S s, (S, s) ∈ sm.m_systems → s.m_entities.WF
  recorded : ∀ S, sm.m_systems.find S = none → sm.m_signatures.find S = none

/-- Every registered system has a recorded required signature. -/
def AllSigned (sm : SystemManager) : Prop :=
  ∀ S, sm.m_systems.contains S = true → ∃ Rs, sm.m_signatures.find S = some Rs

/-- Example registry: `Mover` registered with required signature 3, `Spawner`
registered and never given a signature. -/
def halfSigned : SystemManager :=
  ⟨[("Mover", System.new), ("Spawner", System.new)], [("Mover", 3)]⟩

end SystemManager

namespace Coordinator

/-- The state `moverWorld` after `SetSystemSignature<Mover>` with the signature
requiring `Position` only. -/
def moverWorldResigned : Coordinator Nat :=
  { moverWorld with
    m_systemManager := ⟨[("Mover", ⟨⟨[(0, 0)], [0], [0]⟩⟩)], [("Mover", 1)]⟩ }

end Coordinator

namespace EntityManager

/-- Run of `n` consecutive `CreateEntity` calls with the ids they return, in
order; `none` as soon as one fails. -/
def createList : Nat → EntityManager → Option (List Entity × EntityManager)
  | 0, em => some ([], em)
  | n + 1, em =>
    match em.CreateEntity with
    | none => none
    | some r =>
      match createList n r.2 with
      | none => none
      | some rs => some (r.1 :: rs.1, rs.2)

/-- Example registry: entities 0, 1 and 2 created. -/
def threeAlive : EntityManager :=
  ⟨List.range' 3 4997, ⟨[(0, 0), (1, 1), (2, 2)], [0, 1, 2], [0, 1, 2]⟩,
    List.replicate 5000 0⟩

/-- The registry `threeAlive` after `DestroyEntity(1)`. -/
def oneFreed : EntityManager :=
  ⟨List.range' 3 4997 ++ [1], ⟨[(0, 0), (2, 1)], [0, 2], [0, 2]⟩,
    List.replicate 5000 0⟩

end EntityManager

namespace EventBus

variable {P : Type}

/-- Bus states reachable from the constructed bus, with the listener ids that
`AddListener` has returned so far, in order. The other steps are the other
writes the members make: a successful `RemoveListener`, `UnsubscribeAll`, a
queued `Emit`, and the swap of the queue by `ProcessEvents`. -/
inductive Issued : EventBus P → List ListenerID → Prop
  | init : Issued EventBus.new []
  | add {bus : EventBus P} {ids : List ListenerID} (T : TypeName)
      (listener : P → List (BusCall P)) :
      Issued bus ids →
      Issued (bus.AddListener T listener).2 (ids ++ [(bus.AddListener T listener).1])
  | remove {bus bus' : EventBus P} {ids : List ListenerID} {T : TypeName} {id : ListenerID} :
      Issued bus ids → bus.RemoveListener T id = some bus' → Issued bus' ids
  | clear {bus : EventBus P} {ids : List ListenerID} :
      Issued bus ids → Issued bus.UnsubscribeAll ids
  | queued {bus : EventBus P} {ids : List ListenerID} (T : TypeName) (event : P) :
      Issued bus ids → Issued (bus.enqueue T event) ids
  | swapped {bus : EventBus P} {ids : List ListenerID} :
      Issued bus ids → Issued { bus with m_eventQueue := [] } ids

end EventBus

namespace BusCall

variable {P : Type}

/-- A bus call that delivers no event: a queued publish, a subscription, an
unsubscription or `UnsubscribeAll` (neither an immediate publish nor a
flush). -/
def isFlat : BusCall P → Bool
  | .emit _ _ false => true
  | .addListener _ _ => true
  | .removeListener _ _ => true
  | .unsubscribeAll => true
  | _ => false

/-- The call `UnsubscribeAll()`. -/
def isClear : BusCall P → Bool
  | .unsubscribeAll => true
  | _ => false

end BusCall

namespace Ran

/-- The run that completed with the given state, or failed when there is
none. -/
def ofOption {σ : Type} : Option σ → Ran σ
  | some s => .done s
  | none => .failed

end Ran

namespace EventBus

variable {P : Type}

/-- Effect on the bus of one bus call that delivers no event; `none` when the
call fails (a `RemoveListener` whose assertion fires). Immediate publishes and
flushes deliver events and are outside this function, which leaves the bus as
it is for them. -/
def applyFlat (bus : EventBus P) : BusCall P → Option (EventBus P)
  | .emit eventType event false => some (bus.enqueue eventType event)
  | .addListener eventType listener => some (bus.AddListener eventType listener).2
  | .removeListener eventType listenerID => bus.RemoveListener eventType listenerID
  | .unsubscribeAll => some bus.UnsubscribeAll
  | _ => some bus

/-- The bus calls of a callback made one after the other, up to the first one
that fails. -/
def runFlat (bus : EventBus P) : List (BusCall P) → Option (EventBus P)
  | [] => some bus
  | c :: s =>
    match applyFlat bus c with
    | none => none
    | some bus' => runFlat bus' s

/-- The deferred queue after the given bus calls were made, starting from
`queue`: a queued publish appends, `UnsubscribeAll` empties the queue. -/
def queueAfter (queue : List (ItemEvent P)) : List (BusCall P) → List (ItemEvent P)
  | [] => queue
  | .emit eventType event false :: s => queueAfter (queue ++ [⟨eventType, event⟩]) s
  | .unsubscribeAll :: s => queueAfter [] s
  | _ :: s => queueAfter queue s

/-- State after `ProcessEvent(item)` has invoked the copied list `listeners`
in order, each callback making its bus calls; `none` when one of these calls
fails. -/
def deliverTo (x : BusRun P) (listeners : List (ItemListener P)) (item : ItemEvent P) :
    Option (BusRun P) :=
  (runFlat x.bus (scripts listeners item)).map
    (fun bus => ⟨bus, x.calls ++ listeners.map (invocation item)⟩)

/-- The loop of `ProcessEvents` over the swapped-out queue: each event in turn
is delivered to the listener list its type has when the event is reached;
`none` when an event is reached whose type has no listener list, or a
callback's bus call fails. -/
def deliverAll (x : BusRun P) : List (ItemEvent P) → Option (BusRun P)
  | [] => some x
  | item :: queue =>
    match x.bus.m_listeners.find item.type with
    | none => none
    | some listenersToCall =>
      match deliverTo x listenersToCall item with
      | none => none
      | some x' => deliverAll x' queue

/-- The deliveries the loop of `ProcessEvents` starts, in order: each event
with the listener list copied for it (the list of its type at the moment the
event is reached). The list ends with the delivery that fails, if one does. -/
def deliveriesOf (x : BusRun P) :
    List (ItemEvent P) → List (ItemEvent P × List (ItemListener P))
  | [] => []
  | item :: queue =>
    match x.bus.m_listeners.find item.type with
    | none => []
    | some listenersToCall =>
      (item, listenersToCall) ::
        match deliverTo x listenersToCall item with
        | none => []
        | some x' => deliveriesOf x' queue

/-- The state in which the loop of `ProcessEvents` starts: the queue was moved
into the local list and is empty. -/
def flushStart (x : BusRun P) : BusRun P := ⟨{ x.bus with m_eventQueue := [] }, x.calls⟩

/-- The state `ProcessEvents` returns with (`none` when it fails), for
callbacks whose bus calls deliver no event. -/
def flushed (x : BusRun P) : Option (BusRun P) := deliverAll (flushStart x) x.bus.m_eventQueue

/-- The deliveries a flush starts. -/
def flushDeliveries (x : BusRun P) : List (ItemEvent P × List (ItemListener P)) :=
  deliveriesOf (flushStart x) x.bus.m_eventQueue

/-- The bus calls made by the callbacks in the given deliveries, in order. -/
def scriptOf (deliveries : List (ItemEvent P × List (ItemListener P))) : List (BusCall P) :=
  deliveries.flatMap (fun d => scripts d.2 d.1)

/-- The invocations made in the given deliveries, in order. -/
def invocationsOf (deliveries : List (ItemEvent P × List (ItemListener P))) :
    List (Invocation P) :=
  deliveries.flatMap (fun d => d.2.map (invocation d.1))

/-- Steps taken by the given deliveries. -/
def costOf (deliveries : List (ItemEvent P × List (ItemListener P))) : Nat :=
  (deliveries.map (fun d => deliveryCost d.2 d.1)).sum

/-- The bus after `n` rounds of `AddListener<Scored>` followed by
`UnsubscribeAll()`: no listener stays stored. -/
def churnN : Nat → EventBus P → EventBus P
  | 0, bus => bus
  | n + 1, bus => churnN n (bus.AddListener "Scored" (fun _ => [])).2.UnsubscribeAll

end EventBus

namespace EventBus

/-- Example bus (the spawn of the sample game): listener 1 on `SpawnPlayer`
publishes a queued `PlayerSpawned` event from its callback, listener 2 is
subscribed to `PlayerSpawned`; nothing is queued. -/
def spawnBus : EventBus Nat :=
  ⟨3, [],
    [("SpawnPlayer", [⟨1, fun v => [.emit "PlayerSpawned" v false]⟩]),
     ("PlayerSpawned", [⟨2, fun _ => []⟩])]⟩

/-- Example bus: listener 1 on `Collision` publishes a `Scored` event
immediately from its callback, listener 2 is subscribed to `Scored`. -/
def chainBus : EventBus Nat :=
  ⟨3, [],
    [("Collision", [⟨1, fun v => [.emit "Scored" (v + 1) true]⟩]),
     ("Scored", [⟨2, fun _ => []⟩])]⟩

/-- Example bus: as `relayBus`, but the callback of listener 1 calls
`ProcessEvents()` after it has queued the `Scored` event. -/
def reflushBus : EventBus Nat :=
  ⟨3, [⟨"Collision", 5⟩],
    [("Collision", [⟨1, fun v => [.emit "Scored" (v + 1) false, .processEvents]⟩]),
     ("Scored", [⟨2, fun _ => []⟩])]⟩

/-- Example bus: as `relayBus`, but the callback of listener 1 calls
`UnsubscribeAll()` after it has queued the `Scored` event. -/
def resetBus : EventBus Nat :=
  ⟨3, [⟨"Collision", 5⟩],
    [("Collision", [⟨1, fun v => [.emit "Scored" (v + 1) false, .unsubscribeAll]⟩]),
     ("Scored", [⟨2, fun _ => []⟩])]⟩

/-- Example bus: listener 1 on `Collision` subscribes a further listener to
`Scored` from its callback, listener 2 is subscribed to `Scored`; a
`Collision` event and a `Scored` event are queued, in this order. -/
def lateBus : EventBus Nat :=
  ⟨3, [⟨"Collision", 5⟩, ⟨"Scored", 1⟩],
    [("Collision", [⟨1, fun _ => [.addListener "Scored" (fun _ => [])]⟩]),
     ("Scored", [⟨2, fun _ => []⟩])]⟩

/-- Example bus: listener 1 on `Scored`, whose callback unsubscribes listener
9, which was never subscribed. -/
def staleBus : EventBus Nat :=
  ⟨2, [⟨"Scored", 10⟩], [("Scored", [⟨1, fun _ => [.removeListener "Scored" 9]⟩])]⟩

end EventBus

/-! # Lemmas -/

namespace UMap

variable {K T : Type} [DecidableEq K]

theorem find_assign (m : UMap K T) (k k' : K) (v : T) :
    find (assign m k v) k' = if k = k' then some v else find m k' := by
  induction m with
  | nil => simp [assign, find]
  | cons p rest ih =>
    obtain ⟨a, b⟩ := p
    by_cases h : a = k
    · subst h
      by_cases h2 : a = k' <;> simp [assign, find, h2]
    · by_cases h2 : a = k'
      · subst h2
        have h3 : ¬ k = a := fun h' => h h'.symm
        simp [assign, find, h, h3]
      · simp [assign, find, h, h2, ih]

theorem erase_cons (a : K) (b : T) (rest : UMap K T) (k : K) :
    erase ((a, b) :: rest) k = if a = k then erase rest k else (a, b) :: erase rest k := by
  by_cases h : a = k <;> simp [erase, List.filter_cons, h]

theorem find_erase (m : UMap K T) (k k' : K) :
    find (erase m k) k' = if k = k' then none else find m k' := by
  induction m with
  | nil => simp [erase, find]
  | cons p rest ih =>
    obtain ⟨a, b⟩ := p
    rw [erase_cons]
    by_cases h : a = k
    · subst h
      by_cases h2 : a = k'
      · subst h2
        simpa using ih
      · simp [find, h2, ih]
    · by_cases h2 : a = k'
      · subst h2
        have h3 : ¬ k = a := fun h' => h h'.symm
        simp [find, h, h3]
      · simp [find, h, h2, ih]

theorem find_append_singleton (m : UMap K T) (k k' : K) (v : T) :
    find (m ++ [(k, v)]) k' =
      match find m k' with
      | some w => some w
      | none => if k = k' then some v else none := by
  induction m with
  | nil => simp [find]
  | cons p rest ih =>
    obtain ⟨a, b⟩ := p
    by_cases h : a = k' <;> simp [find, h, ih]

theorem mem_of_find {m : UMap K T} {k : K} {v : T} (h : find m k = some v) : (k, v) ∈ m := by
  induction m with
  | nil => simp [find] at h
  | cons p rest ih =>
    obtain ⟨a, b⟩ := p
    by_cases h2 : a = k
    · simp [find, h2] at h
      simp [h2, h]
    · simp [find, h2] at h
      exact List.mem_cons_of_mem _ (ih h)

theorem find_isSome_of_mem {m : UMap K T} {k : K} {v : T} (h : (k, v) ∈ m) :
    (find m k).isSome = true := by
  induction m with
  | nil => simp at h
  | cons p rest ih =>
    obtain ⟨a, b⟩ := p
    by_cases h2 : a = k
    · simp [find, h2]
    · simp only [find, h2, if_false]
      rcases List.mem_cons.1 h with h3 | h3
      · exact absurd (congrArg Prod.fst h3).symm h2
      · exact ih h3

theorem mem_assign {m : UMap K T} {k : K} {v : T} {p : K × T} (h : p ∈ assign m k v) :
    p = (k, v) ∨ p ∈ m := by
  induction m with
  | nil => simpa [assign] using h
  | cons q rest ih =>
    obtain ⟨a, b⟩ := q
    by_cases h2 : a = k
    · simp only [assign, h2, if_true] at h
      rcases List.mem_cons.1 h with h3 | h3
      · exact Or.inl h3
      · exact Or.inr (List.mem_cons_of_mem _ h3)
    · simp only [assign, h2, if_false] at h
      rcases List.mem_cons.1 h with h3 | h3
      · exact Or.inr (h3 ▸ List.mem_cons_self _ _)
      · rcases ih h3 with h4 | h4
        · exact Or.inl h4
        · exact Or.inr (List.mem_cons_of_mem _ h4)

theorem contains_eq_true_iff (m : UMap K T) (k : K) :
    contains m k = true ↔ ∃ v, find m k = some v := by
  simp [contains, Option.isSome_iff_exists]

theorem contains_eq_false_iff (m : UMap K T) (k : K) :
    contains m k = false ↔ find m k = none := by
  simp [contains]

/-- Lookup after a successful loop: the body was applied to the looked-up value. -/
theorem find_forEachM {body : K → T → Option T} {m m' : UMap K T}
    (h : forEachM body m = some m') (k : K) :
    find m' k = (find m k).bind (body k) := by
  induction m generalizing m' with
  | nil =>
    simp [forEachM] at h
    subst h
    simp [find]
  | cons p rest ih =>
    obtain ⟨a, b⟩ := p
    simp only [forEachM] at h
    cases hb : body a b with
    | none => simp [hb] at h
    | some b' =>
      cases hr : forEachM body rest with
      | none => simp [hb, hr] at h
      | some rest' =>
        simp [hb, hr] at h
        subst h
        by_cases h2 : a = k
        · subst h2
          simp [find, hb]
        · simp [find, h2, ih hr]

omit [DecidableEq K] in
/-- Entries after a successful loop come from entries before it. -/
theorem mem_forEachM {body : K → T → Option T} {m m' : UMap K T}
    (h : forEachM body m = some m') {k : K} {v' : T} (hm : (k, v') ∈ m') :
    ∃ v, (k, v) ∈ m ∧ body k v = some v' := by
  induction m generalizing m' with
  | nil =>
    simp [forEachM] at h
    subst h
    simp at hm
  | cons p rest ih =>
    obtain ⟨a, b⟩ := p
    simp only [forEachM] at h
    cases hb : body a b with
    | none => simp [hb] at h
    | some b' =>
      cases hr : forEachM body rest with
      | none => simp [hb, hr] at h
      | some rest' =>
        simp [hb, hr] at h
        subst h
        rcases List.mem_cons.1 hm with h3 | h3
        · injection h3 with h4 h5
          subst h4; subst h5
          exact ⟨b, List.mem_cons_self _ _, hb⟩
        · obtain ⟨v, hv, hbv⟩ := ih hr h3
          exact ⟨v, List.mem_cons_of_mem _ hv, hbv⟩

omit [DecidableEq K] in
/-- The loop runs to completion when its body does so on every entry. -/
theorem forEachM_isSome {body : K → T → Option T} {m : UMap K T}
    (h : ∀ k v, (k, v) ∈ m → ∃ v', body k v = some v') : ∃ m', forEachM body m = some m' := by
  induction m with
  | nil => exact ⟨[], rfl⟩
  | cons p rest ih =>
    obtain ⟨a, b⟩ := p
    obtain ⟨b', hb⟩ := h a b (List.mem_cons_self _ _)
    obtain ⟨rest', hr⟩ := ih (fun k v hkv => h k v (List.mem_cons_of_mem _ hkv))
    exact ⟨(a, b') :: rest', by simp [forEachM, hb, hr]⟩

omit [DecidableEq K] in
/-- A loop that ran to completion succeeded on every entry. -/
theorem body_isSome_of_forEachM {body : K → T → Option T} {m m' : UMap K T}
    (h : forEachM body m = some m') {k : K} {v : T} (hm : (k, v) ∈ m) :
    ∃ v', body k v = some v' := by
  induction m generalizing m' with
  | nil => simp at hm
  | cons p rest ih =>
    obtain ⟨a, b⟩ := p
    simp only [forEachM] at h
    cases hb : body a b with
    | none => simp [hb] at h
    | some b' =>
      cases hr : forEachM body rest with
      | none => simp [hb, hr] at h
      | some rest' =>
        rcases List.mem_cons.1 hm with h3 | h3
        · injection h3 with h4 h5
          subst h4; subst h5
          exact ⟨b', hb⟩
        · exact ih hr h3

end UMap

namespace DenseMap

variable {K V : Type} [DecidableEq K]

theorem wf_new : (DenseMap.new : DenseMap K V).WF :=
  ⟨rfl, fun k i => by simp [DenseMap.new, UMap.find]⟩

theorem wf_contains_iff {d : DenseMap K V} (h : d.WF) (k : K) :
    d.Contains k = true ↔ k ∈ d.m_indexToKey := by
  rw [Contains, UMap.contains_eq_true_iff, List.mem_iff_getElem?]
  constructor
  · rintro ⟨i, hi⟩
    exact ⟨i, (h.idx k i).1 hi⟩
  · rintro ⟨i, hi⟩
    exact ⟨i, (h.idx k i).2 hi⟩

theorem wf_nodup {d : DenseMap K V} (h : d.WF) : d.m_indexToKey.Nodup := by
  rw [List.nodup_iff_getElem?_ne_getElem?]
  intro i j hij hj heq
  have hjs : d.m_indexToKey[j]? = some d.m_indexToKey[j] := List.getElem?_eq_getElem hj
  have h1 := (h.idx _ j).2 hjs
  have h2 := (h.idx _ i).2 (heq.trans hjs)
  rw [h1] at h2
  injection h2 with h3
  omega

theorem wf_index_lt {d : DenseMap K V} (h : d.WF) {k : K} {i : Nat}
    (hk : d.m_keyToIndex.find k = some i) : i < d.m_data.length := by
  have h1 := (h.idx k i).1 hk
  rw [List.getElem?_eq_some] at h1
  obtain ⟨h2, _⟩ := h1
  rw [← h.len]
  exact h2

theorem Insert_eq_some {d d' : DenseMap K V} {k : K} {v : V} (h : d.Insert k v = some d') :
    d.Contains k = false ∧
    d' = { m_keyToIndex := d.m_keyToIndex.assign k d.m_data.length
           m_indexToKey := d.m_indexToKey ++ [k]
           m_data := d.m_data ++ [v] } := by
  unfold Insert at h
  by_cases hc : d.m_keyToIndex.contains k = true
  · simp [hc] at h
  · simp only [hc] at h
    injection h with h
    exact ⟨by simpa [Contains] using hc, h.symm⟩

theorem Insert_of_not_contains {d : DenseMap K V} {k : K} (v : V) (h : d.Contains k = false) :
    ∃ d', d.Insert k v = some d' := by
  unfold Contains at h
  simp [Insert, h]

theorem Contains_Insert {d d' : DenseMap K V} {k : K} {v : V} (h : d.Insert k v = some d')
    (k' : K) : d'.Contains k' = (decide (k = k') || d.Contains k') := by
  obtain ⟨_, rfl⟩ := Insert_eq_some h
  simp only [Contains, UMap.contains, UMap.find_assign]
  by_cases hk : k = k' <;> simp [hk]

theorem wf_Insert {d d' : DenseMap K V} {k : K} {v : V} (hw : d.WF)
    (h : d.Insert k v = some d') : d'.WF := by
  obtain ⟨hc, rfl⟩ := Insert_eq_some h
  have hnone : d.m_keyToIndex.find k = none := by
    simpa [Contains, UMap.contains] using hc
  refine ⟨by simp [hw.len], fun k' i => ?_⟩
  simp only [UMap.find_assign, List.getElem?_append]
  by_cases hk : k = k'
  · subst hk
    simp only [if_true]
    constructor
    · intro hi
      injection hi with hi
      subst hi
      simp [hw.len]
    · intro hi
      by_cases hlt : i < d.m_indexToKey.length
      · simp only [hlt, if_true] at hi
        rw [(hw.idx k i).2 hi] at hnone
        exact absurd hnone (by simp)
      · simp only [hlt, if_false] at hi
        have h2 : i - d.m_indexToKey.length = 0 := by
          by_contra h3
          obtain ⟨n, hn⟩ := Nat.exists_eq_succ_of_ne_zero h3
          simp [hn] at hi
        congr 1
        rw [← hw.len]
        omega
  · simp only [hk, if_false]
    constructor
    · intro hi
      have h1 := (hw.idx k' i).1 hi
      have h2 : i < d.m_indexToKey.length := by
        rw [List.getElem?_eq_some] at h1
        exact h1.1
      simpa [h2] using h1
    · intro hi
      by_cases hlt : i < d.m_indexToKey.length
      · simp only [hlt, if_true] at hi
        exact (hw.idx k' i).2 hi
      · simp only [hlt, if_false] at hi
        have h2 := List.getElem?_eq_some.1 hi
        obtain ⟨h3, h4⟩ := h2
        simp at h4
        exact absurd h4 hk

theorem Update_eq_some {d d' : DenseMap K V} {k : K} {v : V} (h : d.Update k v = some d') :
    ∃ i, d.m_keyToIndex.find k = some i ∧ d' = { d with m_data := d.m_data.set i v } := by
  unfold Update at h
  cases hf : d.m_keyToIndex.find k with
  | none => simp [hf] at h
  | some i =>
    simp only [hf] at h
    injection h with h
    exact ⟨i, rfl, h.symm⟩

theorem wf_Update {d d' : DenseMap K V} {k : K} {v : V} (hw : d.WF)
    (h : d.Update k v = some d') : d'.WF := by
  obtain ⟨i, _, rfl⟩ := Update_eq_some h
  exact ⟨by simp [hw.len], hw.idx⟩

theorem Contains_Update {d d' : DenseMap K V} {k : K} {v : V} (h : d.Update k v = some d')
    (k' : K) : d'.Contains k' = d.Contains k' := by
  obtain ⟨i, _, rfl⟩ := Update_eq_some h
  rfl

theorem Update_of_contains {d : DenseMap K V} {k : K} (v : V) (h : d.Contains k = true) :
    ∃ d', d.Update k v = some d' := by
  obtain ⟨i, hi⟩ := (UMap.contains_eq_true_iff _ _).1 h
  simp [Update, hi]

end DenseMap

namespace DenseMap

variable {K V : Type} [DecidableEq K]

theorem Erase_eq_some {d d' : DenseMap K V} {k : K} (h : d.Erase k = some d') :
    ∃ r kl dl, d.m_keyToIndex.find k = some r ∧
      d.m_indexToKey[d.m_data.length - 1]? = some kl ∧
      d.m_data[d.m_data.length - 1]? = some dl ∧
      d' = { m_keyToIndex := (d.m_keyToIndex.assign kl r).erase k
             m_indexToKey := (d.m_indexToKey.set r kl).dropLast
             m_data := (d.m_data.set r dl).dropLast } := by
  unfold Erase at h
  cases hf : d.m_keyToIndex.find k with
  | none => simp [hf] at h
  | some r =>
    cases hk : d.m_indexToKey[d.m_data.length - 1]? with
    | none => simp [hf, hk] at h
    | some kl =>
      cases hd : d.m_data[d.m_data.length - 1]? with
      | none => simp [hf, hk, hd] at h
      | some dl =>
        simp only [hf, hk, hd] at h
        injection h with h
        exact ⟨r, kl, dl, rfl, rfl, rfl, h.symm⟩

theorem Erase_of_contains {d : DenseMap K V} (hw : d.WF) {k : K} (h : d.Contains k = true) :
    ∃ d', d.Erase k = some d' := by
  obtain ⟨r, hr⟩ := (UMap.contains_eq_true_iff _ _).1 h
  have hlt := wf_index_lt hw hr
  have h1 : d.m_data.length - 1 < d.m_data.length := by omega
  have h2 : d.m_data.length - 1 < d.m_indexToKey.length := by rw [hw.len]; exact h1
  simp [Erase, hr, List.getElem?_eq_getElem h1, List.getElem?_eq_getElem h2]

theorem Contains_Erase_self {d d' : DenseMap K V} {k : K} (h : d.Erase k = some d') :
    d'.Contains k = false := by
  obtain ⟨r, kl, dl, _, _, _, rfl⟩ := Erase_eq_some h
  simp [Contains, UMap.contains, UMap.find_erase]

theorem Contains_Erase {d d' : DenseMap K V} {k : K} (hw : d.WF) (h : d.Erase k = some d')
    (k' : K) : d'.Contains k' = (!decide (k = k') && d.Contains k') := by
  obtain ⟨r, kl, dl, hr, hkl, _, rfl⟩ := Erase_eq_some h
  have hlast := (hw.idx kl _).2 hkl
  simp only [Contains, UMap.contains, UMap.find_erase, UMap.find_assign]
  by_cases h1 : k = k'
  · simp [h1]
  · by_cases h2 : kl = k'
    · subst h2
      simp [h1, hlast]
    · simp [h1, h2]

theorem wf_Erase {d d' : DenseMap K V} {k : K} (hw : d.WF) (h : d.Erase k = some d') :
    d'.WF := by
  obtain ⟨r, kl, dl, hr, hkl, _, rfl⟩ := Erase_eq_some h
  have hrlt := wf_index_lt hw hr
  have hlen := hw.len
  have hrk := (hw.idx k r).1 hr
  have hlast := (hw.idx kl _).2 hkl
  refine ⟨by simp [hw.len], fun k' i => ?_⟩
  simp only [UMap.find_erase, UMap.find_assign, List.getElem?_dropLast, List.getElem?_set,
    List.length_set]
  have hrlt' : r < d.m_indexToKey.length := by omega
  by_cases h1 : k = k'
  · subst h1
    simp only [if_true]
    constructor
    · intro hc
      exact absurd hc (by simp)
    · intro hc
      exfalso
      by_cases hi : i < d.m_indexToKey.length - 1
      · simp only [hi, if_true] at hc
        by_cases hri : r = i
        · subst hri
          simp only [if_true, hrlt'] at hc
          injection hc with hc
          subst hc
          rw [hr] at hlast
          injection hlast with hlast
          omega
        · simp only [hri, if_false] at hc
          have h3 := (hw.idx k i).2 hc
          rw [hr] at h3
          injection h3 with h3
          exact hri h3
      · simp [hi] at hc
  · simp only [h1, if_false]
    by_cases h2 : kl = k'
    · subst h2
      simp only [if_true]
      have hne : r ≠ d.m_data.length - 1 := by
        intro hc
        rw [hc, hkl] at hrk
        injection hrk with hrk
        exact h1 hrk.symm
      constructor
      · intro hc
        injection hc with hc
        subst hc
        have hi : r < d.m_indexToKey.length - 1 := by omega
        simp [hi, hrlt']
      · intro hc
        by_cases hi : i < d.m_indexToKey.length - 1
        · simp only [hi, if_true] at hc
          by_cases hri : r = i
          · rw [hri]
          · simp only [hri, if_false] at hc
            have h3 := (hw.idx kl i).2 hc
            rw [hlast] at h3
            injection h3 with h3
            omega
        · simp [hi] at hc
    · simp only [h2, if_false]
      constructor
      · intro hc
        have h3 := (hw.idx k' i).1 hc
        have h4 : i < d.m_indexToKey.length := (List.getElem?_eq_some.1 h3).1
        have h5 : i ≠ d.m_data.length - 1 := by
          intro h6
          rw [h6, hkl] at h3
          injection h3 with h3
          exact h2 h3
        have h6 : r ≠ i := by
          intro h7
          rw [← h7, hrk] at h3
          injection h3 with h3
          exact h1 h3
        have hi : i < d.m_indexToKey.length - 1 := by omega
        simp [hi, h6, h3]
      · intro hc
        by_cases hi : i < d.m_indexToKey.length - 1
        · simp only [hi, if_true] at hc
          by_cases hri : r = i
          · simp only [hri, if_true] at hc
            split at hc
            · injection hc with hc
              exact absurd hc h2
            · exact absurd hc (by simp)
          · simp only [hri, if_false] at hc
            exact (hw.idx k' i).2 hc
        · simp [hi] at hc

theorem Size_Insert {d d' : DenseMap K V} {k : K} {v : V} (h : d.Insert k v = some d') :
    d'.Size = d.Size + 1 := by
  obtain ⟨_, rfl⟩ := Insert_eq_some h
  simp [Size]

theorem Size_Erase {d d' : DenseMap K V} {k : K} (hw : d.WF) (h : d.Erase k = some d') :
    d'.Size + 1 = d.Size := by
  obtain ⟨r, kl, dl, hr, _, _, rfl⟩ := Erase_eq_some h
  have hrlt := wf_index_lt hw hr
  simp [Size]
  omega

theorem built_wf {d : DenseMap K V} (h : d.Built) : d.WF := by
  induction h with
  | new => exact wf_new
  | insert _ h ih => exact wf_Insert ih h
  | update _ h ih => exact wf_Update ih h
  | erase _ h ih => exact wf_Erase ih h
  | clear _ _ => exact wf_new

/-- In a map used as a set (`Insert(key)` stores the key as its own value) the
packed data vector is the index-to-key vector. -/
theorem data_eq_keys_Insert {d d' : DenseMap K K} {k : K}
    (hd : d.m_data = d.m_indexToKey) (h : d.Insert k k = some d') :
    d'.m_data = d'.m_indexToKey := by
  obtain ⟨_, rfl⟩ := Insert_eq_some h
  simp [hd]

theorem data_eq_keys_Erase {d d' : DenseMap K K} {k : K}
    (hd : d.m_data = d.m_indexToKey) (h : d.Erase k = some d') :
    d'.m_data = d'.m_indexToKey := by
  obtain ⟨r, kl, dl, _, hkl, hdl, rfl⟩ := Erase_eq_some h
  rw [hd] at hkl hdl
  rw [hkl] at hdl
  injection hdl with hdl
  subst hdl
  simp [hd]

end DenseMap

namespace DenseMap

variable {K V : Type} [DecidableEq K]

theorem wf_perm_Erase {d d' : DenseMap K V} {k : K} (hw : d.WF) (h : d.Erase k = some d') :
    List.Perm d.m_indexToKey (k :: d'.m_indexToKey) := by
  have hw' := wf_Erase hw h
  have hself := Contains_Erase_self h
  have hk : d.Contains k = true := by
    obtain ⟨r, _, _, hr, _, _, _⟩ := Erase_eq_some h
    exact (UMap.contains_eq_true_iff _ _).2 ⟨r, hr⟩
  have hnot : k ∉ d'.m_indexToKey := by
    intro hc
    rw [← wf_contains_iff hw', hself] at hc
    exact absurd hc (by simp)
  rw [List.perm_ext_iff_of_nodup (wf_nodup hw) (List.nodup_cons.2 ⟨hnot, wf_nodup hw'⟩)]
  intro a
  rw [List.mem_cons, ← wf_contains_iff hw, ← wf_contains_iff hw', Contains_Erase hw h]
  by_cases ha : k = a
  · subst ha
    simp [hk]
  · have ha' : ¬ a = k := fun hc => ha hc.symm
    simp [ha, ha']

end DenseMap

namespace EntityManager

theorem inv_new : EntityManager.new.Inv :=
  ⟨DenseMap.wf_new, rfl, by simp [EntityManager.new, DenseMap.new], by simp [EntityManager.new]⟩

theorem CreateEntity_eq_some {em em' : EntityManager} {id : Entity}
    (h : em.CreateEntity = some (id, em')) :
    ∃ rest living, em.m_availableEntities = id :: rest ∧
      em.m_livingEntities.Insert id id = some living ∧
      em' = { em with m_availableEntities := rest, m_livingEntities := living } := by
  unfold CreateEntity at h
  cases ha : em.m_availableEntities with
  | nil => simp [ha] at h
  | cons a rest =>
    cases hi : em.m_livingEntities.Insert a a with
    | none => simp [ha, hi] at h
    | some living =>
      simp only [ha, hi] at h
      injection h with h
      injection h with h1 h2
      subst h1
      exact ⟨rest, living, rfl, hi, h2.symm⟩

theorem DestroyEntity_eq_some {em em' : EntityManager} {e : Entity}
    (h : em.DestroyEntity e = some em') :
    ∃ living, em.m_livingEntities.Contains e = true ∧
      em.m_livingEntities.Erase e = some living ∧
      em' = { m_livingEntities := living
              m_signatures := em.m_signatures.set e Signature.empty
              m_availableEntities := em.m_availableEntities ++ [e] } := by
  unfold DestroyEntity at h
  by_cases hc : em.m_livingEntities.Contains e = true
  · cases he : em.m_livingEntities.Erase e with
    | none => simp [hc, he] at h
    | some living =>
      simp only [hc, he, if_true] at h
      injection h with h
      exact ⟨living, hc, rfl, h.symm⟩
  · simp [hc] at h

theorem SetSignature_eq_some {em em' : EntityManager} {e : Entity} {sig : Signature}
    (h : em.SetSignature e sig = some em') :
    e < MaxEntities ∧ em' = { em with m_signatures := em.m_signatures.set e sig } := by
  unfold SetSignature at h
  by_cases hc : e < MaxEntities
  · simp only [hc, if_true] at h
    injection h with h
    exact ⟨hc, h.symm⟩
  · simp [hc] at h

theorem inv_mem_range {em : EntityManager} (h : em.Inv) {e : Entity}
    (he : e ∈ em.m_availableEntities ∨ e ∈ em.m_livingEntities.m_indexToKey) :
    e < MaxEntities := by
  have h1 : e ∈ em.m_availableEntities ++ em.m_livingEntities.m_indexToKey :=
    List.mem_append.2 he
  exact List.mem_range.1 (h.ids.mem_iff.1 h1)

theorem inv_nodup {em : EntityManager} (h : em.Inv) :
    (em.m_availableEntities ++ em.m_livingEntities.m_indexToKey).Nodup :=
  h.ids.nodup_iff.2 (List.nodup_range _)

theorem inv_CreateEntity {em em' : EntityManager} {id : Entity} (h : em.Inv)
    (hc : em.CreateEntity = some (id, em')) : em'.Inv := by
  obtain ⟨rest, living, ha, hi, rfl⟩ := CreateEntity_eq_some hc
  obtain ⟨_, hl⟩ := DenseMap.Insert_eq_some hi
  refine ⟨DenseMap.wf_Insert h.wf hi, DenseMap.data_eq_keys_Insert h.data hi, ?_, h.sigs⟩
  have h1 := h.ids
  rw [ha] at h1
  subst hl
  simp only
  refine List.Perm.trans ?_ h1
  rw [← List.append_assoc]
  exact (List.perm_append_singleton id _).trans (by simp)

theorem inv_DestroyEntity {em em' : EntityManager} {e : Entity} (h : em.Inv)
    (hd : em.DestroyEntity e = some em') : em'.Inv := by
  obtain ⟨living, _, he, rfl⟩ := DestroyEntity_eq_some hd
  refine ⟨DenseMap.wf_Erase h.wf he, DenseMap.data_eq_keys_Erase h.data he, ?_, by simp [h.sigs]⟩
  refine List.Perm.trans ?_ h.ids
  simp only [List.append_assoc, List.singleton_append]
  exact List.Perm.append_left _ (DenseMap.wf_perm_Erase h.wf he).symm

theorem inv_SetSignature {em em' : EntityManager} {e : Entity} {sig : Signature} (h : em.Inv)
    (hs : em.SetSignature e sig = some em') : em'.Inv := by
  obtain ⟨_, rfl⟩ := SetSignature_eq_some hs
  exact ⟨h.wf, h.data, h.ids, by simp [h.sigs]⟩

theorem reachable_inv {allowSet : EntityManager → Entity → Signature → Prop}
    {em : EntityManager} (h : Reachable allowSet em) : em.Inv := by
  induction h with
  | init => exact inv_new
  | create _ hc ih => exact inv_CreateEntity ih hc
  | destroy _ hd ih => exact inv_DestroyEntity ih hd
  | setSignature _ _ hs ih => exact inv_SetSignature ih hs

/-- Liveness query in terms of the list of living entities. -/
theorem inv_IsAlive_iff {em : EntityManager} (h : em.Inv) (e : Entity) :
    em.IsAlive e = some true ↔ e ∈ em.GetLivingEntities := by
  unfold IsAlive GetLivingEntities DenseMap.GetDataVector
  rw [h.data]
  by_cases hlt : e < MaxEntities
  · simp only [hlt, if_true, Option.some.injEq]
    exact DenseMap.wf_contains_iff h.wf e
  · simp only [hlt, if_false]
    constructor
    · intro hc
      exact absurd hc (by simp)
    · intro hc
      exact absurd (inv_mem_range h (Or.inr hc)) hlt

/-- The id at the front of the free pool is in range and not alive. -/
theorem inv_front_not_alive {em : EntityManager} (h : em.Inv) {id : Entity} {rest : List Entity}
    (ha : em.m_availableEntities = id :: rest) :
    id < MaxEntities ∧ em.m_livingEntities.Contains id = false := by
  refine ⟨inv_mem_range h (Or.inl (by simp [ha])), ?_⟩
  have hn := inv_nodup h
  rw [ha] at hn
  have h1 : id ∉ em.m_livingEntities.m_indexToKey := by
    intro hc
    have h2 := (List.nodup_cons.1 hn).1
    exact h2 (List.mem_append.2 (Or.inr hc))
  cases hcon : em.m_livingEntities.Contains id with
  | false => rfl
  | true => exact absurd ((DenseMap.wf_contains_iff h.wf id).1 hcon) h1

/-- Under the invariant `CreateEntity` fails exactly when the free pool is empty. -/
theorem inv_CreateEntity_eq_none_iff {em : EntityManager} (h : em.Inv) :
    em.CreateEntity = none ↔ em.m_availableEntities = [] := by
  constructor
  · intro hc
    cases ha : em.m_availableEntities with
    | nil => rfl
    | cons id rest =>
      obtain ⟨_, hnot⟩ := inv_front_not_alive h ha
      obtain ⟨living, hl⟩ := DenseMap.Insert_of_not_contains id hnot
      simp [EntityManager.CreateEntity, ha, hl] at hc
  · intro ha
    simp [EntityManager.CreateEntity, ha]

theorem inv_length_add {em : EntityManager} (h : em.Inv) :
    em.m_availableEntities.length + em.GetLivingEntities.length = MaxEntities := by
  have h1 := h.ids.length_eq
  simp only [List.length_append, List.length_range] at h1
  unfold GetLivingEntities DenseMap.GetDataVector
  rw [h.data]
  exact h1

end EntityManager

namespace EntityManager

theorem IsAlive_CreateEntity {em em' : EntityManager} {id : Entity}
    (hc : em.CreateEntity = some (id, em')) (e : Entity) (he : e < MaxEntities) :
    em'.IsAlive e = some (decide (id = e) || em.m_livingEntities.Contains e) := by
  obtain ⟨rest, living, _, hi, rfl⟩ := CreateEntity_eq_some hc
  simp [IsAlive, he, DenseMap.Contains_Insert hi]

theorem GetLivingEntities_CreateEntity {em em' : EntityManager} {id : Entity}
    (hc : em.CreateEntity = some (id, em')) :
    em'.GetLivingEntities = em.GetLivingEntities ++ [id] := by
  obtain ⟨rest, living, _, hi, rfl⟩ := CreateEntity_eq_some hc
  obtain ⟨_, rfl⟩ := DenseMap.Insert_eq_some hi
  rfl

theorem createN_of_le (n : Nat) :
    ∀ em : EntityManager, em.Inv → n ≤ em.m_availableEntities.length →
      ∃ em', createN n em = some em' ∧ em'.Inv ∧
        em'.m_availableEntities.length + n = em.m_availableEntities.length := by
  induction n with
  | zero => intro em h _; exact ⟨em, rfl, h, rfl⟩
  | succ n ih =>
    intro em h hn
    cases ha : em.m_availableEntities with
    | nil => rw [ha] at hn; simp at hn
    | cons id rest =>
      obtain ⟨_, hnot⟩ := inv_front_not_alive h ha
      obtain ⟨living, hl⟩ := DenseMap.Insert_of_not_contains id hnot
      have hc : em.CreateEntity =
          some (id, { em with m_availableEntities := rest, m_livingEntities := living }) := by
        simp [CreateEntity, ha, hl]
      have hinv := inv_CreateEntity h hc
      have hlen : n ≤ rest.length := by rw [ha] at hn; simpa using hn
      obtain ⟨em', h1, h2, h3⟩ := ih _ hinv hlen
      refine ⟨em', ?_, h2, ?_⟩
      · simp only [createN, hc]
        exact h1
      · simp only [List.length_cons] at h3 ⊢
        omega

/-- C1: in every state of the Entity Registry reached by create and destroy
calls (with or without signature stores in between), `living()` lists no id
twice and lists exactly the alive ids, and an id returned by a successful
`create()` is not alive immediately before the call, is missing from
`living()` before it, and is alive and appended to `living()` after it. -/
theorem create_issues_id_not_alive
    (allowSet : EntityManager → Entity → Signature → Prop) (em : EntityManager)
    (h : Reachable allowSet em) :
    em.GetLivingEntities.Nodup ∧
    (∀ e, e ∈ em.GetLivingEntities ↔ em.IsAlive e = some true) ∧
    ∀ id em', em.CreateEntity = some (id, em') →
      em.IsAlive id = some false ∧ id ∉ em.GetLivingEntities ∧
      em'.IsAlive id = some true ∧ em'.GetLivingEntities = em.GetLivingEntities ++ [id] := by
  have hinv := reachable_inv h
  have hnd : em.GetLivingEntities.Nodup := by
    unfold GetLivingEntities DenseMap.GetDataVector
    rw [hinv.data]
    exact DenseMap.wf_nodup hinv.wf
  refine ⟨hnd, fun e => (inv_IsAlive_iff hinv e).symm, ?_⟩
  intro id em' hc
  obtain ⟨rest, living, ha, _, _⟩ := CreateEntity_eq_some hc
  obtain ⟨hlt, hnot⟩ := inv_front_not_alive hinv ha
  have hdead : em.IsAlive id = some false := by simp [IsAlive, hlt, hnot]
  refine ⟨hdead, ?_, ?_, GetLivingEntities_CreateEntity hc⟩
  · intro hmem
    rw [← inv_IsAlive_iff hinv, hdead] at hmem
    exact absurd hmem (by simp)
  · rw [IsAlive_CreateEntity hc id hlt]
    simp

/-- Witness for C1: on the freshly constructed registry `create()` issues id 0,
which was not alive before the call and is alive after it. -/
theorem create_issues_id_not_alive_witness :
    ∃ em', EntityManager.new.CreateEntity = some (0, em') ∧
      EntityManager.new.IsAlive 0 = some false ∧ em'.IsAlive 0 = some true :=
  have hc : EntityManager.new.CreateEntity =
      some (0, { EntityManager.new with
        m_availableEntities := List.range' 1 4999
        m_livingEntities := ⟨[(0, 0)], [0], [0]⟩ }) := by decide!
  have h := (create_issues_id_not_alive noSet EntityManager.new Reachable.init).2.2 0 _ hc
  ⟨_, hc, h.1, h.2.2.1⟩

theorem new_available_length :
    EntityManager.new.m_availableEntities.length = MaxEntities := by
  simp [EntityManager.new]

/-- C2: in every reachable state `create()` fails exactly when the number of
living entities equals `MaxEntities`, which is 5000; from the initial state
`MaxEntities` consecutive `create()` calls all succeed and the next one fails. -/
theorem create_fails_iff_full :
    (∀ (allowSet : EntityManager → Entity → Signature → Prop) (em : EntityManager),
      Reachable allowSet em →
      (em.CreateEntity = none ↔ em.GetLivingEntities.length = MaxEntities)) ∧
    (∃ em, createN MaxEntities EntityManager.new = some em ∧
      em.GetLivingEntities.length = MaxEntities ∧ em.CreateEntity = none) ∧
    MaxEntities = 5000 := by
  refine ⟨?_, ?_, rfl⟩
  · intro allowSet em h
    have hinv := reachable_inv h
    rw [inv_CreateEntity_eq_none_iff hinv]
    have hlen := inv_length_add hinv
    constructor
    · intro ha
      rw [ha] at hlen
      simpa using hlen
    · intro hl
      rw [hl] at hlen
      exact List.length_eq_zero.1 (by omega)
  · have hnew := new_available_length
    have h0 : MaxEntities ≤ EntityManager.new.m_availableEntities.length := by
      rw [hnew]
    obtain ⟨em, h1, h2, h3⟩ := createN_of_le MaxEntities EntityManager.new inv_new h0
    have h4 : em.m_availableEntities = [] := by
      apply List.length_eq_zero.1
      rw [hnew] at h3
      omega
    refine ⟨em, h1, ?_, (inv_CreateEntity_eq_none_iff h2).2 h4⟩
    have hlen := inv_length_add h2
    rw [h4] at hlen
    simpa using hlen

end EntityManager

namespace EntityManager

/-- Under the guarded signature stores every id that is in range and not alive
carries the empty signature. -/
theorem dead_signature_empty {em : EntityManager} (h : Reachable aliveSet em) :
    ∀ e, e < MaxEntities → em.m_livingEntities.Contains e = false →
      em.m_signatures[e]? = some Signature.empty := by
  induction h with
  | init =>
    intro e he _
    simp [EntityManager.new, he]
  | create _ hc ih =>
    intro e he hdead
    obtain ⟨rest, living, _, hi, rfl⟩ := CreateEntity_eq_some hc
    simp only [DenseMap.Contains_Insert hi, Bool.or_eq_false_iff] at hdead
    exact ih e he hdead.2
  | @destroy em em' e0 hr hd ih =>
    intro e he hdead
    have hinv := reachable_inv hr
    obtain ⟨living, _, hE, rfl⟩ := DestroyEntity_eq_some hd
    simp only [List.getElem?_set]
    by_cases h0 : e0 = e
    · subst h0
      simp [hinv.sigs, he]
    · simp only [h0, if_false]
      simp only [DenseMap.Contains_Erase hinv.wf hE, h0, decide_False, Bool.not_false,
        Bool.true_and] at hdead
      exact ih e he hdead
  | @setSignature em em' e0 sig hr hallow hs ih =>
    intro e he hdead
    have hinv := reachable_inv hr
    obtain ⟨_, rfl⟩ := SetSignature_eq_some hs
    simp only [List.getElem?_set]
    by_cases h0 : e0 = e
    · subst h0
      rcases hallow with halive | hempty
      · simp [IsAlive, he] at halive
        simp only at hdead
        rw [halive] at hdead
        exact absurd hdead (by simp)
      · simp [hinv.sigs, he, hempty]
    · simp only [h0, if_false]
      exact ih e he hdead

/-- C3 (counterexample): `set_signature(0, sig)` with bit 0 set is accepted on
the fresh registry although id 0 is not alive, and the following `create()`
issues id 0 carrying that signature; so the claim fails when signature stores
on ids that are not alive are allowed. -/
theorem create_after_store_on_free_id :
    (∃ em em', EntityManager.new.SetSignature 0 1 = some em ∧
      em.CreateEntity = some (0, em') ∧ em'.GetSignature 0 = some 1) ∧
    ¬ (∀ em, Reachable anySet em → ∀ id em', em.CreateEntity = some (id, em') →
        em'.GetSignature id = some Signature.empty) := by
  have hs : EntityManager.new.SetSignature 0 1 =
      some ⟨List.range MaxEntities, DenseMap.new, 1 :: List.replicate 4999 0⟩ := by decide!
  have hc : EntityManager.CreateEntity
      ⟨List.range MaxEntities, DenseMap.new, 1 :: List.replicate 4999 0⟩ =
      some (0, ⟨List.range' 1 4999, ⟨[(0, 0)], [0], [0]⟩, 1 :: List.replicate 4999 0⟩) := by
    decide!
  have hg : EntityManager.GetSignature
      ⟨List.range' 1 4999, ⟨[(0, 0)], [0], [0]⟩, 1 :: List.replicate 4999 0⟩ 0 = some 1 := by
    decide!
  refine ⟨⟨_, _, hs, hc, hg⟩, fun hall => ?_⟩
  have h1 := hall _ (Reachable.setSignature Reachable.init trivial hs) 0 _ hc
  rw [hg] at h1
  exact absurd h1 (by decide)

/-- C3 (amended): for every sequence of create, destroy and set_signature calls
in which an id that is not alive is only ever given the empty signature, every
id returned by `create()` has the empty signature at the moment it is issued. -/
theorem created_id_signature_empty (em : EntityManager) (h : Reachable aliveSet em)
    (id : Entity) (em' : EntityManager) (hc : em.CreateEntity = some (id, em')) :
    em'.GetSignature id = some Signature.empty := by
  have hinv := reachable_inv h
  obtain ⟨rest, living, ha, _, rfl⟩ := CreateEntity_eq_some hc
  obtain ⟨hlt, hnot⟩ := inv_front_not_alive hinv ha
  simp only [GetSignature, hlt, if_true]
  exact dead_signature_empty h id hlt hnot

/-- Witness for C3 (amended): create id 0, store a signature for it while it is
alive, destroy it; the next `create()` issues id 1 with the empty signature. -/
theorem created_id_signature_empty_witness :
    ∃ em', EntityManager.CreateEntity
        ⟨List.range' 1 4999 ++ [0], DenseMap.new, List.replicate 5000 0⟩ = some (1, em') ∧
      em'.GetSignature 1 = some Signature.empty :=
  have h1 : EntityManager.new.CreateEntity =
      some (0, ⟨List.range' 1 4999, ⟨[(0, 0)], [0], [0]⟩, List.replicate 5000 0⟩) := by decide!
  have h2 : EntityManager.SetSignature
      ⟨List.range' 1 4999, ⟨[(0, 0)], [0], [0]⟩, List.replicate 5000 0⟩ 0 5 =
      some ⟨List.range' 1 4999, ⟨[(0, 0)], [0], [0]⟩, 5 :: List.replicate 4999 0⟩ := by decide!
  have ha : aliveSet ⟨List.range' 1 4999, ⟨[(0, 0)], [0], [0]⟩, List.replicate 5000 0⟩ 0 5 :=
    Or.inl (by decide!)
  have h3 : EntityManager.DestroyEntity
      ⟨List.range' 1 4999, ⟨[(0, 0)], [0], [0]⟩, 5 :: List.replicate 4999 0⟩ 0 =
      some ⟨List.range' 1 4999 ++ [0], DenseMap.new, List.replicate 5000 0⟩ := by decide!
  have h4 : EntityManager.CreateEntity
      ⟨List.range' 1 4999 ++ [0], DenseMap.new, List.replicate 5000 0⟩ =
      some (1, ⟨List.range' 2 4998 ++ [0], ⟨[(1, 0)], [1], [1]⟩, List.replicate 5000 0⟩) := by
    decide!
  have hr : Reachable aliveSet
      ⟨List.range' 1 4999 ++ [0], DenseMap.new, List.replicate 5000 0⟩ :=
    Reachable.destroy (Reachable.setSignature (Reachable.create Reachable.init h1) ha h2) h3
  ⟨_, h4, created_id_signature_empty _ hr 1 _ h4⟩

end EntityManager

namespace System

theorem AddEntity_spec (s : System) (e : Entity) :
    ∃ s', s.AddEntity e = some s' ∧
      (∀ e', s'.HasEntity e' = (decide (e = e') || s.HasEntity e')) ∧
      (s.m_entities.WF → s'.m_entities.WF) := by
  unfold AddEntity
  by_cases hc : s.m_entities.Contains e = true
  · refine ⟨s, by simp [hc], fun e' => ?_, id⟩
    by_cases he : e = e'
    · subst he
      simp [HasEntity, hc]
    · simp [he]
  · have hc' : s.m_entities.Contains e = false := by simpa using hc
    obtain ⟨d', hd⟩ := DenseMap.Insert_of_not_contains e hc'
    refine ⟨⟨d'⟩, by simp [hc', hd], fun e' => ?_, fun hw => DenseMap.wf_Insert hw hd⟩
    simp [HasEntity, DenseMap.Contains_Insert hd]

theorem RemoveEntity_spec (s : System) (e : Entity) (hw : s.m_entities.WF) :
    ∃ s', s.RemoveEntity e = some s' ∧
      (∀ e', s'.HasEntity e' = (!decide (e = e') && s.HasEntity e')) ∧
      s'.m_entities.WF := by
  unfold RemoveEntity
  by_cases hc : s.m_entities.Contains e = true
  · obtain ⟨d', hd⟩ := DenseMap.Erase_of_contains hw hc
    refine ⟨⟨d'⟩, by simp [hc, hd], fun e' => ?_, DenseMap.wf_Erase hw hd⟩
    simp [HasEntity, DenseMap.Contains_Erase hw hd]
  · have hc' : s.m_entities.Contains e = false := by simpa using hc
    refine ⟨s, by simp [hc'], fun e' => ?_, hw⟩
    by_cases he : e = e'
    · subst he
      simp [HasEntity, hc']
    · simp [he]

end System

namespace ComponentArray

variable {V : Type}

theorem array_EntityDestroyed_spec (a : ComponentArray V) (e : Entity)
    (hw : a.m_components.WF) :
    ∃ a', (if a.HasData e then a.EntityDestroyed e else some a) = some a' ∧
      (∀ e', a'.HasData e' = (!decide (e = e') && a.HasData e')) ∧
      a'.m_components.WF := by
  by_cases hc : a.m_components.Contains e = true
  · obtain ⟨d', hd⟩ := DenseMap.Erase_of_contains hw hc
    refine ⟨⟨d'⟩, by simp [HasData, EntityDestroyed, hc, hd], fun e' => ?_,
      DenseMap.wf_Erase hw hd⟩
    simp [HasData, DenseMap.Contains_Erase hw hd]
  · have hc' : a.m_components.Contains e = false := by simpa using hc
    refine ⟨a, by simp [HasData, hc'], fun e' => ?_, hw⟩
    by_cases he : e = e'
    · subst he
      simp [HasData, hc']
    · simp [he]

end ComponentArray

namespace SystemManager

/-- Effect of `EntitySignatureChanged(e, sig)` when it runs to completion: the
recorded signatures are untouched, the same systems are registered, and each
system's membership changes for `e` only, to the result of the match test. -/
theorem EntitySignatureChanged_spec {sm sm' : SystemManager} {e : Entity} {sig : Signature}
    (h : sm.EntitySignatureChanged e sig = some sm')
    (hw : ∀ S s, (S, s) ∈ sm.m_systems → s.m_entities.WF) :
    sm'.m_signatures = sm.m_signatures ∧
    (∀ S, sm'.m_systems.find S = none ↔ sm.m_systems.find S = none) ∧
    (∀ S s', sm'.m_systems.find S = some s' →
      ∃ s Rs, sm.m_systems.find S = some s ∧ sm.m_signatures.find S = some Rs ∧
        ∀ e', s'.HasEntity e' =
          if e = e' then decide (sig &&& Rs = Rs) else s.HasEntity e') ∧
    (∀ S s', (S, s') ∈ sm'.m_systems → s'.m_entities.WF) ∧
    (∀ S s, (S, s) ∈ sm.m_systems → ∃ Rs, sm.m_signatures.find S = some Rs) := by
  unfold EntitySignatureChanged at h
  cases hf : UMap.forEachM (fun typeName system =>
      match sm.m_signatures.find typeName with
      | none => none
      | some systemSig =>
        if (sig &&& systemSig) = systemSig then system.AddEntity e
        else system.RemoveEntity e) sm.m_systems with
  | none => simp [hf] at h
  | some systems =>
    simp only [hf, Option.map_some'] at h
    injection h with h
    subst h
    have key : ∀ S s s', (S, s) ∈ sm.m_systems →
        (match sm.m_signatures.find S with
          | none => none
          | some systemSig =>
            if (sig &&& systemSig) = systemSig then s.AddEntity e
            else s.RemoveEntity e) = some s' →
        ∃ Rs, sm.m_signatures.find S = some Rs ∧ s'.m_entities.WF ∧
          ∀ e', s'.HasEntity e' =
            if e = e' then decide (sig &&& Rs = Rs) else s.HasEntity e' := by
      intro S s s' hmem hb
      have hws := hw S s hmem
      cases hsig : sm.m_signatures.find S with
      | none => simp [hsig] at hb
      | some Rs =>
        simp only [hsig] at hb
        refine ⟨Rs, rfl, ?_⟩
        by_cases hm : sig &&& Rs = Rs
        · simp only [hm, if_true] at hb
          obtain ⟨s2, h2, h3, h4⟩ := System.AddEntity_spec s e
          rw [h2] at hb
          injection hb with hb
          subst hb
          refine ⟨h4 hws, fun e' => ?_⟩
          rw [h3]
          by_cases he : e = e' <;> simp [he, hm]
        · simp only [hm, if_false] at hb
          obtain ⟨s2, h2, h3, h4⟩ := System.RemoveEntity_spec s e hws
          rw [h2] at hb
          injection hb with hb
          subst hb
          refine ⟨h4, fun e' => ?_⟩
          rw [h3]
          by_cases he : e = e' <;> simp [he, hm]
    refine ⟨rfl, ?_, ?_, ?_, ?_⟩
    · intro S
      simp only
      rw [UMap.find_forEachM hf S]
      cases hs : sm.m_systems.find S with
      | none => simp
      | some s =>
        obtain ⟨s', hs'⟩ := UMap.body_isSome_of_forEachM hf (UMap.mem_of_find hs)
        simp [hs']
    · intro S s' hs'
      simp only at hs'
      rw [UMap.find_forEachM hf S] at hs'
      cases hs : sm.m_systems.find S with
      | none => simp [hs] at hs'
      | some s =>
        simp only [hs, Option.some_bind] at hs'
        obtain ⟨Rs, h1, _, h3⟩ := key S s s' (UMap.mem_of_find hs) hs'
        exact ⟨s, Rs, rfl, h1, h3⟩
    · intro S s' hmem
      obtain ⟨s, hs, hb⟩ := UMap.mem_forEachM hf hmem
      obtain ⟨Rs, _, h2, _⟩ := key S s s' hs hb
      exact h2
    · intro S s hmem
      obtain ⟨s', hb⟩ := UMap.body_isSome_of_forEachM hf hmem
      obtain ⟨Rs, h1, _⟩ := key S s s' hmem hb
      exact ⟨Rs, h1⟩

/-- `EntitySignatureChanged` runs to completion when every registered system has
a recorded signature. -/
theorem EntitySignatureChanged_isSome (sm : SystemManager) (e : Entity) (sig : Signature)
    (hw : ∀ S s, (S, s) ∈ sm.m_systems → s.m_entities.WF)
    (hs : ∀ S s, (S, s) ∈ sm.m_systems → ∃ Rs, sm.m_signatures.find S = some Rs) :
    ∃ sm', sm.EntitySignatureChanged e sig = some sm' := by
  have h1 : ∃ m', UMap.forEachM (fun typeName system =>
      match sm.m_signatures.find typeName with
      | none => none
      | some systemSig =>
        if (sig &&& systemSig) = systemSig then system.AddEntity e
        else system.RemoveEntity e) sm.m_systems = some m' := by
    apply UMap.forEachM_isSome
    intro S s hmem
    obtain ⟨Rs, hRs⟩ := hs S s hmem
    simp only [hRs]
    by_cases hm : sig &&& Rs = Rs
    · simp only [hm, if_true]
      obtain ⟨s', h2, _⟩ := System.AddEntity_spec s e
      exact ⟨s', h2⟩
    · simp only [hm, if_false]
      obtain ⟨s', h2, _⟩ := System.RemoveEntity_spec s e (hw S s hmem)
      exact ⟨s', h2⟩
  obtain ⟨m', hm'⟩ := h1
  simp [EntitySignatureChanged, hm']

end SystemManager

namespace ComponentManager

variable {V : Type}

/-- Effect of `EntityDestroyed(e)` when it runs to completion: type ids are
untouched, the same arrays are registered, and each array loses `e` only. -/
theorem EntityDestroyed_spec {cm cm' : ComponentManager V} {e : Entity}
    (h : cm.EntityDestroyed e = some cm')
    (hw : ∀ T a, (T, a) ∈ cm.m_componentArrays → a.m_components.WF) :
    cm'.m_componentTypes = cm.m_componentTypes ∧
    cm'.m_nextComponentTypeID = cm.m_nextComponentTypeID ∧
    (∀ T, cm'.m_componentArrays.find T = none ↔ cm.m_componentArrays.find T = none) ∧
    (∀ T a', cm'.m_componentArrays.find T = some a' →
      ∃ a, cm.m_componentArrays.find T = some a ∧
        ∀ e', a'.HasData e' = (!decide (e = e') && a.HasData e')) ∧
    (∀ T a', (T, a') ∈ cm'.m_componentArrays → a'.m_components.WF) := by
  unfold EntityDestroyed at h
  cases hf : UMap.forEachM (fun (_typeName : TypeName) (componentArray : ComponentArray V) =>
      if componentArray.HasData e then componentArray.EntityDestroyed e
      else some componentArray) cm.m_componentArrays with
  | none => simp [hf] at h
  | some arrays =>
    simp only [hf, Option.map_some'] at h
    injection h with h
    subst h
    have key : ∀ T a a', (T, a) ∈ cm.m_componentArrays →
        (if a.HasData e then a.EntityDestroyed e else some a) = some a' →
        a'.m_components.WF ∧ ∀ e', a'.HasData e' = (!decide (e = e') && a.HasData e') := by
      intro T a a' hmem hb
      obtain ⟨a2, h2, h3, h4⟩ := ComponentArray.array_EntityDestroyed_spec a e (hw T a hmem)
      rw [h2] at hb
      injection hb with hb
      subst hb
      exact ⟨h4, h3⟩
    refine ⟨rfl, rfl, ?_, ?_, ?_⟩
    · intro T
      simp only
      rw [UMap.find_forEachM hf T]
      cases hs : cm.m_componentArrays.find T with
      | none => simp
      | some a =>
        obtain ⟨a', ha'⟩ := UMap.body_isSome_of_forEachM hf (UMap.mem_of_find hs)
        simp [ha']
    · intro T a' ha'
      simp only at ha'
      rw [UMap.find_forEachM hf T] at ha'
      cases hs : cm.m_componentArrays.find T with
      | none => simp [hs] at ha'
      | some a =>
        simp only [hs, Option.some_bind] at ha'
        exact ⟨a, rfl, (key T a a' (UMap.mem_of_find hs) ha').2⟩
    · intro T a' hmem
      obtain ⟨a, ha, hb⟩ := UMap.mem_forEachM hf hmem
      exact (key T a a' ha hb).1

/-- `EntityDestroyed` runs to completion on well-formed component arrays. -/
theorem EntityDestroyed_isSome (cm : ComponentManager V) (e : Entity)
    (hw : ∀ T a, (T, a) ∈ cm.m_componentArrays → a.m_components.WF) :
    ∃ cm', cm.EntityDestroyed e = some cm' := by
  have h1 : ∃ m', UMap.forEachM (fun (_typeName : TypeName) (componentArray : ComponentArray V) =>
      if componentArray.HasData e then componentArray.EntityDestroyed e
      else some componentArray) cm.m_componentArrays = some m' := by
    apply UMap.forEachM_isSome
    intro T a hmem
    obtain ⟨a', h2, _⟩ := ComponentArray.array_EntityDestroyed_spec a e (hw T a hmem)
    exact ⟨a', h2⟩
  obtain ⟨m', hm'⟩ := h1
  simp [EntityDestroyed, hm']

theorem GetComponentArray_eq_some {cm : ComponentManager V} {T : TypeName}
    {a : ComponentArray V} (h : cm.GetComponentArray T = some a) :
    cm.m_componentTypes.contains T = true ∧ cm.m_componentArrays.find T = some a := by
  unfold GetComponentArray at h
  by_cases hc : cm.m_componentTypes.contains T = true
  · simp only [hc, if_true] at h
    exact ⟨hc, h⟩
  · simp [hc] at h

theorem AddComponent_eq_some {cm cm' : ComponentManager V} {T : TypeName} {e : Entity} {v : V}
    (h : cm.AddComponent T e v = some cm') :
    ∃ a d', cm.m_componentTypes.contains T = true ∧ cm.m_componentArrays.find T = some a ∧
      a.HasData e = false ∧ a.m_components.Insert e v = some d' ∧
      cm' = { cm with m_componentArrays := cm.m_componentArrays.assign T ⟨d'⟩ } := by
  unfold AddComponent at h
  cases hg : cm.GetComponentArray T with
  | none => simp [hg] at h
  | some a =>
    obtain ⟨h1, h2⟩ := GetComponentArray_eq_some hg
    simp only [hg] at h
    by_cases hd : a.HasData e = true
    · simp [hd] at h
    · have hd' : a.HasData e = false := by simpa using hd
      simp only [hd', ComponentArray.InsertData] at h
      cases hi : a.m_components.Insert e v with
      | none => simp [hi] at h
      | some d' =>
        simp only [hi, Option.map_some'] at h
        simp at h
        exact ⟨a, d', h1, h2, hd', hi, h.symm⟩

theorem RemoveComponent_eq_some {cm cm' : ComponentManager V} {T : TypeName} {e : Entity}
    (h : cm.RemoveComponent T e = some cm') :
    ∃ a d', cm.m_componentTypes.contains T = true ∧ cm.m_componentArrays.find T = some a ∧
      a.HasData e = true ∧ a.m_components.Erase e = some d' ∧
      cm' = { cm with m_componentArrays := cm.m_componentArrays.assign T ⟨d'⟩ } := by
  unfold RemoveComponent at h
  cases hg : cm.GetComponentArray T with
  | none => simp [hg] at h
  | some a =>
    obtain ⟨h1, h2⟩ := GetComponentArray_eq_some hg
    simp only [hg] at h
    by_cases hd : a.HasData e = true
    · simp only [hd, if_true, ComponentArray.RemoveData] at h
      cases hi : a.m_components.Erase e with
      | none => simp [hi] at h
      | some d' =>
        simp only [hi, Option.map_some'] at h
        simp at h
        exact ⟨a, d', h1, h2, hd, hi, h.symm⟩
    · simp [hd] at h

theorem AssignComponent_eq_some {cm cm' : ComponentManager V} {T : TypeName} {e : Entity}
    {v : V} (h : cm.AssignComponent T e v = some cm') :
    ∃ a d', cm.m_componentTypes.contains T = true ∧ cm.m_componentArrays.find T = some a ∧
      a.HasData e = true ∧ a.m_components.Update e v = some d' ∧
      cm' = { cm with m_componentArrays := cm.m_componentArrays.assign T ⟨d'⟩ } := by
  unfold AssignComponent at h
  cases hg : cm.GetComponentArray T with
  | none => simp [hg] at h
  | some a =>
    obtain ⟨h1, h2⟩ := GetComponentArray_eq_some hg
    simp only [hg] at h
    by_cases hd : a.HasData e = true
    · have hd2 : a.m_components.Contains e = true := hd
      simp only [hd, if_true, ComponentArray.AssignData, hd2] at h
      cases hi : a.m_components.Update e v with
      | none => simp [hi] at h
      | some d' =>
        simp only [hi, Option.map_some'] at h
        simp at h
        exact ⟨a, d', h1, h2, hd, hi, h.symm⟩
    · simp [hd] at h

theorem RegisterComponentType_eq_some {cm cm' : ComponentManager V} {T : TypeName}
    (h : cm.RegisterComponentType T = some cm') :
    cm.m_nextComponentTypeID ≤ MaxComponents ∧ cm.m_componentTypes.find T = none ∧
      cm' = { m_componentTypes := cm.m_componentTypes.assign T cm.m_nextComponentTypeID
              m_componentArrays := cm.m_componentArrays.assign T ComponentArray.new
              m_nextComponentTypeID := cm.m_nextComponentTypeID + 1 } := by
  unfold RegisterComponentType at h
  by_cases h1 : cm.m_nextComponentTypeID ≤ MaxComponents
  · by_cases h2 : cm.m_componentTypes.contains T = true
    · simp [h1, h2] at h
    · have h2' : cm.m_componentTypes.contains T = false := by simpa using h2
      simp only [h1, h2', if_true] at h
      simp at h
      exact ⟨h1, (UMap.contains_eq_false_iff _ _).1 h2', h.symm⟩
  · simp [h1] at h

end ComponentManager

namespace Signature

theorem test_empty (i : Nat) : Signature.test Signature.empty i = false := by
  simp [Signature.test, Signature.empty]

theorem set_eq_some {s s' : Signature} {pos : Nat} {val : Bool}
    (h : Signature.set s pos val = some s') :
    pos < MaxComponents ∧
      ∀ i, Signature.test s' i =
        if pos = i then val else Signature.test s i := by
  unfold Signature.set at h
  by_cases hp : pos < MaxComponents
  · refine ⟨hp, fun i => ?_⟩
    simp only [hp, if_true] at h
    cases val with
    | true =>
      simp only [if_true] at h
      injection h with h
      subst h
      simp only [Signature.test, Nat.testBit_or, Nat.one_shiftLeft, Nat.testBit_two_pow]
      by_cases hi : pos = i <;> simp [hi]
    | false =>
      simp only [Bool.false_eq_true, if_false] at h
      injection h with h
      subst h
      simp only [Signature.test, Nat.testBit_xor, Nat.testBit_and, Nat.one_shiftLeft,
        Nat.testBit_two_pow]
      by_cases hi : pos = i <;> simp [hi]
  · simp [hp] at h

theorem set_isSome (s : Signature) {pos : Nat} (val : Bool) (h : pos < MaxComponents) :
    ∃ s', Signature.set s pos val = some s' := by
  unfold Signature.set
  cases val <;> simp [h]

end Signature

namespace Coordinator

variable {V : Type}

theorem cinv_initial : (Coordinator.initial : Coordinator V).Inv where
  em := EntityManager.inv_new
  arrays := fun T a h => by simp [Coordinator.initial, ComponentManager.new] at h
  systems := fun S s h => by simp [Coordinator.initial, SystemManager.new] at h
  keys := fun T => by simp [Coordinator.initial, ComponentManager.new, UMap.find]
  lt := fun T id h => by simp [Coordinator.initial, ComponentManager.new, UMap.find] at h
  inj := fun T T' id h => by simp [Coordinator.initial, ComponentManager.new, UMap.find] at h
  bits := fun T id a e sig h => by
    simp [Coordinator.initial, ComponentManager.new, UMap.find] at h
  high := fun e sig i h _ => by
    simp only [Coordinator.initial, EntityManager.new, List.getElem?_replicate] at h
    split at h
    · injection h with h
      subst h
      exact Signature.test_empty i
    · exact absurd h (by simp)

theorem cinv_Init (c : Coordinator V) : c.Init.Inv :=
  { cinv_initial with }

theorem cinv_CreateEntity {c c' : Coordinator V} {id : Entity} (hinv : c.Inv)
    (h : c.CreateEntity = some (id, c')) : c'.Inv := by
  unfold CreateEntity at h
  cases hc : c.m_entityManager.CreateEntity with
  | none => simp [hc] at h
  | some r =>
    obtain ⟨id0, em'⟩ := r
    simp only [hc, Option.map_some', Option.some.injEq, Prod.mk.injEq] at h
    obtain ⟨_, rfl⟩ := h
    have hem := EntityManager.inv_CreateEntity hinv.em hc
    obtain ⟨rest, living, _, _, hem'⟩ := EntityManager.CreateEntity_eq_some hc
    have hs : em'.m_signatures = c.m_entityManager.m_signatures := by rw [hem']
    exact
      { em := hem
        arrays := hinv.arrays
        systems := hinv.systems
        keys := hinv.keys
        lt := hinv.lt
        inj := hinv.inj
        bits := fun T id a e sig h1 h2 h3 => hinv.bits T id a e sig h1 h2 (by simpa [hs] using h3)
        high := fun e sig i h1 h2 => hinv.high e sig i (by simpa [hs] using h1) h2 }

theorem cinv_DestroyEntity {c : Coordinator V} (e : Entity) (hinv : c.Inv) :
    (c.DestroyEntity e).Inv :=
  { hinv with }

theorem destroyNow_eq_some {c c' : Coordinator V} {e : Entity} (h : c.destroyNow e = some c') :
    ∃ em cm sm, c.m_entityManager.DestroyEntity e = some em ∧
      c.m_componentManager.EntityDestroyed e = some cm ∧
      c.m_systemManager.EntitySignatureChanged e Signature.empty = some sm ∧
      c' = { c with m_entityManager := em, m_componentManager := cm, m_systemManager := sm } := by
  unfold destroyNow at h
  cases h1 : c.m_entityManager.DestroyEntity e with
  | none => simp [h1] at h
  | some em =>
    cases h2 : c.m_componentManager.EntityDestroyed e with
    | none => simp [h1, h2] at h
    | some cm =>
      cases h3 : c.m_systemManager.EntitySignatureChanged e Signature.empty with
      | none => simp [h1, h2, h3] at h
      | some sm =>
        simp only [h1, h2, h3] at h
        injection h with h
        exact ⟨em, cm, sm, rfl, rfl, rfl, h.symm⟩

theorem cinv_destroyNow {c c' : Coordinator V} {e : Entity} (hinv : c.Inv)
    (h : c.destroyNow e = some c') : c'.Inv := by
  obtain ⟨em, cm, sm, h1, h2, h3, rfl⟩ := destroyNow_eq_some h
  obtain ⟨living, _, _, hem⟩ := EntityManager.DestroyEntity_eq_some h1
  have hsig : em.m_signatures = c.m_entityManager.m_signatures.set e Signature.empty := by
    rw [hem]
  obtain ⟨c1, c2, c3, c4, c5⟩ := ComponentManager.EntityDestroyed_spec h2 hinv.arrays
  obtain ⟨_, _, _, s4, _⟩ := SystemManager.EntitySignatureChanged_spec h3 hinv.systems
  have hlen := hinv.em.sigs
  refine
    { em := EntityManager.inv_DestroyEntity hinv.em h1
      arrays := c5
      systems := s4
      keys := fun T => ?_
      lt := fun T id h => ?_
      inj := fun T T' id h h' => ?_
      bits := fun T id a' e' sig h4 h5 h6 => ?_
      high := fun e' sig i h4 h5 => ?_ }
  · simp only [c1]
    rw [c3 T]
    exact hinv.keys T
  · simp only [c1, c2] at h ⊢
    exact hinv.lt T id h
  · simp only [c1] at h h'
    exact hinv.inj T T' id h h'
  · simp only [c1] at h4
    simp only at h5 h6
    obtain ⟨a, ha, hdata⟩ := c4 T a' h5
    rw [hdata e']
    rw [hsig, List.getElem?_set] at h6
    by_cases he : e = e'
    · subst he
      simp only [if_true] at h6
      split at h6
      · injection h6 with h6
        subst h6
        simp [Signature.test_empty]
      · exact absurd h6 (by simp)
    · simp only [he, if_false] at h6
      simp only [he, decide_False, Bool.not_false, Bool.true_and]
      exact hinv.bits T id a e' sig h4 ha h6
  · simp only [c2] at h5
    simp only at h4
    rw [hsig, List.getElem?_set] at h4
    by_cases he : e = e'
    · subst he
      simp only [if_true] at h4
      split at h4
      · injection h4 with h4
        subst h4
        exact Signature.test_empty i
      · exact absurd h4 (by simp)
    · simp only [he, if_false] at h4
      exact hinv.high e' sig i h4 h5

theorem cinv_destroyQueuedLoop (l : List Entity) :
    ∀ {c c' : Coordinator V}, c.Inv → destroyQueuedLoop c l = some c' → c'.Inv := by
  induction l with
  | nil =>
    intro c c' hinv h
    simp only [destroyQueuedLoop, Option.some.injEq] at h
    exact h ▸ hinv
  | cons e rest ih =>
    intro c c' hinv h
    simp only [destroyQueuedLoop] at h
    cases ha : c.m_entityManager.IsAlive e with
    | none => simp [ha] at h
    | some b =>
      cases b with
      | false =>
        simp only [ha] at h
        exact ih hinv h
      | true =>
        simp only [ha] at h
        cases hd : c.destroyNow e with
        | none => simp [hd] at h
        | some c1 =>
          simp only [hd] at h
          exact ih (cinv_destroyNow hinv hd) h

theorem cinv_destroyAllLoop (l : List Entity) :
    ∀ {c c' : Coordinator V}, c.Inv → destroyAllLoop c l = some c' → c'.Inv := by
  induction l with
  | nil =>
    intro c c' hinv h
    simp only [destroyAllLoop, Option.some.injEq] at h
    exact h ▸ hinv
  | cons e rest ih =>
    intro c c' hinv h
    simp only [destroyAllLoop] at h
    cases hd : c.destroyNow e with
    | none => simp [hd] at h
    | some c1 =>
      simp only [hd] at h
      exact ih (cinv_destroyNow hinv hd) h

theorem cinv_DestroyQueuedEntities {c c' : Coordinator V} (hinv : c.Inv)
    (h : c.DestroyQueuedEntities = some c') : c'.Inv := by
  unfold DestroyQueuedEntities at h
  by_cases he : c.m_entitiesToDestroy.isEmpty = true
  · simp only [he, if_true, Option.some.injEq] at h
    exact h ▸ hinv
  · simp only [he, if_false] at h
    cases hl : destroyQueuedLoop c c.m_entitiesToDestroy with
    | none => simp [hl] at h
    | some c1 =>
      simp only [hl, Option.map_some', Option.some.injEq, Bool.false_eq_true, if_false] at h
      have h1 := cinv_destroyQueuedLoop _ hinv hl
      subst h
      exact { h1 with }

theorem cinv_DestroyAllEntities {c c' : Coordinator V} (hinv : c.Inv)
    (h : c.DestroyAllEntities = some c') : c'.Inv := by
  unfold DestroyAllEntities at h
  have h0 : ({ c with m_entitiesToDestroy := [] } : Coordinator V).Inv := { hinv with }
  exact cinv_destroyAllLoop _ h0 h

end Coordinator

namespace Coordinator

variable {V : Type}

theorem updateSignature_eq_some {c c' : Coordinator V} {cm : ComponentManager V}
    {T : TypeName} {e : Entity} {val : Bool} (h : updateSignature c cm T e val = some c') :
    ∃ sig id sig' em sm, c.m_entityManager.GetSignature e = some sig ∧
      cm.GetComponentTypeID T = some id ∧ Signature.set sig id val = some sig' ∧
      c.m_entityManager.SetSignature e sig' = some em ∧
      c.m_systemManager.EntitySignatureChanged e sig' = some sm ∧
      c' = { c with m_entityManager := em, m_componentManager := cm, m_systemManager := sm } := by
  unfold updateSignature at h
  cases h1 : c.m_entityManager.GetSignature e with
  | none => simp [h1] at h
  | some sig =>
    cases h2 : cm.GetComponentTypeID T with
    | none => simp [h1, h2] at h
    | some id =>
      cases h3 : Signature.set sig id val with
      | none => simp [h1, h2, h3] at h
      | some sig' =>
        cases h4 : c.m_entityManager.SetSignature e sig' with
        | none => simp [h1, h2, h3, h4] at h
        | some em =>
          cases h5 : c.m_systemManager.EntitySignatureChanged e sig' with
          | none => simp [h1, h2, h3, h4, h5] at h
          | some sm =>
            simp only [h1, h2, h3, h4, h5] at h
            injection h with h
            exact ⟨sig, id, sig', em, sm, rfl, rfl, h3, h4, h5, h.symm⟩

theorem coord_AddComponent_eq_some {c c' : Coordinator V} {T : TypeName} {e : Entity} {v : V}
    (h : c.AddComponent T e v = some c') :
    c.m_entityManager.IsAlive e = some true ∧
      ∃ cm, c.m_componentManager.AddComponent T e v = some cm ∧
        updateSignature c cm T e true = some c' := by
  unfold AddComponent at h
  split at h
  · next ha =>
    cases hc : c.m_componentManager.AddComponent T e v with
    | none => simp [hc] at h
    | some cm =>
      simp only [hc] at h
      exact ⟨ha, cm, rfl, h⟩
  · exact absurd h (by simp)

theorem coord_RemoveComponent_eq_some {c c' : Coordinator V} {T : TypeName} {e : Entity}
    (h : c.RemoveComponent T e = some c') :
    c.m_entityManager.IsAlive e = some true ∧
      ∃ cm, c.m_componentManager.RemoveComponent T e = some cm ∧
        updateSignature c cm T e false = some c' := by
  unfold RemoveComponent at h
  split at h
  · next ha =>
    cases hc : c.m_componentManager.RemoveComponent T e with
    | none => simp [hc] at h
    | some cm =>
      simp only [hc] at h
      exact ⟨ha, cm, rfl, h⟩
  · exact absurd h (by simp)

theorem GetSignature_eq_some {em : EntityManager} {e : Entity} {sig : Signature}
    (h : em.GetSignature e = some sig) : e < MaxEntities ∧ em.m_signatures[e]? = some sig := by
  unfold EntityManager.GetSignature at h
  by_cases hlt : e < MaxEntities
  · simp only [hlt, if_true] at h
    exact ⟨hlt, h⟩
  · simp [hlt] at h

/-- Invariant after the common tail of `AddComponent` / `RemoveComponent`, given
that the component store changed the array of `T` for `e` only, to `val`. -/
theorem cinv_updateSignature {c c' : Coordinator V} {T : TypeName} {e : Entity} {val : Bool}
    {a a' : ComponentArray V} (hinv : c.Inv)
    (ha : c.m_componentManager.m_componentArrays.find T = some a)
    (hw : a'.m_components.WF)
    (hdata : ∀ e', a'.HasData e' = if e = e' then val else a.HasData e')
    (h : updateSignature c
      { c.m_componentManager with
        m_componentArrays := c.m_componentManager.m_componentArrays.assign T a' } T e val =
      some c') : c'.Inv := by
  obtain ⟨sig, id, sig', em, sm, h1, h2, h3, h4, h5, rfl⟩ := updateSignature_eq_some h
  obtain ⟨helt, hsig⟩ := GetSignature_eq_some h1
  obtain ⟨hid, hbit⟩ := Signature.set_eq_some h3
  obtain ⟨_, hem⟩ := EntityManager.SetSignature_eq_some h4
  obtain ⟨_, _, _, s4, _⟩ := SystemManager.EntitySignatureChanged_spec h5 hinv.systems
  have hsigs : em.m_signatures = c.m_entityManager.m_signatures.set e sig' := by rw [hem]
  have hidT : c.m_componentManager.m_componentTypes.find T = some id := h2
  have hidlt := hinv.lt T id hidT
  have hlen := hinv.em.sigs
  have helt' : e < c.m_entityManager.m_signatures.length := by rw [hlen]; exact helt
  refine
    { em := EntityManager.inv_SetSignature hinv.em h4
      arrays := fun T1 a1 hmem => ?_
      systems := s4
      keys := fun T1 => ?_
      lt := hinv.lt
      inj := hinv.inj
      bits := fun T1 id1 a1 e1 sig1 h6 h7 h8 => ?_
      high := fun e1 sig1 i h6 h7 => ?_ }
  · rcases UMap.mem_assign hmem with h6 | h6
    · injection h6 with _ h6
      rw [h6]
      exact hw
    · exact hinv.arrays T1 a1 h6
  · simp only [UMap.find_assign]
    by_cases hT : T = T1
    · subst hT
      simp [hidT]
    · simp only [hT, if_false]
      exact hinv.keys T1
  · simp only [UMap.find_assign] at h7
    simp only at h6 h8
    rw [hsigs, List.getElem?_set] at h8
    by_cases hT : T = T1
    · subst hT
      simp only [if_true, Option.some.injEq] at h7
      subst h7
      rw [hidT] at h6
      injection h6 with h6
      subst h6
      rw [hdata e1]
      by_cases he : e = e1
      · subst he
        simp only [if_true, helt'] at h8
        injection h8 with h8
        subst h8
        simp [hbit]
      · simp only [he, if_false] at h8 ⊢
        exact hinv.bits T id a e1 sig1 hidT ha h8
    · simp only [hT, if_false] at h7
      have hne : id ≠ id1 := fun hc => hT (hinv.inj T T1 id hidT (hc ▸ h6))
      by_cases he : e = e1
      · subst he
        simp only [if_true, helt'] at h8
        injection h8 with h8
        subst h8
        rw [hbit id1]
        simp only [hne, if_false]
        exact hinv.bits T1 id1 a1 e sig h6 h7 hsig
      · simp only [he, if_false] at h8
        exact hinv.bits T1 id1 a1 e1 sig1 h6 h7 h8
  · simp only at h6 h7
    rw [hsigs, List.getElem?_set] at h6
    by_cases he : e = e1
    · subst he
      simp only [if_true, helt'] at h6
      injection h6 with h6
      subst h6
      rw [hbit i]
      have hne : id ≠ i := by
        intro hc
        subst hc
        rcases h7 with h7 | h7
        · exact absurd hidlt (Nat.not_lt.2 h7)
        · exact absurd hid (Nat.not_lt.2 h7)
      simp only [hne, if_false]
      exact hinv.high e sig i hsig h7
    · simp only [he, if_false] at h6
      exact hinv.high e1 sig1 i h6 h7

theorem cinv_AddComponent {c c' : Coordinator V} {T : TypeName} {e : Entity} {v : V}
    (hinv : c.Inv) (h : c.AddComponent T e v = some c') : c'.Inv := by
  obtain ⟨_, cm, h1, h2⟩ := coord_AddComponent_eq_some h
  obtain ⟨a, d', _, ha, hno, hi, rfl⟩ := ComponentManager.AddComponent_eq_some h1
  have hwa := hinv.arrays T a (UMap.mem_of_find ha)
  refine cinv_updateSignature hinv ha (DenseMap.wf_Insert hwa hi) (fun e' => ?_) h2
  simp only [ComponentArray.HasData, DenseMap.Contains_Insert hi]
  by_cases he : e = e'
  · simp [he]
  · simp [he]

theorem cinv_RemoveComponent {c c' : Coordinator V} {T : TypeName} {e : Entity}
    (hinv : c.Inv) (h : c.RemoveComponent T e = some c') : c'.Inv := by
  obtain ⟨_, cm, h1, h2⟩ := coord_RemoveComponent_eq_some h
  obtain ⟨a, d', _, ha, hno, hi, rfl⟩ := ComponentManager.RemoveComponent_eq_some h1
  have hwa := hinv.arrays T a (UMap.mem_of_find ha)
  refine cinv_updateSignature hinv ha (DenseMap.wf_Erase hwa hi) (fun e' => ?_) h2
  simp only [ComponentArray.HasData, DenseMap.Contains_Erase hwa hi]
  by_cases he : e = e'
  · simp [he]
  · simp [he]

end Coordinator

namespace Coordinator

variable {V : Type}

theorem cinv_RegisterComponent {c c' : Coordinator V} {T : TypeName} (hinv : c.Inv)
    (h : c.RegisterComponent T = some c') : c'.Inv := by
  unfold RegisterComponent at h
  cases hr : c.m_componentManager.RegisterComponentType T with
  | none => simp [hr] at h
  | some cm =>
    simp only [hr, Option.map_some', Option.some.injEq] at h
    subst h
    obtain ⟨_, hnone, rfl⟩ := ComponentManager.RegisterComponentType_eq_some hr
    have hnoneA := (hinv.keys T).1 hnone
    refine
      { em := hinv.em
        arrays := fun T1 a1 hmem => ?_
        systems := hinv.systems
        keys := fun T1 => ?_
        lt := fun T1 id1 h1 => ?_
        inj := fun T1 T2 id1 h1 h2 => ?_
        bits := fun T1 id1 a1 e1 sig1 h1 h2 h3 => ?_
        high := fun e1 sig1 i h1 h2 => ?_ }
    · rcases UMap.mem_assign hmem with h6 | h6
      · injection h6 with _ h6
        rw [h6]
        exact DenseMap.wf_new
      · exact hinv.arrays T1 a1 h6
    · simp only [UMap.find_assign]
      by_cases hT : T = T1
      · simp [hT]
      · simp only [hT, if_false]
        exact hinv.keys T1
    · simp only [UMap.find_assign] at h1
      by_cases hT : T = T1
      · simp only [hT, if_true, Option.some.injEq] at h1
        exact h1 ▸ Nat.lt_succ_self _
      · simp only [hT, if_false] at h1
        exact Nat.lt_succ_of_lt (hinv.lt T1 id1 h1)
    · simp only [UMap.find_assign] at h1 h2
      by_cases hT1 : T = T1
      · by_cases hT2 : T = T2
        · rw [← hT1, ← hT2]
        · simp only [hT1, if_true, Option.some.injEq] at h1
          simp only [hT2, if_false] at h2
          have h3 := hinv.lt T2 id1 h2
          rw [← h1] at h3
          exact absurd h3 (Nat.lt_irrefl _)
      · by_cases hT2 : T = T2
        · simp only [hT2, if_true, Option.some.injEq] at h2
          simp only [hT1, if_false] at h1
          have h3 := hinv.lt T1 id1 h1
          rw [← h2] at h3
          exact absurd h3 (Nat.lt_irrefl _)
        · simp only [hT1, if_false] at h1
          simp only [hT2, if_false] at h2
          exact hinv.inj T1 T2 id1 h1 h2
    · simp only [UMap.find_assign] at h1 h2
      simp only at h3
      by_cases hT : T = T1
      · simp only [hT, if_true, Option.some.injEq] at h1 h2
        subst h1
        subst h2
        rw [hinv.high e1 sig1 _ h3 (Or.inl (Nat.le_refl _))]
        simp [ComponentArray.HasData, ComponentArray.new, DenseMap.new, DenseMap.Contains,
          UMap.contains, UMap.find]
      · simp only [hT, if_false] at h1 h2
        exact hinv.bits T1 id1 a1 e1 sig1 h1 h2 h3
    · simp only at h1 h2
      refine hinv.high e1 sig1 i h1 ?_
      rcases h2 with h2 | h2
      · exact Or.inl (Nat.le_of_succ_le h2)
      · exact Or.inr h2

theorem cinv_AssignComponent {c c' : Coordinator V} {T : TypeName} {e : Entity} {v : V}
    (hinv : c.Inv) (h : c.AssignComponent T e v = some c') : c'.Inv := by
  unfold AssignComponent at h
  split at h
  · cases hc : c.m_componentManager.AssignComponent T e v with
    | none => simp [hc] at h
    | some cm =>
      simp only [hc, Option.map_some', Option.some.injEq] at h
      subst h
      obtain ⟨a, d', _, ha, _, hu, rfl⟩ := ComponentManager.AssignComponent_eq_some hc
      have hwa := hinv.arrays T a (UMap.mem_of_find ha)
      refine
        { em := hinv.em
          arrays := fun T1 a1 hmem => ?_
          systems := hinv.systems
          keys := fun T1 => ?_
          lt := hinv.lt
          inj := hinv.inj
          bits := fun T1 id1 a1 e1 sig1 h1 h2 h3 => ?_
          high := hinv.high }
      · rcases UMap.mem_assign hmem with h6 | h6
        · injection h6 with _ h6
          rw [h6]
          exact DenseMap.wf_Update hwa hu
        · exact hinv.arrays T1 a1 h6
      · simp only [UMap.find_assign]
        by_cases hT : T = T1
        · subst hT
          have h7 := hinv.keys T
          rw [ha] at h7
          simpa using h7
        · simp only [hT, if_false]
          exact hinv.keys T1
      · simp only [UMap.find_assign] at h2
        by_cases hT : T = T1
        · subst hT
          simp only [if_true, Option.some.injEq] at h2
          subst h2
          have h4 := hinv.bits T id1 a e1 sig1 h1 ha h3
          rw [h4]
          simp [ComponentArray.HasData, DenseMap.Contains_Update hu]
        · simp only [hT, if_false] at h2
          exact hinv.bits T1 id1 a1 e1 sig1 h1 h2 h3
  · exact absurd h (by simp)

theorem cinv_RegisterSystem {c c' : Coordinator V} {S : TypeName} (hinv : c.Inv)
    (h : c.RegisterSystem S = some c') : c'.Inv := by
  unfold RegisterSystem SystemManager.RegisterSystem at h
  by_cases hc : c.m_systemManager.m_systems.contains S = true
  · simp [hc] at h
  · simp only [hc, Bool.false_eq_true, if_false, Option.map_some', Option.some.injEq] at h
    subst h
    refine { hinv with systems := fun S1 s1 hmem => ?_ }
    simp only [List.mem_append, List.mem_singleton] at hmem
    rcases hmem with h1 | h1
    · exact hinv.systems S1 s1 h1
    · injection h1 with _ h1
      rw [h1]
      exact DenseMap.wf_new

theorem cinv_SetSystemSignature {c c' : Coordinator V} {S : TypeName} {sig : Signature}
    (hinv : c.Inv) (h : c.SetSystemSignature S sig = some c') : c'.Inv := by
  unfold SetSystemSignature SystemManager.SetSystemSignature at h
  by_cases hc : c.m_systemManager.m_systems.contains S = true
  · simp only [hc, if_true, Option.map_some', Option.some.injEq] at h
    subst h
    exact { hinv with }
  · simp [hc] at h

theorem cinv_step {c c' : Coordinator V} (hinv : c.Inv) (h : Step c c') : c'.Inv := by
  cases h with
  | init => exact cinv_Init c
  | createEntity h => exact cinv_CreateEntity hinv h
  | destroyEntity => exact cinv_DestroyEntity _ hinv
  | destroyQueuedEntities h => exact cinv_DestroyQueuedEntities hinv h
  | destroyAllEntities h => exact cinv_DestroyAllEntities hinv h
  | registerComponent h => exact cinv_RegisterComponent hinv h
  | addComponent h => exact cinv_AddComponent hinv h
  | removeComponent h => exact cinv_RemoveComponent hinv h
  | assignComponent h => exact cinv_AssignComponent hinv h
  | registerSystem h => exact cinv_RegisterSystem hinv h
  | setSystemSignature h => exact cinv_SetSystemSignature hinv h

theorem cinv_of_reachable {c : Coordinator V} (h : Reachable c) : c.Inv := by
  induction h with
  | initial => exact cinv_initial
  | step _ hs ih => exact cinv_step ih hs

end Coordinator

namespace Coordinator

variable {V : Type}

theorem step_of_applyOp {c c' : Coordinator V} {op : Op V} (h : applyOp c op = some c') :
    Step c c' := by
  cases op with
  | init =>
    simp only [applyOp, Option.some.injEq] at h
    exact h ▸ Step.init c
  | createEntity =>
    simp only [applyOp] at h
    cases hc : c.CreateEntity with
    | none => simp [hc] at h
    | some r =>
      obtain ⟨id, c1⟩ := r
      simp only [hc, Option.map_some', Option.some.injEq] at h
      subst h
      exact Step.createEntity hc
  | destroyEntity e =>
    simp only [applyOp, Option.some.injEq] at h
    exact h ▸ Step.destroyEntity c e
  | destroyQueuedEntities => exact Step.destroyQueuedEntities h
  | destroyAllEntities => exact Step.destroyAllEntities h
  | registerComponent T => exact Step.registerComponent h
  | addComponent T e v => exact Step.addComponent h
  | removeComponent T e => exact Step.removeComponent h
  | assignComponent T e v => exact Step.assignComponent h
  | registerSystem S => exact Step.registerSystem h
  | setSystemSignature S sig => exact Step.setSystemSignature h

theorem reachable_of_run (ops : List (Op V)) :
    ∀ {c c' : Coordinator V}, Reachable c → run c ops = some c' → Reachable c' := by
  induction ops with
  | nil =>
    intro c c' hr h
    simp only [run, Option.some.injEq] at h
    exact h ▸ hr
  | cons op ops ih =>
    intro c c' hr h
    simp only [run] at h
    cases ha : applyOp c op with
    | none => simp [ha] at h
    | some c1 =>
      simp only [ha] at h
      exact ih (Reachable.step hr (step_of_applyOp ha)) h

theorem IsAlive_eq_some_true {em : EntityManager} {e : Entity}
    (h : em.IsAlive e = some true) : e < MaxEntities ∧ em.m_livingEntities.Contains e = true := by
  unfold EntityManager.IsAlive at h
  by_cases hlt : e < MaxEntities
  · simp only [hlt, if_true, Option.some.injEq] at h
    exact ⟨hlt, h⟩
  · simp [hlt] at h

/-- C5: in every state reachable through Coordinator operations, for every
alive entity `e` and every registered component type `T`, the type id, the
signature of `e` and the has-component answer are all defined, and bit
`type_id<T>()` of `get_signature(e)` is set iff `has_component<T>(e)` is true. -/
theorem signature_bit_iff_has_component (c : Coordinator V) (h : Reachable c) (e : Entity)
    (T : TypeName) (halive : c.IsEntityAlive e = some true)
    (hreg : c.m_componentManager.m_componentTypes.contains T = true) :
    ∃ id sig b, c.GetComponentTypeID T = some id ∧ c.GetSignature e = some sig ∧
      c.HasComponent T e = some b ∧ (Signature.test sig id = true ↔ b = true) := by
  have hinv := cinv_of_reachable h
  obtain ⟨hlt, _⟩ := IsAlive_eq_some_true halive
  obtain ⟨id, hid⟩ := (UMap.contains_eq_true_iff _ _).1 hreg
  have hlen : e < c.m_entityManager.m_signatures.length := by rw [hinv.em.sigs]; exact hlt
  have hsig : c.m_entityManager.m_signatures[e]? =
      some c.m_entityManager.m_signatures[e] := List.getElem?_eq_getElem hlen
  cases ha : c.m_componentManager.m_componentArrays.find T with
  | none =>
    rw [(hinv.keys T).2 ha] at hid
    exact absurd hid (by simp)
  | some a =>
    refine ⟨id, c.m_entityManager.m_signatures[e], a.HasData e, hid, ?_, ?_, ?_⟩
    · simp [GetSignature, EntityManager.GetSignature, hlt, hsig]
    · unfold IsEntityAlive at halive
      simp [HasComponent, halive, ComponentManager.HasComponent,
        ComponentManager.GetComponentArray, hreg, ha]
    · rw [hinv.bits T id a e _ hid ha hsig]

/-- Witness for C5: after registering `Position`, creating entity 0 and adding
a `Position` to it, bit 0 of the signature of entity 0 is set and
`has_component` answers true. -/
theorem signature_bit_iff_has_component_witness :
    ∃ id sig b,
      (⟨⟨List.range' 1 4999, ⟨[(0, 0)], [0], [0]⟩, 1 :: List.replicate 4999 0⟩,
        ⟨[("Position", 0)], [("Position", ⟨⟨[(0, 0)], [0], [7]⟩⟩)], 1⟩,
        ⟨[], []⟩, []⟩ : Coordinator Nat).GetComponentTypeID "Position" = some id ∧
      (⟨⟨List.range' 1 4999, ⟨[(0, 0)], [0], [0]⟩, 1 :: List.replicate 4999 0⟩,
        ⟨[("Position", 0)], [("Position", ⟨⟨[(0, 0)], [0], [7]⟩⟩)], 1⟩,
        ⟨[], []⟩, []⟩ : Coordinator Nat).GetSignature 0 = some sig ∧
      (⟨⟨List.range' 1 4999, ⟨[(0, 0)], [0], [0]⟩, 1 :: List.replicate 4999 0⟩,
        ⟨[("Position", 0)], [("Position", ⟨⟨[(0, 0)], [0], [7]⟩⟩)], 1⟩,
        ⟨[], []⟩, []⟩ : Coordinator Nat).HasComponent "Position" 0 = some b ∧
      (Signature.test sig id = true ↔ b = true) :=
  have hrun : run (Coordinator.initial : Coordinator Nat)
      [.registerComponent "Position", .createEntity, .addComponent "Position" 0 7] =
      some ⟨⟨List.range' 1 4999, ⟨[(0, 0)], [0], [0]⟩, 1 :: List.replicate 4999 0⟩,
        ⟨[("Position", 0)], [("Position", ⟨⟨[(0, 0)], [0], [7]⟩⟩)], 1⟩,
        ⟨[], []⟩, []⟩ := by decide!
  signature_bit_iff_has_component _ (reachable_of_run _ Reachable.initial hrun) 0 "Position"
    (by decide!) (by decide!)

end Coordinator

namespace Coordinator

variable {V : Type}

/-- The common tail of `AddComponent` / `RemoveComponent` runs to completion when
the type id is a valid bit index and every system has a recorded signature. -/
theorem updateSignature_isSome {c : Coordinator V} (hinv : c.Inv) (cm : ComponentManager V)
    {T : TypeName} {e : Entity} {id : ComponentTypeID} (val : Bool) (he : e < MaxEntities)
    (hid : cm.GetComponentTypeID T = some id) (hlt : id < MaxComponents)
    (hs : ∀ S s, (S, s) ∈ c.m_systemManager.m_systems →
      ∃ Rs, c.m_systemManager.m_signatures.find S = some Rs) :
    ∃ c', updateSignature c cm T e val = some c' := by
  have hlen : e < c.m_entityManager.m_signatures.length := by rw [hinv.em.sigs]; exact he
  have hsig : c.m_entityManager.GetSignature e = some c.m_entityManager.m_signatures[e] := by
    simp [EntityManager.GetSignature, he, List.getElem?_eq_getElem hlen]
  obtain ⟨sig', hset⟩ := Signature.set_isSome c.m_entityManager.m_signatures[e] val hlt
  obtain ⟨sm, hsm⟩ :=
    SystemManager.EntitySignatureChanged_isSome c.m_systemManager e sig' hinv.systems hs
  simp [updateSignature, hsig, hid, hset, EntityManager.SetSignature, he, hsm]

/-- A call of `updateSignature` that ran to completion shows that the type id is
a valid bit index and that every system has a recorded signature. -/
theorem updateSignature_needs {c c' : Coordinator V} (hinv : c.Inv) {cm : ComponentManager V}
    {T : TypeName} {e : Entity} {val : Bool} (h : updateSignature c cm T e val = some c') :
    (∃ id, cm.GetComponentTypeID T = some id ∧ id < MaxComponents) ∧
    (∀ S s, (S, s) ∈ c.m_systemManager.m_systems →
      ∃ Rs, c.m_systemManager.m_signatures.find S = some Rs) ∧
    (∀ S s, (S, s) ∈ c'.m_systemManager.m_systems →
      ∃ Rs, c'.m_systemManager.m_signatures.find S = some Rs) ∧
    (∀ e', c'.m_entityManager.IsAlive e' = c.m_entityManager.IsAlive e') ∧
    c'.m_componentManager = cm := by
  obtain ⟨sig, id, sig', em, sm, h1, h2, h3, h4, h5, rfl⟩ := updateSignature_eq_some h
  obtain ⟨hid, _⟩ := Signature.set_eq_some h3
  obtain ⟨s1, s2, s3, _, s5⟩ := SystemManager.EntitySignatureChanged_spec h5 hinv.systems
  obtain ⟨_, hem⟩ := EntityManager.SetSignature_eq_some h4
  refine ⟨⟨id, h2, hid⟩, s5, ?_, ?_, rfl⟩
  · intro S s' hmem
    simp only at hmem ⊢
    obtain ⟨s'', hs''⟩ := Option.isSome_iff_exists.1 (UMap.find_isSome_of_mem hmem)
    obtain ⟨s, Rs, _, hRs, _⟩ := s3 S s'' hs''
    exact ⟨Rs, by rw [s1]; exact hRs⟩
  · intro e'
    simp only [hem, EntityManager.IsAlive]

/-- C4: in a reachable coordinator state, whenever `add_component<T>(e, v)` runs
to completion (which presupposes that `e` is alive, `T` is registered and `e`
has no `T`), `get_component<T>(e)` returns `v` and `has_component<T>(e)` is
true; the following `remove_component<T>(e)` then runs to completion and
afterwards `has_component<T>(e)` is false. For an alive `e` without a `T` of a
registered type `T`, the add runs to completion exactly when the id of `T` is
below `MaxComponents` and every registered system has a recorded signature. -/
theorem add_get_remove_has (c : Coordinator V) (h : Reachable c) (T : TypeName) (e : Entity)
    (v : V) (id : ComponentTypeID) (halive : c.IsEntityAlive e = some true)
    (hreg : c.GetComponentTypeID T = some id) (hno : c.HasComponent T e = some false) :
    (∀ c1, c.AddComponent T e v = some c1 →
      c1.GetComponent T e = some v ∧ c1.HasComponent T e = some true ∧
      ∃ c2, c1.RemoveComponent T e = some c2 ∧ c2.HasComponent T e = some false) ∧
    ((∃ c1, c.AddComponent T e v = some c1) ↔
      (id < MaxComponents ∧ ∀ S s, (S, s) ∈ c.m_systemManager.m_systems →
        ∃ Rs, c.m_systemManager.m_signatures.find S = some Rs)) := by
  have hinv := cinv_of_reachable h
  unfold IsEntityAlive at halive
  obtain ⟨helt, _⟩ := IsAlive_eq_some_true halive
  have hidT : c.m_componentManager.m_componentTypes.find T = some id := hreg
  have hcon : c.m_componentManager.m_componentTypes.contains T = true :=
    (UMap.contains_eq_true_iff _ _).2 ⟨id, hidT⟩
  constructor
  · intro c1 hadd
    have hinv1 := cinv_AddComponent hinv hadd
    obtain ⟨_, cm, h1, h2⟩ := coord_AddComponent_eq_some hadd
    obtain ⟨a, d', _, ha, _, hi, rfl⟩ := ComponentManager.AddComponent_eq_some h1
    obtain ⟨⟨id', hid', hidlt⟩, _, hs1, halive1, hcm1⟩ := updateSignature_needs hinv h2
    obtain ⟨_, hd'⟩ := DenseMap.Insert_eq_some hi
    have hwa := hinv.arrays T a (UMap.mem_of_find ha)
    have hwd := DenseMap.wf_Insert hwa hi
    have hal1 : c1.m_entityManager.IsAlive e = some true := by rw [halive1]; exact halive
    have hfind : c1.m_componentManager.m_componentArrays.find T = some ⟨d'⟩ := by
      rw [hcm1]
      simp [UMap.find_assign]
    have htypes : c1.m_componentManager.m_componentTypes = c.m_componentManager.m_componentTypes := by
      rw [hcm1]
    have hcon1 : c1.m_componentManager.m_componentTypes.contains T = true := by
      rw [htypes]; exact hcon
    have hhas : d'.Contains e = true := by
      rw [DenseMap.Contains_Insert hi]
      simp
    have hget : d'.GetValue e = some v := by
      rw [hd']
      simp [DenseMap.GetValue, UMap.find_assign]
    refine ⟨?_, ?_, ?_⟩
    · simp [GetComponent, hal1, ComponentManager.GetComponent,
        ComponentManager.GetComponentArray, hcon1, hfind, ComponentArray.HasData,
        ComponentArray.GetData, hhas, hget]
    · simp [HasComponent, hal1, ComponentManager.HasComponent,
        ComponentManager.GetComponentArray, hcon1, hfind, ComponentArray.HasData, hhas]
    · obtain ⟨d'', he⟩ := DenseMap.Erase_of_contains hwd hhas
      have hrm : c1.m_componentManager.RemoveComponent T e =
          some { c1.m_componentManager with
            m_componentArrays := c1.m_componentManager.m_componentArrays.assign T ⟨d''⟩ } := by
        simp [ComponentManager.RemoveComponent, ComponentManager.GetComponentArray, hcon1,
          hfind, ComponentArray.HasData, hhas, ComponentArray.RemoveData, he]
      have hid1 : ComponentManager.GetComponentTypeID
          { c1.m_componentManager with
            m_componentArrays := c1.m_componentManager.m_componentArrays.assign T ⟨d''⟩ } T =
          some id' := by
        simp only [ComponentManager.GetComponentTypeID, htypes]
        exact hid'
      obtain ⟨c2, hc2⟩ := updateSignature_isSome hinv1 _ false helt hid1 hidlt hs1
      refine ⟨c2, by simp [RemoveComponent, hal1, hrm, hc2], ?_⟩
      obtain ⟨_, _, _, halive2, hcm2⟩ := updateSignature_needs hinv1 hc2
      have hal2 : c2.m_entityManager.IsAlive e = some true := by rw [halive2]; exact hal1
      simp [HasComponent, hal2, ComponentManager.HasComponent,
        ComponentManager.GetComponentArray, hcm2, hcon1, UMap.find_assign,
        ComponentArray.HasData, DenseMap.Contains_Erase_self he]
  · constructor
    · rintro ⟨c1, hadd⟩
      obtain ⟨_, cm, h1, h2⟩ := coord_AddComponent_eq_some hadd
      obtain ⟨a, d', _, ha, _, hi, rfl⟩ := ComponentManager.AddComponent_eq_some h1
      obtain ⟨⟨id', hid', hidlt⟩, hs, _⟩ := updateSignature_needs hinv h2
      have h3 : c.m_componentManager.m_componentTypes.find T = some id' := hid'
      rw [hidT] at h3
      injection h3 with h3
      exact ⟨h3 ▸ hidlt, hs⟩
    · rintro ⟨hidlt, hs⟩
      cases ha : c.m_componentManager.m_componentArrays.find T with
      | none =>
        rw [(hinv.keys T).2 ha] at hidT
        exact absurd hidT (by simp)
      | some a =>
        have hnodata : a.HasData e = false := by
          simpa [HasComponent, halive, ComponentManager.HasComponent,
            ComponentManager.GetComponentArray, hcon, ha] using hno
        obtain ⟨d', hi⟩ := DenseMap.Insert_of_not_contains v hnodata
        have hadd : c.m_componentManager.AddComponent T e v =
            some { c.m_componentManager with
              m_componentArrays := c.m_componentManager.m_componentArrays.assign T ⟨d'⟩ } := by
          simp [ComponentManager.AddComponent, ComponentManager.GetComponentArray, hcon, ha,
            hnodata, ComponentArray.InsertData, hi]
        obtain ⟨c1, hc1⟩ := updateSignature_isSome hinv
          { c.m_componentManager with
            m_componentArrays := c.m_componentManager.m_componentArrays.assign T ⟨d'⟩ }
          true helt hidT hidlt hs
        exact ⟨c1, by simp [AddComponent, halive, hadd, hc1]⟩

end Coordinator

namespace Coordinator

variable {V : Type}

theorem positionWorld_reachable : Reachable positionWorld :=
  have hrun : run (Coordinator.initial : Coordinator Nat)
      [.registerComponent "Position", .createEntity] = some positionWorld := by decide!
  reachable_of_run _ Reachable.initial hrun

/-- Witness for C4: with `Position` registered and entity 0 alive, adding the
value 12 runs to completion, reads back as 12, and is gone after the remove. -/
theorem add_get_remove_has_witness :
    ∃ c1, positionWorld.AddComponent "Position" 0 12 = some c1 ∧
      c1.GetComponent "Position" 0 = some 12 ∧ c1.HasComponent "Position" 0 = some true ∧
      ∃ c2, c1.RemoveComponent "Position" 0 = some c2 ∧
        c2.HasComponent "Position" 0 = some false :=
  have h := add_get_remove_has positionWorld positionWorld_reachable "Position" 0 12 0
    (by decide!) (by decide!) (by decide!)
  have hex : ∃ c1, positionWorld.AddComponent "Position" 0 12 = some c1 :=
    h.2.2 ⟨by decide, fun S s hmem => absurd hmem (List.not_mem_nil _)⟩
  match hex with
  | ⟨c1, hc1⟩ => ⟨c1, hc1, h.1 c1 hc1⟩

end Coordinator

namespace SystemManager

theorem GetSystem_eq_find (sm : SystemManager) (S : TypeName) :
    sm.GetSystem S = sm.m_systems.find S := by
  unfold GetSystem UMap.contains
  cases h : sm.m_systems.find S <;> simp

/-- C7: for every entity `e`, every signature `sig` and every System Registry
whose systems hold entity sets built by the dense-map operations and each have
a recorded required signature, `on_signature_changed(e, sig)` runs to
completion, leaves the required signatures alone, and afterwards each
registered system `S` with required signature `Rs` contains `e` iff
`(sig & Rs) == Rs`, whatever its membership was before; membership of every
other entity is unchanged. -/
theorem signature_changed_membership (sm : SystemManager) (e : Entity) (sig : Signature)
    (hb : ∀ S s, (S, s) ∈ sm.m_systems → s.m_entities.Built)
    (hs : ∀ S s, (S, s) ∈ sm.m_systems → ∃ Rs, sm.m_signatures.find S = some Rs) :
    ∃ sm', sm.EntitySignatureChanged e sig = some sm' ∧
      sm'.m_signatures = sm.m_signatures ∧
      ∀ S s Rs, sm.GetSystem S = some s → sm.m_signatures.find S = some Rs →
        ∃ s', sm'.GetSystem S = some s' ∧
          (s'.HasEntity e = true ↔ sig &&& Rs = Rs) ∧
          ∀ e', e' ≠ e → s'.HasEntity e' = s.HasEntity e' := by
  have hw : ∀ S s, (S, s) ∈ sm.m_systems → s.m_entities.WF :=
    fun S s hmem => DenseMap.built_wf (hb S s hmem)
  obtain ⟨sm', hsm'⟩ := EntitySignatureChanged_isSome sm e sig hw hs
  obtain ⟨s1, s2, s3, _, _⟩ := EntitySignatureChanged_spec hsm' hw
  refine ⟨sm', hsm', s1, ?_⟩
  intro S s Rs hget hRs
  rw [GetSystem_eq_find] at hget
  cases hf : sm'.m_systems.find S with
  | none =>
    rw [(s2 S).1 hf] at hget
    exact absurd hget (by simp)
  | some s' =>
    obtain ⟨s0, Rs0, h1, h2, h3⟩ := s3 S s' hf
    rw [hget] at h1
    injection h1 with h1
    subst h1
    rw [hRs] at h2
    injection h2 with h2
    subst h2
    refine ⟨s', by rw [GetSystem_eq_find]; exact hf, ?_, ?_⟩
    · rw [h3 e]
      simp
    · intro e' hne
      rw [h3 e']
      have hne' : ¬ e = e' := fun hc => hne hc.symm
      simp [hne']

/-- Witness for C7: on the example registry, notifying entity 3 with signature
`{bit 0}` removes nothing from `Mover` (which needs bits 0 and 1) and keeps 3
in `Spawner` (which needs nothing). -/
theorem signature_changed_membership_witness :
    ∃ sm', sampleRegistry.EntitySignatureChanged 3 1 = some sm' ∧
      sm'.m_signatures = sampleRegistry.m_signatures ∧
      ∀ S s Rs, sampleRegistry.GetSystem S = some s →
        sampleRegistry.m_signatures.find S = some Rs →
        ∃ s', sm'.GetSystem S = some s' ∧
          (s'.HasEntity 3 = true ↔ 1 &&& Rs = Rs) ∧
          ∀ e', e' ≠ 3 → s'.HasEntity e' = s.HasEntity e' :=
  signature_changed_membership sampleRegistry 3 1
    (fun S s hmem => by
      simp only [sampleRegistry, List.mem_cons, Prod.mk.injEq, List.mem_singleton,
        List.not_mem_nil, or_false] at hmem
      rcases hmem with ⟨_, rfl⟩ | ⟨_, rfl⟩
      · exact DenseMap.Built.new
      · exact DenseMap.Built.insert DenseMap.Built.new
          (by decide : (DenseMap.new : DenseMap Entity Entity).Insert 3 3 = some _))
    (fun S s hmem => by
      simp only [sampleRegistry, List.mem_cons, Prod.mk.injEq, List.mem_singleton,
        List.not_mem_nil, or_false] at hmem
      rcases hmem with ⟨rfl, _⟩ | ⟨rfl, _⟩
      · exact ⟨3, by decide⟩
      · exact ⟨0, by decide⟩)

end SystemManager

namespace Coordinator

variable {V : Type}

theorem IsEntityAlive_applyOp {c c' : Coordinator V} {op : Op V} {e : Entity}
    (h : applyOp c op = some c') (hp : op.purges = false)
    (ha : c.IsEntityAlive e = some true) : c'.IsEntityAlive e = some true := by
  unfold IsEntityAlive at ha ⊢
  obtain ⟨helt, hcon⟩ := IsAlive_eq_some_true ha
  cases op with
  | init => simp [Op.purges] at hp
  | destroyQueuedEntities => simp [Op.purges] at hp
  | destroyAllEntities => simp [Op.purges] at hp
  | createEntity =>
    simp only [applyOp, CreateEntity] at h
    cases hc : c.m_entityManager.CreateEntity with
    | none => simp [hc] at h
    | some r =>
      obtain ⟨id, em'⟩ := r
      simp only [hc, Option.map_some', Option.some.injEq] at h
      subst h
      simp only
      rw [EntityManager.IsAlive_CreateEntity hc e helt, hcon]
      simp
  | destroyEntity e' =>
    simp only [applyOp, Option.some.injEq] at h
    subst h
    exact ha
  | registerComponent T =>
    simp only [applyOp, RegisterComponent] at h
    cases hc : c.m_componentManager.RegisterComponentType T with
    | none => simp [hc] at h
    | some cm =>
      simp only [hc, Option.map_some', Option.some.injEq] at h
      subst h
      exact ha
  | addComponent T e' v =>
    simp only [applyOp] at h
    obtain ⟨_, cm, _, h2⟩ := coord_AddComponent_eq_some h
    obtain ⟨sig, id, sig', em, sm, _, _, _, h4, _, rfl⟩ := updateSignature_eq_some h2
    obtain ⟨_, rfl⟩ := EntityManager.SetSignature_eq_some h4
    exact ha
  | removeComponent T e' =>
    simp only [applyOp] at h
    obtain ⟨_, cm, _, h2⟩ := coord_RemoveComponent_eq_some h
    obtain ⟨sig, id, sig', em, sm, _, _, _, h4, _, rfl⟩ := updateSignature_eq_some h2
    obtain ⟨_, rfl⟩ := EntityManager.SetSignature_eq_some h4
    exact ha
  | assignComponent T e' v =>
    simp only [applyOp, AssignComponent] at h
    split at h
    · cases hc : c.m_componentManager.AssignComponent T e' v with
      | none => simp [hc] at h
      | some cm =>
        simp only [hc, Option.map_some', Option.some.injEq] at h
        subst h
        exact ha
    · exact absurd h (by simp)
  | registerSystem S =>
    simp only [applyOp, RegisterSystem] at h
    cases hc : c.m_systemManager.RegisterSystem S with
    | none => simp [hc] at h
    | some sm =>
      simp only [hc, Option.map_some', Option.some.injEq] at h
      subst h
      exact ha
  | setSystemSignature S sig =>
    simp only [applyOp, SetSystemSignature] at h
    cases hc : c.m_systemManager.SetSystemSignature S sig with
    | none => simp [hc] at h
    | some sm =>
      simp only [hc, Option.map_some', Option.some.injEq] at h
      subst h
      exact ha

theorem IsEntityAlive_run (ops : List (Op V)) :
    ∀ {c c' : Coordinator V} {e : Entity}, run c ops = some c' →
      (∀ op, op ∈ ops → op.purges = false) → c.IsEntityAlive e = some true →
      c'.IsEntityAlive e = some true := by
  induction ops with
  | nil =>
    intro c c' e h _ ha
    simp only [run, Option.some.injEq] at h
    exact h ▸ ha
  | cons op ops ih =>
    intro c c' e h hp ha
    simp only [run] at h
    cases h1 : applyOp c op with
    | none => simp [h1] at h
    | some c1 =>
      simp only [h1] at h
      exact ih h (fun op' hmem => hp op' (List.mem_cons_of_mem _ hmem))
        (IsEntityAlive_applyOp h1 (hp op (List.mem_cons_self _ _)) ha)

/-- C9: `destroy_entity(e)` only appends `e` to the destroy queue. The three
managers are unchanged, so liveness, signatures, components and every system
are the same right after the call as before it; and when `e` is alive it stays
alive through every later sequence of calls that contains neither
`flush_destroyed_entities()` nor `destroy_all_entities()` (nor a second
`Init()`). -/
theorem destroy_entity_only_enqueues (c : Coordinator V) (e : Entity) :
    (c.DestroyEntity e).m_entitiesToDestroy = c.m_entitiesToDestroy ++ [e] ∧
    (c.DestroyEntity e).m_entityManager = c.m_entityManager ∧
    (c.DestroyEntity e).m_componentManager = c.m_componentManager ∧
    (c.DestroyEntity e).m_systemManager = c.m_systemManager ∧
    (∀ e', (c.DestroyEntity e).IsEntityAlive e' = c.IsEntityAlive e') ∧
    (∀ e', (c.DestroyEntity e).GetSignature e' = c.GetSignature e') ∧
    (c.DestroyEntity e).GetLivingEntities = c.GetLivingEntities ∧
    (∀ T e', (c.DestroyEntity e).HasComponent T e' = c.HasComponent T e') ∧
    (∀ T e', (c.DestroyEntity e).GetComponent T e' = c.GetComponent T e') ∧
    (∀ S, (c.DestroyEntity e).GetSystem S = c.GetSystem S) ∧
    (c.IsEntityAlive e = some true →
      ∀ ops c', (∀ op, op ∈ ops → op.purges = false) →
        run (c.DestroyEntity e) ops = some c' → c'.IsEntityAlive e = some true) := by
  refine ⟨rfl, rfl, rfl, rfl, fun _ => rfl, fun _ => rfl, rfl, fun _ _ => rfl,
    fun _ _ => rfl, fun _ => rfl, ?_⟩
  intro ha ops c' hp hrun
  exact IsEntityAlive_run ops hrun hp ha

end Coordinator

namespace UMap

variable {K T : Type} [DecidableEq K]

omit [DecidableEq K] in
/-- The loop ends the call when its body does so on some entry. -/
theorem forEachM_eq_none {body : K → T → Option T} {m : UMap K T} {k : K} {v : T}
    (hm : (k, v) ∈ m) (hb : body k v = none) : forEachM body m = none := by
  cases h : forEachM body m with
  | none => rfl
  | some m' =>
    obtain ⟨v', hv'⟩ := body_isSome_of_forEachM h hm
    rw [hb] at hv'
    exact absurd hv' (by simp)

end UMap

namespace Coordinator

variable {V : Type}

theorem mem_dedupFrom (l : List Entity) :
    ∀ (seen : List Entity) (x : Entity), x ∈ dedupFrom seen l ↔ x ∈ l ∧ x ∉ seen := by
  induction l with
  | nil => intro seen x; simp [dedupFrom]
  | cons e rest ih =>
    intro seen x
    by_cases he : e ∈ seen
    · simp only [dedupFrom, he, if_true, ih, List.mem_cons]
      constructor
      · rintro ⟨h1, h2⟩
        exact ⟨Or.inr h1, h2⟩
      · rintro ⟨h1 | h1, h2⟩
        · subst h1
          exact absurd he h2
        · exact ⟨h1, h2⟩
    · simp only [dedupFrom, he, if_false, List.mem_cons, ih]
      constructor
      · rintro (h1 | ⟨h1, h2⟩)
        · subst h1
          exact ⟨Or.inl rfl, he⟩
        · exact ⟨Or.inr h1, fun hc => h2 (Or.inr hc)⟩
      · rintro ⟨h1 | h1, h2⟩
        · exact Or.inl h1
        · by_cases hx : x = e
          · exact Or.inl hx
          · refine Or.inr ⟨h1, ?_⟩
            rintro (hc | hc)
            · exact hx hc
            · exact h2 hc

theorem nodup_dedupFrom (l : List Entity) : ∀ seen : List Entity, (dedupFrom seen l).Nodup := by
  induction l with
  | nil => intro seen; simp [dedupFrom]
  | cons e rest ih =>
    intro seen
    by_cases he : e ∈ seen
    · simp only [dedupFrom, he, if_true]
      exact ih seen
    · simp only [dedupFrom, he, if_false, List.nodup_cons]
      refine ⟨?_, ih _⟩
      rw [mem_dedupFrom]
      simp

theorem dedupFrom_idem (l : List Entity) :
    ∀ seen : List Entity, dedupFrom seen (dedupFrom seen l) = dedupFrom seen l := by
  induction l with
  | nil => intro seen; simp [dedupFrom]
  | cons e rest ih =>
    intro seen
    by_cases he : e ∈ seen
    · simp only [dedupFrom, he, if_true]
      exact ih seen
    · simp only [dedupFrom, he, if_false]
      rw [ih]

theorem dedupFrom_eq_nil_iff (l : List Entity) : dedupFrom [] l = [] ↔ l = [] := by
  cases l with
  | nil => simp [dedupFrom]
  | cons e rest => simp [dedupFrom]

/-- Effect of the three destroy calls on liveness and on the system registry's
recorded signatures. -/
theorem destroyNow_alive {c c' : Coordinator V} {e : Entity} (hinv : c.Inv)
    (h : c.destroyNow e = some c') :
    (∀ e', c'.m_entityManager.m_livingEntities.Contains e' =
      (!decide (e = e') && c.m_entityManager.m_livingEntities.Contains e')) ∧
    (AllSystemsHaveSignature c.m_systemManager) ∧
    (AllSystemsHaveSignature c'.m_systemManager) ∧
    c'.m_entitiesToDestroy = c.m_entitiesToDestroy := by
  obtain ⟨em, cm, sm, h1, h2, h3, rfl⟩ := destroyNow_eq_some h
  obtain ⟨living, _, hE, rfl⟩ := EntityManager.DestroyEntity_eq_some h1
  obtain ⟨s1, _, s3, _, s5⟩ := SystemManager.EntitySignatureChanged_spec h3 hinv.systems
  refine ⟨fun e' => DenseMap.Contains_Erase hinv.em.wf hE e', s5, ?_, rfl⟩
  intro S s' hmem
  simp only at hmem ⊢
  obtain ⟨s'', hs''⟩ := Option.isSome_iff_exists.1 (UMap.find_isSome_of_mem hmem)
  obtain ⟨s, Rs, _, hRs, _⟩ := s3 S s'' hs''
  exact ⟨Rs, by rw [s1]; exact hRs⟩

/-- The three destroy calls run to completion on an alive entity exactly when
every registered system has a recorded signature. -/
theorem destroyNow_isSome_iff {c : Coordinator V} {e : Entity} (hinv : c.Inv)
    (ha : c.m_entityManager.m_livingEntities.Contains e = true) :
    (∃ c', c.destroyNow e = some c') ↔ AllSystemsHaveSignature c.m_systemManager := by
  constructor
  · rintro ⟨c', h⟩
    exact (destroyNow_alive hinv h).2.1
  · intro hs
    obtain ⟨d', hd'⟩ := DenseMap.Erase_of_contains hinv.em.wf ha
    obtain ⟨cm, hcm⟩ := ComponentManager.EntityDestroyed_isSome c.m_componentManager e hinv.arrays
    obtain ⟨sm, hsm⟩ := SystemManager.EntitySignatureChanged_isSome c.m_systemManager e
      Signature.empty hinv.systems hs
    simp [destroyNow, EntityManager.DestroyEntity, ha, hd', hcm, hsm]

end Coordinator

namespace Coordinator

variable {V : Type}

theorem IsAlive_of_lt (em : EntityManager) {e : Entity} (h : e < MaxEntities) :
    em.IsAlive e = some (em.m_livingEntities.Contains e) := by
  simp [EntityManager.IsAlive, h]

/-- The loop of `DestroyQueuedEntities` does what an unconditional destroy loop
does on the queued ids that are alive at the start, each taken once. -/
theorem destroyQueuedLoop_eq (l : List Entity) :
    ∀ (seen : List Entity) (c : Coordinator V), c.Inv →
      (∀ x, x ∈ seen → c.m_entityManager.m_livingEntities.Contains x = false) →
      (∀ x, x ∈ l → x < MaxEntities) →
      destroyQueuedLoop c l =
        destroyAllLoop c ((dedupFrom seen l).filter
          (fun x => c.m_entityManager.m_livingEntities.Contains x)) := by
  induction l with
  | nil => intro seen c _ _ _; simp [destroyQueuedLoop, dedupFrom, destroyAllLoop]
  | cons e rest ih =>
    intro seen c hinv hseen hrange
    have helt := hrange e (List.mem_cons_self _ _)
    have hrest : ∀ x, x ∈ rest → x < MaxEntities :=
      fun x hx => hrange x (List.mem_cons_of_mem _ hx)
    simp only [destroyQueuedLoop, IsAlive_of_lt _ helt]
    by_cases he : e ∈ seen
    · simp only [hseen e he, dedupFrom, he, if_true]
      exact ih seen c hinv hseen hrest
    · simp only [dedupFrom, he, if_false]
      cases hc : c.m_entityManager.m_livingEntities.Contains e with
      | false =>
        simp only [List.filter_cons, hc, Bool.false_eq_true, if_false]
        refine ih (e :: seen) c hinv ?_ hrest
        intro x hx
        rcases List.mem_cons.1 hx with h1 | h1
        · rw [h1]; exact hc
        · exact hseen x h1
      | true =>
        simp only [List.filter_cons, hc, if_true, destroyAllLoop]
        cases hd : c.destroyNow e with
        | none => rfl
        | some c1 =>
          simp only
          obtain ⟨hal, _, _, _⟩ := destroyNow_alive hinv hd
          rw [ih (e :: seen) c1 (cinv_destroyNow hinv hd) ?_ hrest]
          · congr 1
            apply List.filter_congr
            intro x hx
            rw [mem_dedupFrom] at hx
            have hne : ¬ e = x := fun hc' => hx.2 (hc' ▸ List.mem_cons_self _ _)
            rw [hal x]
            simp [hne]
          · intro x hx
            rw [hal x]
            rcases List.mem_cons.1 hx with h1 | h1
            · simp [h1]
            · simp [hseen x h1]

theorem destroyNow_setQueue (c : Coordinator V) (q : List Entity) (e : Entity) :
    destroyNow { c with m_entitiesToDestroy := q } e =
      (destroyNow c e).map (fun c' => { c' with m_entitiesToDestroy := q }) := by
  unfold destroyNow
  cases c.m_entityManager.DestroyEntity e with
  | none => rfl
  | some em =>
    cases c.m_componentManager.EntityDestroyed e with
    | none => rfl
    | some cm =>
      cases c.m_systemManager.EntitySignatureChanged e Signature.empty with
      | none => rfl
      | some sm => rfl

theorem destroyAllLoop_setQueue (l : List Entity) :
    ∀ (c : Coordinator V) (q : List Entity),
      destroyAllLoop { c with m_entitiesToDestroy := q } l =
        (destroyAllLoop c l).map (fun c' => { c' with m_entitiesToDestroy := q }) := by
  induction l with
  | nil => intro c q; rfl
  | cons e rest ih =>
    intro c q
    simp only [destroyAllLoop, destroyNow_setQueue]
    cases hd : c.destroyNow e with
    | none => rfl
    | some c1 =>
      simp only [Option.map_some']
      exact ih c1 q

/-- After the unconditional destroy loop exactly the ids of the list have left
the living set, and the queue is as before. -/
theorem destroyAllLoop_alive (l : List Entity) :
    ∀ {c c' : Coordinator V}, c.Inv → destroyAllLoop c l = some c' →
      (∀ e, c'.m_entityManager.m_livingEntities.Contains e =
        (c.m_entityManager.m_livingEntities.Contains e && !decide (e ∈ l))) ∧
      c'.m_entitiesToDestroy = c.m_entitiesToDestroy := by
  induction l with
  | nil =>
    intro c c' _ h
    simp only [destroyAllLoop, Option.some.injEq] at h
    subst h
    simp
  | cons e rest ih =>
    intro c c' hinv h
    simp only [destroyAllLoop] at h
    cases hd : c.destroyNow e with
    | none => simp [hd] at h
    | some c1 =>
      simp only [hd] at h
      obtain ⟨hal, _, _, hq⟩ := destroyNow_alive hinv hd
      obtain ⟨h1, h2⟩ := ih (cinv_destroyNow hinv hd) h
      refine ⟨fun x => ?_, h2.trans hq⟩
      rw [h1 x, hal x]
      by_cases hx : e = x
      · subst hx
        simp
      · have hx' : ¬ x = e := fun hc => hx hc.symm
        simp [hx, hx']

/-- The unconditional destroy loop over distinct alive ids fails exactly when
the list is non-empty and some registered system has no recorded signature. -/
theorem destroyAllLoop_eq_none_iff (l : List Entity) :
    ∀ (c : Coordinator V), c.Inv → l.Nodup →
      (∀ x, x ∈ l → c.m_entityManager.m_livingEntities.Contains x = true) →
      (destroyAllLoop c l = none ↔ l ≠ [] ∧ ¬ AllSystemsHaveSignature c.m_systemManager) := by
  induction l with
  | nil => intro c _ _ _; simp [destroyAllLoop]
  | cons e rest ih =>
    intro c hinv hnd hal
    have hiff := destroyNow_isSome_iff hinv (hal e (List.mem_cons_self _ _))
    simp only [destroyAllLoop, ne_eq, not_false_eq_true, true_and, reduceCtorEq]
    cases hd : c.destroyNow e with
    | none =>
      simp only [true_iff]
      intro hs
      obtain ⟨c', hc'⟩ := hiff.2 hs
      rw [hd] at hc'
      exact absurd hc' (by simp)
    | some c1 =>
      simp only
      obtain ⟨halive, hs, hs1, _⟩ := destroyNow_alive hinv hd
      have hnd' := List.nodup_cons.1 hnd
      rw [ih c1 (cinv_destroyNow hinv hd) hnd'.2 ?_]
      · constructor
        · rintro ⟨_, h2⟩
          exact absurd hs1 h2
        · intro h2
          exact absurd hs h2
      · intro x hx
        rw [halive x]
        have hne : ¬ e = x := fun hc => hnd'.1 (hc ▸ hx)
        simp [hne, hal x (List.mem_cons_of_mem _ hx)]

theorem setQueue_nil_self (c : Coordinator V) (h : c.m_entitiesToDestroy = []) :
    ({ c with m_entitiesToDestroy := [] } : Coordinator V) = c := by
  cases c
  simp only at h
  subst h
  rfl

/-- `DestroyQueuedEntities` as an unconditional destroy loop over the queued ids
that are alive, each taken once, followed by clearing the queue. -/
theorem DestroyQueuedEntities_eq (c : Coordinator V) (hinv : c.Inv)
    (hrange : ∀ e, e ∈ c.m_entitiesToDestroy → e < MaxEntities) :
    c.DestroyQueuedEntities =
      (destroyAllLoop c ((withoutDuplicates c.m_entitiesToDestroy).filter
        (fun e => c.m_entityManager.m_livingEntities.Contains e))).map
        (fun c' => { c' with m_entitiesToDestroy := [] }) := by
  unfold DestroyQueuedEntities withoutDuplicates
  by_cases he : c.m_entitiesToDestroy.isEmpty = true
  · have hq : c.m_entitiesToDestroy = [] := List.isEmpty_iff.1 he
    rw [if_pos he, hq]
    simp only [dedupFrom, List.filter_nil, destroyAllLoop, Option.map_some']
    rw [setQueue_nil_self c hq]
  · simp only [he, Bool.false_eq_true, if_false]
    rw [destroyQueuedLoop_eq _ [] c hinv (fun x hx => absurd hx (List.not_mem_nil _)) hrange]

end Coordinator

namespace Coordinator

variable {V : Type}

/-- C10: for every reachable coordinator state whose destroy queue holds in-range
ids, `flush_destroyed_entities()` (1) gives the same result as flushing the same
queue with duplicate ids removed, (2) is the unconditional destroy of each
queued id that is alive, taken once in queue order, followed by clearing the
queue, ids that are not alive or already handled being skipped, (3) fails only
when some queued id is alive and some registered system has no recorded
signature, never because an id is queued twice or no longer alive, and (4) on
completion leaves the queue empty and exactly the alive ids outside the queue
alive. -/
theorem flush_destroys_each_alive_once (c : Coordinator V) (h : Reachable c)
    (hrange : ∀ e, e ∈ c.m_entitiesToDestroy → e < MaxEntities) :
    c.DestroyQueuedEntities =
      DestroyQueuedEntities
        { c with m_entitiesToDestroy := withoutDuplicates c.m_entitiesToDestroy } ∧
    c.DestroyQueuedEntities =
      (destroyAllLoop c ((withoutDuplicates c.m_entitiesToDestroy).filter
        (fun e => c.m_entityManager.m_livingEntities.Contains e))).map
        (fun c' => { c' with m_entitiesToDestroy := [] }) ∧
    (c.DestroyQueuedEntities = none ↔
      (∃ e, e ∈ c.m_entitiesToDestroy ∧ c.IsEntityAlive e = some true) ∧
        ¬ AllSystemsHaveSignature c.m_systemManager) ∧
    (∀ c', c.DestroyQueuedEntities = some c' →
      c'.m_entitiesToDestroy = [] ∧
      ∀ e, c'.IsEntityAlive e = some true ↔
        (c.IsEntityAlive e = some true ∧ e ∉ c.m_entitiesToDestroy)) := by
  have hinv := cinv_of_reachable h
  have heq := DestroyQueuedEntities_eq c hinv hrange
  have hmemL : ∀ e, e ∈ (withoutDuplicates c.m_entitiesToDestroy).filter
      (fun e => c.m_entityManager.m_livingEntities.Contains e) ↔
      e ∈ c.m_entitiesToDestroy ∧ c.m_entityManager.m_livingEntities.Contains e = true := by
    intro e
    simp [withoutDuplicates, mem_dedupFrom]
  refine ⟨?_, heq, ?_, ?_⟩
  · have hinv2 : ({ c with m_entitiesToDestroy := withoutDuplicates c.m_entitiesToDestroy } :
        Coordinator V).Inv := { hinv with }
    have hrange2 : ∀ e, e ∈ withoutDuplicates c.m_entitiesToDestroy → e < MaxEntities := by
      intro e he
      rw [withoutDuplicates, mem_dedupFrom] at he
      exact hrange e he.1
    rw [heq, DestroyQueuedEntities_eq _ hinv2 hrange2]
    simp only [withoutDuplicates, dedupFrom_idem, destroyAllLoop_setQueue, Option.map_map]
    rfl
  · have hnd : ((withoutDuplicates c.m_entitiesToDestroy).filter
        (fun e => c.m_entityManager.m_livingEntities.Contains e)).Nodup :=
      List.Nodup.filter _ (nodup_dedupFrom c.m_entitiesToDestroy [])
    rw [heq, Option.map_eq_none',
      destroyAllLoop_eq_none_iff _ c hinv hnd (fun x hx => ((hmemL x).1 hx).2)]
    have hne : ((withoutDuplicates c.m_entitiesToDestroy).filter
        (fun e => c.m_entityManager.m_livingEntities.Contains e) ≠ []) ↔
        ∃ e, e ∈ c.m_entitiesToDestroy ∧ c.IsEntityAlive e = some true := by
      constructor
      · intro hL
        obtain ⟨e, he⟩ := List.exists_mem_of_ne_nil _ hL
        obtain ⟨h1, h2⟩ := (hmemL e).1 he
        exact ⟨e, h1, by simp [IsEntityAlive, IsAlive_of_lt _ (hrange e h1), h2]⟩
      · rintro ⟨e, h1, h2⟩
        exact List.ne_nil_of_mem ((hmemL e).2 ⟨h1, (IsAlive_eq_some_true h2).2⟩)
    rw [hne]
  · intro c' hc'
    rw [heq] at hc'
    cases hl : destroyAllLoop c ((withoutDuplicates c.m_entitiesToDestroy).filter
        (fun e => c.m_entityManager.m_livingEntities.Contains e)) with
    | none => simp [hl] at hc'
    | some c1 =>
      simp only [hl, Option.map_some', Option.some.injEq] at hc'
      subst hc'
      obtain ⟨hal, _⟩ := destroyAllLoop_alive _ hinv hl
      refine ⟨rfl, fun e => ?_⟩
      by_cases helt : e < MaxEntities
      · simp only [IsEntityAlive, IsAlive_of_lt _ helt, Option.some.injEq, hal e,
          Bool.and_eq_true, Bool.not_eq_true', decide_eq_false_iff_not, hmemL e]
        constructor
        · rintro ⟨h1, h2⟩
          exact ⟨h1, fun hq => h2 ⟨hq, h1⟩⟩
        · rintro ⟨h1, h2⟩
          exact ⟨h1, fun hq => h2 hq.1⟩
      · simp [IsEntityAlive, EntityManager.IsAlive, helt]

end Coordinator

namespace Coordinator

variable {V : Type}

theorem run_append (l1 : List (Op V)) :
    ∀ (c : Coordinator V) (l2 : List (Op V)),
      run c (l1 ++ l2) = (run c l1).bind (fun c1 => run c1 l2) := by
  induction l1 with
  | nil => intro c l2; rfl
  | cons op ops ih =>
    intro c l2
    simp only [List.cons_append, run]
    cases applyOp c op with
    | none => rfl
    | some c1 => exact ih c1 l2

theorem fresh_applyOp {c c' : Coordinator V} {op : Op V} (hf : Fresh c)
    (hop : op.configures = true) (h : applyOp c op = some c') : Fresh c' := by
  cases op with
  | registerComponent T =>
    simp only [applyOp, RegisterComponent] at h
    cases hc : c.m_componentManager.RegisterComponentType T with
    | none => simp [hc] at h
    | some cm =>
      simp only [hc, Option.map_some', Option.some.injEq] at h
      subst h
      exact hf
  | registerSystem S =>
    simp only [applyOp, RegisterSystem, SystemManager.RegisterSystem] at h
    by_cases hc : c.m_systemManager.m_systems.contains S = true
    · simp [hc] at h
    · simp only [hc, Bool.false_eq_true, if_false, Option.map_some', Option.some.injEq] at h
      subst h
      refine ⟨hf.1, fun S1 s1 hmem => ?_⟩
      simp only [List.mem_append, List.mem_singleton] at hmem
      rcases hmem with h1 | h1
      · exact hf.2 S1 s1 h1
      · injection h1
  | setSystemSignature S sig =>
    simp only [applyOp, SetSystemSignature, SystemManager.SetSystemSignature] at h
    by_cases hc : c.m_systemManager.m_systems.contains S = true
    · simp only [hc, if_true, Option.map_some', Option.some.injEq] at h
      subst h
      exact hf
    · simp [hc] at h
  | init => simp [Op.configures] at hop
  | createEntity => simp [Op.configures] at hop
  | destroyEntity e => simp [Op.configures] at hop
  | destroyQueuedEntities => simp [Op.configures] at hop
  | destroyAllEntities => simp [Op.configures] at hop
  | addComponent T e v => simp [Op.configures] at hop
  | removeComponent T e => simp [Op.configures] at hop
  | assignComponent T e v => simp [Op.configures] at hop

theorem fresh_run (ops : List (Op V)) :
    ∀ {c c' : Coordinator V}, Fresh c → (∀ op, op ∈ ops → op.configures = true) →
      run c ops = some c' → Fresh c' := by
  induction ops with
  | nil =>
    intro c c' hf _ h
    simp only [run, Option.some.injEq] at h
    exact h ▸ hf
  | cons op ops ih =>
    intro c c' hf hp h
    simp only [run] at h
    cases h1 : applyOp c op with
    | none => simp [h1] at h
    | some c1 =>
      simp only [h1] at h
      exact ih (fresh_applyOp hf (hp op (List.mem_cons_self _ _)) h1)
        (fun op' hmem => hp op' (List.mem_cons_of_mem _ hmem)) h

theorem land_empty_ne {Rs : Signature} (h : Rs ≠ Signature.empty) :
    ¬ (Signature.empty &&& Rs = Rs) := by
  intro hc
  apply h
  rw [← hc]
  simp [Signature.empty]

theorem nonEmptyMatch_of_fresh {c : Coordinator V} (hf : Fresh c) :
    NonEmptyMatch c.m_entityManager.m_signatures c.m_systemManager := by
  intro S s Rs e sig hs _ hRs hsig
  have h1 := hf.2 S s (UMap.mem_of_find hs)
  subst h1
  rw [hf.1] at hsig
  simp only [EntityManager.new, List.getElem?_replicate] at hsig
  split at hsig
  · injection hsig with hsig
    subst hsig
    constructor
    · intro hc
      simp [System.HasEntity, System.new, DenseMap.new, DenseMap.Contains, UMap.contains,
        UMap.find] at hc
    · intro hc
      exact absurd hc (land_empty_ne hRs)
  · exact absurd hsig (by simp)

/-- Storing `sig0` for `e0` and notifying the systems with it keeps membership
in agreement with the match test. -/
theorem nonEmptyMatch_notify {signatures : List Signature} {sm sm' : SystemManager}
    {e0 : Entity} {sig0 : Signature} (hm : NonEmptyMatch signatures sm)
    (hw : ∀ S s, (S, s) ∈ sm.m_systems → s.m_entities.WF)
    (h : sm.EntitySignatureChanged e0 sig0 = some sm') :
    NonEmptyMatch (signatures.set e0 sig0) sm' := by
  obtain ⟨s1, _, s3, _, _⟩ := SystemManager.EntitySignatureChanged_spec h hw
  intro S s' Rs e sig hs' hRs hne hsig
  obtain ⟨s, Rs0, h1, h2, h3⟩ := s3 S s' hs'
  rw [s1, h2] at hRs
  injection hRs with hRs
  subst hRs
  rw [h3 e]
  rw [List.getElem?_set] at hsig
  by_cases he : e0 = e
  · subst he
    simp only [if_true] at hsig ⊢
    split at hsig
    · injection hsig with hsig
      subst hsig
      simp
    · exact absurd hsig (by simp)
  · simp only [he, if_false] at hsig ⊢
    exact hm S s Rs0 e sig h1 h2 hne hsig

theorem nonEmptyMatch_destroyNow {c c' : Coordinator V} {e : Entity} (hinv : c.Inv)
    (hm : NonEmptyMatch c.m_entityManager.m_signatures c.m_systemManager)
    (h : c.destroyNow e = some c') :
    NonEmptyMatch c'.m_entityManager.m_signatures c'.m_systemManager := by
  obtain ⟨em, cm, sm, h1, _, h3, rfl⟩ := destroyNow_eq_some h
  obtain ⟨living, _, _, rfl⟩ := EntityManager.DestroyEntity_eq_some h1
  exact nonEmptyMatch_notify hm hinv.systems h3

theorem nonEmptyMatch_updateSignature {c c' : Coordinator V} {cm : ComponentManager V}
    {T : TypeName} {e : Entity} {val : Bool} (hinv : c.Inv)
    (hm : NonEmptyMatch c.m_entityManager.m_signatures c.m_systemManager)
    (h : updateSignature c cm T e val = some c') :
    NonEmptyMatch c'.m_entityManager.m_signatures c'.m_systemManager := by
  obtain ⟨sig, id, sig', em, sm, _, _, _, h4, h5, rfl⟩ := updateSignature_eq_some h
  obtain ⟨_, rfl⟩ := EntityManager.SetSignature_eq_some h4
  exact nonEmptyMatch_notify hm hinv.systems h5

theorem nonEmptyMatch_destroyQueuedLoop (l : List Entity) :
    ∀ {c c' : Coordinator V}, c.Inv →
      NonEmptyMatch c.m_entityManager.m_signatures c.m_systemManager →
      destroyQueuedLoop c l = some c' →
      NonEmptyMatch c'.m_entityManager.m_signatures c'.m_systemManager := by
  induction l with
  | nil =>
    intro c c' _ hm h
    simp only [destroyQueuedLoop, Option.some.injEq] at h
    exact h ▸ hm
  | cons e rest ih =>
    intro c c' hinv hm h
    simp only [destroyQueuedLoop] at h
    cases ha : c.m_entityManager.IsAlive e with
    | none => simp [ha] at h
    | some b =>
      cases b with
      | false =>
        simp only [ha] at h
        exact ih hinv hm h
      | true =>
        simp only [ha] at h
        cases hd : c.destroyNow e with
        | none => simp [hd] at h
        | some c1 =>
          simp only [hd] at h
          exact ih (cinv_destroyNow hinv hd) (nonEmptyMatch_destroyNow hinv hm hd) h

theorem nonEmptyMatch_destroyAllLoop (l : List Entity) :
    ∀ {c c' : Coordinator V}, c.Inv →
      NonEmptyMatch c.m_entityManager.m_signatures c.m_systemManager →
      destroyAllLoop c l = some c' →
      NonEmptyMatch c'.m_entityManager.m_signatures c'.m_systemManager := by
  induction l with
  | nil =>
    intro c c' _ hm h
    simp only [destroyAllLoop, Option.some.injEq] at h
    exact h ▸ hm
  | cons e rest ih =>
    intro c c' hinv hm h
    simp only [destroyAllLoop] at h
    cases hd : c.destroyNow e with
    | none => simp [hd] at h
    | some c1 =>
      simp only [hd] at h
      exact ih (cinv_destroyNow hinv hd) (nonEmptyMatch_destroyNow hinv hm hd) h

end Coordinator

namespace Coordinator

variable {V : Type}

theorem nonEmptyMatch_applyOp {c c' : Coordinator V} {op : Op V} (hinv : c.Inv)
    (hm : NonEmptyMatch c.m_entityManager.m_signatures c.m_systemManager)
    (hop : op.keepsSystems = true) (h : applyOp c op = some c') :
    NonEmptyMatch c'.m_entityManager.m_signatures c'.m_systemManager := by
  cases op with
  | init => simp [Op.keepsSystems] at hop
  | registerSystem S => simp [Op.keepsSystems] at hop
  | setSystemSignature S sig => simp [Op.keepsSystems] at hop
  | createEntity =>
    simp only [applyOp, CreateEntity] at h
    cases hc : c.m_entityManager.CreateEntity with
    | none => simp [hc] at h
    | some r =>
      obtain ⟨id, em'⟩ := r
      simp only [hc, Option.map_some', Option.some.injEq] at h
      subst h
      obtain ⟨rest, living, _, _, rfl⟩ := EntityManager.CreateEntity_eq_some hc
      exact hm
  | destroyEntity e =>
    simp only [applyOp, Option.some.injEq] at h
    subst h
    exact hm
  | destroyQueuedEntities =>
    simp only [applyOp, DestroyQueuedEntities] at h
    by_cases he : c.m_entitiesToDestroy.isEmpty = true
    · simp only [he, if_true, Option.some.injEq] at h
      exact h ▸ hm
    · simp only [he, Bool.false_eq_true, if_false] at h
      cases hl : destroyQueuedLoop c c.m_entitiesToDestroy with
      | none => simp [hl] at h
      | some c1 =>
        simp only [hl, Option.map_some', Option.some.injEq] at h
        subst h
        exact (nonEmptyMatch_destroyQueuedLoop _ hinv hm hl :
          NonEmptyMatch c1.m_entityManager.m_signatures c1.m_systemManager)
  | destroyAllEntities =>
    simp only [applyOp, DestroyAllEntities] at h
    have h0 : ({ c with m_entitiesToDestroy := [] } : Coordinator V).Inv := { hinv with }
    exact nonEmptyMatch_destroyAllLoop _ h0 hm h
  | registerComponent T =>
    simp only [applyOp, RegisterComponent] at h
    cases hc : c.m_componentManager.RegisterComponentType T with
    | none => simp [hc] at h
    | some cm =>
      simp only [hc, Option.map_some', Option.some.injEq] at h
      subst h
      exact hm
  | addComponent T e v =>
    simp only [applyOp] at h
    obtain ⟨_, cm, _, h2⟩ := coord_AddComponent_eq_some h
    exact nonEmptyMatch_updateSignature hinv hm h2
  | removeComponent T e =>
    simp only [applyOp] at h
    obtain ⟨_, cm, _, h2⟩ := coord_RemoveComponent_eq_some h
    exact nonEmptyMatch_updateSignature hinv hm h2
  | assignComponent T e v =>
    simp only [applyOp, AssignComponent] at h
    split at h
    · cases hc : c.m_componentManager.AssignComponent T e v with
      | none => simp [hc] at h
      | some cm =>
        simp only [hc, Option.map_some', Option.some.injEq] at h
        subst h
        exact hm
    · exact absurd h (by simp)

theorem nonEmptyMatch_run (ops : List (Op V)) :
    ∀ {c c' : Coordinator V}, c.Inv →
      NonEmptyMatch c.m_entityManager.m_signatures c.m_systemManager →
      (∀ op, op ∈ ops → op.keepsSystems = true) → run c ops = some c' →
      NonEmptyMatch c'.m_entityManager.m_signatures c'.m_systemManager := by
  induction ops with
  | nil =>
    intro c c' _ hm _ h
    simp only [run, Option.some.injEq] at h
    exact h ▸ hm
  | cons op ops ih =>
    intro c c' hinv hm hp h
    simp only [run] at h
    cases h1 : applyOp c op with
    | none => simp [h1] at h
    | some c1 =>
      simp only [h1] at h
      exact ih (cinv_step hinv (step_of_applyOp h1))
        (nonEmptyMatch_applyOp hinv hm (hp op (List.mem_cons_self _ _)) h1)
        (fun op' hmem => hp op' (List.mem_cons_of_mem _ hmem)) h

theorem fresh_initial : Fresh (Coordinator.initial : Coordinator V) :=
  ⟨rfl, fun _ _ hmem => absurd hmem (List.not_mem_nil _)⟩

theorem running_reachable {c : Coordinator V} (h : Running c) : Reachable c := by
  obtain ⟨setup, ops, c0, _, _, h1, h2⟩ := h
  exact reachable_of_run ops (reachable_of_run setup Reachable.initial h1) h2

theorem running_nonEmptyMatch {c : Coordinator V} (h : Running c) :
    NonEmptyMatch c.m_entityManager.m_signatures c.m_systemManager := by
  obtain ⟨setup, ops, c0, hs, ho, h1, h2⟩ := h
  have hf := fresh_run setup fresh_initial hs h1
  have hinv0 := cinv_of_reachable (reachable_of_run setup Reachable.initial h1)
  exact nonEmptyMatch_run ops hinv0 (nonEmptyMatch_of_fresh hf) ho h2

/-- After the common tail of `AddComponent` / `RemoveComponent` every system,
whatever its required signature, holds the entity of the call iff the stored
signature matches. -/
theorem updateSignature_membership {c c' : Coordinator V} {cm : ComponentManager V}
    {T : TypeName} {e : Entity} {val : Bool} (hinv : c.Inv)
    (h : updateSignature c cm T e val = some c') :
    ∀ S s Rs sig, c'.GetSystem S = some s → c'.m_systemManager.m_signatures.find S = some Rs →
      c'.GetSignature e = some sig → (s.HasEntity e = true ↔ sig &&& Rs = Rs) := by
  obtain ⟨sig0, id, sig', em, sm, h1, _, _, h4, h5, rfl⟩ := updateSignature_eq_some h
  obtain ⟨helt, rfl⟩ := EntityManager.SetSignature_eq_some h4
  obtain ⟨s1, _, s3, _, _⟩ := SystemManager.EntitySignatureChanged_spec h5 hinv.systems
  intro S s Rs sig hs hRs hsig
  simp only [GetSystem, SystemManager.GetSystem_eq_find] at hs
  simp only at hRs
  obtain ⟨s0, Rs0, _, h2, h3⟩ := s3 S s hs
  rw [s1, h2] at hRs
  injection hRs with hRs
  subst hRs
  have hlen : e < c.m_entityManager.m_signatures.length := by rw [hinv.em.sigs]; exact helt
  simp only [GetSignature, EntityManager.GetSignature, helt, if_true, List.getElem?_set,
    hlen] at hsig
  injection hsig with hsig
  subst hsig
  rw [h3 e]
  simp

/-- C6 (amended): in a coordinator whose systems were all registered and given
their required signatures before any entity was created, in every later state
(so after any add_component, remove_component or flush_destroyed_entities
call) every registered system `S` whose required signature `Rs` is not empty
contains an alive entity `e` iff `(get_signature(e) & Rs) == Rs`; and right
after an add_component or remove_component call on `e`, every registered
system, also one with the empty required signature, contains `e` iff
`(get_signature(e) & Rs) == Rs`. -/
theorem membership_iff_match (c : Coordinator V) (h : Running c) :
    (∀ S s Rs e sig, c.GetSystem S = some s →
      c.m_systemManager.m_signatures.find S = some Rs → Rs ≠ Signature.empty →
      c.IsEntityAlive e = some true → c.GetSignature e = some sig →
      (s.HasEntity e = true ↔ sig &&& Rs = Rs)) ∧
    (∀ T e v c', c.AddComponent T e v = some c' →
      ∀ S s Rs sig, c'.GetSystem S = some s →
        c'.m_systemManager.m_signatures.find S = some Rs → c'.GetSignature e = some sig →
        (s.HasEntity e = true ↔ sig &&& Rs = Rs)) ∧
    (∀ T e c', c.RemoveComponent T e = some c' →
      ∀ S s Rs sig, c'.GetSystem S = some s →
        c'.m_systemManager.m_signatures.find S = some Rs → c'.GetSignature e = some sig →
        (s.HasEntity e = true ↔ sig &&& Rs = Rs)) := by
  have hinv := cinv_of_reachable (running_reachable h)
  have hm := running_nonEmptyMatch h
  refine ⟨?_, ?_, ?_⟩
  · intro S s Rs e sig hs hRs hne _ hsig
    simp only [GetSystem, SystemManager.GetSystem_eq_find] at hs
    exact hm S s Rs e sig hs hRs hne (GetSignature_eq_some hsig).2
  · intro T e v c' hadd
    obtain ⟨_, cm, _, h2⟩ := coord_AddComponent_eq_some hadd
    exact updateSignature_membership hinv h2
  · intro T e c' hrm
    obtain ⟨_, cm, _, h2⟩ := coord_RemoveComponent_eq_some hrm
    exact updateSignature_membership hinv h2

end Coordinator

namespace Coordinator

theorem spawnerWorldBefore_running : Running spawnerWorldBefore :=
  ⟨[.registerComponent "Position", .registerSystem "Spawner", .setSystemSignature "Spawner" 0],
    [.createEntity, .createEntity],
    ⟨EntityManager.new, ⟨[("Position", 0)], [("Position", ComponentArray.new)], 1⟩,
      ⟨[("Spawner", System.new)], [("Spawner", 0)]⟩, []⟩,
    by decide, by decide, by decide!, by decide!⟩

theorem moverWorld_running : Running moverWorld :=
  ⟨[.registerComponent "Position", .registerComponent "Velocity", .registerSystem "Mover",
      .setSystemSignature "Mover" 3],
    [.createEntity, .createEntity, .addComponent "Position" 0 1, .addComponent "Velocity" 0 2,
      .addComponent "Position" 1 3],
    ⟨EntityManager.new,
      ⟨[("Position", 0), ("Velocity", 1)],
        [("Position", ComponentArray.new), ("Velocity", ComponentArray.new)], 2⟩,
      ⟨[("Mover", System.new)], [("Mover", 3)]⟩, []⟩,
    by decide, by decide, by decide!, by decide!⟩

/-- C6 (counterexample): systems registered and given signatures first
(`Spawner` with the empty required signature), then entities 0 and 1 created
and a `Position` added to entity 1. After that add_component call entity 0 is
alive with the empty signature, which matches `Spawner`, yet `Spawner` does
not contain it: it was created without any notification. So the claim as
stated is false. -/
theorem idle_entity_missing_from_system :
    (Running spawnerWorldBefore ∧
      spawnerWorldBefore.AddComponent "Position" 1 7 = some spawnerWorld ∧
      spawnerWorld.IsEntityAlive 0 = some true ∧
      spawnerWorld.GetSignature 0 = some Signature.empty ∧
      spawnerWorld.GetSystem "Spawner" = some ⟨⟨[(1, 0)], [1], [1]⟩⟩ ∧
      spawnerWorld.m_systemManager.m_signatures.find "Spawner" = some Signature.empty ∧
      System.HasEntity ⟨⟨[(1, 0)], [1], [1]⟩⟩ 0 = false) ∧
    ¬ (∀ (c c' : Coordinator Nat) (T : TypeName) (e : Entity) (v : Nat),
        Running c → c.AddComponent T e v = some c' →
        ∀ e' S s Rs sig, c'.IsEntityAlive e' = some true → c'.GetSystem S = some s →
          c'.m_systemManager.m_signatures.find S = some Rs → c'.GetSignature e' = some sig →
          (s.HasEntity e' = true ↔ sig &&& Rs = Rs)) := by
  have hadd : spawnerWorldBefore.AddComponent "Position" 1 7 = some spawnerWorld := by decide!
  have halive : spawnerWorld.IsEntityAlive 0 = some true := by decide!
  have hsig : spawnerWorld.GetSignature 0 = some Signature.empty := by decide!
  have hsys : spawnerWorld.GetSystem "Spawner" = some ⟨⟨[(1, 0)], [1], [1]⟩⟩ := by decide!
  have hRs : spawnerWorld.m_systemManager.m_signatures.find "Spawner" =
      some Signature.empty := by decide!
  have hnot : System.HasEntity ⟨⟨[(1, 0)], [1], [1]⟩⟩ 0 = false := by decide
  refine ⟨⟨spawnerWorldBefore_running, hadd, halive, hsig, hsys, hRs, hnot⟩, fun hall => ?_⟩
  have h1 := hall _ _ _ _ _ spawnerWorldBefore_running hadd 0 "Spawner" _ _ _ halive hsys hRs hsig
  have h2 := h1.2 (by decide)
  rw [hnot] at h2
  exact absurd h2 (by decide)

/-- Witness for C6 (amended): in the spec scenario `Mover` (requiring `Position`
and `Velocity`) contains entity 0, which has both, and not entity 1, which
has a `Position` only. -/
theorem membership_iff_match_witness :
    (System.HasEntity ⟨⟨[(0, 0)], [0], [0]⟩⟩ 0 = true ↔ (3 : Signature) &&& 3 = 3) ∧
    (System.HasEntity ⟨⟨[(0, 0)], [0], [0]⟩⟩ 1 = true ↔ (1 : Signature) &&& 3 = 3) :=
  have h := (membership_iff_match moverWorld moverWorld_running).1
  ⟨h "Mover" ⟨⟨[(0, 0)], [0], [0]⟩⟩ 3 0 3 (by decide!) (by decide!) (by decide) (by decide!)
      (by decide!),
    h "Mover" ⟨⟨[(0, 0)], [0], [0]⟩⟩ 3 1 1 (by decide!) (by decide!) (by decide) (by decide!)
      (by decide!)⟩

/-- C8 (the code at the failing input): with `PlayerSpawnSystem` registered with
the empty required signature, as the sample game does, entity 0 created and
queued, `PlayerSpawnSystem` does not contain 0 before the flush; the flush
destroys entity 0 and leaves it inside `PlayerSpawnSystem`'s entity set. -/
theorem flush_adds_dead_entity_to_system :
    run (Coordinator.initial : Coordinator Nat)
      [.registerSystem "PlayerSpawnSystem", .setSystemSignature "PlayerSpawnSystem" 0,
        .createEntity, .destroyEntity 0] = some queuedWorld ∧
    (queuedWorld.GetSystem "PlayerSpawnSystem").map (fun s => s.HasEntity 0) = some false ∧
    queuedWorld.DestroyQueuedEntities =
      some ⟨⟨List.range' 1 4999 ++ [0], DenseMap.new, List.replicate 5000 0⟩,
        ComponentManager.new,
        ⟨[("PlayerSpawnSystem", ⟨⟨[(0, 0)], [0], [0]⟩⟩)], [("PlayerSpawnSystem", 0)]⟩, []⟩ ∧
    Coordinator.IsEntityAlive (V := Nat)
      ⟨⟨List.range' 1 4999 ++ [0], DenseMap.new, List.replicate 5000 0⟩,
        ComponentManager.new,
        ⟨[("PlayerSpawnSystem", ⟨⟨[(0, 0)], [0], [0]⟩⟩)], [("PlayerSpawnSystem", 0)]⟩, []⟩ 0 =
      some false ∧
    System.HasEntity ⟨⟨[(0, 0)], [0], [0]⟩⟩ 0 = true := by
  refine ⟨by decide!, by decide!, by decide!, by decide!, by decide⟩

theorem flushWorld_reachable : Reachable flushWorld :=
  have hrun : run positionWorld [.destroyEntity 0, .destroyEntity 7, .destroyEntity 0] =
      some flushWorld := by decide!
  reachable_of_run _ positionWorld_reachable hrun

/-- Witness for C10: with entity 0 alive and the queue `[0, 7, 0]` (0 queued
twice, 7 not alive) the flush equals the flush of the queue `[0, 7]` and does
not fail. -/
theorem flush_destroys_each_alive_once_witness :
    flushWorld.DestroyQueuedEntities =
      DestroyQueuedEntities
        { flushWorld with m_entitiesToDestroy := withoutDuplicates flushWorld.m_entitiesToDestroy } ∧
    withoutDuplicates flushWorld.m_entitiesToDestroy = [0, 7] ∧
    flushWorld.DestroyQueuedEntities ≠ none :=
  have h := flush_destroys_each_alive_once flushWorld flushWorld_reachable
    (fun e he => by
      have hq : flushWorld.m_entitiesToDestroy = [0, 7, 0] := rfl
      rw [hq] at he
      simp only [List.mem_cons, List.mem_singleton, List.not_mem_nil, or_false] at he
      rcases he with rfl | rfl | rfl <;> decide)
  ⟨h.1, by decide, fun hnone =>
    ((h.2.2.1.1 hnone).2) (fun _ _ hmem => absurd hmem (List.not_mem_nil _))⟩

/-- Witness for C9: entity 0 of `positionWorld` is alive, is queued by
`destroy_entity(0)`, and is still alive after a following create and add. -/
theorem destroy_entity_only_enqueues_witness :
    (positionWorld.DestroyEntity 0).m_entitiesToDestroy = [0] ∧
    ∀ c', run (positionWorld.DestroyEntity 0)
        [.createEntity, .addComponent "Position" 0 5] = some c' →
      c'.IsEntityAlive 0 = some true :=
  have h := destroy_entity_only_enqueues positionWorld 0
  ⟨h.1, fun c' hrun =>
    h.2.2.2.2.2.2.2.2.2.2 (by decide!) _ c' (by decide) hrun⟩

end Coordinator

namespace Coordinator

variable {V : Type}

/-- What the three destroy calls leave behind for the destroyed id: no component
array holds it, and a system holds it exactly when its required signature is
empty. -/
theorem destroyNow_leftovers {c c' : Coordinator V} {e : Entity} (hinv : c.Inv)
    (h : c.destroyNow e = some c') :
    (∀ T a, c'.m_componentManager.m_componentArrays.find T = some a → a.HasData e = false) ∧
    (∀ S s Rs, c'.m_systemManager.m_systems.find S = some s →
      c'.m_systemManager.m_signatures.find S = some Rs →
      (s.HasEntity e = true ↔ Rs = Signature.empty)) := by
  obtain ⟨em, cm, sm, _, h2, h3, rfl⟩ := destroyNow_eq_some h
  obtain ⟨_, _, _, c4, _⟩ := ComponentManager.EntityDestroyed_spec h2 hinv.arrays
  obtain ⟨s1, _, s3, _, _⟩ := SystemManager.EntitySignatureChanged_spec h3 hinv.systems
  constructor
  · intro T a ha
    obtain ⟨a0, _, hdata⟩ := c4 T a ha
    rw [hdata e]
    simp
  · intro S s Rs hs hRs
    obtain ⟨s0, Rs0, _, h5, h6⟩ := s3 S s hs
    simp only at hRs
    rw [s1, h5] at hRs
    injection hRs with hRs
    subst hRs
    rw [h6 e]
    simp only [if_true, decide_eq_true_eq, Signature.empty, Nat.zero_and]
    exact eq_comm

end Coordinator

namespace Coordinator

variable {V : Type}

theorem foldl_DestroyEntity (l : List Entity) :
    ∀ c : Coordinator V,
      l.foldl DestroyEntity c = { c with m_entitiesToDestroy := c.m_entitiesToDestroy ++ l } := by
  induction l with
  | nil => intro c; simp
  | cons e rest ih =>
    intro c
    simp only [List.foldl_cons, ih, DestroyEntity, List.append_assoc, List.singleton_append]

theorem dedupFrom_of_nodup (l : List Entity) :
    ∀ seen : List Entity, l.Nodup → (∀ x, x ∈ l → x ∉ seen) → dedupFrom seen l = l := by
  induction l with
  | nil => intro seen _ _; rfl
  | cons e rest ih =>
    intro seen hnd hdis
    have he : e ∉ seen := hdis e (List.mem_cons_self _ _)
    have hnd' := List.nodup_cons.1 hnd
    simp only [dedupFrom, he, if_false]
    rw [ih (e :: seen) hnd'.2]
    intro x hx hc
    rcases List.mem_cons.1 hc with h1 | h1
    · exact hnd'.1 (h1 ▸ hx)
    · exact hdis x (List.mem_cons_of_mem _ hx) h1

/-- The living list of a state that satisfies the invariant: duplicate-free, in
range, and holding exactly the ids the liveness query accepts. -/
theorem living_facts {c : Coordinator V} (hinv : c.Inv) :
    c.GetLivingEntities.Nodup ∧
    (∀ e, e ∈ c.GetLivingEntities ↔ c.m_entityManager.m_livingEntities.Contains e = true) ∧
    (∀ e, e ∈ c.GetLivingEntities → e < MaxEntities) := by
  have hd : c.GetLivingEntities = c.m_entityManager.m_livingEntities.m_indexToKey := hinv.em.data
  rw [hd]
  refine ⟨DenseMap.wf_nodup hinv.em.wf, fun e => (DenseMap.wf_contains_iff hinv.em.wf e).symm,
    fun e he => EntityManager.inv_mem_range hinv.em (Or.inr he)⟩

/-- C11: in every reachable coordinator state `destroy_all_entities()` gives
the same result (the same state, or failure) as discarding the destroy queue,
calling `destroy_entity` on every living entity in `living_entities()` order
and then calling `flush_destroyed_entities()`; when it completes no entity is
alive and the destroy queue is empty; it fails only when some entity is alive
and some registered system has no recorded signature. -/
theorem destroy_all_eq_queue_then_flush (c : Coordinator V) (h : Reachable c) :
    c.DestroyAllEntities = destroyAllByQueue c ∧
    (∀ c', c.DestroyAllEntities = some c' →
      c'.GetLivingEntities = [] ∧ (∀ e, c'.IsEntityAlive e ≠ some true) ∧
      c'.m_entitiesToDestroy = []) ∧
    (c.DestroyAllEntities = none ↔
      c.GetLivingEntities ≠ [] ∧ ¬ AllSystemsHaveSignature c.m_systemManager) := by
  have hinv := cinv_of_reachable h
  obtain ⟨hnd, hmem, hrange⟩ := living_facts hinv
  have hinv0 : ({ c with m_entitiesToDestroy := [] } : Coordinator V).Inv := { hinv with }
  have hpost : ∀ c', c.DestroyAllEntities = some c' →
      (∀ e, c'.m_entityManager.m_livingEntities.Contains e = false) ∧
      c'.m_entitiesToDestroy = [] ∧ c'.Inv := by
    intro c' hc'
    unfold DestroyAllEntities at hc'
    obtain ⟨hal, hq⟩ := destroyAllLoop_alive _ hinv0 hc'
    refine ⟨fun e => ?_, hq, cinv_destroyAllLoop _ hinv0 hc'⟩
    rw [hal e]
    cases hcon : c.m_entityManager.m_livingEntities.Contains e with
    | false => rfl
    | true =>
      have : e ∈ c.m_entityManager.GetLivingEntities := (hmem e).2 hcon
      simp [this]
  refine ⟨?_, ?_, ?_⟩
  · have hL : c.DestroyAllEntities =
        (destroyAllLoop c c.GetLivingEntities).map
          (fun c' => { c' with m_entitiesToDestroy := [] }) := by
      unfold DestroyAllEntities GetLivingEntities
      exact destroyAllLoop_setQueue _ c []
    have hinv1 : ({ c with m_entitiesToDestroy := c.GetLivingEntities } : Coordinator V).Inv :=
      { hinv with }
    have hR : destroyAllByQueue c =
        (destroyAllLoop c c.GetLivingEntities).map
          (fun c' => { c' with m_entitiesToDestroy := [] }) := by
      unfold destroyAllByQueue
      rw [foldl_DestroyEntity]
      simp only [List.nil_append]
      rw [DestroyQueuedEntities_eq _ hinv1 hrange]
      simp only [withoutDuplicates]
      rw [dedupFrom_of_nodup _ [] hnd (fun x _ hc => absurd hc (List.not_mem_nil _))]
      rw [List.filter_eq_self.2 (fun x hx => (hmem x).1 hx)]
      rw [destroyAllLoop_setQueue, Option.map_map]
      rfl
    rw [hL, hR]
  · intro c' hc'
    obtain ⟨hal, hq, hinv'⟩ := hpost c' hc'
    obtain ⟨_, hmem', _⟩ := living_facts hinv'
    refine ⟨?_, ?_, hq⟩
    · apply List.eq_nil_iff_forall_not_mem.2
      intro e he
      have := (hmem' e).1 he
      rw [hal e] at this
      exact absurd this (by simp)
    · intro e hc
      have := (IsAlive_eq_some_true hc).2
      rw [hal e] at this
      exact absurd this (by simp)
  · exact destroyAllLoop_eq_none_iff c.GetLivingEntities _ hinv0 hnd
      (fun x hx => (hmem x).1 hx)

/-- C13: the four entity-targeted component calls of the coordinator each fail
whenever the liveness query does not answer true for `e`; this covers every
in-range id that is not alive (and every out-of-range id), for every type. -/
theorem component_calls_need_alive (c : Coordinator V) (T : TypeName) (e : Entity) (v : V)
    (h : c.IsEntityAlive e ≠ some true) :
    c.AddComponent T e v = none ∧ c.RemoveComponent T e = none ∧
    c.GetComponent T e = none ∧ c.HasComponent T e = none := by
  unfold IsEntityAlive at h
  refine ⟨?_, ?_, ?_, ?_⟩
  · unfold AddComponent
    split
    · next ha => exact absurd ha h
    · rfl
  · unfold RemoveComponent
    split
    · next ha => exact absurd ha h
    · rfl
  · unfold GetComponent
    split
    · next ha => exact absurd ha h
    · rfl
  · unfold HasComponent
    split
    · next ha => exact absurd ha h
    · rfl

/-- Witness for C13: in the example state entity 1 is in range and not alive,
so all four calls fail for the registered type `Position`. -/
theorem component_calls_need_alive_witness :
    positionWorld.IsEntityAlive 1 = some false ∧
    positionWorld.AddComponent "Position" 1 9 = none ∧
    positionWorld.RemoveComponent "Position" 1 = none ∧
    positionWorld.GetComponent "Position" 1 = none ∧
    positionWorld.HasComponent "Position" 1 = none :=
  have ha : positionWorld.IsEntityAlive 1 = some false := by decide!
  ⟨ha, component_calls_need_alive positionWorld "Position" 1 9
    (fun hc => absurd (ha.symm.trans hc) (by decide))⟩

end Coordinator

namespace Coordinator

variable {V : Type}

/-- Induction over the unconditional destroy loop. -/
theorem destroyAllLoop_induction {P : Coordinator V → Prop}
    (hstep : ∀ (c c' : Coordinator V) (e : Entity), c.Inv → P c → c.destroyNow e = some c' → P c')
    (l : List Entity) :
    ∀ {c c' : Coordinator V}, c.Inv → P c → destroyAllLoop c l = some c' → P c' := by
  induction l with
  | nil =>
    intro c c' _ hp h
    simp only [destroyAllLoop, Option.some.injEq] at h
    exact h ▸ hp
  | cons e rest ih =>
    intro c c' hinv hp h
    simp only [destroyAllLoop] at h
    cases hd : c.destroyNow e with
    | none => simp [hd] at h
    | some c1 =>
      simp only [hd] at h
      exact ih (cinv_destroyNow hinv hd) (hstep c c1 e hinv hp hd) h

/-- Induction over the loop of `DestroyQueuedEntities`. -/
theorem destroyQueuedLoop_induction {P : Coordinator V → Prop}
    (hstep : ∀ (c c' : Coordinator V) (e : Entity), c.Inv → P c → c.destroyNow e = some c' → P c')
    (l : List Entity) :
    ∀ {c c' : Coordinator V}, c.Inv → P c → destroyQueuedLoop c l = some c' → P c' := by
  induction l with
  | nil =>
    intro c c' _ hp h
    simp only [destroyQueuedLoop, Option.some.injEq] at h
    exact h ▸ hp
  | cons e rest ih =>
    intro c c' hinv hp h
    simp only [destroyQueuedLoop] at h
    cases ha : c.m_entityManager.IsAlive e with
    | none => simp [ha] at h
    | some b =>
      cases b with
      | false =>
        simp only [ha] at h
        exact ih hinv hp h
      | true =>
        simp only [ha] at h
        cases hd : c.destroyNow e with
        | none => simp [hd] at h
        | some c1 =>
          simp only [hd] at h
          exact ih (cinv_destroyNow hinv hd) (hstep c c1 e hinv hp hd) h

theorem coord_CreateEntity_eq_some {c c' : Coordinator V} {id : Entity}
    (h : c.CreateEntity = some (id, c')) :
    ∃ em, c.m_entityManager.CreateEntity = some (id, em) ∧
      c' = { c with m_entityManager := em } := by
  unfold CreateEntity at h
  cases hc : c.m_entityManager.CreateEntity with
  | none => simp [hc] at h
  | some r =>
    obtain ⟨id0, em'⟩ := r
    simp only [hc, Option.map_some', Option.some.injEq, Prod.mk.injEq] at h
    obtain ⟨rfl, rfl⟩ := h
    exact ⟨em', rfl, rfl⟩

theorem coord_RegisterComponent_eq_some {c c' : Coordinator V} {T : TypeName}
    (h : c.RegisterComponent T = some c') :
    ∃ cm, c.m_componentManager.RegisterComponentType T = some cm ∧
      c' = { c with m_componentManager := cm } := by
  unfold RegisterComponent at h
  cases hc : c.m_componentManager.RegisterComponentType T with
  | none => simp [hc] at h
  | some cm =>
    simp only [hc, Option.map_some', Option.some.injEq] at h
    exact ⟨cm, rfl, h.symm⟩

theorem coord_AssignComponent_eq_some {c c' : Coordinator V} {T : TypeName} {e : Entity}
    {v : V} (h : c.AssignComponent T e v = some c') :
    c.m_entityManager.IsAlive e = some true ∧
      ∃ cm, c.m_componentManager.AssignComponent T e v = some cm ∧
        c' = { c with m_componentManager := cm } := by
  unfold AssignComponent at h
  split at h
  · next ha =>
    cases hc : c.m_componentManager.AssignComponent T e v with
    | none => simp [hc] at h
    | some cm =>
      simp only [hc, Option.map_some', Option.some.injEq] at h
      exact ⟨ha, cm, rfl, h.symm⟩
  · exact absurd h (by simp)

theorem coord_RegisterSystem_eq_some {c c' : Coordinator V} {S : TypeName}
    (h : c.RegisterSystem S = some c') :
    ∃ sm, c.m_systemManager.RegisterSystem S = some sm ∧
      c' = { c with m_systemManager := sm } := by
  unfold RegisterSystem at h
  cases hc : c.m_systemManager.RegisterSystem S with
  | none => simp [hc] at h
  | some sm =>
    simp only [hc, Option.map_some', Option.some.injEq] at h
    exact ⟨sm, rfl, h.symm⟩

theorem coord_SetSystemSignature_eq_some {c c' : Coordinator V} {S : TypeName}
    {sig : Signature} (h : c.SetSystemSignature S sig = some c') :
    ∃ sm, c.m_systemManager.SetSystemSignature S sig = some sm ∧
      c' = { c with m_systemManager := sm } := by
  unfold SetSystemSignature at h
  cases hc : c.m_systemManager.SetSystemSignature S sig with
  | none => simp [hc] at h
  | some sm =>
    simp only [hc, Option.map_some', Option.some.injEq] at h
    exact ⟨sm, rfl, h.symm⟩

/-- Induction principle for properties of reachable coordinator states: it is
enough to treat the fresh managers, a change of the destroy queue, and each
manager-level mutation once. -/
theorem reachable_induction {P : Coordinator V → Prop}
    (hfresh : ∀ q : List Entity,
      P ⟨EntityManager.new, ComponentManager.new, SystemManager.new, q⟩)
    (hqueue : ∀ (c : Coordinator V) (q : List Entity), P c → P { c with m_entitiesToDestroy := q })
    (hcreate : ∀ (c : Coordinator V) (id : Entity) (em : EntityManager), c.Inv → P c →
      c.m_entityManager.CreateEntity = some (id, em) → P { c with m_entityManager := em })
    (hdestroy : ∀ (c c' : Coordinator V) (e : Entity), c.Inv → P c →
      c.destroyNow e = some c' → P c')
    (hregister : ∀ (c : Coordinator V) (T : TypeName) (cm : ComponentManager V), c.Inv → P c →
      c.m_componentManager.RegisterComponentType T = some cm →
      P { c with m_componentManager := cm })
    (hadd : ∀ (c c' : Coordinator V) (T : TypeName) (e : Entity) (v : V), c.Inv → P c →
      c.AddComponent T e v = some c' → P c')
    (hremove : ∀ (c c' : Coordinator V) (T : TypeName) (e : Entity), c.Inv → P c →
      c.RemoveComponent T e = some c' → P c')
    (hassign : ∀ (c : Coordinator V) (T : TypeName) (e : Entity) (v : V)
      (cm : ComponentManager V), c.Inv → P c →
      c.m_componentManager.AssignComponent T e v = some cm →
      P { c with m_componentManager := cm })
    (hsystem : ∀ (c : Coordinator V) (S : TypeName) (sm : SystemManager), c.Inv → P c →
      c.m_systemManager.RegisterSystem S = some sm → P { c with m_systemManager := sm })
    (hsignature : ∀ (c : Coordinator V) (S : TypeName) (sig : Signature) (sm : SystemManager),
      c.Inv → P c → c.m_systemManager.SetSystemSignature S sig = some sm →
      P { c with m_systemManager := sm }) :
    ∀ c : Coordinator V, Reachable c → P c := by
  intro c h
  induction h with
  | initial => exact hfresh []
  | @step c c' hr hs ih =>
    have hinv := cinv_of_reachable hr
    cases hs with
    | init => exact hfresh _
    | createEntity h =>
      obtain ⟨em, hc, rfl⟩ := coord_CreateEntity_eq_some h
      exact hcreate c _ em hinv ih hc
    | destroyEntity e => exact hqueue c _ ih
    | destroyQueuedEntities h =>
      unfold DestroyQueuedEntities at h
      by_cases he : c.m_entitiesToDestroy.isEmpty = true
      · simp only [he, if_true, Option.some.injEq] at h
        exact h ▸ ih
      · simp only [he, if_false] at h
        cases hl : destroyQueuedLoop c c.m_entitiesToDestroy with
        | none => simp [hl] at h
        | some c1 =>
          simp only [hl, Option.map_some', Option.some.injEq, Bool.false_eq_true,
            if_false] at h
          subst h
          exact hqueue c1 [] (destroyQueuedLoop_induction hdestroy _ hinv ih hl)
    | destroyAllEntities h =>
      unfold DestroyAllEntities at h
      have h0 : ({ c with m_entitiesToDestroy := [] } : Coordinator V).Inv := { hinv with }
      exact destroyAllLoop_induction hdestroy _ h0 (hqueue c [] ih) h
    | registerComponent h =>
      obtain ⟨cm, hc, rfl⟩ := coord_RegisterComponent_eq_some h
      exact hregister c _ cm hinv ih hc
    | addComponent h => exact hadd c c' _ _ _ hinv ih h
    | removeComponent h => exact hremove c c' _ _ hinv ih h
    | assignComponent h =>
      obtain ⟨_, cm, hc, rfl⟩ := coord_AssignComponent_eq_some h
      exact hassign c _ _ _ cm hinv ih hc
    | registerSystem h =>
      obtain ⟨sm, hc, rfl⟩ := coord_RegisterSystem_eq_some h
      exact hsystem c _ sm hinv ih hc
    | setSystemSignature h =>
      obtain ⟨sm, hc, rfl⟩ := coord_SetSystemSignature_eq_some h
      exact hsignature c _ _ sm hinv ih hc

/-- In every reachable coordinator state an in-range id that is not alive
carries the empty signature. -/
theorem dead_signature_is_empty (c : Coordinator V) (h : Reachable c) :
    ∀ e, e < MaxEntities → c.m_entityManager.m_livingEntities.Contains e = false →
      c.m_entityManager.m_signatures[e]? = some Signature.empty := by
  refine reachable_induction (P := fun c => ∀ e, e < MaxEntities →
      c.m_entityManager.m_livingEntities.Contains e = false →
      c.m_entityManager.m_signatures[e]? = some Signature.empty)
    ?_ ?_ ?_ ?_ ?_ ?_ ?_ ?_ ?_ ?_ c h
  · intro q e he _
    simp [EntityManager.new, he]
  · intro c q hp
    exact hp
  · intro c id em hinv hp hc e he hdead
    obtain ⟨rest, living, _, hi, rfl⟩ := EntityManager.CreateEntity_eq_some hc
    simp only [DenseMap.Contains_Insert hi, Bool.or_eq_false_iff] at hdead
    exact hp e he hdead.2
  · intro c c' e0 hinv hp hd e he hdead
    obtain ⟨em, cm, sm, h1, _, _, rfl⟩ := destroyNow_eq_some hd
    obtain ⟨living, _, hE, rfl⟩ := EntityManager.DestroyEntity_eq_some h1
    simp only [List.getElem?_set]
    by_cases h0 : e0 = e
    · subst h0
      simp [hinv.em.sigs, he]
    · simp only [h0, if_false]
      simp only [DenseMap.Contains_Erase hinv.em.wf hE, h0, decide_False, Bool.not_false,
        Bool.true_and] at hdead
      exact hp e he hdead
  · intro c T cm _ hp _
    exact hp
  · intro c c' T e0 v hinv hp hadd e he hdead
    obtain ⟨ha, cm, _, h2⟩ := coord_AddComponent_eq_some hadd
    obtain ⟨sig, id, sig', em, sm, _, _, _, h4, _, rfl⟩ := updateSignature_eq_some h2
    obtain ⟨_, rfl⟩ := EntityManager.SetSignature_eq_some h4
    simp only at hdead ⊢
    have hne : ¬ e0 = e := by
      intro hc
      subst hc
      rw [(IsAlive_eq_some_true ha).2] at hdead
      exact absurd hdead (by simp)
    simp only [List.getElem?_set, hne, if_false]
    exact hp e he hdead
  · intro c c' T e0 hinv hp hrm e he hdead
    obtain ⟨ha, cm, _, h2⟩ := coord_RemoveComponent_eq_some hrm
    obtain ⟨sig, id, sig', em, sm, _, _, _, h4, _, rfl⟩ := updateSignature_eq_some h2
    obtain ⟨_, rfl⟩ := EntityManager.SetSignature_eq_some h4
    simp only at hdead ⊢
    have hne : ¬ e0 = e := by
      intro hc
      subst hc
      rw [(IsAlive_eq_some_true ha).2] at hdead
      exact absurd hdead (by simp)
    simp only [List.getElem?_set, hne, if_false]
    exact hp e he hdead
  · intro c T e0 v cm _ hp _
    exact hp
  · intro c S sm _ hp _
    exact hp
  · intro c S sig sm _ hp _
    exact hp

/-- C14 (counterexample): in the example state entity 1 is in range and not
alive, and `get_signature(1)` does not fail: it returns the empty signature.
So the claim as stated is false. -/
theorem get_signature_of_dead_entity :
    (positionWorld.IsEntityAlive 1 = some false ∧
      positionWorld.GetSignature 1 = some Signature.empty) ∧
    ¬ (∀ (c : Coordinator Nat) (e : Entity), Reachable c →
        c.IsEntityAlive e ≠ some true → c.GetSignature e = none) := by
  have ha : positionWorld.IsEntityAlive 1 = some false := by decide!
  have hg : positionWorld.GetSignature 1 = some Signature.empty := by decide!
  refine ⟨⟨ha, hg⟩, fun hall => ?_⟩
  have h1 := hall positionWorld 1 positionWorld_reachable
    (fun hc => absurd (ha.symm.trans hc) (by decide))
  rw [hg] at h1
  exact absurd h1 (by simp)

/-- C14 (amended): in every reachable coordinator state `get_signature(e)` fails
exactly when `e` is outside the valid range (`e >= MaxEntities`); for an
in-range id that is not alive it does not fail and returns the empty
signature. -/
theorem get_signature_fails_iff_out_of_range (c : Coordinator V) (h : Reachable c)
    (e : Entity) :
    (c.GetSignature e = none ↔ MaxEntities ≤ e) ∧
    (c.IsEntityAlive e = some false → c.GetSignature e = some Signature.empty) := by
  have hinv := cinv_of_reachable h
  constructor
  · unfold GetSignature EntityManager.GetSignature
    by_cases he : e < MaxEntities
    · have hlen : e < c.m_entityManager.m_signatures.length := by rw [hinv.em.sigs]; exact he
      simp only [he, if_true, List.getElem?_eq_getElem hlen]
      constructor
      · intro hc
        exact absurd hc (by simp)
      · intro hc
        exact absurd he (Nat.not_lt.2 hc)
    · simp only [he, if_false, true_iff]
      exact Nat.le_of_not_lt he
  · intro ha
    unfold IsEntityAlive EntityManager.IsAlive at ha
    by_cases he : e < MaxEntities
    · simp only [he, if_true, Option.some.injEq] at ha
      simp only [GetSignature, EntityManager.GetSignature, he, if_true]
      exact dead_signature_is_empty c h e he ha
    · simp [he] at ha

/-- Witness for C14 (amended): in the example state `get_signature(1)` of the
dead id 1 is the empty signature, and `get_signature(5000)` fails. -/
theorem get_signature_fails_iff_out_of_range_witness :
    positionWorld.GetSignature 1 = some Signature.empty ∧
    positionWorld.GetSignature 5000 = none :=
  ⟨(get_signature_fails_iff_out_of_range positionWorld positionWorld_reachable 1).2
      (by decide!),
    (get_signature_fails_iff_out_of_range positionWorld positionWorld_reachable 5000).1.2
      (by decide)⟩

/-- Witness for C11: in the spec scenario state (two living entities, `Mover`
with a recorded signature) `destroy_all_entities()` agrees with the queue
reference and does not fail. -/
theorem destroy_all_eq_queue_then_flush_witness :
    moverWorld.DestroyAllEntities = destroyAllByQueue moverWorld ∧
    moverWorld.DestroyAllEntities ≠ none :=
  have h := destroy_all_eq_queue_then_flush moverWorld (running_reachable moverWorld_running)
  ⟨h.1, fun hnone => (h.2.2.1 hnone).2 (fun S s hmem => by
    have hs : moverWorld.m_systemManager.m_systems = [("Mover", ⟨⟨[(0, 0)], [0], [0]⟩⟩)] := rfl
    have hg : moverWorld.m_systemManager.m_signatures = [("Mover", 3)] := rfl
    rw [hs] at hmem
    simp only [List.mem_singleton, Prod.mk.injEq] at hmem
    obtain ⟨rfl, _⟩ := hmem
    rw [hg]
    exact ⟨3, by decide⟩)⟩

end Coordinator

namespace DenseMap

variable {K V : Type} [DecidableEq K]

/-- In a well-formed map a key is contained exactly when a value is stored for it. -/
theorem wf_GetValue_isSome {d : DenseMap K V} (hw : d.WF) (k : K) :
    (d.GetValue k).isSome = d.Contains k := by
  unfold GetValue Contains UMap.contains
  cases hf : d.m_keyToIndex.find k with
  | none => rfl
  | some i =>
    have hlt := wf_index_lt hw hf
    simp [List.getElem?_eq_getElem hlt]

theorem GetValue_Insert {d d' : DenseMap K V} {k : K} {v : V} (hw : d.WF)
    (h : d.Insert k v = some d') (k' : K) :
    d'.GetValue k' = if k = k' then some v else d.GetValue k' := by
  obtain ⟨_, rfl⟩ := Insert_eq_some h
  simp only [GetValue, UMap.find_assign]
  by_cases hk : k = k'
  · simp [hk]
  · simp only [hk, if_false]
    cases hf : d.m_keyToIndex.find k' with
    | none => rfl
    | some i =>
      have hlt := wf_index_lt hw hf
      simp [List.getElem?_append_left hlt]

theorem GetValue_Update {d d' : DenseMap K V} {k : K} {v : V} (hw : d.WF)
    (h : d.Update k v = some d') (k' : K) :
    d'.GetValue k' = if k = k' then some v else d.GetValue k' := by
  obtain ⟨i, hi, rfl⟩ := Update_eq_some h
  have hlt := wf_index_lt hw hi
  simp only [GetValue]
  by_cases hk : k = k'
  · subst hk
    simp [hi, List.getElem?_set, hlt]
  · simp only [hk, if_false]
    cases hf : d.m_keyToIndex.find k' with
    | none => rfl
    | some j =>
      have hne : ¬ i = j := by
        intro hc
        subst hc
        have h1 := (hw.idx k i).1 hi
        have h2 := (hw.idx k' i).1 hf
        rw [h1] at h2
        injection h2 with h2
        exact hk h2
      simp [List.getElem?_set, hne]

theorem GetValue_Erase {d d' : DenseMap K V} {k : K} (hw : d.WF)
    (h : d.Erase k = some d') (k' : K) :
    d'.GetValue k' = if k = k' then none else d.GetValue k' := by
  obtain ⟨r, kl, dl, hr, hkl, hdl, rfl⟩ := Erase_eq_some h
  have hrlt := wf_index_lt hw hr
  have hrk := (hw.idx k r).1 hr
  have hlast := (hw.idx kl _).2 hkl
  simp only [GetValue, UMap.find_erase, UMap.find_assign]
  by_cases h1 : k = k'
  · simp [h1]
  · simp only [h1, if_false]
    by_cases h2 : kl = k'
    · subst h2
      have hne : r ≠ d.m_data.length - 1 := by
        intro hc
        rw [hc, hkl] at hrk
        injection hrk with hrk
        exact h1 hrk.symm
      have hi : r < d.m_data.length - 1 := by omega
      simp only [if_true, hlast, List.getElem?_dropLast, List.length_set, hi,
        List.getElem?_set, hrlt]
      exact hdl.symm
    · simp only [h2, if_false]
      cases hf : d.m_keyToIndex.find k' with
      | none => rfl
      | some i =>
        have h3 := (hw.idx k' i).1 hf
        have hilt := wf_index_lt hw hf
        have h5 : i ≠ d.m_data.length - 1 := by
          intro h6
          rw [h6, hkl] at h3
          injection h3 with h3
          exact h2 h3
        have h6 : ¬ r = i := by
          intro h7
          rw [← h7, hrk] at h3
          injection h3 with h3
          exact h1 h3
        have hi : i < d.m_data.length - 1 := by omega
        simp [List.getElem?_dropLast, List.getElem?_set, hi, h6]

/-- Pairing the index-to-key vector with the packed values lists exactly the
stored pairs of a well-formed map. -/
theorem wf_mem_zip {d : DenseMap K V} (hw : d.WF) (k : K) (v : V) :
    (k, v) ∈ List.zip d.m_indexToKey d.m_data ↔ d.GetValue k = some v := by
  rw [List.mem_iff_getElem?]
  simp only [List.getElem?_zip_eq_some]
  constructor
  · rintro ⟨i, h1, h2⟩
    have hf := (hw.idx k i).2 h1
    simp [GetValue, hf, h2]
  · intro hg
    unfold GetValue at hg
    cases hf : d.m_keyToIndex.find k with
    | none => simp [hf] at hg
    | some i =>
      simp only [hf] at hg
      exact ⟨i, (hw.idx k i).1 hf, hg⟩

end DenseMap

namespace UMap

variable {K T : Type} [DecidableEq K]

theorem mem_keys_iff (m : UMap K T) (k : K) :
    k ∈ m.map Prod.fst ↔ contains m k = true := by
  induction m with
  | nil => simp [contains, find]
  | cons p rest ih =>
    obtain ⟨a, b⟩ := p
    by_cases h : a = k
    · simp [contains, find, h]
    · have h' : ¬ k = a := fun hc => h hc.symm
      simp only [List.map_cons, List.mem_cons, h', false_or, ih]
      simp [contains, find, h]

theorem assign_of_find_none {m : UMap K T} {k : K} (v : T) (h : find m k = none) :
    assign m k v = m ++ [(k, v)] := by
  induction m with
  | nil => rfl
  | cons p rest ih =>
    obtain ⟨a, b⟩ := p
    by_cases h2 : a = k
    · simp [find, h2] at h
    · simp only [find, h2, if_false] at h
      simp [assign, h2, ih h]

theorem keys_assign_of_contains {m : UMap K T} {k : K} (v : T) (h : contains m k = true) :
    (assign m k v).map Prod.fst = m.map Prod.fst := by
  induction m with
  | nil => simp [contains, find] at h
  | cons p rest ih =>
    obtain ⟨a, b⟩ := p
    by_cases h2 : a = k
    · simp [assign, h2]
    · have h3 : contains rest k = true := by simpa [contains, find, h2] using h
      simp [assign, h2, ih h3]

theorem erase_of_not_contains {m : UMap K T} {k : K} (h : contains m k = false) :
    erase m k = m := by
  induction m with
  | nil => rfl
  | cons p rest ih =>
    obtain ⟨a, b⟩ := p
    by_cases h2 : a = k
    · simp [contains, find, h2] at h
    · have h3 : contains rest k = false := by simpa [contains, find, h2] using h
      rw [erase_cons]
      simp [h2, ih h3]

theorem keys_erase_sublist (m : UMap K T) (k : K) :
    List.Sublist ((erase m k).map Prod.fst) (m.map Prod.fst) :=
  List.Sublist.map _ (List.filter_sublist m)

theorem length_erase {m : UMap K T} {k : K} (hnd : (m.map Prod.fst).Nodup)
    (h : contains m k = true) : (erase m k).length + 1 = m.length := by
  induction m with
  | nil => simp [contains, find] at h
  | cons p rest ih =>
    obtain ⟨a, b⟩ := p
    simp only [List.map_cons, List.nodup_cons] at hnd
    rw [erase_cons]
    by_cases h2 : a = k
    · subst h2
      have h3 : contains rest a = false := by
        cases hc : contains rest a with
        | false => rfl
        | true => exact absurd ((mem_keys_iff rest a).2 hc) hnd.1
      simp [erase_of_not_contains h3]
    · have h3 : contains rest k = true := by simpa [contains, find, h2] using h
      simp only [h2, if_false, List.length_cons]
      rw [ih hnd.2 h3]

end UMap

namespace DenseMap

variable {K V : Type} [DecidableEq K]

/-- C19: in every store built by insert, update, erase and clear calls,
`values()` has one element per present key and nothing else: it is as long as
the index-to-key array, which lists exactly the present keys without
repetition, and pairing `values()[i]` with the i-th key yields exactly the
stored (key, value) pairs, each once. -/
theorem values_one_per_key (d : DenseMap K V) (h : d.Built) :
    d.GetDataVector.length = d.m_indexToKey.length ∧
    d.m_indexToKey.Nodup ∧
    (∀ k, k ∈ d.m_indexToKey ↔ d.Contains k = true) ∧
    (∀ k v, (k, v) ∈ List.zip d.m_indexToKey d.GetDataVector ↔ d.GetValue k = some v) ∧
    (List.zip d.m_indexToKey d.GetDataVector).Nodup ∧
    (∀ (i : Nat) (v : V), d.GetDataVector[i]? = some v →
      ∃ k, d.m_indexToKey[i]? = some k ∧ d.GetValue k = some v) := by
  have hw := built_wf h
  refine ⟨hw.len.symm, wf_nodup hw, fun k => (wf_contains_iff hw k).symm,
    fun k v => wf_mem_zip hw k v, ?_, ?_⟩
  · apply List.Nodup.of_map Prod.fst
    unfold GetDataVector
    rw [List.map_fst_zip _ _ (Nat.le_of_eq hw.len)]
    exact wf_nodup hw
  · intro i v hv
    unfold GetDataVector at hv
    have hi : i < d.m_indexToKey.length := by
      rw [hw.len]
      exact (List.getElem?_eq_some.1 hv).1
    have hk : d.m_indexToKey[i]? = some (d.m_indexToKey.get ⟨i, hi⟩) :=
      List.getElem?_eq_getElem hi
    refine ⟨d.m_indexToKey.get ⟨i, hi⟩, hk, ?_⟩
    have hf := (hw.idx _ i).2 hk
    unfold GetValue
    rw [hf]
    exact hv

theorem sampleStore_built : sampleStore.Built :=
  Built.erase
    (Built.insert
      (Built.insert
        (Built.insert Built.new
          (by decide : (DenseMap.new : DenseMap Nat Nat).Insert 4 40 = some ⟨[(4, 0)], [4], [40]⟩))
        (by decide : DenseMap.Insert ⟨[(4, 0)], [4], [40]⟩ 7 70 =
          some ⟨[(4, 0), (7, 1)], [4, 7], [40, 70]⟩))
      (by decide : DenseMap.Insert ⟨[(4, 0), (7, 1)], [4, 7], [40, 70]⟩ 9 90 =
        some ⟨[(4, 0), (7, 1), (9, 2)], [4, 7, 9], [40, 70, 90]⟩))
    (by decide : DenseMap.Erase ⟨[(4, 0), (7, 1), (9, 2)], [4, 7, 9], [40, 70, 90]⟩ 4 =
      some sampleStore)

/-- Witness for C19: after inserting 4, 7, 9 and erasing 4 the packed values
are `[90, 70]`, paired with the keys `[9, 7]`. -/
theorem values_one_per_key_witness :
    sampleStore.GetDataVector = [90, 70] ∧
    List.zip sampleStore.m_indexToKey sampleStore.GetDataVector = [(9, 90), (7, 70)] ∧
    (∀ k v, (k, v) ∈ List.zip sampleStore.m_indexToKey sampleStore.GetDataVector ↔
      sampleStore.GetValue k = some v) :=
  ⟨rfl, rfl, (values_one_per_key sampleStore sampleStore_built).2.2.2.1⟩

end DenseMap

namespace DenseMap

variable {K V : Type} [DecidableEq K]

theorem agrees_intro {d : DenseMap K V} {m : UMap K V} (hw : d.WF)
    (hnd : (m.map Prod.fst).Nodup) (hlen : d.m_data.length = m.length)
    (hget : ∀ k, d.GetValue k = m.find k) : Agrees d m := by
  refine ⟨hnd, hlen, ?_, ?_, hget⟩
  · unfold IsEmpty
    cases hd : d.m_data with
    | nil =>
      rw [hd] at hlen
      cases m with
      | nil => rfl
      | cons p rest => simp at hlen
    | cons x xs =>
      rw [hd] at hlen
      cases m with
      | nil => simp at hlen
      | cons p rest => rfl
  · intro k
    rw [← wf_GetValue_isSome hw k, hget k]
    rfl

theorem agrees_new : Agrees (DenseMap.new : DenseMap K V) [] :=
  agrees_intro wf_new List.nodup_nil rfl (fun _ => rfl)

/-- One call keeps the store and the reference map in step, and fails on one
exactly when it fails on the other. -/
theorem agrees_step {d : DenseMap K V} {m : UMap K V} (hw : d.WF) (ha : Agrees d m)
    (call : Call K V) :
    (applyCall d call = none ↔ refApply m call = none) ∧
    ∀ d', applyCall d call = some d' →
      d'.WF ∧ (∀ k, d'.GetValue k = written d.GetValue call k) ∧
      ∃ m', refApply m call = some m' ∧ Agrees d' m' := by
  obtain ⟨hnd, hlen, _, hcon, hget⟩ := ha
  have hlen' : d.m_data.length = m.length := hlen
  cases call with
  | insert k v =>
    cases hc : d.Contains k with
    | true =>
      have hm : m.contains k = true := by rw [← hcon k]; exact hc
      have h1 : applyCall d (.insert k v) = none := by
        have : d.m_keyToIndex.contains k = true := hc
        simp [applyCall, Insert, this]
      have h2 : refApply m (.insert k v) = none := by simp [refApply, hm]
      refine ⟨by simp [h1, h2], fun d' hd' => ?_⟩
      rw [h1] at hd'
      cases hd'
    | false =>
      have hm : m.contains k = false := by rw [← hcon k]; exact hc
      have h2 : refApply m (.insert k v) = some (m.assign k v) := by simp [refApply, hm]
      obtain ⟨d0, hd0⟩ := Insert_of_not_contains v hc
      have h1 : applyCall d (.insert k v) = some d0 := hd0
      refine ⟨by simp [h1, h2], fun d' hd' => ?_⟩
      rw [h1] at hd'
      injection hd' with hd'
      subst hd'
      have hw' := wf_Insert hw hd0
      have hg : ∀ k', d0.GetValue k' = if k = k' then some v else d.GetValue k' :=
        GetValue_Insert hw hd0
      refine ⟨hw', hg, _, h2, agrees_intro hw' ?_ ?_ ?_⟩
      · rw [UMap.assign_of_find_none v ((UMap.contains_eq_false_iff _ _).1 hm)]
        rw [List.map_append]
        refine List.Nodup.append hnd (List.nodup_singleton _) ?_
        intro x hx hx'
        have hxk : x = k := by simpa using hx'
        rw [hxk] at hx
        have := (UMap.mem_keys_iff m k).1 hx
        rw [hm] at this
        cases this
      · obtain ⟨_, rfl⟩ := Insert_eq_some hd0
        rw [UMap.assign_of_find_none v ((UMap.contains_eq_false_iff _ _).1 hm)]
        simp [hlen']
      · intro k'
        rw [hg k', UMap.find_assign, hget k']
  | update k v =>
    cases hc : d.Contains k with
    | false =>
      have hm : m.contains k = false := by rw [← hcon k]; exact hc
      have hf : d.m_keyToIndex.find k = none := (UMap.contains_eq_false_iff _ _).1 hc
      have h1 : applyCall d (.update k v) = none := by simp [applyCall, Update, hf]
      have h2 : refApply m (.update k v) = none := by simp [refApply, hm]
      refine ⟨by simp [h1, h2], fun d' hd' => ?_⟩
      rw [h1] at hd'
      cases hd'
    | true =>
      have hm : m.contains k = true := by rw [← hcon k]; exact hc
      have h2 : refApply m (.update k v) = some (m.assign k v) := by simp [refApply, hm]
      obtain ⟨d0, hd0⟩ := Update_of_contains v hc
      have h1 : applyCall d (.update k v) = some d0 := hd0
      refine ⟨by simp [h1, h2], fun d' hd' => ?_⟩
      rw [h1] at hd'
      injection hd' with hd'
      subst hd'
      have hw' := wf_Update hw hd0
      have hg : ∀ k', d0.GetValue k' = if k = k' then some v else d.GetValue k' :=
        GetValue_Update hw hd0
      refine ⟨hw', hg, _, h2, agrees_intro hw' ?_ ?_ ?_⟩
      · rw [UMap.keys_assign_of_contains v hm]
        exact hnd
      · obtain ⟨i, _, rfl⟩ := Update_eq_some hd0
        have hl := congrArg List.length (UMap.keys_assign_of_contains v hm)
        simp only [List.length_map] at hl
        simp [hl, hlen']
      · intro k'
        rw [hg k', UMap.find_assign, hget k']
  | erase k =>
    cases hc : d.Contains k with
    | false =>
      have hm : m.contains k = false := by rw [← hcon k]; exact hc
      have hf : d.m_keyToIndex.find k = none := (UMap.contains_eq_false_iff _ _).1 hc
      have h1 : applyCall d (.erase k) = none := by simp [applyCall, Erase, hf]
      have h2 : refApply m (.erase k) = none := by simp [refApply, hm]
      refine ⟨by simp [h1, h2], fun d' hd' => ?_⟩
      rw [h1] at hd'
      cases hd'
    | true =>
      have hm : m.contains k = true := by rw [← hcon k]; exact hc
      have h2 : refApply m (.erase k) = some (m.erase k) := by simp [refApply, hm]
      obtain ⟨d0, hd0⟩ := Erase_of_contains hw hc
      have h1 : applyCall d (.erase k) = some d0 := hd0
      refine ⟨by simp [h1, h2], fun d' hd' => ?_⟩
      rw [h1] at hd'
      injection hd' with hd'
      subst hd'
      have hw' := wf_Erase hw hd0
      have hg : ∀ k', d0.GetValue k' = if k = k' then none else d.GetValue k' :=
        GetValue_Erase hw hd0
      refine ⟨hw', hg, _, h2, agrees_intro hw' ?_ ?_ ?_⟩
      · exact List.Nodup.sublist (UMap.keys_erase_sublist m k) hnd
      · have hs := Size_Erase hw hd0
        have hl := UMap.length_erase hnd hm
        unfold Size at hs
        omega
      · intro k'
        rw [hg k', UMap.find_erase, hget k']
  | clear =>
    refine ⟨by simp [applyCall, refApply], fun d' hd' => ?_⟩
    have : d' = (DenseMap.new : DenseMap K V) := by
      simp only [applyCall, Clear] at hd'
      injection hd' with hd'
      exact hd'.symm
    subst this
    exact ⟨wf_new, fun _ => rfl, [], rfl, agrees_new⟩

theorem agrees_run (calls : List (Call K V)) :
    ∀ (d : DenseMap K V) (m : UMap K V), d.WF → Agrees d m →
    (runCalls d calls = none ↔ refRun m calls = none) ∧
    ∀ d', runCalls d calls = some d' →
      d'.WF ∧ (∀ k, d'.GetValue k = calls.foldl written d.GetValue k) ∧
      ∃ m', refRun m calls = some m' ∧ Agrees d' m' := by
  induction calls with
  | nil =>
    intro d m hw ha
    refine ⟨by simp [runCalls, refRun], fun d' hd' => ?_⟩
    simp only [runCalls] at hd'
    injection hd' with hd'
    subst hd'
    exact ⟨hw, fun _ => rfl, m, rfl, ha⟩
  | cons call rest ih =>
    intro d m hw ha
    obtain ⟨hnone, hsome⟩ := agrees_step hw ha call
    cases h1 : applyCall d call with
    | none =>
      have h2 := hnone.1 h1
      refine ⟨by simp [runCalls, refRun, h1, h2], fun d' hd' => ?_⟩
      simp [runCalls, h1] at hd'
    | some d1 =>
      obtain ⟨hw1, hg1, m1, h2, ha1⟩ := hsome d1 h1
      obtain ⟨ihnone, ihsome⟩ := ih d1 m1 hw1 ha1
      refine ⟨by simpa [runCalls, refRun, h1, h2] using ihnone, fun d' hd' => ?_⟩
      have hd1 : runCalls d1 rest = some d' := by simpa [runCalls, h1] using hd'
      obtain ⟨hw', hg', m', hm', ha'⟩ := ihsome d' hd1
      refine ⟨hw', ?_, m', by simpa [refRun, h2] using hm', ha'⟩
      intro k
      rw [hg' k, List.foldl_cons]
      have : d1.GetValue = written d.GetValue call := funext hg1
      rw [this]

/-- C18: a sequence of insert, update, erase and clear calls from the empty
store succeeds exactly when the same calls succeed on a reference finite map,
and the store then agrees with that map: the reference map holds each key
once, `Size()` is its number of keys, `IsEmpty()` and `Contains(k)` answer as
it does, and `GetValue(k)` is its value for k, which is the value most
recently inserted or updated for k (and fails when k was never written, or
erased or cleared since). -/
theorem store_agrees_with_reference_map (calls : List (Call K V)) :
    (runCalls (DenseMap.new : DenseMap K V) calls = none ↔
      refRun ([] : UMap K V) calls = none) ∧
    ∀ d, runCalls (DenseMap.new : DenseMap K V) calls = some d →
      ∃ m, refRun ([] : UMap K V) calls = some m ∧
        (m.map Prod.fst).Nodup ∧ d.Size = m.length ∧ d.IsEmpty = m.isEmpty ∧
        (∀ k, d.Contains k = true ↔ k ∈ m.map Prod.fst) ∧
        (∀ k, d.GetValue k = m.find k) ∧
        (∀ k, d.GetValue k = lastWritten calls k) := by
  obtain ⟨hnone, hsome⟩ := agrees_run calls DenseMap.new [] wf_new agrees_new
  refine ⟨hnone, fun d hd => ?_⟩
  obtain ⟨_, hg, m, hm, hnd, hlen, hemp, hcon, hget⟩ := hsome d hd
  refine ⟨m, hm, hnd, hlen, hemp, fun k => ?_, hget, hg⟩
  rw [hcon k]
  exact (UMap.mem_keys_iff m k).symm

end DenseMap

namespace DenseMap

variable {K V : Type} [DecidableEq K]

/-- Witness for C18: three inserts, an update and an erase leave two keys, 9
with value 90 and 7 with the updated value 71. -/
theorem store_agrees_with_reference_map_witness :
    runCalls DenseMap.new sampleCalls = some sampleCallsStore ∧
    ∃ m, refRun ([] : UMap Nat Nat) sampleCalls = some m ∧
      (m.map Prod.fst).Nodup ∧ sampleCallsStore.Size = m.length ∧
      sampleCallsStore.IsEmpty = m.isEmpty ∧
      (∀ k, sampleCallsStore.Contains k = true ↔ k ∈ m.map Prod.fst) ∧
      (∀ k, sampleCallsStore.GetValue k = m.find k) ∧
      (∀ k, sampleCallsStore.GetValue k = lastWritten sampleCalls k) :=
  ⟨by decide, (store_agrees_with_reference_map sampleCalls).2 sampleCallsStore (by decide)⟩

theorem InsertOutcome_eq (d : DenseMap K V) (k : K) (v : V) :
    d.InsertOutcome k v =
      match d.Insert k v with
      | some d' => .completed d'
      | none => .stopped d := by
  unfold InsertOutcome Insert
  by_cases hc : d.m_keyToIndex.contains k = true <;> simp [hc]

theorem UpdateOutcome_eq (d : DenseMap K V) (k : K) (v : V) :
    d.UpdateOutcome k v =
      match d.Update k v with
      | some d' => .completed d'
      | none => .stopped d := by
  unfold UpdateOutcome Update
  cases hf : d.m_keyToIndex.find k with
  | none => simp
  | some i => simp [UMap.contains, hf]

theorem EraseOutcome_eq (d : DenseMap K V) (k : K) :
    d.EraseOutcome k =
      match d.Erase k with
      | some d' => .completed d'
      | none => .stopped d := by
  unfold EraseOutcome Erase
  cases hf : d.m_keyToIndex.find k with
  | none => simp
  | some i =>
    simp only [UMap.contains, hf, Option.isSome_some, if_true]
    cases h1 : d.m_indexToKey[d.m_data.length - 1]? with
    | none => simp
    | some kl =>
      cases h2 : d.m_data[d.m_data.length - 1]? with
      | none => simp
      | some dl => simp

/-- C20: on a store built by the class's members, `Insert(k, v)` fails exactly
when k is present, and `Update(k, v)`, `Erase(k)` and `GetValue(k)` fail
exactly when k is absent; a failing `Insert`, `Update` or `Erase` stops with
the store (key-to-index map, index-to-key array and data array) exactly as it
was before the call. -/
theorem failing_call_leaves_store (d : DenseMap K V) (h : d.Built) (k : K) (v : V) :
    (d.Insert k v = none ↔ d.Contains k = true) ∧
    (d.Update k v = none ↔ d.Contains k = false) ∧
    (d.Erase k = none ↔ d.Contains k = false) ∧
    (d.GetValue k = none ↔ d.Contains k = false) ∧
    (d.Insert k v = none ↔ ∃ s, d.InsertOutcome k v = .stopped s) ∧
    (d.Update k v = none ↔ ∃ s, d.UpdateOutcome k v = .stopped s) ∧
    (d.Erase k = none ↔ ∃ s, d.EraseOutcome k = .stopped s) ∧
    (∀ s, d.InsertOutcome k v = .stopped s → s = d) ∧
    (∀ s, d.UpdateOutcome k v = .stopped s → s = d) ∧
    (∀ s, d.EraseOutcome k = .stopped s → s = d) := by
  have hw := built_wf h
  have hi : d.Insert k v = none ↔ d.Contains k = true := by
    cases hc : d.Contains k with
    | true =>
      have : d.m_keyToIndex.contains k = true := hc
      simp [Insert, this]
    | false =>
      obtain ⟨d', hd'⟩ := Insert_of_not_contains v hc
      simp [hd']
  have hu : d.Update k v = none ↔ d.Contains k = false := by
    cases hc : d.Contains k with
    | true =>
      obtain ⟨d', hd'⟩ := Update_of_contains v hc
      simp [hd']
    | false =>
      have hf : d.m_keyToIndex.find k = none := (UMap.contains_eq_false_iff _ _).1 hc
      simp [Update, hf]
  have he : d.Erase k = none ↔ d.Contains k = false := by
    cases hc : d.Contains k with
    | true =>
      obtain ⟨d', hd'⟩ := Erase_of_contains hw hc
      simp [hd']
    | false =>
      have hf : d.m_keyToIndex.find k = none := (UMap.contains_eq_false_iff _ _).1 hc
      simp [Erase, hf]
  have hg : d.GetValue k = none ↔ d.Contains k = false := by
    rw [← wf_GetValue_isSome hw k]
    cases d.GetValue k <;> simp
  refine ⟨hi, hu, he, hg, ?_, ?_, ?_, ?_, ?_, ?_⟩
  · rw [InsertOutcome_eq]
    cases d.Insert k v <;> simp
  · rw [UpdateOutcome_eq]
    cases d.Update k v <;> simp
  · rw [EraseOutcome_eq]
    cases d.Erase k <;> simp
  · intro s hs
    rw [InsertOutcome_eq] at hs
    cases hx : d.Insert k v with
    | none =>
      rw [hx] at hs
      injection hs with hs
      exact hs.symm
    | some d' =>
      rw [hx] at hs
      cases hs
  · intro s hs
    rw [UpdateOutcome_eq] at hs
    cases hx : d.Update k v with
    | none =>
      rw [hx] at hs
      injection hs with hs
      exact hs.symm
    | some d' =>
      rw [hx] at hs
      cases hs
  · intro s hs
    rw [EraseOutcome_eq] at hs
    cases hx : d.Erase k with
    | none =>
      rw [hx] at hs
      injection hs with hs
      exact hs.symm
    | some d' =>
      rw [hx] at hs
      cases hs

/-- Witness for C20: in the store holding keys 9 and 7, inserting the present
key 7 stops with the store as it was, and so does erasing the absent key 4. -/
theorem failing_call_leaves_store_witness :
    sampleStore.InsertOutcome 7 0 = .stopped sampleStore ∧
    sampleStore.EraseOutcome 4 = .stopped sampleStore ∧
    ((sampleStore.Insert 7 0 = none ↔ sampleStore.Contains 7 = true) ∧
    (sampleStore.Update 7 0 = none ↔ sampleStore.Contains 7 = false) ∧
    (sampleStore.Erase 7 = none ↔ sampleStore.Contains 7 = false) ∧
    (sampleStore.GetValue 7 = none ↔ sampleStore.Contains 7 = false) ∧
    (sampleStore.Insert 7 0 = none ↔ ∃ s, sampleStore.InsertOutcome 7 0 = .stopped s) ∧
    (sampleStore.Update 7 0 = none ↔ ∃ s, sampleStore.UpdateOutcome 7 0 = .stopped s) ∧
    (sampleStore.Erase 7 = none ↔ ∃ s, sampleStore.EraseOutcome 7 = .stopped s) ∧
    (∀ s, sampleStore.InsertOutcome 7 0 = .stopped s → s = sampleStore) ∧
    (∀ s, sampleStore.UpdateOutcome 7 0 = .stopped s → s = sampleStore) ∧
    (∀ s, sampleStore.EraseOutcome 7 = .stopped s → s = sampleStore)) :=
  ⟨by decide, by decide, failing_call_leaves_store sampleStore sampleStore_built 7 0⟩

end DenseMap

namespace ComponentManager

variable {V : Type}

theorem store_inv_new : (ComponentManager.new : ComponentManager V).Inv :=
  ⟨fun _ _ h => absurd h (List.not_mem_nil _), fun _ => ⟨fun _ => rfl, fun _ => rfl⟩, rfl,
    fun _ _ h => by simp [ComponentManager.new, UMap.find] at h⟩

theorem length_assign_of_find_none {K T : Type} [DecidableEq K] {m : UMap K T} {k : K} (v : T)
    (h : UMap.find m k = none) : (UMap.assign m k v).length = m.length + 1 := by
  rw [UMap.assign_of_find_none v h]
  simp

/-- Replacing the array of a registered type by a well-formed one keeps the
invariant. -/
theorem store_inv_assign {cm : ComponentManager V} (hinv : cm.Inv) {T : TypeName}
    {a' : ComponentArray V} (hT : cm.m_componentTypes.contains T = true)
    (hw : a'.m_components.WF) :
    Inv { cm with m_componentArrays := cm.m_componentArrays.assign T a' } := by
  refine ⟨?_, ?_, hinv.count, hinv.below⟩
  · intro T' a hmem
    rcases UMap.mem_assign hmem with h | h
    · injection h with h1 h2
      rw [h2]
      exact hw
    · exact hinv.arrays T' a h
  · intro T'
    simp only
    rw [UMap.find_assign]
    by_cases hk : T = T'
    · subst hk
      obtain ⟨id, hid⟩ := (UMap.contains_eq_true_iff _ _).1 hT
      simp [hid]
    · simp only [hk, if_false]
      exact hinv.keys T'

theorem store_inv_of_reachable {cm : ComponentManager V} (h : Reachable cm) : cm.Inv := by
  induction h with
  | init => exact store_inv_new
  | @register cm cm' T _ hr ih =>
    obtain ⟨_, hnone, rfl⟩ := RegisterComponentType_eq_some hr
    refine ⟨?_, ?_, ?_, ?_⟩
    · intro T' a hmem
      rcases UMap.mem_assign hmem with h | h
      · injection h with h1 h2
        rw [h2]
        exact DenseMap.wf_new
      · exact ih.arrays T' a h
    · intro T'
      simp only
      rw [UMap.find_assign, UMap.find_assign]
      by_cases hk : T = T'
      · simp [hk]
      · simp only [hk, if_false]
        exact ih.keys T'
    · simp only
      rw [length_assign_of_find_none _ hnone, ih.count]
    · intro T' id hf
      simp only at hf
      rw [UMap.find_assign] at hf
      by_cases hk : T = T'
      · simp only [hk, if_true] at hf
        injection hf with hf
        rw [← hf]
        exact Nat.lt_succ_self _
      · simp only [hk, if_false] at hf
        exact Nat.lt_succ_of_lt (ih.below T' id hf)
  | add _ hr ih =>
    obtain ⟨a, d', hT, ha, _, hi, rfl⟩ := AddComponent_eq_some hr
    exact store_inv_assign ih hT (DenseMap.wf_Insert (ih.arrays _ _ (UMap.mem_of_find ha)) hi)
  | remove _ hr ih =>
    obtain ⟨a, d', hT, ha, _, hi, rfl⟩ := RemoveComponent_eq_some hr
    exact store_inv_assign ih hT (DenseMap.wf_Erase (ih.arrays _ _ (UMap.mem_of_find ha)) hi)
  | assign _ hr ih =>
    obtain ⟨a, d', hT, ha, _, hi, rfl⟩ := AssignComponent_eq_some hr
    exact store_inv_assign ih hT (DenseMap.wf_Update (ih.arrays _ _ (UMap.mem_of_find ha)) hi)
  | entityDestroyed _ hr ih =>
    obtain ⟨h1, h2, h3, _, h5⟩ := EntityDestroyed_spec hr ih.arrays
    refine ⟨h5, ?_, ?_, ?_⟩
    · intro T
      rw [h1, h3 T]
      exact ih.keys T
    · rw [h1, h2]
      exact ih.count
    · intro T id hf
      rw [h1] at hf
      rw [h2]
      exact ih.below T id hf

/-- The array of a registered type exists and is well formed. -/
theorem registered_array {cm : ComponentManager V} (hinv : cm.Inv) {T : TypeName}
    (hT : cm.m_componentTypes.contains T = true) :
    ∃ a, cm.GetComponentArray T = some a ∧ cm.m_componentArrays.find T = some a ∧
      a.m_components.WF := by
  cases hf : cm.m_componentArrays.find T with
  | none =>
    have := (hinv.keys T).2 hf
    rw [(UMap.contains_eq_false_iff _ _).2 this] at hT
    cases hT
  | some a =>
    exact ⟨a, by simp [GetComponentArray, hT, hf], rfl, hinv.arrays T a (UMap.mem_of_find hf)⟩

end ComponentManager

namespace ComponentManager

variable {V : Type}

theorem reachable_of_runCalls (calls : List (Call V)) :
    ∀ {cm cm' : ComponentManager V}, Reachable cm → runCalls cm calls = some cm' →
      Reachable cm' := by
  induction calls with
  | nil =>
    intro cm cm' hr h
    simp only [runCalls, Option.some.injEq] at h
    exact h ▸ hr
  | cons call rest ih =>
    intro cm cm' hr h
    simp only [runCalls] at h
    cases h1 : applyCall cm call with
    | none => simp [h1] at h
    | some cm1 =>
      simp only [h1] at h
      refine ih ?_ h
      cases call with
      | register T => exact Reachable.register hr h1
      | add T e v => exact Reachable.add hr h1
      | remove T e => exact Reachable.remove hr h1
      | assign T e v => exact Reachable.assign hr h1
      | entityDestroyed e => exact Reachable.entityDestroyed hr h1

theorem pairStore_reachable : Reachable pairStore :=
  have hrun : runCalls (ComponentManager.new : ComponentManager Nat)
      [.register "Position", .register "Velocity", .add "Position" 3 30,
       .add "Position" 5 50, .add "Velocity" 3 31] = some pairStore := by decide
  reachable_of_runCalls _ Reachable.init hrun

/-- C15: in every reachable state of the Component Store, for a registered
type T and any entity e (alive or not): `HasComponent<T>(e)` returns a result;
`AddComponent<T>(e, v)` fails exactly when that result is true;
`RemoveComponent<T>(e)` and `GetComponent<T>(e)` fail exactly when it is
false; and the result is true after a successful add and false after a
successful remove. -/
theorem store_calls_fail_iff (cm : ComponentManager V) (h : Reachable cm) (T : TypeName)
    (hT : cm.m_componentTypes.contains T = true) (e : Entity) (v : V) :
    (∃ b, cm.HasComponent T e = some b) ∧
    (cm.AddComponent T e v = none ↔ cm.HasComponent T e = some true) ∧
    (cm.RemoveComponent T e = none ↔ cm.HasComponent T e = some false) ∧
    (cm.GetComponent T e = none ↔ cm.HasComponent T e = some false) ∧
    (∀ cm', cm.AddComponent T e v = some cm' → cm'.HasComponent T e = some true) ∧
    (∀ cm', cm.RemoveComponent T e = some cm' → cm'.HasComponent T e = some false) := by
  have hinv := store_inv_of_reachable h
  obtain ⟨a, hga, hfa, hwa⟩ := registered_array hinv hT
  have hhas : cm.HasComponent T e = some (a.HasData e) := by simp [HasComponent, hga]
  have after : ∀ d' : DenseMap Entity V,
      HasComponent { cm with m_componentArrays := cm.m_componentArrays.assign T ⟨d'⟩ } T e =
        some (d'.Contains e) := by
    intro d'
    simp [HasComponent, GetComponentArray, hT, UMap.find_assign, ComponentArray.HasData]
  refine ⟨⟨_, hhas⟩, ?_, ?_, ?_, ?_, ?_⟩
  · rw [hhas]
    unfold AddComponent
    rw [hga]
    cases hd : a.HasData e with
    | true => simp [hd]
    | false =>
      obtain ⟨d', hd'⟩ := DenseMap.Insert_of_not_contains v
        (show a.m_components.Contains e = false from hd)
      simp [ComponentArray.InsertData, hd', hd]
  · rw [hhas]
    unfold RemoveComponent
    rw [hga]
    cases hd : a.HasData e with
    | true =>
      obtain ⟨d', hd'⟩ := DenseMap.Erase_of_contains hwa
        (show a.m_components.Contains e = true from hd)
      simp [ComponentArray.RemoveData, hd', hd]
    | false => simp [hd]
  · rw [hhas]
    unfold GetComponent
    rw [hga]
    cases hd : a.HasData e with
    | true =>
      have hs := DenseMap.wf_GetValue_isSome hwa e
      rw [show a.m_components.Contains e = true from hd] at hs
      cases hg : a.m_components.GetValue e with
      | none => simp [hg] at hs
      | some x => simp [ComponentArray.GetData, hg, hd]
    | false => simp [hd]
  · intro cm' hadd
    obtain ⟨a0, d', _, _, _, hi, rfl⟩ := AddComponent_eq_some hadd
    rw [after d', DenseMap.Contains_Insert hi e]
    simp
  · intro cm' hrem
    obtain ⟨a0, d', _, _, _, hi, rfl⟩ := RemoveComponent_eq_some hrem
    rw [after d', DenseMap.Contains_Erase_self hi]

/-- Witness for C15: in the store where entity 3 has a `Position` and a
`Velocity` and entity 5 a `Position` only, adding a `Velocity` to entity 5 does
not fail and removing one does. -/
theorem store_calls_fail_iff_witness :
    pairStore.HasComponent "Velocity" 5 = some false ∧
    pairStore.RemoveComponent "Velocity" 5 = none ∧
    pairStore.GetComponent "Velocity" 5 = none ∧
    pairStore.AddComponent "Velocity" 5 51 ≠ none ∧
    pairStore.AddComponent "Velocity" 3 51 = none ∧
    ((∃ b, pairStore.HasComponent "Velocity" 5 = some b) ∧
    (pairStore.AddComponent "Velocity" 5 51 = none ↔
      pairStore.HasComponent "Velocity" 5 = some true) ∧
    (pairStore.RemoveComponent "Velocity" 5 = none ↔
      pairStore.HasComponent "Velocity" 5 = some false) ∧
    (pairStore.GetComponent "Velocity" 5 = none ↔
      pairStore.HasComponent "Velocity" 5 = some false) ∧
    (∀ cm', pairStore.AddComponent "Velocity" 5 51 = some cm' →
      cm'.HasComponent "Velocity" 5 = some true) ∧
    (∀ cm', pairStore.RemoveComponent "Velocity" 5 = some cm' →
      cm'.HasComponent "Velocity" 5 = some false)) :=
  ⟨by decide, by decide, by decide, by decide, by decide,
    store_calls_fail_iff pairStore pairStore_reachable "Velocity" (by decide) 5 51⟩

end ComponentManager

namespace ComponentManager

variable {V : Type}

/-- `EntityDestroyed(e)` leaves the component values of every other entity as
they were. -/
theorem EntityDestroyed_get {cm cm' : ComponentManager V} {e : Entity}
    (h : cm.EntityDestroyed e = some cm')
    (hw : ∀ T a, (T, a) ∈ cm.m_componentArrays → a.m_components.WF) :
    ∀ T a', cm'.m_componentArrays.find T = some a' →
      ∃ a, cm.m_componentArrays.find T = some a ∧
        ∀ e', e' ≠ e → a'.GetData e' = a.GetData e' := by
  unfold EntityDestroyed at h
  cases hf : UMap.forEachM (fun (_typeName : TypeName) (componentArray : ComponentArray V) =>
      if componentArray.HasData e then componentArray.EntityDestroyed e
      else some componentArray) cm.m_componentArrays with
  | none => simp [hf] at h
  | some arrays =>
    simp only [hf, Option.map_some'] at h
    injection h with h
    subst h
    intro T a' ha'
    simp only at ha'
    rw [UMap.find_forEachM hf T] at ha'
    cases hs : cm.m_componentArrays.find T with
    | none => simp [hs] at ha'
    | some a =>
      simp only [hs, Option.some_bind] at ha'
      refine ⟨a, rfl, fun e' hne => ?_⟩
      cases hd : a.HasData e with
      | false =>
        simp only [hd, Bool.false_eq_true, if_false] at ha'
        injection ha' with ha'
        rw [ha']
      | true =>
        simp only [hd, if_true, ComponentArray.EntityDestroyed] at ha'
        cases he : a.m_components.Erase e with
        | none => simp [he] at ha'
        | some d' =>
          simp only [he, Option.map_some'] at ha'
          injection ha' with ha'
          subst ha'
          have hg := DenseMap.GetValue_Erase (hw T a (UMap.mem_of_find hs)) he e'
          have hne' : ¬ e = e' := fun hc => hne hc.symm
          simp only [hne', if_false] at hg
          exact hg

/-- C17: in every reachable state of the Component Store,
`EntityDestroyed(e)` runs to completion (whether or not e has components),
registers and unregisters nothing, leaves `HasComponent<T>(e)` false for every
registered type T, and leaves the results of `HasComponent<T>(e')` and
`GetComponent<T>(e')` as they were for every other entity and every type. -/
theorem entity_destroyed_purges (cm : ComponentManager V) (h : Reachable cm) (e : Entity) :
    ∃ cm', cm.EntityDestroyed e = some cm' ∧
      cm'.m_componentTypes = cm.m_componentTypes ∧
      (∀ T, cm.m_componentTypes.contains T = true → cm'.HasComponent T e = some false) ∧
      (∀ T e', e' ≠ e →
        cm'.HasComponent T e' = cm.HasComponent T e' ∧
        cm'.GetComponent T e' = cm.GetComponent T e') := by
  have hinv := store_inv_of_reachable h
  obtain ⟨cm', hcm'⟩ := EntityDestroyed_isSome cm e hinv.arrays
  have hinv' := store_inv_of_reachable (Reachable.entityDestroyed h hcm')
  obtain ⟨h1, _, _, h4, _⟩ := EntityDestroyed_spec hcm' hinv.arrays
  have h6 := EntityDestroyed_get hcm' hinv.arrays
  have key : ∀ T, cm.m_componentTypes.contains T = true →
      ∃ a a', cm.GetComponentArray T = some a ∧ cm'.GetComponentArray T = some a' ∧
        (∀ e', a'.HasData e' = (!decide (e = e') && a.HasData e')) ∧
        (∀ e', e' ≠ e → a'.GetData e' = a.GetData e') := by
    intro T hT
    obtain ⟨a, hga, hfa, _⟩ := registered_array hinv hT
    have hT' : cm'.m_componentTypes.contains T = true := by rw [h1]; exact hT
    obtain ⟨a', hga', hfa', _⟩ := registered_array hinv' hT'
    obtain ⟨a0, ha0, hhas⟩ := h4 T a' hfa'
    obtain ⟨a1, ha1, hget⟩ := h6 T a' hfa'
    rw [hfa] at ha0 ha1
    injection ha0 with ha0
    injection ha1 with ha1
    subst ha0
    subst ha1
    exact ⟨a, a', hga, hga', hhas, hget⟩
  refine ⟨cm', hcm', h1, ?_, ?_⟩
  · intro T hT
    obtain ⟨a, a', _, hga', hhas, _⟩ := key T hT
    simp [HasComponent, hga', hhas e]
  · intro T e' hne
    cases hT : cm.m_componentTypes.contains T with
    | false =>
      have hT' : cm'.m_componentTypes.contains T = false := by rw [h1]; exact hT
      simp [HasComponent, GetComponent, GetComponentArray, hT, hT']
    | true =>
      obtain ⟨a, a', hga, hga', hhas, hget⟩ := key T hT
      have hne' : ¬ e = e' := fun hc => hne hc.symm
      have hh : a'.HasData e' = a.HasData e' := by simp [hhas e', hne']
      simp [HasComponent, GetComponent, hga, hga', hh, hget e' hne]

/-- Registration fails exactly when one of its two assertions fires. -/
theorem RegisterComponentType_eq_none_iff (cm : ComponentManager V) (T : TypeName) :
    cm.RegisterComponentType T = none ↔
      cm.m_componentTypes.contains T = true ∨ MaxComponents < cm.m_nextComponentTypeID := by
  unfold RegisterComponentType
  by_cases h1 : cm.m_nextComponentTypeID ≤ MaxComponents
  · have h1' : ¬ MaxComponents < cm.m_nextComponentTypeID := Nat.not_lt.2 h1
    by_cases h2 : cm.m_componentTypes.contains T = true
    · simp [h1, h2]
    · simp [h1, h2, h1']
  · have h1' : MaxComponents < cm.m_nextComponentTypeID := Nat.lt_of_not_le h1
    simp [h1, h1']

/-- In a reachable Component Store, registration fails exactly for a type
already registered or when more than `MaxComponents` types are registered. -/
theorem register_fails_iff_of_reachable (cm : ComponentManager V) (h : Reachable cm)
    (T : TypeName) :
    cm.RegisterComponentType T = none ↔
      cm.m_componentTypes.contains T = true ∨ MaxComponents < cm.m_componentTypes.length := by
  rw [RegisterComponentType_eq_none_iff, (store_inv_of_reachable h).count]

/-- C16: registering `MaxComponents` (32) distinct types succeeds and leaves
the store full; registering one more type still succeeds and gives it the id
32, which is not a bit index of a `Signature` (setting that bit fails); only
the registration after that one fails. -/
theorem register_issues_id_out_of_range :
    registerAll (ComponentManager.new : ComponentManager Nat) (manyTypes.take 32) =
      some fullStore ∧
    fullStore.m_componentTypes.length = MaxComponents ∧
    fullStore.m_componentTypes.contains "T32" = false ∧
    fullStore.RegisterComponentType "T32" = some crowdedStore ∧
    crowdedStore.m_componentTypes.length = MaxComponents + 1 ∧
    crowdedStore.GetComponentTypeID "T32" = some MaxComponents ∧
    Signature.set Signature.empty MaxComponents true = none ∧
    crowdedStore.m_componentTypes.contains "T33" = false ∧
    crowdedStore.RegisterComponentType "T33" = none := by
  decide

end ComponentManager

namespace ComponentManager

/-- Witness for C17: destroying entity 3, which has a `Position` and a
`Velocity`, leaves entity 5 with its `Position` 50. -/
theorem entity_destroyed_purges_witness :
    (∃ cm', pairStore.EntityDestroyed 3 = some cm' ∧
      cm'.HasComponent "Position" 3 = some false ∧
      cm'.HasComponent "Velocity" 3 = some false ∧
      cm'.GetComponent "Position" 5 = some 50) ∧
    (∃ cm', pairStore.EntityDestroyed 3 = some cm' ∧
      cm'.m_componentTypes = pairStore.m_componentTypes ∧
      (∀ T, pairStore.m_componentTypes.contains T = true →
        cm'.HasComponent T 3 = some false) ∧
      (∀ T e', e' ≠ 3 →
        cm'.HasComponent T e' = pairStore.HasComponent T e' ∧
        cm'.GetComponent T e' = pairStore.GetComponent T e')) :=
  ⟨by decide, entity_destroyed_purges pairStore pairStore_reachable 3⟩

end ComponentManager

namespace UMap

variable {K T : Type}

theorem forEachOutcome_completed (body : K → T → Option T) (m m' : UMap K T) :
    forEachOutcome body m = .completed m' ↔ forEachM body m = some m' := by
  induction m generalizing m' with
  | nil =>
    simp only [forEachOutcome, forEachM, Outcome.completed.injEq, Option.some.injEq]
  | cons p rest ih =>
    obtain ⟨a, b⟩ := p
    simp only [forEachOutcome, forEachM]
    cases hb : body a b with
    | none => simp
    | some b' =>
      simp only
      cases ho : forEachOutcome body rest with
      | completed r =>
        have := (ih r).1 ho
        simp [this]
      | stopped r =>
        cases hm : forEachM body rest with
        | none => simp
        | some r' =>
          have := (ih r').2 hm
          rw [ho] at this
          cases this

end UMap

namespace SystemManager

theorem EntitySignatureChangedOutcome_completed (sm sm' : SystemManager) (e : Entity)
    (sig : Signature) :
    sm.EntitySignatureChangedOutcome e sig = .completed sm' ↔
      sm.EntitySignatureChanged e sig = some sm' := by
  unfold EntitySignatureChangedOutcome EntitySignatureChanged
  cases ho : UMap.forEachOutcome (fun typeName system =>
      match sm.m_signatures.find typeName with
      | none => none
      | some systemSig =>
        if (sig &&& systemSig) = systemSig then System.AddEntity system e
        else System.RemoveEntity system e) sm.m_systems with
  | completed r =>
    have := (UMap.forEachOutcome_completed _ _ r).1 ho
    simp [this]
  | stopped r =>
    cases hm : UMap.forEachM (fun typeName system =>
        match sm.m_signatures.find typeName with
        | none => none
        | some systemSig =>
          if (sig &&& systemSig) = systemSig then System.AddEntity system e
          else System.RemoveEntity system e) sm.m_systems with
    | none => simp
    | some r' =>
      have := (UMap.forEachOutcome_completed _ _ r').2 hm
      rw [ho] at this
      cases this

end SystemManager

namespace Coordinator

variable {V : Type}

theorem updateSignatureOutcome_completed (c c' : Coordinator V) (cm : ComponentManager V)
    (T : TypeName) (e : Entity) (val : Bool) :
    c.updateSignatureOutcome cm T e val = .completed c' ↔
      c.updateSignature cm T e val = some c' := by
  unfold updateSignatureOutcome updateSignature
  cases c.m_entityManager.GetSignature e with
  | none => simp
  | some signature =>
    simp only
    cases cm.GetComponentTypeID T with
    | none => simp
    | some id =>
      simp only
      cases Signature.set signature id val with
      | none => simp
      | some signature' =>
        simp only
        cases c.m_entityManager.SetSignature e signature' with
        | none => simp
        | some em =>
          simp only
          cases ho : c.m_systemManager.EntitySignatureChangedOutcome e signature' with
          | completed sm =>
            have := (SystemManager.EntitySignatureChangedOutcome_completed _ sm e signature').1 ho
            simp [this]
          | stopped sm =>
            cases hm : c.m_systemManager.EntitySignatureChanged e signature' with
            | none => simp
            | some sm' =>
              have := (SystemManager.EntitySignatureChangedOutcome_completed _ sm' e
                signature').2 hm
              rw [ho] at this
              cases this

/-- The call completes in the model that tracks the state left behind exactly
when `AddComponent` returns, and with the same state. -/
theorem AddComponentOutcome_completed (c c' : Coordinator V) (T : TypeName) (e : Entity)
    (v : V) :
    c.AddComponentOutcome T e v = .completed c' ↔ c.AddComponent T e v = some c' := by
  unfold AddComponentOutcome AddComponent
  cases c.m_entityManager.IsAlive e with
  | none => simp
  | some b =>
    cases b with
    | false => simp
    | true =>
      simp only
      cases c.m_componentManager.AddComponent T e v with
      | none => simp
      | some cm => exact updateSignatureOutcome_completed c c' cm T e true

theorem RemoveComponentOutcome_completed (c c' : Coordinator V) (T : TypeName) (e : Entity) :
    c.RemoveComponentOutcome T e = .completed c' ↔ c.RemoveComponent T e = some c' := by
  unfold RemoveComponentOutcome RemoveComponent
  cases c.m_entityManager.IsAlive e with
  | none => simp
  | some b =>
    cases b with
    | false => simp
    | true =>
      simp only
      cases c.m_componentManager.RemoveComponent T e with
      | none => simp
      | some cm => exact updateSignatureOutcome_completed c c' cm T e false

theorem crowdedWorld_reachable : Reachable crowdedWorld :=
  have hrun : run (Coordinator.initial : Coordinator Nat)
      (ComponentManager.manyTypes.map (fun T => Op.registerComponent T) ++ [.createEntity]) =
        some crowdedWorld := by decide!
  reachable_of_run _ Reachable.initial hrun

theorem unsignedWorld_reachable : Reachable unsignedWorld :=
  have hrun : run (Coordinator.initial : Coordinator Nat)
      [.registerComponent "Position", .registerSystem "Mover", .createEntity] =
        some unsignedWorld := by decide!
  reachable_of_run _ Reachable.initial hrun

end Coordinator

namespace Coordinator

variable {V : Type}

/-- Once the component store has been changed, the rest of `AddComponent` /
`RemoveComponent` runs to completion when every issued type id is a valid bit
index and every system has a recorded signature. -/
theorem updateSignatureOutcome_not_stopped {c : Coordinator V} (hinv : c.Inv)
    (hs : AllSystemsHaveSignature c.m_systemManager)
    (hn : c.m_componentManager.m_nextComponentTypeID ≤ MaxComponents)
    {cm : ComponentManager V} (hcm : cm.m_componentTypes = c.m_componentManager.m_componentTypes)
    {T : TypeName} (hT : c.m_componentManager.m_componentTypes.contains T = true)
    {e : Entity} (he : c.m_entityManager.IsAlive e = some true) (val : Bool)
    (s : Coordinator V) : c.updateSignatureOutcome cm T e val ≠ .stopped s := by
  obtain ⟨id, hid⟩ := (UMap.contains_eq_true_iff _ _).1 hT
  have hid' : cm.GetComponentTypeID T = some id := by
    unfold ComponentManager.GetComponentTypeID
    rw [hcm]
    exact hid
  have hlt : id < MaxComponents := Nat.lt_of_lt_of_le (hinv.lt T id hid) hn
  obtain ⟨c', hc'⟩ := updateSignature_isSome hinv cm val (IsAlive_eq_some_true he).1 hid' hlt hs
  have := (updateSignatureOutcome_completed c c' cm T e val).2 hc'
  rw [this]
  intro hc
  cases hc

/-- In a reachable state where at most `MaxComponents` types are registered and
every system has a recorded signature, a failing `AddComponent` or
`RemoveComponent` stops before its first write. -/
theorem outcome_unchanged_of_valid (c : Coordinator V) (h : Reachable c)
    (hs : AllSystemsHaveSignature c.m_systemManager)
    (hn : c.m_componentManager.m_nextComponentTypeID ≤ MaxComponents)
    (T : TypeName) (e : Entity) (v : V) :
    (∀ s, c.AddComponentOutcome T e v = .stopped s → s = c) ∧
    (∀ s, c.RemoveComponentOutcome T e = .stopped s → s = c) := by
  have hinv := cinv_of_reachable h
  constructor
  · intro s hstop
    unfold AddComponentOutcome at hstop
    cases he : c.m_entityManager.IsAlive e with
    | none =>
      simp only [he] at hstop
      injection hstop with hstop
      exact hstop.symm
    | some b =>
      cases b with
      | false =>
        simp only [he] at hstop
        injection hstop with hstop
        exact hstop.symm
      | true =>
        simp only [he] at hstop
        cases hadd : c.m_componentManager.AddComponent T e v with
        | none =>
          simp only [hadd] at hstop
          injection hstop with hstop
          exact hstop.symm
        | some cm =>
          simp only [hadd] at hstop
          obtain ⟨a, d', hT, _, _, _, hcm⟩ := ComponentManager.AddComponent_eq_some hadd
          have hty : cm.m_componentTypes = c.m_componentManager.m_componentTypes := by
            rw [hcm]
          exact absurd hstop (updateSignatureOutcome_not_stopped hinv hs hn hty hT he true s)
  · intro s hstop
    unfold RemoveComponentOutcome at hstop
    cases he : c.m_entityManager.IsAlive e with
    | none =>
      simp only [he] at hstop
      injection hstop with hstop
      exact hstop.symm
    | some b =>
      cases b with
      | false =>
        simp only [he] at hstop
        injection hstop with hstop
        exact hstop.symm
      | true =>
        simp only [he] at hstop
        cases hrem : c.m_componentManager.RemoveComponent T e with
        | none =>
          simp only [hrem] at hstop
          injection hstop with hstop
          exact hstop.symm
        | some cm =>
          simp only [hrem] at hstop
          obtain ⟨a, d', hT, _, _, _, hcm⟩ := ComponentManager.RemoveComponent_eq_some hrem
          have hty : cm.m_componentTypes = c.m_componentManager.m_componentTypes := by
            rw [hcm]
          exact absurd hstop (updateSignatureOutcome_not_stopped hinv hs hn hty hT he false s)

/-- C12: with thirty-three component types registered and entity 0 alive,
`AddComponent<T32>(0, 7)` fails (setting signature bit 32 throws) after the
component store has been changed: the state left behind holds the component
while the stored signature is still empty, so it differs from the state before
the call. The same happens on the other late failure: with a system registered
without a signature, `AddComponent<Position>(0, 7)` fails in the notification,
after the component and the new signature have been stored. -/
theorem failed_add_keeps_component :
    Reachable crowdedWorld ∧
    crowdedWorld.IsEntityAlive 0 = some true ∧
    crowdedWorld.GetComponentTypeID "T32" = some 32 ∧
    crowdedWorld.m_componentManager.HasComponent "T32" 0 = some false ∧
    crowdedWorld.AddComponent "T32" 0 7 = none ∧
    crowdedWorld.AddComponentOutcome "T32" 0 7 = .stopped crowdedWorldAfter ∧
    crowdedWorldAfter.m_componentManager.GetComponent "T32" 0 = some 7 ∧
    crowdedWorldAfter.GetSignature 0 = some Signature.empty ∧
    crowdedWorldAfter.m_componentManager ≠ crowdedWorld.m_componentManager ∧
    Reachable unsignedWorld ∧
    unsignedWorld.AddComponent "Position" 0 7 = none ∧
    unsignedWorld.AddComponentOutcome "Position" 0 7 = .stopped unsignedWorldAfter ∧
    unsignedWorldAfter.m_componentManager.GetComponent "Position" 0 = some 7 ∧
    unsignedWorldAfter.GetSignature 0 = some 1 ∧
    unsignedWorldAfter.GetSystem "Mover" = some System.new ∧
    unsignedWorld.m_componentManager.HasComponent "Position" 0 = some false :=
  ⟨crowdedWorld_reachable, by decide!, by decide!, by decide!, by decide!, by decide!,
    by decide!, by decide!, by decide!, unsignedWorld_reachable, by decide!, by decide!,
    by decide!, by decide!, by decide!, by decide!⟩

end Coordinator

namespace DenseMap

variable {K V : Type} [DecidableEq K]

/-- In a store built by the class's members the key-to-index map holds each
key once. -/
theorem built_keys_nodup {d : DenseMap K V} (h : d.Built) :
    (d.m_keyToIndex.map Prod.fst).Nodup := by
  induction h with
  | new => exact List.nodup_nil
  | @insert d d' k v hb hi ih =>
    obtain ⟨hc, rfl⟩ := Insert_eq_some hi
    have hf : d.m_keyToIndex.find k = none := (UMap.contains_eq_false_iff _ _).1 hc
    simp only
    rw [UMap.assign_of_find_none _ hf, List.map_append]
    refine List.Nodup.append ih (List.nodup_singleton _) ?_
    intro x hx hx'
    have hxk : x = k := by simpa using hx'
    rw [hxk] at hx
    have := (UMap.mem_keys_iff d.m_keyToIndex k).1 hx
    rw [show d.m_keyToIndex.contains k = false from hc] at this
    cases this
  | update hb hu ih =>
    obtain ⟨i, _, rfl⟩ := Update_eq_some hu
    exact ih
  | @erase d d' k hb he ih =>
    obtain ⟨r, kl, dl, hr, hkl, _, rfl⟩ := Erase_eq_some he
    have hw := built_wf hb
    have hlast : d.m_keyToIndex.contains kl = true :=
      (UMap.contains_eq_true_iff _ _).2 ⟨_, (hw.idx kl _).2 hkl⟩
    simp only
    refine List.Nodup.sublist (UMap.keys_erase_sublist _ k) ?_
    rw [UMap.keys_assign_of_contains r hlast]
    exact ih
  | clear _ _ => exact List.nodup_nil

/-- C22: after every sequence of successful insert, update, erase and clear
calls the three parts of the store are in lock-step: the key-to-index map (it
holds each key once), the index-to-key array and the data array have the same
size, every stored index is below that size, and the two mappings are inverse
to each other. -/
theorem parts_in_lock_step (d : DenseMap K V) (h : d.Built) :
    (d.m_keyToIndex.map Prod.fst).Nodup ∧
    d.m_keyToIndex.length = d.Size ∧
    d.m_indexToKey.length = d.Size ∧
    d.GetDataVector.length = d.Size ∧
    (∀ k i, d.m_keyToIndex.find k = some i → i < d.Size) ∧
    (∀ k i, d.m_keyToIndex.find k = some i → d.m_indexToKey[i]? = some k) ∧
    (∀ (i : Nat), i < d.Size →
      ∃ k, d.m_indexToKey[i]? = some k ∧ d.m_keyToIndex.find k = some i) := by
  have hw := built_wf h
  have hnd := built_keys_nodup h
  refine ⟨hnd, ?_, hw.len, rfl, fun k i hf => wf_index_lt hw hf,
    fun k i hf => (hw.idx k i).1 hf, ?_⟩
  · have hperm : List.Perm (d.m_keyToIndex.map Prod.fst) d.m_indexToKey := by
      refine (List.perm_ext_iff_of_nodup hnd (wf_nodup hw)).2 (fun k => ?_)
      rw [UMap.mem_keys_iff]
      exact wf_contains_iff hw k
    have := hperm.length_eq
    rw [List.length_map] at this
    rw [this, hw.len]
    rfl
  · intro i hi
    have hi' : i < d.m_indexToKey.length := by rw [hw.len]; exact hi
    have hk : d.m_indexToKey[i]? = some (d.m_indexToKey.get ⟨i, hi'⟩) :=
      List.getElem?_eq_getElem hi'
    exact ⟨_, hk, (hw.idx _ i).2 hk⟩

/-- Witness for C22: the store left by inserting 4, 7, 9 and erasing 4. -/
theorem parts_in_lock_step_witness :
    sampleStore.m_keyToIndex.length = 2 ∧ sampleStore.m_indexToKey.length = 2 ∧
    sampleStore.Size = 2 ∧
    ((sampleStore.m_keyToIndex.map Prod.fst).Nodup ∧
    sampleStore.m_keyToIndex.length = sampleStore.Size ∧
    sampleStore.m_indexToKey.length = sampleStore.Size ∧
    sampleStore.GetDataVector.length = sampleStore.Size ∧
    (∀ k i, sampleStore.m_keyToIndex.find k = some i → i < sampleStore.Size) ∧
    (∀ k i, sampleStore.m_keyToIndex.find k = some i →
      sampleStore.m_indexToKey[i]? = some k) ∧
    (∀ (i : Nat), i < sampleStore.Size →
      ∃ k, sampleStore.m_indexToKey[i]? = some k ∧
        sampleStore.m_keyToIndex.find k = some i)) :=
  ⟨rfl, rfl, rfl, parts_in_lock_step sampleStore sampleStore_built⟩

end DenseMap

namespace DenseMap

variable {K V : Type} [DecidableEq K]

theorem runCalls_inserts (kvs : List (K × V)) :
    ∀ (d d' : DenseMap K V), runCalls d (kvs.map (fun p => Call.insert p.1 p.2)) = some d' →
      d'.m_data = d.m_data ++ kvs.map Prod.snd ∧
      d'.m_indexToKey = d.m_indexToKey ++ kvs.map Prod.fst := by
  induction kvs with
  | nil =>
    intro d d' h
    simp only [List.map_nil, runCalls, Option.some.injEq] at h
    subst h
    simp
  | cons p rest ih =>
    intro d d' h
    simp only [List.map_cons, runCalls, applyCall] at h
    cases hi : d.Insert p.1 p.2 with
    | none => simp [hi] at h
    | some d1 =>
      simp only [hi] at h
      obtain ⟨h1, h2⟩ := ih d1 d' h
      obtain ⟨_, rfl⟩ := Insert_eq_some hi
      simp only at h1 h2
      simp [h1, h2]

/-- C21: in a store built by the class's members, `Erase(k)` of a key stored at
index i succeeds and makes the data array equal to the previous one with
element i overwritten by the previous last element and the last slot removed:
the size drops by one, every index other than i and the last keeps its
element, slot i (when it is not the last) holds the previous last element, and
when i is the last index only the last slot is removed. `Insert` appends to
the data array, so a sequence of inserts from the empty store leaves the
values, and the keys, in insertion order. -/
theorem erase_moves_last_into_slot :
    (∀ (d : DenseMap K V), d.Built → ∀ (k : K) (i : Nat), d.m_keyToIndex.find k = some i →
      ∃ d' last, d.Erase k = some d' ∧
        d.GetDataVector[d.Size - 1]? = some last ∧
        d'.GetDataVector = (d.GetDataVector.set i last).dropLast ∧
        d'.Size + 1 = d.Size ∧
        (∀ (j : Nat), j ≠ i → j + 1 < d.Size →
          d'.GetDataVector[j]? = d.GetDataVector[j]?) ∧
        (i + 1 < d.Size → d'.GetDataVector[i]? = some last) ∧
        (i + 1 = d.Size → d'.GetDataVector = d.GetDataVector.dropLast)) ∧
    (∀ (d d' : DenseMap K V) (k : K) (v : V), d.Insert k v = some d' →
      d'.GetDataVector = d.GetDataVector ++ [v]) ∧
    (∀ (kvs : List (K × V)) (d' : DenseMap K V),
      runCalls DenseMap.new (kvs.map (fun p => Call.insert p.1 p.2)) = some d' →
      d'.GetDataVector = kvs.map Prod.snd ∧ d'.m_indexToKey = kvs.map Prod.fst) := by
  refine ⟨?_, ?_, ?_⟩
  · intro d hb k i hi
    have hw := built_wf hb
    have hc : d.Contains k = true := (UMap.contains_eq_true_iff _ _).2 ⟨i, hi⟩
    obtain ⟨d', hd'⟩ := Erase_of_contains hw hc
    obtain ⟨r, kl, dl, hr, _, hdl, rfl⟩ := Erase_eq_some hd'
    rw [hi] at hr
    injection hr with hr
    subst hr
    have hlt : i < d.m_data.length := wf_index_lt hw hi
    refine ⟨_, dl, hd', hdl, rfl, ?_, ?_, ?_, ?_⟩
    · simp only [Size, List.length_dropLast, List.length_set]
      omega
    · intro j hji hj
      simp only [Size] at hj
      simp only [GetDataVector, List.getElem?_dropLast, List.length_set, List.getElem?_set]
      have h1 : j < d.m_data.length - 1 := by omega
      have h2 : ¬ i = j := fun hc => hji hc.symm
      simp [h1, h2]
    · intro hlast
      simp only [Size] at hlast
      simp only [GetDataVector, List.getElem?_dropLast, List.length_set, List.getElem?_set]
      have h1 : i < d.m_data.length - 1 := by omega
      simp [h1, hlt]
    · intro hlast
      simp only [Size] at hlast
      simp only [GetDataVector]
      apply List.ext_getElem?
      intro j
      simp only [List.getElem?_dropLast, List.length_set, List.getElem?_set]
      by_cases h1 : j < d.m_data.length - 1
      · have h2 : ¬ i = j := by omega
        simp [h1, h2]
      · simp [h1]
  · intro d d' k v hi
    obtain ⟨_, rfl⟩ := Insert_eq_some hi
    rfl
  · intro kvs d' h
    have := runCalls_inserts kvs DenseMap.new d' h
    simpa [DenseMap.new, GetDataVector] using this

theorem threeStore_built : threeStore.Built :=
  Built.insert
    (Built.insert
      (Built.insert Built.new
        (by decide : (DenseMap.new : DenseMap Nat Nat).Insert 4 40 = some ⟨[(4, 0)], [4], [40]⟩))
      (by decide : DenseMap.Insert ⟨[(4, 0)], [4], [40]⟩ 7 70 =
        some ⟨[(4, 0), (7, 1)], [4, 7], [40, 70]⟩))
    (by decide : DenseMap.Insert ⟨[(4, 0), (7, 1)], [4, 7], [40, 70]⟩ 9 90 = some threeStore)

/-- Witness for C21: in the store with values `[40, 70, 90]` erasing key 4
(index 0) gives `[90, 70]`, and three inserts give the values in insertion
order. -/
theorem erase_moves_last_into_slot_witness :
    threeStore.GetDataVector = [40, 70, 90] ∧
    (∃ d' last, threeStore.Erase 4 = some d' ∧
      threeStore.GetDataVector[threeStore.Size - 1]? = some last ∧
      d'.GetDataVector = (threeStore.GetDataVector.set 0 last).dropLast ∧
      d'.Size + 1 = threeStore.Size ∧
      (∀ (j : Nat), j ≠ 0 → j + 1 < threeStore.Size →
        d'.GetDataVector[j]? = threeStore.GetDataVector[j]?) ∧
      (0 + 1 < threeStore.Size → d'.GetDataVector[0]? = some last) ∧
      (0 + 1 = threeStore.Size → d'.GetDataVector = threeStore.GetDataVector.dropLast)) ∧
    (threeStore.Erase 4).map GetDataVector = some [90, 70] ∧
    (threeStore.Erase 9).map GetDataVector = some [40, 70] ∧
    (∀ d', runCalls (DenseMap.new : DenseMap Nat Nat)
        ([(4, 40), (7, 70), (9, 90)].map (fun p => Call.insert p.1 p.2)) = some d' →
      d'.GetDataVector = [40, 70, 90] ∧ d'.m_indexToKey = [4, 7, 9]) :=
  ⟨rfl, (erase_moves_last_into_slot (K := Nat) (V := Nat)).1 threeStore threeStore_built 4 0
      (by decide),
    by decide, by decide,
    fun d' h => (erase_moves_last_into_slot (K := Nat) (V := Nat)).2.2
      [(4, 40), (7, 70), (9, 90)] d' h⟩

end DenseMap

namespace EventBus

variable {P : Type}

theorem run_succ (fuel : Nat) (x : BusRun P) (next : Pending P) (rest : List (Pending P)) :
    run (fuel + 1) x (next :: rest) =
      match step x rest next with
      | none => .failed
      | some (x', pending) => run fuel x' pending := rfl

theorem step_quiet (x : BusRun P) (rest : List (Pending P)) (c : BusCall P)
    (hc : c.isQuiet = true) :
    step x rest (.call c) = some (⟨applyQuiet x.bus c, x.calls⟩, rest) := by
  cases c with
  | emit T e fast =>
    cases fast with
    | false => rfl
    | true => simp [BusCall.isQuiet] at hc
  | addListener T cb => rfl
  | removeListener T id => simp [BusCall.isQuiet] at hc
  | processEvents => simp [BusCall.isQuiet] at hc
  | unsubscribeAll => simp [BusCall.isQuiet] at hc

/-- Quiet bus calls take one step each and change the bus only. -/
theorem run_quiet_calls (s : List (BusCall P)) (hs : s.all BusCall.isQuiet = true) :
    ∀ (x : BusRun P) (rest : List (Pending P)) (fuel : Nat),
      run (fuel + s.length) x (s.map (fun c => Pending.call c) ++ rest) =
        run fuel ⟨s.foldl applyQuiet x.bus, x.calls⟩ rest := by
  induction s with
  | nil =>
    intro x rest fuel
    rfl
  | cons c s ih =>
    intro x rest fuel
    simp only [List.all_cons, Bool.and_eq_true] at hs
    have h1 : fuel + (c :: s).length = (fuel + s.length) + 1 := rfl
    rw [h1, List.map_cons, List.cons_append, run_succ, step_quiet x _ c hs.1]
    exact ih hs.2 _ rest fuel

/-- Invoking one listener whose callback is quiet. -/
theorem run_invoke (x : BusRun P) (l : ItemListener P) (item : ItemEvent P)
    (hs : (l.callback item.event).all BusCall.isQuiet = true) (rest : List (Pending P))
    (fuel : Nat) :
    run (fuel + (l.callback item.event).length + 1) x (.invoke l item :: rest) =
      run fuel ⟨(l.callback item.event).foldl applyQuiet x.bus,
        x.calls ++ [invocation item l]⟩ rest := by
  rw [run_succ]
  exact run_quiet_calls _ hs _ rest fuel

theorem scripts_cons (l : ItemListener P) (ls : List (ItemListener P)) (item : ItemEvent P) :
    scripts (l :: ls) item = l.callback item.event ++ scripts ls item := by
  simp [scripts]

/-- Invoking the copied listeners in order, all callbacks quiet. -/
theorem run_invokes (item : ItemEvent P) (ls : List (ItemListener P)) :
    (scripts ls item).all BusCall.isQuiet = true →
    ∀ (x : BusRun P) (rest : List (Pending P)) (fuel : Nat),
      run (fuel + (ls.length + (scripts ls item).length)) x
          (ls.map (fun l => Pending.invoke l item) ++ rest) =
        run fuel (delivered x ls item) rest := by
  induction ls with
  | nil =>
    intro _ x rest fuel
    simp [scripts, delivered]
  | cons l ls ih =>
    intro hs x rest fuel
    rw [scripts_cons, List.all_append, Bool.and_eq_true] at hs
    have hfuel : fuel + ((l :: ls).length + (scripts (l :: ls) item).length) =
        (fuel + (ls.length + (scripts ls item).length)) + (l.callback item.event).length + 1 := by
      rw [scripts_cons, List.length_append, List.length_cons]
      omega
    rw [hfuel, List.map_cons, List.cons_append, run_invoke x l item hs.1, ih hs.2]
    simp [delivered, scripts_cons, List.foldl_append]

/-- The private member `ProcessEvent(item)` when the type has listeners with
quiet callbacks. -/
theorem run_processEvent (x : BusRun P) (item : ItemEvent P) (ls : List (ItemListener P))
    (h : x.bus.m_listeners.find item.type = some ls)
    (hs : (scripts ls item).all BusCall.isQuiet = true) (rest : List (Pending P)) (fuel : Nat) :
    run (fuel + deliveryCost ls item) x (.processEvent item :: rest) =
      run fuel (delivered x ls item) rest := by
  have hfuel : fuel + deliveryCost ls item =
      (fuel + (ls.length + (scripts ls item).length)) + 1 := by
    unfold deliveryCost
    omega
  rw [hfuel, run_succ]
  simp only [step, h]
  exact run_invokes item ls hs x rest fuel

/-- The private member `ProcessEvent(item)` when the type has no listener
list: the assertion fires. -/
theorem run_processEvent_none (x : BusRun P) (item : ItemEvent P)
    (h : x.bus.m_listeners.find item.type = none) (rest : List (Pending P)) (fuel : Nat) :
    run (fuel + 1) x (.processEvent item :: rest) = .failed := by
  rw [run_succ]
  simp only [step, h]

theorem run_nil (fuel : Nat) (x : BusRun P) : run fuel x [] = .done x := by
  cases fuel <;> rfl

end EventBus

namespace EventBus

variable {P : Type}

/-- An immediate publish to a type whose listeners have quiet callbacks. -/
theorem Emit_fast_quiet (x : BusRun P) (E : TypeName) (ev : P) (ls : List (ItemListener P))
    (h : x.bus.m_listeners.find E = some ls)
    (hs : (scripts ls ⟨E, ev⟩).all BusCall.isQuiet = true) (fuel : Nat)
    (hf : deliveryCost ls ⟨E, ev⟩ + 1 ≤ fuel) :
    Emit fuel x E ev true = .done (delivered x ls ⟨E, ev⟩) := by
  obtain ⟨k, rfl⟩ := Nat.exists_eq_add_of_le hf
  have hk : deliveryCost ls ⟨E, ev⟩ + 1 + k = (k + deliveryCost ls ⟨E, ev⟩) + 1 := by omega
  rw [hk]
  unfold Emit
  rw [run_succ]
  simp only [step]
  rw [run_processEvent x ⟨E, ev⟩ ls h hs [] k, run_nil]

/-- An immediate publish to a type without a listener list fails. -/
theorem Emit_fast_none (x : BusRun P) (E : TypeName) (ev : P)
    (h : x.bus.m_listeners.find E = none) (fuel : Nat) (hf : 2 ≤ fuel) :
    Emit fuel x E ev true = .failed := by
  obtain ⟨k, rfl⟩ := Nat.exists_eq_add_of_le hf
  have hk : 2 + k = (k + 1) + 1 := by omega
  rw [hk]
  unfold Emit
  rw [run_succ]
  simp only [step]
  exact run_processEvent_none x ⟨E, ev⟩ h [] k

theorem scripts_of_passive (ls : List (ItemListener P)) (item : ItemEvent P)
    (hp : ls.all (fun l => (l.callback item.event).isEmpty) = true) : scripts ls item = [] := by
  induction ls with
  | nil => rfl
  | cons l ls ih =>
    simp only [List.all_cons, Bool.and_eq_true, List.isEmpty_iff] at hp
    rw [scripts_cons, hp.1, ih hp.2]
    rfl

/-- C24: a queued publish (`fast == false`) returns having invoked no listener,
whatever the listeners of E are: the only change is the event, tagged with
its type, appended at the end of the deferred queue; the listener lists, the
earlier queue entries and the next listener id are as before. -/
theorem deferred_publish_only_appends (x : BusRun P) (E : TypeName) (ev : P) (fuel : Nat) :
    Emit (fuel + 1) x E ev false = .done ⟨x.bus.enqueue E ev, x.calls⟩ ∧
    (x.bus.enqueue E ev).m_eventQueue = x.bus.m_eventQueue ++ [⟨E, ev⟩] ∧
    (x.bus.enqueue E ev).m_listeners = x.bus.m_listeners ∧
    (x.bus.enqueue E ev).m_nextListenerID = x.bus.m_nextListenerID := by
  refine ⟨?_, rfl, rfl, rfl⟩
  unfold Emit
  rw [run_succ]
  simp only [step]
  exact run_nil fuel _

end EventBus

namespace EventBus

variable {P : Type}

theorem scoreBus_built :
    scoreBus =
      (((EventBus.new.AddListener "Scored" (fun _ => [])).2.AddListener "Scored"
        (fun _ => [])).2.AddListener "PlayerDead" (fun _ => [])).2 := rfl

theorem queuedBus_built :
    queuedBus = ((EventBus.new.AddListener "Scored" (fun _ => [])).2).enqueue "Scored" 10 := rfl

theorem isQuiet_of_isDeferred (s : List (BusCall P)) (h : s.all BusCall.isDeferred = true) :
    s.all BusCall.isQuiet = true := by
  rw [List.all_eq_true] at h ⊢
  intro c hc
  have := h c hc
  cases c with
  | emit T e fast =>
    cases fast with
    | false => rfl
    | true => simp [BusCall.isDeferred] at this
  | addListener T cb => rfl
  | removeListener T id => simp [BusCall.isDeferred] at this
  | processEvents => simp [BusCall.isDeferred] at this
  | unsubscribeAll => simp [BusCall.isDeferred] at this

/-- Callbacks that only queue events leave the listeners and the next id
alone and append their events to the deferred queue. -/
theorem foldl_applyQuiet_deferred (s : List (BusCall P))
    (h : s.all BusCall.isDeferred = true) :
    ∀ (bus : EventBus P), s.foldl applyQuiet bus =
      { bus with m_eventQueue := bus.m_eventQueue ++ published s } := by
  induction s with
  | nil =>
    intro bus
    simp [published]
  | cons c s ih =>
    intro bus
    simp only [List.all_cons, Bool.and_eq_true] at h
    cases c with
    | emit T e fast =>
      cases fast with
      | false =>
        simp only [List.foldl_cons, applyQuiet, published]
        rw [ih h.2]
        simp [enqueue]
      | true => simp [BusCall.isDeferred] at h
    | addListener T cb => simp [BusCall.isDeferred] at h
    | removeListener T id => simp [BusCall.isDeferred] at h
    | processEvents => simp [BusCall.isDeferred] at h
    | unsubscribeAll => simp [BusCall.isDeferred] at h

/-- The loop of `ProcessEvents` over the swapped-out queue when the callbacks
only queue events: it fails at the first event whose type has no listener
list, else it invokes the listeners event by event and leaves the published
events at the end of the deferred queue. -/
theorem run_flush (L : UMap TypeName (List (ItemListener P))) (q : List (ItemEvent P)) :
    flushDefers L q = true →
    ∀ (y : BusRun P) (rest : List (Pending P)) (fuel : Nat), y.bus.m_listeners = L →
      run (fuel + flushCost L q + q.length) y
          (q.map (fun eventItem => Pending.processEvent eventItem) ++ rest) =
        if allHeard L q = true then
          run (fuel + q.length)
            ⟨{ y.bus with m_eventQueue := y.bus.m_eventQueue ++ flushPublished L q },
              y.calls ++ flushInvocations L q⟩ rest
        else .failed := by
  induction q with
  | nil =>
    intro _ y rest fuel _
    simp [flushCost, allHeard, flushPublished, flushInvocations]
  | cons item q ih =>
    intro hd y rest fuel hL
    simp only [flushDefers, List.all_cons, Bool.and_eq_true] at hd
    have hd2 : flushDefers L q = true := hd.2
    cases hf : L.find item.type with
    | none =>
      have hfuel : fuel + flushCost L (item :: q) + (item :: q).length =
          (fuel + flushCost L (item :: q) + q.length) + 1 := rfl
      rw [hfuel, List.map_cons, List.cons_append,
        run_processEvent_none y item (by rw [hL]; exact hf)]
      simp [allHeard, hf]
    | some ls =>
      have hs : (scripts ls item).all BusCall.isDeferred = true := by
        have := hd.1
        rw [hf] at this
        exact this
      have hfuel : fuel + flushCost L (item :: q) + (item :: q).length =
          ((fuel + 1) + flushCost L q + q.length) + deliveryCost ls item := by
        simp only [flushCost, List.map_cons, List.sum_cons, hf, Option.getD_some,
          List.length_cons]
        omega
      rw [hfuel, List.map_cons, List.cons_append,
        run_processEvent y item ls (by rw [hL]; exact hf) (isQuiet_of_isDeferred _ hs)]
      have hbus : (delivered y ls item).bus =
          { y.bus with m_eventQueue := y.bus.m_eventQueue ++ published (scripts ls item) } :=
        foldl_applyQuiet_deferred _ hs y.bus
      have hL' : (delivered y ls item).bus.m_listeners = L := by rw [hbus]; exact hL
      rw [ih hd2 (delivered y ls item) rest (fuel + 1) hL']
      have hall : allHeard L (item :: q) = allHeard L q := by
        simp [allHeard, hf]
      rw [hall]
      by_cases hh : allHeard L q = true
      · simp only [hh, if_true]
        have e1 : fuel + 1 + q.length = fuel + (item :: q).length := by
          simp only [List.length_cons]
          omega
        rw [e1, hbus]
        simp [delivered, flushPublished, flushInvocations, hf, List.append_assoc]
      · simp [hh]

/-- The member `ProcessEvents` when the callbacks invoked only queue events. -/
theorem ProcessEvents_deferring (x : BusRun P)
    (hd : flushDefers x.bus.m_listeners x.bus.m_eventQueue = true) (fuel : Nat)
    (hf : flushCost x.bus.m_listeners x.bus.m_eventQueue + x.bus.m_eventQueue.length + 1 ≤
      fuel) :
    ProcessEvents fuel x =
      if allHeard x.bus.m_listeners x.bus.m_eventQueue = true then
        .done ⟨{ x.bus with
                 m_eventQueue := flushPublished x.bus.m_listeners x.bus.m_eventQueue },
               x.calls ++ flushInvocations x.bus.m_listeners x.bus.m_eventQueue⟩
      else .failed := by
  obtain ⟨k, rfl⟩ := Nat.exists_eq_add_of_le hf
  have hk : flushCost x.bus.m_listeners x.bus.m_eventQueue + x.bus.m_eventQueue.length + 1 + k =
      (k + flushCost x.bus.m_listeners x.bus.m_eventQueue + x.bus.m_eventQueue.length) + 1 := by
    omega
  rw [hk]
  unfold ProcessEvents
  rw [run_succ]
  simp only [step]
  have := run_flush x.bus.m_listeners x.bus.m_eventQueue hd
    ⟨{ x.bus with m_eventQueue := [] }, x.calls⟩ [] k rfl
  refine Eq.trans this ?_
  by_cases hh : allHeard x.bus.m_listeners x.bus.m_eventQueue = true
  · simp only [hh, if_true, run_nil, List.nil_append]
  · simp [hh]

end EventBus

namespace EventBus

variable {P : Type}

theorem relayBus_built :
    relayBus =
      (((EventBus.new.AddListener "Collision" (fun v => [.emit "Scored" (v + 1) false])).2
        |>.AddListener "Scored" (fun _ => [])).2).enqueue "Collision" 5 := rfl

/-- A flush of the empty queue returns at once and invokes nothing. -/
theorem ProcessEvents_empty (x : BusRun P) (h : x.bus.m_eventQueue = []) (fuel : Nat)
    (hf : 1 ≤ fuel) : ProcessEvents fuel x = .done x := by
  obtain ⟨k, rfl⟩ := Nat.exists_eq_add_of_le hf
  have hk : 1 + k = k + 1 := by omega
  rw [hk]
  unfold ProcessEvents
  rw [run_succ]
  simp only [step, h, List.map_nil, List.nil_append]
  rw [run_nil]
  have : ({ x with bus := { x.bus with m_eventQueue := [] } } : BusRun P) = x := by
    cases x with
    | mk bus calls =>
      cases bus with
      | mk n q l =>
        simp only at h
        subst h
        rfl
  rw [this]

end EventBus

namespace EventBus

variable {P : Type}

theorem RemoveListener_eq_none_iff (bus : EventBus P) (E : TypeName) (id : ListenerID) :
    bus.RemoveListener E id = none ↔
      bus.m_listeners.find E = none ∨ ∀ l, l ∈ bus.listenersOf E → l.id ≠ id := by
  unfold RemoveListener listenersOf
  cases hf : bus.m_listeners.find E with
  | none => simp
  | some stored =>
    simp only [Option.getD_some]
    by_cases ha : stored.any (fun l => decide (l.id = id)) = true
    · simp only [ha, if_true]
      obtain ⟨l, hl, hid⟩ := List.any_eq_true.1 ha
      constructor
      · intro h
        split at h <;> cases h
      · intro h
        rcases h with h | h
        · cases h
        · exact absurd (of_decide_eq_true hid) (h l hl)
    · simp only [ha]
      constructor
      · intro _
        right
        intro l hl hid
        exact ha (List.any_eq_true.2 ⟨l, hl, decide_eq_true hid⟩)
      · intro _
        rfl

/-- What a successful `RemoveListener` does: it drops the entry of the type
when every stored listener carries the id, and changes nothing otherwise. -/
theorem RemoveListener_eq_some {bus bus' : EventBus P} {E : TypeName} {id : ListenerID}
    (h : bus.RemoveListener E id = some bus') :
    ∃ stored, bus.m_listeners.find E = some stored ∧ (∃ l, l ∈ stored ∧ l.id = id) ∧
      (((∀ l, l ∈ stored → l.id = id) ∧
          bus' = { bus with m_listeners := bus.m_listeners.erase E }) ∨
        ((∃ l, l ∈ stored ∧ l.id ≠ id) ∧ bus' = bus)) := by
  unfold RemoveListener at h
  cases hf : bus.m_listeners.find E with
  | none => simp [hf] at h
  | some stored =>
    simp only [hf] at h
    by_cases ha : stored.any (fun l => decide (l.id = id)) = true
    · simp only [ha, if_true] at h
      obtain ⟨l, hl, hid⟩ := List.any_eq_true.1 ha
      refine ⟨stored, rfl, ⟨l, hl, of_decide_eq_true hid⟩, ?_⟩
      by_cases he : (stored.filter (fun l => decide (¬ l.id = id))).isEmpty = true
      · simp only [he, if_true, Option.some.injEq] at h
        left
        refine ⟨fun l' hl' => ?_, h.symm⟩
        rw [List.isEmpty_iff] at he
        by_contra hne
        have : l' ∈ stored.filter (fun l => decide (¬ l.id = id)) :=
          List.mem_filter.2 ⟨hl', decide_eq_true hne⟩
        rw [he] at this
        exact absurd this (List.not_mem_nil _)
      · simp only [he, Bool.false_eq_true, if_false, Option.some.injEq] at h
        right
        refine ⟨?_, h.symm⟩
        cases hfl : stored.filter (fun l => decide (¬ l.id = id)) with
        | nil => rw [hfl] at he; exact absurd rfl he
        | cons l' rest =>
          have : l' ∈ stored.filter (fun l => decide (¬ l.id = id)) := by
            rw [hfl]; exact List.mem_cons_self _ _
          obtain ⟨h1, h2⟩ := List.mem_filter.1 this
          exact ⟨l', h1, of_decide_eq_true h2⟩
    · simp [ha] at h

theorem RemoveListenerOutcome_eq (bus : EventBus P) (E : TypeName) (id : ListenerID) :
    bus.RemoveListenerOutcome E id =
      match bus.RemoveListener E id with
      | some bus' => .completed bus'
      | none => .stopped bus := by
  unfold RemoveListenerOutcome RemoveListener
  cases bus.m_listeners.find E with
  | none => rfl
  | some stored =>
    simp only
    by_cases ha : stored.any (fun l => decide (l.id = id)) = true
    · simp only [ha, if_true]
      by_cases he : (stored.filter (fun l => decide (¬ l.id = id))).isEmpty = true
      · simp only [he, if_true]
      · simp only [he, Bool.false_eq_true, if_false]
    · simp only [ha, Bool.false_eq_true, if_false]

/-- C27: with listeners 1 and 2 subscribed to `Scored`, `RemoveListener` of
listener 1 succeeds and removes nothing: `Scored` still has the listeners 1
and 2, and a following immediate publish (and a flush of a queued event)
invokes listener 1 again. Only a listener that is alone in its list is
removed (listener 3 of `PlayerDead`). -/
theorem unsubscribe_keeps_listener :
    (∃ bus', scoreBus.RemoveListener "Scored" 1 = some bus' ∧
      bus'.listenerIDs "Scored" = [1, 2] ∧
      (Emit 4 ⟨bus', []⟩ "Scored" 10 true).callsOf =
        some [⟨1, "Scored", 10⟩, ⟨2, "Scored", 10⟩] ∧
      (ProcessEvents 6 ⟨bus'.enqueue "Scored" 10, []⟩).callsOf =
        some [⟨1, "Scored", 10⟩, ⟨2, "Scored", 10⟩]) ∧
    (∃ bus', scoreBus.RemoveListener "PlayerDead" 3 = some bus' ∧
      bus'.listenerIDs "PlayerDead" = [] ∧ bus'.listenerIDs "Scored" = [1, 2]) :=
  ⟨⟨scoreBus, rfl, rfl, by decide, by decide⟩, ⟨_, rfl, rfl, rfl⟩⟩

/-- With another listener in the list of the type, a successful
`RemoveListener` returns the bus as it was. -/
theorem RemoveListener_of_others (bus : EventBus P) (E : TypeName) (id : ListenerID)
    (stored : List (ItemListener P)) (h : bus.m_listeners.find E = some stored)
    (h1 : ∃ l, l ∈ stored ∧ l.id = id) (h2 : ∃ l, l ∈ stored ∧ l.id ≠ id) :
    bus.RemoveListener E id = some bus := by
  cases hr : bus.RemoveListener E id with
  | none =>
    rcases (RemoveListener_eq_none_iff bus E id).1 hr with hn | hn
    · rw [h] at hn
      cases hn
    · obtain ⟨l, hl, hid⟩ := h1
      have hl' : l ∈ bus.listenersOf E := by simp [listenersOf, h, hl]
      exact absurd hid (hn l hl')
  | some bus' =>
    obtain ⟨stored', hs', _, hcase⟩ := RemoveListener_eq_some hr
    rw [h] at hs'
    injection hs' with hs'
    subst hs'
    rcases hcase with ⟨hall, _⟩ | ⟨_, rfl⟩
    · obtain ⟨l, hl, hid⟩ := h2
      exact absurd (hall l hl) hid
    · rfl

/-- C28: `RemoveListener<E>(id)` fails exactly when E has no listener list or
no listener of E carries the id; so an id carried by a listener of another
type only is rejected; and a failing call stops with the bus exactly as it
was (both assertions come before the write). -/
theorem unsubscribe_fails_iff (bus : EventBus P) (E : TypeName) (id : ListenerID) :
    (bus.RemoveListener E id = none ↔
      bus.m_listeners.find E = none ∨ ∀ l, l ∈ bus.listenersOf E → l.id ≠ id) ∧
    (∀ T l, T ≠ E → l ∈ bus.listenersOf T → l.id = id →
      (∀ l', l' ∈ bus.listenersOf E → l'.id ≠ id) → bus.RemoveListener E id = none) ∧
    (bus.RemoveListener E id = none ↔ ∃ s, bus.RemoveListenerOutcome E id = .stopped s) ∧
    (∀ s, bus.RemoveListenerOutcome E id = .stopped s → s = bus) := by
  refine ⟨RemoveListener_eq_none_iff bus E id, ?_, ?_, ?_⟩
  · intro T l _ _ _ hE
    exact (RemoveListener_eq_none_iff bus E id).2 (Or.inr hE)
  · rw [RemoveListenerOutcome_eq]
    cases bus.RemoveListener E id <;> simp
  · intro s hs
    rw [RemoveListenerOutcome_eq] at hs
    cases hr : bus.RemoveListener E id with
    | none =>
      rw [hr] at hs
      injection hs with hs
      exact hs.symm
    | some bus' =>
      rw [hr] at hs
      cases hs

/-- Witness for C28: id 3 was issued for `PlayerDead`; `RemoveListener` of it
for `Scored` fails, and so does one for a type without listeners. -/
theorem unsubscribe_fails_iff_witness :
    scoreBus.RemoveListener "Scored" 3 = none ∧
    scoreBus.RemoveListener "Collision" 1 = none ∧
    (scoreBus.RemoveListener "Scored" 1).isSome = true :=
  ⟨(unsubscribe_fails_iff scoreBus "Scored" 3).2.1 "PlayerDead" ⟨3, fun _ => []⟩ (by decide)
      (by simp [listenersOf, scoreBus, UMap.find]) rfl
      (by
        intro l' hl'
        simp [listenersOf, scoreBus, UMap.find] at hl'
        rcases hl' with rfl | rfl <;> decide),
    (unsubscribe_fails_iff scoreBus "Collision" 1).1.2 (Or.inl rfl), rfl⟩

end EventBus

namespace EventBus

variable {P : Type}

theorem allHeard_eq_false_iff (L : UMap TypeName (List (ItemListener P)))
    (q : List (ItemEvent P)) :
    allHeard L q = false ↔ ∃ item, item ∈ q ∧ L.find item.type = none := by
  unfold allHeard
  constructor
  · intro h
    have h' : ¬ (q.all (fun item => (L.find item.type).isSome) = true) := by simp [h]
    rw [List.all_eq_true] at h'
    push_neg at h'
    obtain ⟨item, hi, hn⟩ := h'
    refine ⟨item, hi, ?_⟩
    cases hf : L.find item.type with
    | none => rfl
    | some ls => simp [hf] at hn
  · rintro ⟨item, hi, hn⟩
    cases ha : q.all (fun item => (L.find item.type).isSome) with
    | false => rfl
    | true =>
      have := List.all_eq_true.1 ha item hi
      simp [hn] at this

end EventBus

namespace EventBus

variable {P : Type}

end EventBus

namespace EventBus

variable {P : Type}

end EventBus

namespace System

theorem system_wf_of_reachable {s : System} (h : Reachable s) :
    s.m_entities.WF ∧ s.m_entities.m_data = s.m_entities.m_indexToKey := by
  induction h with
  | init => exact ⟨DenseMap.wf_new, rfl⟩
  | @add s s' e _ ha ih =>
    unfold AddEntity at ha
    by_cases hc : s.m_entities.Contains e = true
    · simp only [hc, if_true, Option.some.injEq] at ha
      subst ha
      exact ih
    · simp only [hc] at ha
      cases hi : s.m_entities.Insert e e with
      | none => simp [hi] at ha
      | some d' =>
        simp only [hi, Option.map_some', Option.some.injEq, Bool.false_eq_true, if_false] at ha
        subst ha
        exact ⟨DenseMap.wf_Insert ih.1 hi, DenseMap.data_eq_keys_Insert ih.2 hi⟩
  | @remove s s' e _ hr ih =>
    unfold RemoveEntity at hr
    by_cases hc : s.m_entities.Contains e = true
    · simp only [hc, Bool.not_true, Bool.false_eq_true, if_false] at hr
      cases he : s.m_entities.Erase e with
      | none => simp [he] at hr
      | some d' =>
        simp only [he, Option.map_some', Option.some.injEq] at hr
        subst hr
        exact ⟨DenseMap.wf_Erase ih.1 he, DenseMap.data_eq_keys_Erase ih.2 he⟩
    · simp only [hc, Bool.not_false, if_true, Option.some.injEq] at hr
      subst hr
      exact ih

theorem pairSystem_reachable : Reachable pairSystem :=
  Reachable.add
    (Reachable.add Reachable.init
      (by decide : System.new.AddEntity 3 = some ⟨⟨[(3, 0)], [3], [3]⟩⟩))
    (by decide : System.AddEntity ⟨⟨[(3, 0)], [3], [3]⟩⟩ 5 = some pairSystem)

end System

namespace System

theorem AddEntity_of_has {s : System} {e : Entity} (h : s.HasEntity e = true) :
    s.AddEntity e = some s := by
  have hc : s.m_entities.Contains e = true := h
  simp [AddEntity, hc]

theorem RemoveEntity_of_not_has {s : System} {e : Entity} (h : s.HasEntity e = false) :
    s.RemoveEntity e = some s := by
  have hc : s.m_entities.Contains e = false := h
  simp [RemoveEntity, hc]

/-- C33: on every entity set a system can hold, `AddEntity(e)` and
`RemoveEntity(e)` run to completion. After `AddEntity(e)` the system has e, e
occurs exactly once in the entity list, and membership of every other entity
is as before; when the system already had e the set is unchanged, and a
second `AddEntity(e)` changes nothing. After `RemoveEntity(e)` the system
does not have e and membership of every other entity is as before; when the
system did not have e the set is unchanged, and a second `RemoveEntity(e)`
changes nothing. -/
theorem add_remove_entity_idempotent (s : System) (h : Reachable s) (e : Entity) :
    (∃ s1, s.AddEntity e = some s1 ∧ s1.HasEntity e = true ∧
      s1.m_entities.GetDataVector.count e = 1 ∧
      (∀ e', e' ≠ e → s1.HasEntity e' = s.HasEntity e') ∧
      (s.HasEntity e = true → s1 = s) ∧ s1.AddEntity e = some s1) ∧
    (∃ s2, s.RemoveEntity e = some s2 ∧ s2.HasEntity e = false ∧
      s2.m_entities.GetDataVector.count e = 0 ∧
      (∀ e', e' ≠ e → s2.HasEntity e' = s.HasEntity e') ∧
      (s.HasEntity e = false → s2 = s) ∧ s2.RemoveEntity e = some s2) := by
  have hw := system_wf_of_reachable h
  constructor
  · obtain ⟨s1, ha, hhas, _⟩ := AddEntity_spec s e
    have hw1 := system_wf_of_reachable (Reachable.add h ha)
    have he : s1.HasEntity e = true := by simp [hhas e]
    refine ⟨s1, ha, he, ?_, ?_, ?_, AddEntity_of_has he⟩
    · unfold DenseMap.GetDataVector
      rw [hw1.2]
      exact List.count_eq_one_of_mem (DenseMap.wf_nodup hw1.1)
        ((DenseMap.wf_contains_iff hw1.1 e).1 he)
    · intro e' hne
      have hne' : ¬ e = e' := fun hc => hne hc.symm
      simp [hhas e', hne']
    · intro hs
      have := AddEntity_of_has hs
      rw [ha] at this
      injection this
  · obtain ⟨s2, hr, hhas, _⟩ := RemoveEntity_spec s e hw.1
    have hw2 := system_wf_of_reachable (Reachable.remove h hr)
    have he : s2.HasEntity e = false := by simp [hhas e]
    refine ⟨s2, hr, he, ?_, ?_, ?_, RemoveEntity_of_not_has he⟩
    · unfold DenseMap.GetDataVector
      rw [hw2.2]
      apply List.count_eq_zero_of_not_mem
      intro hmem
      have := (DenseMap.wf_contains_iff hw2.1 e).2 hmem
      rw [show s2.m_entities.Contains e = false from he] at this
      cases this
    · intro e' hne
      have hne' : ¬ e = e' := fun hc => hne hc.symm
      simp [hhas e', hne']
    · intro hs
      have := RemoveEntity_of_not_has hs
      rw [hr] at this
      injection this

/-- Witness for C33: on the system holding 3 and 5, adding 5 again and
removing the absent 4 change nothing; removing 3 moves 5 into its slot. -/
theorem add_remove_entity_idempotent_witness :
    pairSystem.AddEntity 5 = some pairSystem ∧
    pairSystem.RemoveEntity 4 = some pairSystem ∧
    (pairSystem.RemoveEntity 3).map (fun s => s.m_entities.GetDataVector) = some [5] ∧
    (∃ s1, pairSystem.AddEntity 4 = some s1 ∧ s1.HasEntity 4 = true ∧
      s1.m_entities.GetDataVector.count 4 = 1 ∧
      (∀ e', e' ≠ 4 → s1.HasEntity e' = pairSystem.HasEntity e') ∧
      (pairSystem.HasEntity 4 = true → s1 = pairSystem) ∧ s1.AddEntity 4 = some s1) :=
  ⟨by decide, by decide, by decide,
    (add_remove_entity_idempotent pairSystem pairSystem_reachable 4).1⟩

end System

namespace DenseMap

variable {K V : Type} [DecidableEq K]

/-- C35 (counterexample): in the store holding keys 9 and 7, `Insert(7, 71)`
with the existing key 7 fails (its assertion fires) and stops with the store
as it was, so it does not update the value of 7; `InsertData` of a component
array does the same. -/
theorem insert_existing_key_fails :
    sampleStore.Contains 7 = true ∧ sampleStore.GetValue 7 = some 70 ∧
    sampleStore.Insert 7 71 = none ∧
    sampleStore.InsertOutcome 7 71 = .stopped sampleStore ∧
    ComponentArray.InsertData ⟨sampleStore⟩ 7 71 = none ∧
    ¬ (∀ (d : DenseMap Nat Nat) (k v : Nat), d.Built → d.Contains k = true →
      ∃ d', d.Insert k v = some d' ∧ d'.Size = d.Size ∧ d'.GetValue k = some v) := by
  refine ⟨by decide, by decide, by decide, by decide, by decide, fun hall => ?_⟩
  obtain ⟨d', hd', _⟩ := hall sampleStore 7 71 sampleStore_built (by decide)
  have hn : sampleStore.Insert 7 71 = none := by decide
  rw [hn] at hd'
  cases hd'

/-- C35 (amended): on a store built by the class's members, `Insert(key,
value)` with a key that already exists fails and stops with the store
unchanged, and so does `InsertData` of a component array for an entity that
already has the component; the value of an existing key is replaced by
`Update(key, value)`, after which `Size()` is unchanged, `GetValue(key)`
returns the new value and every other key keeps its value. -/
theorem insert_existing_fails_update_replaces (d : DenseMap K V) (h : d.Built) (k : K) (v : V)
    (hk : d.Contains k = true) :
    d.Insert k v = none ∧ d.InsertOutcome k v = .stopped d ∧
    (∀ (a : ComponentArray V) (e : Entity) (c : V), a.HasData e = true →
      a.InsertData e c = none) ∧
    ∃ d', d.Update k v = some d' ∧ d'.Size = d.Size ∧ d'.GetValue k = some v ∧
      (∀ k', k' ≠ k → d'.GetValue k' = d.GetValue k') ∧
      (∀ k', d'.Contains k' = d.Contains k') := by
  have hw := built_wf h
  have hc : d.m_keyToIndex.contains k = true := hk
  refine ⟨by simp [Insert, hc], by simp [InsertOutcome, hc], ?_, ?_⟩
  · intro a e c ha
    have hc' : a.m_components.m_keyToIndex.contains e = true := ha
    simp [ComponentArray.InsertData, Insert, hc']
  · obtain ⟨d', hd'⟩ := Update_of_contains v hk
    refine ⟨d', hd', ?_, ?_, ?_, Contains_Update hd'⟩
    · obtain ⟨i, _, rfl⟩ := Update_eq_some hd'
      simp [Size]
    · rw [GetValue_Update hw hd' k]
      simp
    · intro k' hne
      have hne' : ¬ k = k' := fun hc => hne hc.symm
      rw [GetValue_Update hw hd' k']
      simp [hne']

/-- Witness for C35 (amended): in the store holding keys 9 and 7, `Insert(7,
71)` fails and `Update(7, 71)` replaces the value 70 by 71. -/
theorem insert_existing_fails_update_replaces_witness :
    sampleStore.Insert 7 71 = none ∧
    (sampleStore.Update 7 71).map GetDataVector = some [90, 71] ∧
    ∃ d', sampleStore.Update 7 71 = some d' ∧ d'.Size = sampleStore.Size ∧
      d'.GetValue 7 = some 71 ∧
      (∀ k', k' ≠ 7 → d'.GetValue k' = sampleStore.GetValue k') ∧
      (∀ k', d'.Contains k' = sampleStore.Contains k') :=
  have h := insert_existing_fails_update_replaces sampleStore sampleStore_built 7 71
    (by decide)
  ⟨h.1, by decide, h.2.2.2⟩

end DenseMap

namespace SystemManager

theorem RegisterSystem_eq_some {sm sm' : SystemManager} {S : TypeName}
    (h : sm.RegisterSystem S = some sm') :
    sm.m_systems.find S = none ∧
      sm' = { sm with m_systems := sm.m_systems ++ [(S, System.new)] } := by
  unfold RegisterSystem at h
  by_cases hc : sm.m_systems.contains S = true
  · simp [hc] at h
  · simp only [hc, Bool.false_eq_true, if_false, Option.some.injEq] at h
    exact ⟨(UMap.contains_eq_false_iff _ _).1 (by simpa using hc), h.symm⟩

theorem SetSystemSignature_eq_some {sm sm' : SystemManager} {S : TypeName} {sig : Signature}
    (h : sm.SetSystemSignature S sig = some sm') :
    sm.m_systems.contains S = true ∧
      sm' = { sm with m_signatures := sm.m_signatures.assign S sig } := by
  unfold SetSystemSignature at h
  by_cases hc : sm.m_systems.contains S = true
  · simp only [hc, if_true, Option.some.injEq] at h
    exact ⟨hc, h.symm⟩
  · simp [hc] at h

theorem registry_inv_of_reachable {sm : SystemManager} (h : Reachable sm) : sm.Inv := by
  induction h with
  | init => exact ⟨fun _ _ hm => absurd hm (List.not_mem_nil _), fun _ _ => rfl⟩
  | @register sm sm' S _ hr ih =>
    obtain ⟨hnone, rfl⟩ := RegisterSystem_eq_some hr
    refine ⟨?_, ?_⟩
    · intro S' s hm
      rcases List.mem_append.1 hm with h1 | h1
      · exact ih.sets S' s h1
      · simp only [List.mem_singleton, Prod.mk.injEq] at h1
        rw [h1.2]
        exact DenseMap.wf_new
    · intro S' hf
      simp only at hf
      rw [UMap.find_append_singleton] at hf
      cases hs : sm.m_systems.find S' with
      | none => exact ih.recorded S' hs
      | some s => simp [hs] at hf
  | @setSignature sm sm' S sig _ hs ih =>
    obtain ⟨hc, rfl⟩ := SetSystemSignature_eq_some hs
    refine ⟨ih.sets, ?_⟩
    intro S' hf
    simp only at hf ⊢
    rw [UMap.find_assign]
    by_cases hk : S = S'
    · subst hk
      rw [(UMap.contains_eq_false_iff _ _).2 hf] at hc
      cases hc
    · simp only [hk, if_false]
      exact ih.recorded S' hf
  | notify _ hn ih =>
    obtain ⟨h1, h2, _, h4, _⟩ := EntitySignatureChanged_spec hn ih.sets
    refine ⟨h4, ?_⟩
    intro S' hf
    rw [h1]
    exact ih.recorded S' ((h2 S').1 hf)

/-- C39: in every reachable state of the System Registry,
`EntitySignatureChanged(e, sig)` runs to completion exactly when every
registered system has a recorded required signature. A system that was just
registered has none, and the call then fails; it is not treated as requiring
the empty signature: once `SetSystemSignature` has recorded the empty
signature for it the record exists and, the other systems having theirs, the
call completes. -/
theorem notify_completes_iff_all_signed (sm : SystemManager) (h : Reachable sm) (e : Entity)
    (sig : Signature) :
    ((∃ sm', sm.EntitySignatureChanged e sig = some sm') ↔ AllSigned sm) ∧
    (∀ S sm1, sm.RegisterSystem S = some sm1 →
      sm1.m_signatures.find S = none ∧ sm1.EntitySignatureChanged e sig = none ∧
      ∃ sm2, sm1.SetSystemSignature S Signature.empty = some sm2 ∧
        sm2.m_signatures.find S = some Signature.empty ∧
        (AllSigned sm → ∃ sm3, sm2.EntitySignatureChanged e sig = some sm3)) := by
  have hinv := registry_inv_of_reachable h
  constructor
  · constructor
    · rintro ⟨sm', hsm'⟩ S hS
      obtain ⟨_, _, _, _, h5⟩ := EntitySignatureChanged_spec hsm' hinv.sets
      obtain ⟨s, hs⟩ := (UMap.contains_eq_true_iff _ _).1 hS
      exact h5 S s (UMap.mem_of_find hs)
    · intro hall
      refine EntitySignatureChanged_isSome sm e sig hinv.sets (fun S s hm => ?_)
      exact hall S (UMap.find_isSome_of_mem hm)
  · intro S sm1 hr
    have hinv1 := registry_inv_of_reachable (Reachable.register h hr)
    obtain ⟨hnone, rfl⟩ := RegisterSystem_eq_some hr
    have hsig : sm.m_signatures.find S = none := hinv.recorded S hnone
    have hcont : UMap.contains (sm.m_systems ++ [(S, System.new)]) S = true := by
      unfold UMap.contains
      rw [UMap.find_append_singleton, hnone]
      simp
    have hs2 : SetSystemSignature { sm with m_systems := sm.m_systems ++ [(S, System.new)] }
        S Signature.empty =
        some { m_systems := sm.m_systems ++ [(S, System.new)]
               m_signatures := sm.m_signatures.assign S Signature.empty } := by
      simp [SetSystemSignature, hcont]
    refine ⟨hsig, ?_, _, hs2, by simp [UMap.find_assign], ?_⟩
    · unfold EntitySignatureChanged
      have hm : (S, System.new) ∈ sm.m_systems ++ [(S, System.new)] := by simp
      rw [UMap.forEachM_eq_none hm (by simp only [hsig])]
      rfl
    · intro hall
      have hinv2 := registry_inv_of_reachable
        (Reachable.setSignature (Reachable.register h hr) hs2)
      refine EntitySignatureChanged_isSome _ e sig hinv2.sets (fun S' s hm => ?_)
      simp only at hm ⊢
      rw [UMap.find_assign]
      by_cases hk : S = S'
      · simp [hk]
      · simp only [hk, if_false]
        rcases List.mem_append.1 hm with h1 | h1
        · exact hall S' (UMap.find_isSome_of_mem h1)
        · simp only [List.mem_singleton, Prod.mk.injEq] at h1
          exact absurd h1.1.symm hk

theorem halfSigned_reachable : Reachable halfSigned :=
  Reachable.register
    (Reachable.setSignature
      (Reachable.register Reachable.init
        (by decide : SystemManager.new.RegisterSystem "Mover" =
          some ⟨[("Mover", System.new)], []⟩))
      (by decide : SetSystemSignature ⟨[("Mover", System.new)], []⟩ "Mover" 3 =
        some ⟨[("Mover", System.new)], [("Mover", 3)]⟩))
    (by decide : RegisterSystem ⟨[("Mover", System.new)], [("Mover", 3)]⟩ "Spawner" =
      some halfSigned)

/-- Witness for C39: with `Mover` given a signature and `Spawner` registered
without one, the notification fails; registering a further system keeps it
failing. -/
theorem notify_completes_iff_all_signed_witness :
    halfSigned.EntitySignatureChanged 0 3 = none ∧
    (((∃ sm', halfSigned.EntitySignatureChanged 0 3 = some sm') ↔ AllSigned halfSigned) ∧
    (∀ S sm1, halfSigned.RegisterSystem S = some sm1 →
      sm1.m_signatures.find S = none ∧ sm1.EntitySignatureChanged 0 3 = none ∧
      ∃ sm2, sm1.SetSystemSignature S Signature.empty = some sm2 ∧
        sm2.m_signatures.find S = some Signature.empty ∧
        (AllSigned halfSigned → ∃ sm3, sm2.EntitySignatureChanged 0 3 = some sm3))) :=
  ⟨by decide, notify_completes_iff_all_signed halfSigned halfSigned_reachable 0 3⟩

end SystemManager

namespace Coordinator

variable {V : Type}

/-- C40: `SetSystemSignature<S>(sig)` changes only the required signature
recorded for S: the entity registry, the component store, the destroy queue
and every system's entity set are as before, and so is the recorded
signature of every other system. Membership is recomputed for an entity only
when its own signature next changes (the next `AddComponent` or
`RemoveComponent` on it), and then against the new signature. -/
theorem set_system_signature_keeps_sets (c : Coordinator V) (h : Reachable c) (S : TypeName)
    (sig : Signature) (c' : Coordinator V) (hs : c.SetSystemSignature S sig = some c') :
    c'.m_entityManager = c.m_entityManager ∧
    c'.m_componentManager = c.m_componentManager ∧
    c'.m_entitiesToDestroy = c.m_entitiesToDestroy ∧
    c'.m_systemManager.m_systems = c.m_systemManager.m_systems ∧
    (∀ S', c'.GetSystem S' = c.GetSystem S') ∧
    c'.m_systemManager.m_signatures.find S = some sig ∧
    (∀ S', S' ≠ S →
      c'.m_systemManager.m_signatures.find S' = c.m_systemManager.m_signatures.find S') ∧
    (∀ T e v c'', c'.AddComponent T e v = some c'' →
      ∀ s sg, c''.GetSystem S = some s → c''.GetSignature e = some sg →
        (s.HasEntity e = true ↔ sg &&& sig = sig)) ∧
    (∀ T e c'', c'.RemoveComponent T e = some c'' →
      ∀ s sg, c''.GetSystem S = some s → c''.GetSignature e = some sg →
        (s.HasEntity e = true ↔ sg &&& sig = sig)) := by
  have hinv' := cinv_of_reachable (Reachable.step h (Step.setSystemSignature hs))
  obtain ⟨sm, hsm, rfl⟩ := coord_SetSystemSignature_eq_some hs
  obtain ⟨_, rfl⟩ := SystemManager.SetSystemSignature_eq_some hsm
  have hfind : (UMap.assign c.m_systemManager.m_signatures S sig).find S = some sig := by
    simp [UMap.find_assign]
  refine ⟨rfl, rfl, rfl, rfl, fun _ => rfl, hfind, ?_, ?_, ?_⟩
  · intro S' hne
    have hne' : ¬ S = S' := fun hc => hne hc.symm
    simp [UMap.find_assign, hne']
  · intro T e v c'' hadd s sg hsys hsg
    obtain ⟨_, cm, _, hu⟩ := coord_AddComponent_eq_some hadd
    obtain ⟨_, _, _, _, sm2, _, _, _, _, h5, rfl⟩ := updateSignature_eq_some hu
    obtain ⟨h1, _, _, _, _⟩ := SystemManager.EntitySignatureChanged_spec h5 hinv'.systems
    have hRs : sm2.m_signatures.find S = some sig := by rw [h1]; exact hfind
    exact updateSignature_membership hinv' hu S s sig sg hsys hRs hsg
  · intro T e c'' hrem s sg hsys hsg
    obtain ⟨_, cm, _, hu⟩ := coord_RemoveComponent_eq_some hrem
    obtain ⟨_, _, _, _, sm2, _, _, _, _, h5, rfl⟩ := updateSignature_eq_some hu
    obtain ⟨h1, _, _, _, _⟩ := SystemManager.EntitySignatureChanged_spec h5 hinv'.systems
    have hRs : sm2.m_signatures.find S = some sig := by rw [h1]; exact hfind
    exact updateSignature_membership hinv' hu S s sig sg hsys hRs hsg

/-- Witness for C40: in the spec scenario state `Mover` requires `Position` and
`Velocity` and holds entity 0 only. After `SetSystemSignature<Mover>` with
`Position` alone, entity 1 (signature `Position`) matches the new signature
and is still not in `Mover`. -/
theorem set_system_signature_keeps_sets_witness :
    moverWorld.SetSystemSignature "Mover" 1 = some moverWorldResigned ∧
    moverWorldResigned.GetSignature 1 = some 1 ∧
    (moverWorldResigned.GetSystem "Mover").map (fun s => s.HasEntity 1) = some false ∧
    moverWorldResigned.m_systemManager.m_systems = moverWorld.m_systemManager.m_systems ∧
    moverWorldResigned.m_systemManager.m_signatures.find "Mover" = some 1 :=
  have hs : moverWorld.SetSystemSignature "Mover" 1 = some moverWorldResigned := by decide!
  have h := set_system_signature_keeps_sets moverWorld (running_reachable moverWorld_running)
    "Mover" 1 moverWorldResigned hs
  ⟨hs, by decide!, by decide!, h.2.2.2.1, h.2.2.2.2.2.1⟩

end Coordinator

namespace Coordinator

variable {V : Type}

/-- C37: in every state reachable through Coordinator operations, an id below
`MaxEntities` that is not alive has the empty signature, is held by no
component array, and for every registered component type `HasComponent` of
the store answers false for it and `GetComponent` finds nothing. -/
theorem dead_id_has_nothing (c : Coordinator V) (h : Reachable c) (e : Entity)
    (hd : c.IsEntityAlive e = some false) :
    e < MaxEntities ∧
    c.GetSignature e = some Signature.empty ∧
    (∀ T a, c.m_componentManager.m_componentArrays.find T = some a → a.HasData e = false) ∧
    (∀ T, c.m_componentManager.m_componentTypes.contains T = true →
      c.m_componentManager.HasComponent T e = some false ∧
      c.m_componentManager.GetComponent T e = none) := by
  have hinv := cinv_of_reachable h
  unfold IsEntityAlive EntityManager.IsAlive at hd
  by_cases he : e < MaxEntities
  · simp only [he, if_true, Option.some.injEq] at hd
    have hsig := dead_signature_is_empty c h e he hd
    have harr : ∀ T a, c.m_componentManager.m_componentArrays.find T = some a →
        a.HasData e = false := by
      intro T a ha
      cases hid : c.m_componentManager.m_componentTypes.find T with
      | none =>
        rw [(hinv.keys T).1 hid] at ha
        cases ha
      | some id =>
        rw [← hinv.bits T id a e Signature.empty hid ha hsig]
        exact Signature.test_empty id
    refine ⟨he, by simp [GetSignature, EntityManager.GetSignature, he, hsig], harr, ?_⟩
    intro T hT
    cases ha : c.m_componentManager.m_componentArrays.find T with
    | none =>
      have := (hinv.keys T).2 ha
      rw [(UMap.contains_eq_false_iff _ _).2 this] at hT
      cases hT
    | some a =>
      have hf := harr T a ha
      simp [ComponentManager.HasComponent, ComponentManager.GetComponent,
        ComponentManager.GetComponentArray, hT, ha, hf]
  · simp [he] at hd

/-- Witness for C37: in the example state id 1 was never created; it has the
empty signature and no `Position`. -/
theorem dead_id_has_nothing_witness :
    positionWorld.GetSignature 1 = some Signature.empty ∧
    positionWorld.m_componentManager.HasComponent "Position" 1 = some false :=
  have h := dead_id_has_nothing positionWorld positionWorld_reachable 1 (by decide!)
  ⟨h.2.1, (h.2.2.2 "Position" (by decide)).1⟩

/-- In every reachable coordinator state the systems hold ids below
`MaxEntities` only. -/
theorem systems_hold_ids_in_range (c : Coordinator V) (h : Reachable c) :
    ∀ S s e, c.m_systemManager.m_systems.find S = some s → s.HasEntity e = true →
      e < MaxEntities := by
  have notify : ∀ (c : Coordinator V) (sm : SystemManager) (e0 : Entity) (sig : Signature),
      c.Inv → e0 < MaxEntities →
      (∀ S s e, c.m_systemManager.m_systems.find S = some s → s.HasEntity e = true →
        e < MaxEntities) →
      c.m_systemManager.EntitySignatureChanged e0 sig = some sm →
      ∀ S s e, sm.m_systems.find S = some s → s.HasEntity e = true → e < MaxEntities := by
    intro c sm e0 sig hinv he0 hp hn S s e hs hhas
    obtain ⟨_, _, h3, _, _⟩ := SystemManager.EntitySignatureChanged_spec hn hinv.systems
    obtain ⟨s0, Rs, hs0, _, hmem⟩ := h3 S s hs
    by_cases hee : e0 = e
    · rw [← hee]
      exact he0
    · rw [hmem e] at hhas
      simp only [hee, if_false] at hhas
      exact hp S s0 e hs0 hhas
  refine reachable_induction (P := fun c => ∀ S s e,
      c.m_systemManager.m_systems.find S = some s → s.HasEntity e = true → e < MaxEntities)
    ?_ ?_ ?_ ?_ ?_ ?_ ?_ ?_ ?_ ?_ c h
  · intro q S s e hs _
    simp [SystemManager.new, UMap.find] at hs
  · intro c q hp
    exact hp
  · intro c id em _ hp _
    exact hp
  · intro c c' e0 hinv hp hd
    obtain ⟨em, cm, sm, h1, _, h3, rfl⟩ := destroyNow_eq_some hd
    obtain ⟨living, hc, _, _⟩ := EntityManager.DestroyEntity_eq_some h1
    have he0 : e0 < MaxEntities :=
      EntityManager.inv_mem_range hinv.em
        (Or.inr ((DenseMap.wf_contains_iff hinv.em.wf e0).1 hc))
    exact notify c sm e0 _ hinv he0 hp h3
  · intro c T cm _ hp _
    exact hp
  · intro c c' T e0 v hinv hp hadd
    obtain ⟨ha, cm, _, hu⟩ := coord_AddComponent_eq_some hadd
    obtain ⟨_, _, _, _, sm, _, _, _, _, h5, rfl⟩ := updateSignature_eq_some hu
    exact notify c sm e0 _ hinv (IsAlive_eq_some_true ha).1 hp h5
  · intro c c' T e0 hinv hp hrem
    obtain ⟨ha, cm, _, hu⟩ := coord_RemoveComponent_eq_some hrem
    obtain ⟨_, _, _, _, sm, _, _, _, _, h5, rfl⟩ := updateSignature_eq_some hu
    exact notify c sm e0 _ hinv (IsAlive_eq_some_true ha).1 hp h5
  · intro c T e0 v cm _ hp _
    exact hp
  · intro c S0 sm _ hp hr S s e hs hhas
    obtain ⟨_, rfl⟩ := SystemManager.RegisterSystem_eq_some hr
    simp only at hs
    rw [UMap.find_append_singleton] at hs
    cases hf : c.m_systemManager.m_systems.find S with
    | some s0 =>
      simp only [hf, Option.some.injEq] at hs
      subst hs
      exact hp S s0 e hf hhas
    | none =>
      simp only [hf] at hs
      by_cases hk : S0 = S
      · simp only [hk, if_true, Option.some.injEq] at hs
        subst hs
        simp [System.HasEntity, System.new, DenseMap.Contains, DenseMap.new, UMap.contains,
          UMap.find] at hhas
      · simp [hk] at hs
  · intro c S0 sig sm _ hp hs
    obtain ⟨_, rfl⟩ := SystemManager.SetSystemSignature_eq_some hs
    exact hp

/-- C38: in a coordinator whose systems were all registered and given their
required signatures before any entity was created, in every later state a
system whose required signature `Rs` is not empty holds alive entities
only, and holds an alive entity `e` exactly when
`(get_signature(e) & Rs) == Rs`. -/
theorem nonempty_system_holds_alive_matches (c : Coordinator V) (h : Running c) (S : TypeName)
    (s : System) (Rs : Signature) (hs : c.GetSystem S = some s)
    (hRs : c.m_systemManager.m_signatures.find S = some Rs) (hne : Rs ≠ Signature.empty) :
    (∀ e, s.HasEntity e = true → c.IsEntityAlive e = some true) ∧
    (∀ e sig, c.IsEntityAlive e = some true → c.GetSignature e = some sig →
      (s.HasEntity e = true ↔ sig &&& Rs = Rs)) := by
  have hr := running_reachable h
  have hinv := cinv_of_reachable hr
  have hm := running_nonEmptyMatch h
  simp only [GetSystem, SystemManager.GetSystem_eq_find] at hs
  constructor
  · intro e hhas
    have he := systems_hold_ids_in_range c hr S s e hs hhas
    rw [IsEntityAlive, IsAlive_of_lt _ he]
    cases hc : c.m_entityManager.m_livingEntities.Contains e with
    | true => rfl
    | false =>
      have hsig := dead_signature_is_empty c hr e he hc
      have := (hm S s Rs e Signature.empty hs hRs hne hsig).1 hhas
      exact absurd this (land_empty_ne hne)
  · intro e sig _ hsig
    exact hm S s Rs e sig hs hRs hne (GetSignature_eq_some hsig).2

/-- Witness for C38: in the spec scenario state `Mover` (requiring `Position`
and `Velocity`) holds entity 0, which has both, and not entity 1. -/
theorem nonempty_system_holds_alive_matches_witness :
    (∀ e, System.HasEntity ⟨⟨[(0, 0)], [0], [0]⟩⟩ e = true →
      moverWorld.IsEntityAlive e = some true) ∧
    (∀ e sig, moverWorld.IsEntityAlive e = some true → moverWorld.GetSignature e = some sig →
      (System.HasEntity ⟨⟨[(0, 0)], [0], [0]⟩⟩ e = true ↔ sig &&& 3 = 3)) :=
  nonempty_system_holds_alive_matches moverWorld moverWorld_running "Mover"
    ⟨⟨[(0, 0)], [0], [0]⟩⟩ 3 (by decide!) (by decide) (by decide)

end Coordinator

namespace ComponentManager

variable {V : Type}

/-- One successful call keeps the id of every registered type. -/
theorem applyCall_keeps_id {cm cm' : ComponentManager V} {call : Call V}
    (h : applyCall cm call = some cm') {T : TypeName} {id : ComponentTypeID}
    (hid : cm.GetComponentTypeID T = some id) : cm'.GetComponentTypeID T = some id := by
  unfold GetComponentTypeID at hid ⊢
  cases call with
  | register T0 =>
    obtain ⟨_, hnone, rfl⟩ := RegisterComponentType_eq_some h
    simp only
    rw [UMap.find_assign]
    by_cases hk : T0 = T
    · subst hk
      rw [hnone] at hid
      cases hid
    · simp only [hk, if_false]
      exact hid
  | add T0 e v =>
    obtain ⟨_, _, _, _, _, _, rfl⟩ := AddComponent_eq_some h
    exact hid
  | remove T0 e =>
    obtain ⟨_, _, _, _, _, _, rfl⟩ := RemoveComponent_eq_some h
    exact hid
  | assign T0 e v =>
    obtain ⟨_, _, _, _, _, _, rfl⟩ := AssignComponent_eq_some h
    exact hid
  | entityDestroyed e =>
    simp only [applyCall, EntityDestroyed] at h
    cases hf : UMap.forEachM (fun (_typeName : TypeName) (componentArray : ComponentArray V) =>
        if componentArray.HasData e then componentArray.EntityDestroyed e
        else some componentArray) cm.m_componentArrays with
    | none => simp [hf] at h
    | some arrays =>
      simp only [hf, Option.map_some', Option.some.injEq] at h
      subst h
      exact hid

theorem runCalls_keeps_id (calls : List (Call V)) :
    ∀ {cm cm' : ComponentManager V}, runCalls cm calls = some cm' →
      ∀ {T : TypeName} {id : ComponentTypeID}, cm.GetComponentTypeID T = some id →
        cm'.GetComponentTypeID T = some id := by
  induction calls with
  | nil =>
    intro cm cm' h T id hid
    simp only [runCalls, Option.some.injEq] at h
    exact h ▸ hid
  | cons call rest ih =>
    intro cm cm' h T id hid
    simp only [runCalls] at h
    cases h1 : applyCall cm call with
    | none => simp [h1] at h
    | some cm1 =>
      simp only [h1] at h
      exact ih h (applyCall_keeps_id h1 hid)

/-- The registered types carry the ids 0, 1, 2, ... in registration order. -/
theorem types_enumerated {cm : ComponentManager V} (h : Reachable cm) :
    cm.m_componentTypes.map Prod.snd = List.range cm.m_componentTypes.length := by
  induction h with
  | init => rfl
  | @register cm cm' T hr hreg ih =>
    have hinv := store_inv_of_reachable hr
    obtain ⟨_, hnone, rfl⟩ := RegisterComponentType_eq_some hreg
    simp only
    rw [UMap.assign_of_find_none _ hnone, List.map_append, List.length_append, ih,
      ← hinv.count]
    simp [List.range_succ]
  | add _ hadd ih =>
    obtain ⟨_, _, _, _, _, _, rfl⟩ := AddComponent_eq_some hadd
    exact ih
  | remove _ hrem ih =>
    obtain ⟨_, _, _, _, _, _, rfl⟩ := RemoveComponent_eq_some hrem
    exact ih
  | assign _ hasg ih =>
    obtain ⟨_, _, _, _, _, _, rfl⟩ := AssignComponent_eq_some hasg
    exact ih
  | @entityDestroyed cm cm' e hr hd ih =>
    obtain ⟨h1, _, _, _, _⟩ := EntityDestroyed_spec hd (store_inv_of_reachable hr).arrays
    rw [h1]
    exact ih

/-- C34: in every reachable state of the Component Store the registered types
carry the ids 0, 1, 2, ... in registration order: a newly registered type gets
the number of types registered before it; distinct registered types have
distinct ids; and `GetComponentTypeID<T>()` returns the same value after any
later sequence of registrations, component adds, removes and writes, and
entity destructions. -/
theorem type_ids_in_registration_order (cm : ComponentManager V) (h : Reachable cm) :
    cm.m_componentTypes.map Prod.snd = List.range cm.m_componentTypes.length ∧
    (∀ T cm', cm.RegisterComponentType T = some cm' →
      cm'.GetComponentTypeID T = some cm.m_componentTypes.length) ∧
    (∀ T T' id, cm.GetComponentTypeID T = some id → cm.GetComponentTypeID T' = some id →
      T = T') ∧
    (∀ (calls : List (Call V)) cm' T id, runCalls cm calls = some cm' →
      cm.GetComponentTypeID T = some id → cm'.GetComponentTypeID T = some id) := by
  have henum := types_enumerated h
  have hinv := store_inv_of_reachable h
  refine ⟨henum, ?_, ?_, fun calls cm' T id hrun hid => runCalls_keeps_id calls hrun hid⟩
  · intro T cm' hreg
    obtain ⟨_, _, rfl⟩ := RegisterComponentType_eq_some hreg
    simp [GetComponentTypeID, UMap.find_assign, hinv.count]
  · intro T T' id h1 h2
    have hnd : (cm.m_componentTypes.map Prod.snd).Nodup := by
      rw [henum]
      exact List.nodup_range _
    have := List.inj_on_of_nodup_map hnd (UMap.mem_of_find h1) (UMap.mem_of_find h2) rfl
    exact congrArg Prod.fst this

/-- Witness for C34: in the store with `Position` (id 0) and `Velocity` (id 1),
a newly registered `Health` gets id 2 and `Velocity` keeps id 1 through a
further registration, a remove and an entity destruction. -/
theorem type_ids_in_registration_order_witness :
    pairStore.GetComponentTypeID "Position" = some 0 ∧
    pairStore.GetComponentTypeID "Velocity" = some 1 ∧
    (∀ cm', pairStore.RegisterComponentType "Health" = some cm' →
      cm'.GetComponentTypeID "Health" = some 2) ∧
    (∀ cm', runCalls pairStore [.register "Health", .remove "Velocity" 3,
        .entityDestroyed 5] = some cm' →
      cm'.GetComponentTypeID "Velocity" = some 1) :=
  have h := type_ids_in_registration_order pairStore pairStore_reachable
  ⟨rfl, rfl, fun cm' hreg => h.2.1 "Health" cm' hreg,
    fun cm' hrun => h.2.2.2 _ cm' "Velocity" 1 hrun rfl⟩

end ComponentManager

namespace EntityManager

/-- Consecutive creates issue the front of the free pool, in pool order. -/
theorem createList_spec (n : Nat) :
    ∀ em : EntityManager, em.Inv → n ≤ em.m_availableEntities.length →
      ∃ em', createList n em = some (em.m_availableEntities.take n, em') ∧ em'.Inv ∧
        em'.m_availableEntities = em.m_availableEntities.drop n := by
  induction n with
  | zero =>
    intro em h _
    exact ⟨em, rfl, h, rfl⟩
  | succ n ih =>
    intro em h hn
    cases ha : em.m_availableEntities with
    | nil => rw [ha] at hn; simp at hn
    | cons id rest =>
      obtain ⟨_, hnot⟩ := inv_front_not_alive h ha
      obtain ⟨living, hl⟩ := DenseMap.Insert_of_not_contains id hnot
      have hc : em.CreateEntity =
          some (id, { em with m_availableEntities := rest, m_livingEntities := living }) := by
        simp [CreateEntity, ha, hl]
      have hinv := inv_CreateEntity h hc
      have hlen : n ≤ rest.length := by rw [ha] at hn; simpa using hn
      obtain ⟨em', h1, h2, h3⟩ := ih _ hinv hlen
      refine ⟨em', ?_, h2, ?_⟩
      · simp only [createList, hc, h1, List.take_succ_cons]
      · simpa using h3

theorem new_pool : (EntityManager.new).m_availableEntities = List.range MaxEntities := by
  simp [EntityManager.new]

/-- C36: entity ids are recycled first in, first out. From the initial state
the first k creates return 0, 1, ..., k-1 in this order. In every reachable
state of the registry, `DestroyEntity(e)` puts e at the back of the free pool,
which did not hold it; with f ids then in the pool and no further destroy,
the next f creates return the ids that were free before, in pool order, and
then e: the f-th create returns e and no earlier one does. -/
theorem ids_recycled_first_in_first_out :
    (∀ k, k ≤ MaxEntities →
      ∃ em, createList k EntityManager.new = some (List.range k, em)) ∧
    (∀ (em em1 : EntityManager) (e : Entity), Reachable anySet em →
      em.DestroyEntity e = some em1 →
      em1.m_availableEntities = em.m_availableEntities ++ [e] ∧
      e ∉ em.m_availableEntities ∧
      (∃ em2, createList em1.m_availableEntities.length em1 =
        some (em.m_availableEntities ++ [e], em2)) ∧
      (∀ j, j < em1.m_availableEntities.length →
        ∃ em3, createList j em1 = some (em.m_availableEntities.take j, em3))) := by
  constructor
  · intro k hk
    have hlen : k ≤ (EntityManager.new).m_availableEntities.length := by
      rw [new_available_length]
      exact hk
    obtain ⟨em', h1, _, _⟩ := createList_spec k EntityManager.new inv_new hlen
    refine ⟨em', ?_⟩
    rw [h1, new_pool, List.take_range, Nat.min_eq_left hk]
  · intro em em1 e hr hd
    have hinv := reachable_inv hr
    have hinv1 := inv_DestroyEntity hinv hd
    obtain ⟨living, hc, _, rfl⟩ := DestroyEntity_eq_some hd
    have hnot : e ∉ em.m_availableEntities := by
      intro hmem
      have hnd := inv_nodup hinv
      have hliv : e ∈ em.m_livingEntities.m_indexToKey :=
        (DenseMap.wf_contains_iff hinv.wf e).1 hc
      exact (List.nodup_append.1 hnd).2.2 hmem hliv
    refine ⟨rfl, hnot, ?_, ?_⟩
    · obtain ⟨em2, h2, _, _⟩ := createList_spec _ _ hinv1 (Nat.le_refl _)
      refine ⟨em2, ?_⟩
      rw [h2, List.take_length]
    · intro j hj
      simp only [List.length_append, List.length_singleton] at hj
      have hj' : j ≤ em.m_availableEntities.length := Nat.le_of_lt_succ hj
      obtain ⟨em3, h3, _, _⟩ := createList_spec j _ hinv1 (by
        simp only [List.length_append, List.length_singleton]
        exact Nat.le_of_lt hj)
      refine ⟨em3, ?_⟩
      rw [h3]
      simp only
      rw [List.take_append_of_le_length hj']

theorem threeAlive_reachable : Reachable anySet threeAlive :=
  Reachable.create
    (Reachable.create
      (Reachable.create Reachable.init
        (by decide! : EntityManager.new.CreateEntity =
          some (0, ⟨List.range' 1 4999, ⟨[(0, 0)], [0], [0]⟩, List.replicate 5000 0⟩)))
      (by decide! : CreateEntity
          ⟨List.range' 1 4999, ⟨[(0, 0)], [0], [0]⟩, List.replicate 5000 0⟩ =
        some (1, ⟨List.range' 2 4998, ⟨[(0, 0), (1, 1)], [0, 1], [0, 1]⟩,
          List.replicate 5000 0⟩)))
    (by decide! : CreateEntity
        ⟨List.range' 2 4998, ⟨[(0, 0), (1, 1)], [0, 1], [0, 1]⟩, List.replicate 5000 0⟩ =
      some (2, threeAlive))

/-- Witness for C36: the first three creates return 0, 1, 2; after
`DestroyEntity(1)` with 0, 1, 2 alive the pool is 3, ..., 4999 followed by 1,
the next create returns 3, and id 1 comes back as the last id of the pool. -/
theorem ids_recycled_first_in_first_out_witness :
    (∃ em, createList 3 EntityManager.new = some (List.range 3, em)) ∧
    threeAlive.DestroyEntity 1 = some oneFreed ∧
    oneFreed.m_availableEntities = threeAlive.m_availableEntities ++ [1] ∧
    (1 : Entity) ∉ threeAlive.m_availableEntities ∧
    (∃ em2, createList oneFreed.m_availableEntities.length oneFreed =
      some (threeAlive.m_availableEntities ++ [1], em2)) ∧
    (∃ em3, createList 1 oneFreed = some (threeAlive.m_availableEntities.take 1, em3)) :=
  have hd : threeAlive.DestroyEntity 1 = some oneFreed := by decide!
  have h := ids_recycled_first_in_first_out.2 threeAlive oneFreed 1 threeAlive_reachable hd
  ⟨ids_recycled_first_in_first_out.1 3 (by decide), hd, h.1, h.2.1, h.2.2.1,
    h.2.2.2 1 (by decide!)⟩

end EntityManager

namespace EventBus

variable {P : Type}

theorem limit_pos : 1 < ListenerIDLimit := by
  unfold ListenerIDLimit
  norm_num

theorem RemoveListener_next {bus bus' : EventBus P} {T : TypeName} {id : ListenerID}
    (h : bus.RemoveListener T id = some bus') :
    bus'.m_nextListenerID = bus.m_nextListenerID := by
  obtain ⟨_, _, _, hcase⟩ := RemoveListener_eq_some h
  rcases hcase with ⟨_, rfl⟩ | ⟨_, rfl⟩ <;> rfl

/-- The id counter after the ids `ids` were issued, and the ids themselves:
the k-th id is k modulo the size of `std::size_t`. -/
theorem issued_ids {bus : EventBus P} {ids : List ListenerID} (h : Issued bus ids) :
    bus.m_nextListenerID = (ids.length + 1) % ListenerIDLimit ∧
    ids = (List.range ids.length).map (fun k => (k + 1) % ListenerIDLimit) := by
  induction h with
  | init =>
    refine ⟨?_, rfl⟩
    show 1 = (0 + 1) % ListenerIDLimit
    rw [Nat.mod_eq_of_lt limit_pos]
  | @add bus ids T cb _ ih =>
    obtain ⟨h1, h2⟩ := ih
    constructor
    · show (bus.m_nextListenerID + 1) % ListenerIDLimit = _
      rw [h1, List.length_append, List.length_singleton, Nat.mod_add_mod]
    · rw [List.length_append, List.length_singleton, List.range_succ, List.map_append, ← h2]
      show ids ++ [bus.m_nextListenerID] = _
      rw [h1]
      rfl
  | remove _ hr ih =>
    rw [RemoveListener_next hr]
    exact ih
  | clear _ ih => exact ih
  | queued T ev _ ih => exact ih
  | swapped _ ih => exact ih

/-- Every step of the members, also those made from inside callbacks, stays
within the bus states covered by `Issued`. -/
theorem step_issued {x x' : BusRun P} {rest pending : List (Pending P)} {p : Pending P}
    {ids : List ListenerID} (h : Issued x.bus ids) (hs : step x rest p = some (x', pending)) :
    ∃ more, Issued x'.bus (ids ++ more) := by
  cases p with
  | call c =>
    cases c with
    | emit T e fast =>
      cases fast with
      | false =>
        simp only [step, Option.some.injEq, Prod.mk.injEq] at hs
        obtain ⟨rfl, _⟩ := hs
        exact ⟨[], by simpa using Issued.queued T e h⟩
      | true =>
        simp only [step, Option.some.injEq, Prod.mk.injEq] at hs
        obtain ⟨rfl, _⟩ := hs
        exact ⟨[], by simpa using h⟩
    | addListener T cb =>
      simp only [step, Option.some.injEq, Prod.mk.injEq] at hs
      obtain ⟨rfl, _⟩ := hs
      exact ⟨_, Issued.add T cb h⟩
    | removeListener T id =>
      simp only [step] at hs
      cases hr : x.bus.RemoveListener T id with
      | none => simp [hr] at hs
      | some bus' =>
        simp only [hr, Option.some.injEq, Prod.mk.injEq] at hs
        obtain ⟨rfl, _⟩ := hs
        exact ⟨[], by simpa using Issued.remove h hr⟩
    | processEvents =>
      simp only [step, Option.some.injEq, Prod.mk.injEq] at hs
      obtain ⟨rfl, _⟩ := hs
      exact ⟨[], by simpa using Issued.swapped h⟩
    | unsubscribeAll =>
      simp only [step, Option.some.injEq, Prod.mk.injEq] at hs
      obtain ⟨rfl, _⟩ := hs
      exact ⟨[], by simpa using Issued.clear h⟩
  | processEvent item =>
    simp only [step] at hs
    cases hf : x.bus.m_listeners.find item.type with
    | none => simp [hf] at hs
    | some ls =>
      simp only [hf, Option.some.injEq, Prod.mk.injEq] at hs
      obtain ⟨rfl, _⟩ := hs
      exact ⟨[], by simpa using h⟩
  | invoke l item =>
    simp only [step, Option.some.injEq, Prod.mk.injEq] at hs
    obtain ⟨rfl, _⟩ := hs
    exact ⟨[], by simpa using h⟩

theorem run_issued (fuel : Nat) :
    ∀ (x x' : BusRun P) (pending : List (Pending P)) (ids : List ListenerID),
      Issued x.bus ids → run fuel x pending = .done x' →
      ∃ more, Issued x'.bus (ids ++ more) := by
  induction fuel with
  | zero =>
    intro x x' pending ids h hr
    cases pending with
    | nil =>
      simp only [run, Ran.done.injEq] at hr
      subst hr
      exact ⟨[], by simpa using h⟩
    | cons p rest => simp [run] at hr
  | succ n ih =>
    intro x x' pending ids h hr
    cases pending with
    | nil =>
      simp only [run, Ran.done.injEq] at hr
      subst hr
      exact ⟨[], by simpa using h⟩
    | cons p rest =>
      rw [run_succ] at hr
      cases hs : step x rest p with
      | none => simp [hs] at hr
      | some r =>
        obtain ⟨x1, pending1⟩ := r
        simp only [hs] at hr
        obtain ⟨more1, h1⟩ := step_issued h hs
        obtain ⟨more2, h2⟩ := ih x1 x' pending1 _ h1 hr
        exact ⟨more1 ++ more2, by simpa [List.append_assoc] using h2⟩

end EventBus

namespace EventBus

variable {P : Type}

theorem AddListener_fst (bus : EventBus P) (T : TypeName) (cb : P → List (BusCall P)) :
    (bus.AddListener T cb).1 = bus.m_nextListenerID := rfl

/-- C32 (amended): `AddListener` returns 1 on a fresh bus, and in every
reachable bus state in which fewer ids have been issued than the largest
value of `std::size_t` (`ListenerIDLimit - 1`) the ids issued so far, for all
event types together, are 1, 2, 3, ... in order of issue and the next
`AddListener` returns one more than the last: the ids are never 0, strictly
increasing and pairwise distinct, and no id is issued again, whatever
`RemoveListener`, `UnsubscribeAll`, `Emit` and `ProcessEvents` calls (with
callbacks that call the bus) come between. -/
theorem listener_ids_count_up (bus : EventBus P) (ids : List ListenerID) (h : Issued bus ids)
    (hb : ids.length + 1 < ListenerIDLimit) :
    (∀ T cb, ((EventBus.new : EventBus P).AddListener T cb).1 = 1) ∧
    ids = List.range' 1 ids.length ∧
    (∀ T cb, (bus.AddListener T cb).1 = ids.length + 1) ∧
    0 ∉ ids ∧
    ids.Pairwise (fun a b => a < b) ∧
    ids.Nodup ∧
    (∀ T cb id, id ∈ ids → id < (bus.AddListener T cb).1) ∧
    (∀ (fuel : Nat) (x x' : BusRun P) (pending : List (Pending P)), x.bus = bus →
      run fuel x pending = .done x' → ∃ more, Issued x'.bus (ids ++ more)) := by
  obtain ⟨hnext, hids⟩ := issued_ids h
  have hrange : ids = List.range' 1 ids.length := by
    rw [List.range'_eq_map_range]
    refine hids.trans (List.map_congr_left (fun k hk => ?_))
    have hk' : k < ids.length := List.mem_range.1 hk
    rw [Nat.mod_eq_of_lt (by omega)]
    exact Nat.add_comm k 1
  have hn : bus.m_nextListenerID = ids.length + 1 := by
    rw [hnext, Nat.mod_eq_of_lt hb]
  have hmem : ∀ id, id ∈ ids → 1 ≤ id ∧ id < 1 + ids.length := by
    intro id hid
    rw [hrange] at hid
    exact List.mem_range'_1.1 hid
  refine ⟨fun _ _ => rfl, hrange, fun _ _ => hn, ?_, ?_, ?_, ?_, ?_⟩
  · intro h0
    exact Nat.not_succ_le_zero 0 (hmem 0 h0).1
  · rw [hrange]
    exact List.pairwise_lt_range' 1 ids.length
  · rw [hrange]
    exact List.nodup_range' 1 ids.length
  · intro T cb id hid
    show id < bus.m_nextListenerID
    rw [hn, Nat.add_comm]
    exact (hmem id hid).2
  · intro fuel x x' pending hx hr
    subst hx
    exact run_issued fuel x x' pending ids h hr

/-- Witness for C32 (amended): on the bus with listeners 1 and 2 on `Scored`
and 3 on `PlayerDead` the ids issued are 1, 2, 3, and the next `AddListener`,
for any type, returns 4, also after `UnsubscribeAll`. -/
theorem listener_ids_count_up_witness :
    Issued scoreBus [1, 2, 3] ∧
    (scoreBus.AddListener "Collision" (fun _ => [])).1 = 4 ∧
    (scoreBus.UnsubscribeAll.AddListener "Scored" (fun _ => [])).1 = 4 ∧
    (∀ T cb, (scoreBus.AddListener T cb).1 = [1, 2, 3].length + 1) ∧
    (0 : ListenerID) ∉ [1, 2, 3] :=
  have hi : Issued scoreBus [1, 2, 3] :=
    Issued.add "PlayerDead" (fun _ => [])
      (Issued.add "Scored" (fun _ => [])
        (Issued.add "Scored" (fun _ => []) (Issued.init : Issued (EventBus.new : EventBus Nat) [])))
  have h := listener_ids_count_up scoreBus [1, 2, 3] hi
    (by unfold ListenerIDLimit; norm_num)
  ⟨hi, rfl, rfl, h.2.2.1, h.2.2.2.1⟩

end EventBus

namespace EventBus

variable {P : Type}

theorem step_flat (x : BusRun P) (rest : List (Pending P)) (c : BusCall P)
    (hc : c.isFlat = true) :
    step x rest (.call c) = (applyFlat x.bus c).map (fun bus => (⟨bus, x.calls⟩, rest)) := by
  cases c with
  | emit T e fast =>
    cases fast with
    | false => rfl
    | true => simp [BusCall.isFlat] at hc
  | addListener T cb => rfl
  | removeListener T id =>
    simp only [step, applyFlat]
    cases x.bus.RemoveListener T id <;> rfl
  | processEvents => simp [BusCall.isFlat] at hc
  | unsubscribeAll => rfl

theorem runFlat_cons (bus : EventBus P) (c : BusCall P) (s : List (BusCall P)) :
    runFlat bus (c :: s) = (applyFlat bus c).bind (fun bus' => runFlat bus' s) := by
  simp only [runFlat]
  cases applyFlat bus c <;> rfl

theorem runFlat_append (s t : List (BusCall P)) :
    ∀ (bus : EventBus P),
      runFlat bus (s ++ t) = (runFlat bus s).bind (fun bus' => runFlat bus' t) := by
  induction s with
  | nil =>
    intro bus
    rfl
  | cons c s ih =>
    intro bus
    rw [List.cons_append, runFlat_cons, runFlat_cons]
    cases applyFlat bus c with
    | none => rfl
    | some bus' => exact ih bus'

/-- Bus calls that deliver nothing take one step each; the run fails at the
first of them that fails. -/
theorem run_flat_calls (s : List (BusCall P)) (hs : s.all BusCall.isFlat = true) :
    ∀ (x : BusRun P) (rest : List (Pending P)) (fuel : Nat),
      run (fuel + s.length) x (s.map (fun c => Pending.call c) ++ rest) =
        (runFlat x.bus s).elim .failed (fun bus => run fuel ⟨bus, x.calls⟩ rest) := by
  induction s with
  | nil =>
    intro x rest fuel
    rfl
  | cons c s ih =>
    intro x rest fuel
    simp only [List.all_cons, Bool.and_eq_true] at hs
    have h1 : fuel + (c :: s).length = (fuel + s.length) + 1 := rfl
    rw [h1, List.map_cons, List.cons_append, run_succ, step_flat x _ c hs.1, runFlat_cons]
    cases applyFlat x.bus c with
    | none => rfl
    | some bus' => exact ih hs.2 ⟨bus', x.calls⟩ rest fuel

theorem deliverTo_nil (x : BusRun P) (item : ItemEvent P) : deliverTo x [] item = some x := by
  simp [deliverTo, scripts, runFlat]

theorem deliverTo_cons (x : BusRun P) (l : ItemListener P) (ls : List (ItemListener P))
    (item : ItemEvent P) :
    deliverTo x (l :: ls) item =
      (runFlat x.bus (l.callback item.event)).bind
        (fun bus => deliverTo ⟨bus, x.calls ++ [invocation item l]⟩ ls item) := by
  unfold deliverTo
  rw [scripts_cons, runFlat_append]
  cases runFlat x.bus (l.callback item.event) with
  | none => rfl
  | some bus =>
    simp only [Option.bind_some, Option.some_bind]
    cases runFlat bus (scripts ls item) with
    | none => rfl
    | some bus' => simp [List.append_assoc]

/-- Invoking the copied listeners in order, when their callbacks make bus
calls that deliver nothing. -/
theorem run_invokes_flat (item : ItemEvent P) (ls : List (ItemListener P)) :
    (scripts ls item).all BusCall.isFlat = true →
    ∀ (x : BusRun P) (rest : List (Pending P)) (fuel : Nat),
      run (fuel + (ls.length + (scripts ls item).length)) x
          (ls.map (fun l => Pending.invoke l item) ++ rest) =
        (deliverTo x ls item).elim .failed (fun x' => run fuel x' rest) := by
  induction ls with
  | nil =>
    intro _ x rest fuel
    rw [deliverTo_nil]
    simp [scripts]
  | cons l ls ih =>
    intro hs x rest fuel
    rw [scripts_cons, List.all_append, Bool.and_eq_true] at hs
    have hfuel : fuel + ((l :: ls).length + (scripts (l :: ls) item).length) =
        ((fuel + (ls.length + (scripts ls item).length)) + (l.callback item.event).length) + 1 := by
      rw [scripts_cons, List.length_append, List.length_cons]
      omega
    rw [hfuel, List.map_cons, List.cons_append, run_succ]
    simp only [step]
    rw [run_flat_calls _ hs.1, deliverTo_cons]
    cases runFlat x.bus (l.callback item.event) with
    | none => rfl
    | some bus => exact ih hs.2 _ rest fuel

/-- The private member `ProcessEvent(item)` when the type has listeners whose
callbacks make bus calls that deliver nothing. -/
theorem run_processEvent_flat (x : BusRun P) (item : ItemEvent P) (ls : List (ItemListener P))
    (h : x.bus.m_listeners.find item.type = some ls)
    (hs : (scripts ls item).all BusCall.isFlat = true) (rest : List (Pending P)) (fuel : Nat) :
    run (fuel + deliveryCost ls item) x (.processEvent item :: rest) =
      (deliverTo x ls item).elim .failed (fun x' => run fuel x' rest) := by
  have hfuel : fuel + deliveryCost ls item =
      (fuel + (ls.length + (scripts ls item).length)) + 1 := by
    unfold deliveryCost
    omega
  rw [hfuel, run_succ]
  simp only [step, h]
  exact run_invokes_flat item ls hs x rest fuel

/-- An immediate publish to a type whose listeners make bus calls that deliver
nothing. -/
theorem Emit_fast_flat (x : BusRun P) (E : TypeName) (ev : P) (ls : List (ItemListener P))
    (h : x.bus.m_listeners.find E = some ls)
    (hs : (scripts ls ⟨E, ev⟩).all BusCall.isFlat = true) (fuel : Nat)
    (hf : deliveryCost ls ⟨E, ev⟩ + 1 ≤ fuel) :
    Emit fuel x E ev true = Ran.ofOption (deliverTo x ls ⟨E, ev⟩) := by
  obtain ⟨k, rfl⟩ := Nat.exists_eq_add_of_le hf
  have hk : deliveryCost ls ⟨E, ev⟩ + 1 + k = (k + deliveryCost ls ⟨E, ev⟩) + 1 := by omega
  rw [hk]
  unfold Emit
  rw [run_succ]
  simp only [step]
  rw [run_processEvent_flat x ⟨E, ev⟩ ls h hs [] k]
  cases deliverTo x ls ⟨E, ev⟩ with
  | none => rfl
  | some x' => exact run_nil k x'

theorem scriptOf_cons (d : ItemEvent P × List (ItemListener P))
    (ds : List (ItemEvent P × List (ItemListener P))) :
    scriptOf (d :: ds) = scripts d.2 d.1 ++ scriptOf ds := by
  simp [scriptOf]

theorem costOf_cons (d : ItemEvent P × List (ItemListener P))
    (ds : List (ItemEvent P × List (ItemListener P))) :
    costOf (d :: ds) = deliveryCost d.2 d.1 + costOf ds := by
  simp [costOf]

theorem invocationsOf_cons (d : ItemEvent P × List (ItemListener P))
    (ds : List (ItemEvent P × List (ItemListener P))) :
    invocationsOf (d :: ds) = d.2.map (invocation d.1) ++ invocationsOf ds := by
  simp [invocationsOf]

theorem deliverAll_cons_none (x : BusRun P) (item : ItemEvent P) (q : List (ItemEvent P))
    (h : x.bus.m_listeners.find item.type = none) :
    deliverAll x (item :: q) = none ∧ deliveriesOf x (item :: q) = [] := by
  simp [deliverAll, deliveriesOf, h]

theorem deliverAll_cons_some (x : BusRun P) (item : ItemEvent P) (q : List (ItemEvent P))
    (ls : List (ItemListener P)) (h : x.bus.m_listeners.find item.type = some ls) :
    deliverAll x (item :: q) = (deliverTo x ls item).bind (fun x' => deliverAll x' q) ∧
    deliveriesOf x (item :: q) =
      (item, ls) :: (deliverTo x ls item).elim [] (fun x' => deliveriesOf x' q) := by
  simp only [deliverAll, deliveriesOf, h]
  cases deliverTo x ls item <;> exact ⟨rfl, rfl⟩

/-- The loop of `ProcessEvents` over the swapped-out queue, when the callbacks
invoked make bus calls that deliver nothing. -/
theorem run_deliverAll (q : List (ItemEvent P)) :
    ∀ (y : BusRun P), (scriptOf (deliveriesOf y q)).all BusCall.isFlat = true →
    ∀ (rest : List (Pending P)) (fuel : Nat),
      run (fuel + costOf (deliveriesOf y q) + q.length) y
          (q.map (fun eventItem => Pending.processEvent eventItem) ++ rest) =
        (deliverAll y q).elim .failed (fun y' => run (fuel + q.length) y' rest) := by
  induction q with
  | nil =>
    intro y _ rest fuel
    simp [deliverAll, deliveriesOf, costOf]
  | cons item q ih =>
    intro y hflat rest fuel
    cases hfind : y.bus.m_listeners.find item.type with
    | none =>
      obtain ⟨h1, h2⟩ := deliverAll_cons_none y item q hfind
      have hfuel : fuel + costOf (deliveriesOf y (item :: q)) + (item :: q).length =
          (fuel + costOf (deliveriesOf y (item :: q)) + q.length) + 1 := rfl
      rw [hfuel, List.map_cons, List.cons_append, run_processEvent_none y item hfind, h1]
      rfl
    | some ls =>
      obtain ⟨h1, h2⟩ := deliverAll_cons_some y item q ls hfind
      rw [h2, scriptOf_cons, List.all_append, Bool.and_eq_true] at hflat
      rw [h1, h2, costOf_cons]
      have hfuel : fuel + (deliveryCost ls item +
            costOf ((deliverTo y ls item).elim [] (fun x' => deliveriesOf x' q))) +
            (item :: q).length =
          ((fuel + 1) + costOf ((deliverTo y ls item).elim [] (fun x' => deliveriesOf x' q)) +
            q.length) + deliveryCost ls item := by
        simp only [List.length_cons]
        omega
      rw [hfuel, List.map_cons, List.cons_append, run_processEvent_flat y item ls hfind hflat.1]
      cases hd : deliverTo y ls item with
      | none => rfl
      | some y1 =>
        rw [hd] at hflat
        simp only [Option.elim_some, Option.some_bind]
        rw [ih y1 hflat.2 rest (fuel + 1)]
        have e1 : fuel + 1 + q.length = fuel + (item :: q).length := by
          simp only [List.length_cons]
          omega
        rw [e1]

/-- The member `ProcessEvents` when the callbacks invoked make bus calls that
deliver nothing. -/
theorem ProcessEvents_flat (x : BusRun P)
    (hflat : (scriptOf (flushDeliveries x)).all BusCall.isFlat = true) (fuel : Nat)
    (hf : costOf (flushDeliveries x) + x.bus.m_eventQueue.length + 1 ≤ fuel) :
    ProcessEvents fuel x = Ran.ofOption (flushed x) := by
  obtain ⟨k, rfl⟩ := Nat.exists_eq_add_of_le hf
  have hk : costOf (flushDeliveries x) + x.bus.m_eventQueue.length + 1 + k =
      (k + costOf (flushDeliveries x) + x.bus.m_eventQueue.length) + 1 := by omega
  rw [hk]
  unfold ProcessEvents
  rw [run_succ]
  simp only [step]
  have := run_deliverAll x.bus.m_eventQueue (flushStart x) hflat [] k
  rw [List.append_nil] at this
  rw [List.append_nil]
  refine Eq.trans this ?_
  unfold flushed
  cases deliverAll (flushStart x) x.bus.m_eventQueue with
  | none => rfl
  | some y' => exact run_nil _ y'

end EventBus

namespace EventBus

variable {P : Type}

theorem RemoveListener_queue {bus bus' : EventBus P} {T : TypeName} {id : ListenerID}
    (h : bus.RemoveListener T id = some bus') : bus'.m_eventQueue = bus.m_eventQueue := by
  obtain ⟨_, _, _, hcase⟩ := RemoveListener_eq_some h
  rcases hcase with ⟨_, rfl⟩ | ⟨_, rfl⟩ <;> rfl

/-- The deferred queue after the bus calls of a callback. -/
theorem runFlat_queue (s : List (BusCall P)) :
    ∀ (bus bus' : EventBus P), runFlat bus s = some bus' →
      bus'.m_eventQueue = queueAfter bus.m_eventQueue s := by
  induction s with
  | nil =>
    intro bus bus' h
    simp only [runFlat, Option.some.injEq] at h
    subst h
    rfl
  | cons c s ih =>
    intro bus bus' h
    rw [runFlat_cons] at h
    cases ha : applyFlat bus c with
    | none => simp [ha] at h
    | some b =>
      rw [ha] at h
      have h2 := ih b bus' h
      rw [h2]
      cases c with
      | emit T e fast =>
        cases fast with
        | false =>
          simp only [applyFlat, Option.some.injEq] at ha
          subst ha
          rfl
        | true =>
          simp only [applyFlat, Option.some.injEq] at ha
          subst ha
          rfl
      | addListener T cb =>
        simp only [applyFlat, Option.some.injEq] at ha
        subst ha
        rfl
      | removeListener T id =>
        simp only [applyFlat] at ha
        rw [RemoveListener_queue ha]
        rfl
      | processEvents =>
        simp only [applyFlat, Option.some.injEq] at ha
        subst ha
        rfl
      | unsubscribeAll =>
        simp only [applyFlat, Option.some.injEq] at ha
        subst ha
        rfl

theorem queueAfter_append (s t : List (BusCall P)) :
    ∀ (q : List (ItemEvent P)), queueAfter q (s ++ t) = queueAfter (queueAfter q s) t := by
  induction s with
  | nil =>
    intro q
    rfl
  | cons c s ih =>
    intro q
    cases c with
    | emit T e fast =>
      cases fast with
      | false => exact ih _
      | true => exact ih _
    | addListener T cb => exact ih _
    | removeListener T id => exact ih _
    | processEvents => exact ih _
    | unsubscribeAll => exact ih _

theorem published_append (s t : List (BusCall P)) :
    published (s ++ t) = published s ++ published t := by
  induction s with
  | nil => rfl
  | cons c s ih =>
    cases c with
    | emit T e fast =>
      cases fast with
      | false =>
        show _ :: published (s ++ t) = _ :: published s ++ published t
        rw [ih]
        rfl
      | true => simpa only [List.cons_append, published] using ih
    | addListener T cb => simpa only [List.cons_append, published] using ih
    | removeListener T id => simpa only [List.cons_append, published] using ih
    | processEvents => simpa only [List.cons_append, published] using ih
    | unsubscribeAll => simpa only [List.cons_append, published] using ih

/-- Without `UnsubscribeAll` the queue only grows, by the queued publishes. -/
theorem queueAfter_of_keeps (s : List (BusCall P)) (hs : s.any BusCall.isClear = false) :
    ∀ (q : List (ItemEvent P)), queueAfter q s = q ++ published s := by
  induction s with
  | nil =>
    intro q
    simp [queueAfter, published]
  | cons c s ih =>
    intro q
    simp only [List.any_cons, Bool.or_eq_false_iff] at hs
    cases c with
    | emit T e fast =>
      cases fast with
      | false =>
        simp only [queueAfter, published]
        rw [ih hs.2]
        simp
      | true =>
        simp only [queueAfter, published]
        exact ih hs.2 q
    | addListener T cb =>
      simp only [queueAfter, published]
      exact ih hs.2 q
    | removeListener T id =>
      simp only [queueAfter, published]
      exact ih hs.2 q
    | processEvents =>
      simp only [queueAfter, published]
      exact ih hs.2 q
    | unsubscribeAll => simp [BusCall.isClear] at hs

/-- When the callbacks queue nothing, the queue that was empty stays empty. -/
theorem queueAfter_nil_of_published (s : List (BusCall P)) (hs : published s = []) :
    queueAfter ([] : List (ItemEvent P)) s = [] := by
  induction s with
  | nil => rfl
  | cons c s ih =>
    cases c with
    | emit T e fast =>
      cases fast with
      | false => simp [published] at hs
      | true =>
        simp only [published] at hs
        simp only [queueAfter]
        exact ih hs
    | addListener T cb =>
      simp only [published] at hs
      simp only [queueAfter]
      exact ih hs
    | removeListener T id =>
      simp only [published] at hs
      simp only [queueAfter]
      exact ih hs
    | processEvents =>
      simp only [published] at hs
      simp only [queueAfter]
      exact ih hs
    | unsubscribeAll =>
      simp only [published] at hs
      simp only [queueAfter]
      exact ih hs

theorem deliverTo_eq_some {x x' : BusRun P} {ls : List (ItemListener P)} {item : ItemEvent P}
    (h : deliverTo x ls item = some x') :
    x'.calls = x.calls ++ ls.map (invocation item) ∧
    runFlat x.bus (scripts ls item) = some x'.bus ∧
    x'.bus.m_eventQueue = queueAfter x.bus.m_eventQueue (scripts ls item) := by
  unfold deliverTo at h
  cases hr : runFlat x.bus (scripts ls item) with
  | none => simp [hr] at h
  | some b =>
    simp only [hr, Option.map_some', Option.some.injEq] at h
    subst h
    exact ⟨rfl, rfl, runFlat_queue _ _ _ hr⟩

/-- What a completed loop of `ProcessEvents` has done: it started one delivery
per event of the local list, in order, recorded the invocations of these
deliveries, and left the queue the callbacks made. -/
theorem deliverAll_eq_some (q : List (ItemEvent P)) :
    ∀ (y y' : BusRun P), deliverAll y q = some y' →
      (deliveriesOf y q).map Prod.fst = q ∧
      y'.calls = y.calls ++ invocationsOf (deliveriesOf y q) ∧
      y'.bus.m_eventQueue = queueAfter y.bus.m_eventQueue (scriptOf (deliveriesOf y q)) := by
  induction q with
  | nil =>
    intro y y' h
    simp only [deliverAll, Option.some.injEq] at h
    subst h
    simp [deliveriesOf, invocationsOf, scriptOf, queueAfter]
  | cons item q ih =>
    intro y y' h
    cases hfind : y.bus.m_listeners.find item.type with
    | none =>
      rw [(deliverAll_cons_none y item q hfind).1] at h
      cases h
    | some ls =>
      obtain ⟨h1, h2⟩ := deliverAll_cons_some y item q ls hfind
      rw [h1] at h
      cases hd : deliverTo y ls item with
      | none => simp [hd] at h
      | some y1 =>
        rw [hd] at h h2
        simp only [Option.some_bind] at h
        simp only [Option.elim_some] at h2
        obtain ⟨a1, a2, a3⟩ := ih y1 y' h
        obtain ⟨b1, _, b3⟩ := deliverTo_eq_some hd
        rw [h2, scriptOf_cons, invocationsOf_cons, queueAfter_append]
        refine ⟨?_, ?_, ?_⟩
        · simp [a1]
        · rw [a2, b1, List.append_assoc]
        · rw [a3, b3]

theorem deliverAll_append (q1 q2 : List (ItemEvent P)) :
    ∀ (y : BusRun P),
      deliverAll y (q1 ++ q2) = (deliverAll y q1).bind (fun y1 => deliverAll y1 q2) := by
  induction q1 with
  | nil =>
    intro y
    rfl
  | cons item q1 ih =>
    intro y
    rw [List.cons_append]
    cases hfind : y.bus.m_listeners.find item.type with
    | none =>
      rw [(deliverAll_cons_none y item _ hfind).1, (deliverAll_cons_none y item _ hfind).1]
      rfl
    | some ls =>
      rw [(deliverAll_cons_some y item _ ls hfind).1, (deliverAll_cons_some y item _ ls hfind).1]
      cases deliverTo y ls item with
      | none => rfl
      | some y1 => exact ih y1

/-- The delivery started for an event of the local list is to the listener
list its type has in the state in which the event is reached. -/
theorem deliveriesOf_getElem (item : ItemEvent P) (q2 : List (ItemEvent P))
    (q1 : List (ItemEvent P)) :
    ∀ (y y1 : BusRun P), deliverAll y q1 = some y1 →
      (deliveriesOf y (q1 ++ item :: q2))[q1.length]? =
        (y1.bus.m_listeners.find item.type).map (fun ls => (item, ls)) := by
  induction q1 with
  | nil =>
    intro y y1 h
    simp only [deliverAll, Option.some.injEq] at h
    subst h
    cases hfind : y.bus.m_listeners.find item.type with
    | none =>
      rw [List.nil_append, (deliverAll_cons_none y item q2 hfind).2]
      rfl
    | some ls =>
      rw [List.nil_append, (deliverAll_cons_some y item q2 ls hfind).2]
      simp
  | cons i q1 ih =>
    intro y y1 h
    cases hfind : y.bus.m_listeners.find i.type with
    | none =>
      rw [(deliverAll_cons_none y i q1 hfind).1] at h
      cases h
    | some ls =>
      rw [(deliverAll_cons_some y i q1 ls hfind).1] at h
      rw [List.cons_append, (deliverAll_cons_some y i _ ls hfind).2]
      cases hd : deliverTo y ls i with
      | none => simp [hd] at h
      | some y' =>
        rw [hd] at h
        simp only [Option.some_bind] at h
        simp only [Option.elim_some, List.length_cons, List.getElem?_cons_succ]
        exact ih y' y1 h

/-- The loop of `ProcessEvents` fails exactly when, after the events before
it were delivered, an event is reached whose type has no listener list, or
whose delivery fails in a callback. -/
theorem deliverAll_eq_none_iff (q : List (ItemEvent P)) :
    ∀ (y : BusRun P), deliverAll y q = none ↔
      ∃ q1 item q2 y1, q = q1 ++ item :: q2 ∧ deliverAll y q1 = some y1 ∧
        (y1.bus.m_listeners.find item.type = none ∨
          ∃ ls, y1.bus.m_listeners.find item.type = some ls ∧ deliverTo y1 ls item = none) := by
  intro y
  constructor
  · induction q generalizing y with
    | nil =>
      intro h
      simp [deliverAll] at h
    | cons item q ih =>
      intro h
      cases hfind : y.bus.m_listeners.find item.type with
      | none => exact ⟨[], item, q, y, rfl, rfl, Or.inl hfind⟩
      | some ls =>
        rw [(deliverAll_cons_some y item q ls hfind).1] at h
        cases hd : deliverTo y ls item with
        | none => exact ⟨[], item, q, y, rfl, rfl, Or.inr ⟨ls, hfind, hd⟩⟩
        | some y' =>
          rw [hd] at h
          simp only [Option.some_bind] at h
          obtain ⟨q1, item', q2, y1, e, hq1, hcase⟩ := ih y' h
          refine ⟨item :: q1, item', q2, y1, by rw [e]; rfl, ?_, hcase⟩
          rw [(deliverAll_cons_some y item q1 ls hfind).1, hd]
          exact hq1
  · rintro ⟨q1, item, q2, y1, rfl, hq1, hcase⟩
    rw [deliverAll_append, hq1]
    simp only [Option.some_bind]
    rcases hcase with hn | ⟨ls, hs, hd⟩
    · exact (deliverAll_cons_none y1 item q2 hn).1
    · rw [(deliverAll_cons_some y1 item q2 ls hs).1, hd]
      rfl

/-- Queued publishes and subscriptions cannot fail. -/
theorem runFlat_quiet (s : List (BusCall P)) (hs : s.all BusCall.isQuiet = true) :
    ∀ (bus : EventBus P), runFlat bus s = some (s.foldl applyQuiet bus) := by
  induction s with
  | nil =>
    intro bus
    rfl
  | cons c s ih =>
    intro bus
    simp only [List.all_cons, Bool.and_eq_true] at hs
    rw [runFlat_cons]
    cases c with
    | emit T e fast =>
      cases fast with
      | false => exact ih hs.2 _
      | true => simp [BusCall.isQuiet] at hs
    | addListener T cb => exact ih hs.2 _
    | removeListener T id => simp [BusCall.isQuiet] at hs
    | processEvents => simp [BusCall.isQuiet] at hs
    | unsubscribeAll => simp [BusCall.isQuiet] at hs

theorem deliverTo_quiet (x : BusRun P) (ls : List (ItemListener P)) (item : ItemEvent P)
    (hs : (scripts ls item).all BusCall.isQuiet = true) :
    deliverTo x ls item = some (delivered x ls item) := by
  unfold deliverTo delivered
  rw [runFlat_quiet _ hs]
  rfl

theorem isFlat_of_isQuiet (s : List (BusCall P)) (h : s.all BusCall.isQuiet = true) :
    s.all BusCall.isFlat = true := by
  rw [List.all_eq_true] at h ⊢
  intro c hc
  have := h c hc
  cases c with
  | emit T e fast =>
    cases fast with
    | false => rfl
    | true => simp [BusCall.isQuiet] at this
  | addListener T cb => rfl
  | removeListener T id => rfl
  | processEvents => simp [BusCall.isQuiet] at this
  | unsubscribeAll => rfl

theorem keeps_of_isQuiet (s : List (BusCall P)) (h : s.all BusCall.isQuiet = true) :
    s.any BusCall.isClear = false := by
  rw [List.all_eq_true] at h
  rw [Bool.eq_false_iff]
  intro ha
  obtain ⟨c, hc, hclear⟩ := List.any_eq_true.1 ha
  have := h c hc
  cases c with
  | emit T e fast => simp [BusCall.isClear] at hclear
  | addListener T cb => simp [BusCall.isClear] at hclear
  | removeListener T id => simp [BusCall.isClear] at hclear
  | processEvents => simp [BusCall.isClear] at hclear
  | unsubscribeAll => simp [BusCall.isQuiet] at this

end EventBus

namespace EventBus

variable {P : Type}

/-- Among the bus calls that deliver nothing only `RemoveListener` can fail:
the calls of a callback fail exactly when one of its `RemoveListener` calls
fails on the bus left by the calls before it. -/
theorem runFlat_eq_none_iff (s : List (BusCall P)) :
    ∀ (bus : EventBus P), runFlat bus s = none ↔
      ∃ s1 T id s2 bus1, s = s1 ++ BusCall.removeListener T id :: s2 ∧
        runFlat bus s1 = some bus1 ∧ bus1.RemoveListener T id = none := by
  induction s with
  | nil =>
    intro bus
    constructor
    · intro h
      simp [runFlat] at h
    · rintro ⟨s1, T, id, s2, bus1, e, _, _⟩
      simp at e
  | cons c s ih =>
    intro bus
    rw [runFlat_cons]
    constructor
    · intro h
      cases ha : applyFlat bus c with
      | none =>
        cases c with
        | emit T e fast => cases fast <;> simp [applyFlat] at ha
        | addListener T cb => simp [applyFlat] at ha
        | removeListener T id => exact ⟨[], T, id, s, bus, rfl, rfl, ha⟩
        | processEvents => simp [applyFlat] at ha
        | unsubscribeAll => simp [applyFlat] at ha
      | some b =>
        rw [ha] at h
        obtain ⟨s1, T, id, s2, bus1, e, h1, h2⟩ := (ih b).1 h
        refine ⟨c :: s1, T, id, s2, bus1, by rw [e]; rfl, ?_, h2⟩
        rw [runFlat_cons, ha]
        exact h1
    · rintro ⟨s1, T, id, s2, bus1, e, h1, h2⟩
      cases s1 with
      | nil =>
        simp only [List.nil_append, List.cons.injEq] at e
        obtain ⟨rfl, rfl⟩ := e
        simp only [runFlat, Option.some.injEq] at h1
        subst h1
        simp only [applyFlat, h2]
        rfl
      | cons c' s1 =>
        simp only [List.cons_append, List.cons.injEq] at e
        obtain ⟨rfl, rfl⟩ := e
        rw [runFlat_cons] at h1
        cases ha : applyFlat bus c with
        | none => rfl
        | some b =>
          rw [ha] at h1
          exact (ih b).2 ⟨s1, T, id, s2, bus1, rfl, h1, h2⟩

/-- The loop of `ProcessEvents` when the callbacks only queue events and every
type in the local list has listeners: the listener lists stay as they are. -/
theorem deliverAll_deferring (L : UMap TypeName (List (ItemListener P)))
    (q : List (ItemEvent P)) :
    flushDefers L q = true → allHeard L q = true →
    ∀ (y : BusRun P), y.bus.m_listeners = L →
      deliverAll y q =
        some ⟨{ y.bus with m_eventQueue := y.bus.m_eventQueue ++ flushPublished L q },
          y.calls ++ flushInvocations L q⟩ := by
  induction q with
  | nil =>
    intro _ _ y _
    simp [deliverAll, flushPublished, flushInvocations]
  | cons item q ih =>
    intro hd hh y hL
    simp only [flushDefers, List.all_cons, Bool.and_eq_true] at hd
    simp only [allHeard, List.all_cons, Bool.and_eq_true] at hh
    have hd2 : flushDefers L q = true := hd.2
    have hh2 : allHeard L q = true := hh.2
    cases hf : L.find item.type with
    | none => simp [hf] at hh
    | some ls =>
      have hs : (scripts ls item).all BusCall.isDeferred = true := by
        have := hd.1
        rw [hf] at this
        exact this
      have hfy : y.bus.m_listeners.find item.type = some ls := by rw [hL]; exact hf
      rw [(deliverAll_cons_some y item q ls hfy).1,
        deliverTo_quiet y ls item (isQuiet_of_isDeferred _ hs)]
      simp only [Option.some_bind]
      have hbus : (delivered y ls item).bus =
          { y.bus with m_eventQueue := y.bus.m_eventQueue ++ published (scripts ls item) } :=
        foldl_applyQuiet_deferred _ hs y.bus
      have hL' : (delivered y ls item).bus.m_listeners = L := by rw [hbus]; exact hL
      rw [ih hd2 hh2 (delivered y ls item) hL', hbus]
      simp [delivered, flushPublished, flushInvocations, hf, List.append_assoc]

theorem issued_churnN (n : Nat) :
    ∀ (bus : EventBus P) (ids : List ListenerID), Issued bus ids →
      ∃ ids', Issued (churnN n bus) ids' ∧ ids'.length = ids.length + n := by
  induction n with
  | zero =>
    intro bus ids h
    exact ⟨ids, h, rfl⟩
  | succ n ih =>
    intro bus ids h
    obtain ⟨ids', h1, h2⟩ := ih _ _ (Issued.clear (Issued.add "Scored" (fun _ => []) h))
    refine ⟨ids', h1, ?_⟩
    rw [h2, List.length_append, List.length_singleton]
    omega

/-- The rounds of `churnN` leave no listener stored and nothing queued. -/
theorem churnN_stores_nothing (n : Nat) :
    ∀ (bus : EventBus P), bus.m_listeners = [] → bus.m_eventQueue = [] →
      (churnN n bus).m_listeners = [] ∧ (churnN n bus).m_eventQueue = [] := by
  induction n with
  | zero =>
    intro bus h1 h2
    exact ⟨h1, h2⟩
  | succ n ih =>
    intro bus _ _
    exact ih _ rfl rfl

end EventBus

namespace EventBus

variable {P : Type}

/-- C23 (counterexample): listener 1 of `SpawnPlayer` queues a `PlayerSpawned`
event from its callback, as the spawn system of the sample game does. The
immediate publish of `SpawnPlayer` returns with that event in the deferred
queue, which was empty before the call. And when a callback publishes
immediately (listener 1 of `Collision` publishing `Scored`), the immediate
`Collision` publish invokes the `Scored` listener 2 as well. So an immediate
publish does not always leave the deferred queue unchanged, and does not
always invoke listeners of its own type only. -/
theorem immediate_publish_changes_queue :
    spawnBus.m_eventQueue = [] ∧
    (spawnBus.m_listeners.find "SpawnPlayer").isSome = true ∧
    (Emit 4 ⟨spawnBus, []⟩ "SpawnPlayer" 7 true).callsOf = some [⟨1, "SpawnPlayer", 7⟩] ∧
    (Emit 4 ⟨spawnBus, []⟩ "SpawnPlayer" 7 true).queueOf = some [⟨"PlayerSpawned", 7⟩] ∧
    (Emit 6 ⟨chainBus, []⟩ "Collision" 5 true).callsOf =
      some [⟨1, "Collision", 5⟩, ⟨2, "Scored", 6⟩] ∧
    ¬ (∀ (x : BusRun Nat) (E : TypeName) (ev : Nat) (fuel : Nat) (x' : BusRun Nat),
      (x.bus.m_listeners.find E).isSome = true → Emit fuel x E ev true = .done x' →
        x'.bus.m_eventQueue = x.bus.m_eventQueue) := by
  refine ⟨rfl, rfl, by decide, by decide, by decide, fun hall => ?_⟩
  have h := hall ⟨spawnBus, []⟩ "SpawnPlayer" 7 4 _ rfl
    (Emit_fast_quiet ⟨spawnBus, []⟩ "SpawnPlayer" 7
      [⟨1, fun v => [.emit "PlayerSpawned" v false]⟩] rfl rfl 4 (by decide))
  exact absurd h (by decide)

/-- C23 (amended): an immediate publish of an E event on a bus where E has the
listener list `ls`, when the bus calls the callbacks of `ls` make for this
event are only queued publishes, subscriptions, unsubscriptions and
`UnsubscribeAll` (no immediate publish, no flush). The call fails exactly
when one of these unsubscriptions fails; otherwise it returns having invoked
exactly the listeners of `ls`, each once with that event, in the order of the
list (subscription order), and no other listener, and the deferred queue is
the queue before the call changed by the callbacks' own calls (a queued
publish appends, `UnsubscribeAll` empties it). With callbacks that only queue
events or subscribe, the call always returns and the queue is the old queue
followed by the events the callbacks queued; with callbacks that make no bus
call the bus, and so the deferred queue, is unchanged. -/
theorem immediate_publish_invokes_each_listener (x : BusRun P) (E : TypeName) (ev : P)
    (ls : List (ItemListener P)) (h : x.bus.m_listeners.find E = some ls)
    (hflat : (scripts ls ⟨E, ev⟩).all BusCall.isFlat = true) (fuel : Nat)
    (hf : deliveryCost ls ⟨E, ev⟩ + 1 ≤ fuel) :
    Emit fuel x E ev true = Ran.ofOption (deliverTo x ls ⟨E, ev⟩) ∧
    (deliverTo x ls ⟨E, ev⟩ = none ↔
      ∃ s1 T id s2 bus1, scripts ls ⟨E, ev⟩ = s1 ++ BusCall.removeListener T id :: s2 ∧
        runFlat x.bus s1 = some bus1 ∧ bus1.RemoveListener T id = none) ∧
    (∀ x', deliverTo x ls ⟨E, ev⟩ = some x' →
      x'.calls = x.calls ++ ls.map (invocation ⟨E, ev⟩) ∧
      x'.bus.m_eventQueue = queueAfter x.bus.m_eventQueue (scripts ls ⟨E, ev⟩)) ∧
    ((scripts ls ⟨E, ev⟩).all BusCall.isQuiet = true →
      ∃ x', Emit fuel x E ev true = .done x' ∧
        x'.calls = x.calls ++ ls.map (invocation ⟨E, ev⟩) ∧
        x'.bus.m_eventQueue = x.bus.m_eventQueue ++ published (scripts ls ⟨E, ev⟩)) ∧
    (ls.all (fun l => (l.callback ev).isEmpty) = true →
      Emit fuel x E ev true = .done ⟨x.bus, x.calls ++ ls.map (invocation ⟨E, ev⟩)⟩) := by
  have hrun := Emit_fast_flat x E ev ls h hflat fuel hf
  refine ⟨hrun, ?_, ?_, ?_, ?_⟩
  · rw [← runFlat_eq_none_iff]
    unfold deliverTo
    cases runFlat x.bus (scripts ls ⟨E, ev⟩) <;> simp
  · intro x' hx'
    obtain ⟨h1, _, h3⟩ := deliverTo_eq_some hx'
    exact ⟨h1, h3⟩
  · intro hq
    have hd := deliverTo_quiet x ls ⟨E, ev⟩ hq
    obtain ⟨h1, _, h3⟩ := deliverTo_eq_some hd
    refine ⟨delivered x ls ⟨E, ev⟩, ?_, h1, ?_⟩
    · rw [hrun, hd]
      rfl
    · rw [h3, queueAfter_of_keeps _ (keeps_of_isQuiet _ hq)]
  · intro hp
    have hs := scripts_of_passive ls ⟨E, ev⟩ hp
    rw [hrun]
    unfold deliverTo
    rw [hs]
    rfl

/-- Witness for C23 (amended): with listeners 1 and 2 on `Scored` and listener
3 on `PlayerDead`, an immediate `Scored` publish of value 10 invokes 1 then 2
and leaves the queue empty; on the bus of the counterexample the immediate
`SpawnPlayer` publish invokes listener 1 and appends the event its callback
queued. -/
theorem immediate_publish_invokes_each_listener_witness :
    (Emit 4 ⟨scoreBus, []⟩ "Scored" 10 true).callsOf =
      some [⟨1, "Scored", 10⟩, ⟨2, "Scored", 10⟩] ∧
    (Emit 4 ⟨scoreBus, []⟩ "Scored" 10 true).queueOf = some [] ∧
    (∃ x', Emit 4 ⟨spawnBus, []⟩ "SpawnPlayer" 7 true = .done x' ∧
      x'.calls = [] ++ [invocation ⟨"SpawnPlayer", 7⟩
        (⟨1, fun v => [.emit "PlayerSpawned" v false]⟩ : ItemListener Nat)] ∧
      x'.bus.m_eventQueue = [] ++ [⟨"PlayerSpawned", 7⟩]) :=
  have h := immediate_publish_invokes_each_listener ⟨scoreBus, []⟩ "Scored" 10
    [⟨1, fun _ => []⟩, ⟨2, fun _ => []⟩] rfl rfl 4 (by decide)
  ⟨by rw [h.2.2.2.2 rfl]; rfl, by rw [h.2.2.2.2 rfl]; rfl,
    (immediate_publish_invokes_each_listener ⟨spawnBus, []⟩ "SpawnPlayer" 7
      [⟨1, fun v => [.emit "PlayerSpawned" v false]⟩] rfl rfl 4 (by decide)).2.2.2.1 rfl⟩

end EventBus

namespace EventBus

variable {P : Type}

/-- C25 (counterexample): a `Scored` event and a `PlayerDead` event are queued
and only `Scored` has listeners. The flush delivers the `Scored` event and
fails when it reaches the `PlayerDead` event (the assertion of
`ProcessEvent`): no flush of this bus returns, whatever the step budget, so
the queued `PlayerDead` event is not delivered. So it is not true that every
flush delivers every queued event. -/
theorem flush_fails_on_unheard_event :
    unheardBus.m_eventQueue = [⟨"Scored", 10⟩, ⟨"PlayerDead", 0⟩] ∧
    unheardBus.m_listeners.find "PlayerDead" = none ∧
    (∀ fuel, 5 ≤ fuel → ProcessEvents fuel ⟨unheardBus, []⟩ = .failed) ∧
    (∀ fuel x', ProcessEvents fuel ⟨unheardBus, []⟩ ≠ .done x') ∧
    ¬ (∀ (x : BusRun Nat), ∃ fuel x', ProcessEvents fuel x = .done x') := by
  have hfail : ∀ fuel, 5 ≤ fuel → ProcessEvents fuel ⟨unheardBus, []⟩ = .failed :=
    fun fuel hf => ProcessEvents_flat ⟨unheardBus, []⟩ rfl fuel hf
  have hnever : ∀ fuel x', ProcessEvents fuel ⟨unheardBus, []⟩ ≠ .done x' := by
    intro fuel x' h
    by_cases hf : 5 ≤ fuel
    · rw [hfail fuel hf] at h
      cases h
    · have h5 : fuel < 5 := Nat.lt_of_not_le hf
      have hdone : (ProcessEvents fuel ⟨unheardBus, []⟩).callsOf.isSome = true := by
        rw [h]
        rfl
      interval_cases fuel <;> exact absurd hdone (by decide)
  exact ⟨rfl, rfl, hfail, hnever, fun hall =>
    (hall ⟨unheardBus, []⟩).elim (fun fuel h => h.elim (fun x' hx' => hnever fuel x' hx'))⟩

/-- C25 (amended): a flush whose callbacks make only bus calls that deliver
nothing (queued publishes, subscriptions, unsubscriptions, `UnsubscribeAll`;
no immediate publish, no nested flush) ends, as the loop `flushed` does. When
it returns, it has started one delivery for each event that was in the queue
at its start, in queue order, and made the invocations of these deliveries
and no other; each delivery is to the listener list the event's type has in
the state in which the event is reached, in list (subscription) order. The
queue is then what the callbacks' calls made of the emptied queue; when no
callback published it is empty and a second flush returns at once with no
invocation. The flush fails exactly when an event is reached whose type has
no listener list at that moment or one of whose callbacks fails in an
unsubscription; the events behind it are not delivered. When the callbacks
only queue events and every queued type has listeners, the listener lists do
not change and each event goes to the listeners of its type. -/
theorem flush_delivers_queue_in_order (x : BusRun P)
    (hflat : (scriptOf (flushDeliveries x)).all BusCall.isFlat = true) (fuel : Nat)
    (hf : costOf (flushDeliveries x) + x.bus.m_eventQueue.length + 1 ≤ fuel) :
    ProcessEvents fuel x = Ran.ofOption (flushed x) ∧
    (∀ x', flushed x = some x' →
      (flushDeliveries x).map Prod.fst = x.bus.m_eventQueue ∧
      x'.calls = x.calls ++ (flushDeliveries x).flatMap (fun d => d.2.map (invocation d.1)) ∧
      x'.bus.m_eventQueue = queueAfter [] (scriptOf (flushDeliveries x)) ∧
      (published (scriptOf (flushDeliveries x)) = [] →
        x'.bus.m_eventQueue = [] ∧ ∀ fuel2, 1 ≤ fuel2 → ProcessEvents fuel2 x' = .done x')) ∧
    (∀ (q1 : List (ItemEvent P)) (item : ItemEvent P) (q2 : List (ItemEvent P)) (y : BusRun P),
      x.bus.m_eventQueue = q1 ++ item :: q2 → deliverAll (flushStart x) q1 = some y →
        (flushDeliveries x)[q1.length]? =
          (y.bus.m_listeners.find item.type).map (fun ls => (item, ls))) ∧
    (flushed x = none ↔
      ∃ q1 item q2 y, x.bus.m_eventQueue = q1 ++ item :: q2 ∧
        deliverAll (flushStart x) q1 = some y ∧
        (y.bus.m_listeners.find item.type = none ∨
          ∃ ls, y.bus.m_listeners.find item.type = some ls ∧ deliverTo y ls item = none)) ∧
    (flushDefers x.bus.m_listeners x.bus.m_eventQueue = true →
      allHeard x.bus.m_listeners x.bus.m_eventQueue = true →
      flushed x =
        some ⟨{ x.bus with
                m_eventQueue := flushPublished x.bus.m_listeners x.bus.m_eventQueue },
              x.calls ++ x.bus.m_eventQueue.flatMap (fun item =>
                (x.bus.listenersOf item.type).map (invocation item))⟩) := by
  refine ⟨ProcessEvents_flat x hflat fuel hf, ?_, ?_, ?_, ?_⟩
  · intro x' hx'
    obtain ⟨h1, h2, h3⟩ := deliverAll_eq_some _ _ _ hx'
    refine ⟨h1, h2, h3, fun hp => ?_⟩
    have hq : x'.bus.m_eventQueue = [] := by
      rw [h3]
      exact queueAfter_nil_of_published _ hp
    exact ⟨hq, fun fuel2 hf2 => ProcessEvents_empty x' hq fuel2 hf2⟩
  · intro q1 item q2 y hq hy
    unfold flushDeliveries
    rw [hq]
    exact deliveriesOf_getElem item q2 q1 _ y hy
  · exact deliverAll_eq_none_iff _ _
  · intro hd hh
    have := deliverAll_deferring x.bus.m_listeners x.bus.m_eventQueue hd hh (flushStart x) rfl
    refine this.trans ?_
    simp [flushStart, flushInvocations, listenersOf]

/-- Witness for C25 (the spec scenario): listener 1 is subscribed to `Scored`
and one `Scored` event is queued; before the flush it has run zero times,
after the flush exactly once, and a second flush adds nothing. On the bus
where the `Collision` callback subscribes listener 3 to `Scored`, the `Scored`
event queued behind the `Collision` event is delivered to listeners 2 and
3. -/
theorem flush_delivers_queue_in_order_witness :
    (ProcessEvents 4 ⟨queuedBus, []⟩).callsOf = some [⟨1, "Scored", 10⟩] ∧
    (ProcessEvents 4 ⟨queuedBus, []⟩).queueOf = some [] ∧
    (∀ x', flushed ⟨queuedBus, []⟩ = some x' →
      ∀ fuel2, 1 ≤ fuel2 → (ProcessEvents fuel2 x').callsOf = some x'.calls) ∧
    (ProcessEvents 9 ⟨lateBus, []⟩).callsOf =
      some [⟨1, "Collision", 5⟩, ⟨2, "Scored", 1⟩, ⟨3, "Scored", 1⟩] :=
  have h := flush_delivers_queue_in_order ⟨queuedBus, []⟩ rfl 4 (by decide)
  have h2 := flush_delivers_queue_in_order ⟨lateBus, []⟩ rfl 9 (by decide)
  ⟨by rw [h.1]; rfl, by rw [h.1]; rfl,
    fun x' hx' fuel2 hf2 => congrArg Ran.callsOf (((h.2.1 x' hx').2.2.2 rfl).2 fuel2 hf2),
    by rw [h2.1]; rfl⟩

end EventBus

namespace EventBus

variable {P : Type}

/-- C26 (counterexample): a `Collision` event is queued; the callback of its
listener 1 queues a `Scored` event and then calls `ProcessEvents()`. The
nested call delivers the `Scored` event to listener 2 while the outer flush
is still running: when the outer flush returns, listener 2 has been invoked
with the event published during the flush and the deferred queue is empty,
not the list of the events published during the flush. When the callback
calls `UnsubscribeAll()` instead, the queue is empty on return as well and
the `Scored` event is delivered by no flush. -/
theorem nested_flush_delivers_published_event :
    reflushBus.m_eventQueue = [⟨"Collision", 5⟩] ∧
    published (scripts (reflushBus.listenersOf "Collision") ⟨"Collision", 5⟩) =
      [⟨"Scored", 6⟩] ∧
    (ProcessEvents 7 ⟨reflushBus, []⟩).callsOf =
      some [⟨1, "Collision", 5⟩, ⟨2, "Scored", 6⟩] ∧
    (ProcessEvents 7 ⟨reflushBus, []⟩).queueOf = some [] ∧
    published (scripts (resetBus.listenersOf "Collision") ⟨"Collision", 5⟩) =
      [⟨"Scored", 6⟩] ∧
    (ProcessEvents 5 ⟨resetBus, []⟩).callsOf = some [⟨1, "Collision", 5⟩] ∧
    (ProcessEvents 5 ⟨resetBus, []⟩).queueOf = some [] :=
  ⟨rfl, by decide, by decide, by decide, by decide, by decide, by decide⟩

/-- C26 (amended): a flush whose callbacks make only queued publishes,
subscriptions and unsubscriptions (no immediate publish, no nested flush, no
`UnsubscribeAll`) ends, and when it returns it has started deliveries for
the events that were queued at its start only, one each, in order; the
deferred queue then consists of exactly the events the callbacks published
during the flush, in publication order; and the next flush (under the same
condition on its callbacks) starts its deliveries for exactly these events,
in this order. -/
theorem publish_during_flush_waits (x : BusRun P)
    (hflat : (scriptOf (flushDeliveries x)).all BusCall.isFlat = true)
    (hkeep : (scriptOf (flushDeliveries x)).any BusCall.isClear = false) (fuel : Nat)
    (hf : costOf (flushDeliveries x) + x.bus.m_eventQueue.length + 1 ≤ fuel) :
    ProcessEvents fuel x = Ran.ofOption (flushed x) ∧
    ∀ x', flushed x = some x' →
      (flushDeliveries x).map Prod.fst = x.bus.m_eventQueue ∧
      x'.calls = x.calls ++ invocationsOf (flushDeliveries x) ∧
      x'.bus.m_eventQueue = published (scriptOf (flushDeliveries x)) ∧
      ((scriptOf (flushDeliveries x')).all BusCall.isFlat = true →
        ∀ fuel2, costOf (flushDeliveries x') + x'.bus.m_eventQueue.length + 1 ≤ fuel2 →
          ProcessEvents fuel2 x' = Ran.ofOption (flushed x') ∧
          ∀ x'', flushed x' = some x'' →
            (flushDeliveries x').map Prod.fst = published (scriptOf (flushDeliveries x)) ∧
            x''.calls = x'.calls ++ invocationsOf (flushDeliveries x')) := by
  refine ⟨ProcessEvents_flat x hflat fuel hf, fun x' hx' => ?_⟩
  obtain ⟨h1, h2, h3⟩ := deliverAll_eq_some _ _ _ hx'
  have hq : x'.bus.m_eventQueue = published (scriptOf (flushDeliveries x)) := by
    rw [h3]
    exact (queueAfter_of_keeps _ hkeep []).trans (List.nil_append _)
  refine ⟨h1, h2, hq, fun hflat2 fuel2 hf2 =>
    ⟨ProcessEvents_flat x' hflat2 fuel2 hf2, fun x'' hx'' => ?_⟩⟩
  obtain ⟨g1, g2, _⟩ := deliverAll_eq_some _ _ _ hx''
  exact ⟨g1.trans hq, g2⟩

/-- Witness for C26 (amended): the `Collision` listener publishes a queued
`Scored` event during the first flush; that flush invokes listener 1 only and
leaves the `Scored` event queued, the second flush invokes listener 2 with
it. -/
theorem publish_during_flush_waits_witness :
    (ProcessEvents 5 ⟨relayBus, []⟩).callsOf = some [⟨1, "Collision", 5⟩] ∧
    (ProcessEvents 5 ⟨relayBus, []⟩).queueOf = some [⟨"Scored", 6⟩] ∧
    (ProcessEvents 4 ⟨{ relayBus with m_eventQueue := [⟨"Scored", 6⟩] },
      [⟨1, "Collision", 5⟩]⟩).callsOf = some [⟨1, "Collision", 5⟩, ⟨2, "Scored", 6⟩] ∧
    (∀ x', flushed ⟨relayBus, []⟩ = some x' →
      x'.bus.m_eventQueue =
        published (scriptOf (flushDeliveries (⟨relayBus, []⟩ : BusRun Nat)))) :=
  have h := publish_during_flush_waits ⟨relayBus, []⟩ rfl rfl 5 (by decide)
  ⟨by rw [h.1]; rfl, by rw [h.1]; rfl, by decide, fun x' hx' => (h.2 x' hx').2.2.1⟩

end EventBus

namespace EventBus

variable {P : Type}

theorem ofOption_eq_failed_iff {σ : Type} (o : Option σ) : Ran.ofOption o = .failed ↔ o = none := by
  cases o <;> simp [Ran.ofOption]

theorem mem_scriptOf {ds : List (ItemEvent P × List (ItemListener P))}
    {d : ItemEvent P × List (ItemListener P)} (hd : d ∈ ds) {c : BusCall P}
    (hc : c ∈ scripts d.2 d.1) : c ∈ scriptOf ds :=
  List.mem_flatMap.2 ⟨d, hd, hc⟩

/-- With callbacks that only queue events or subscribe, the loop of
`ProcessEvents` fails exactly when an event is reached whose type has no
listener list at that moment. -/
theorem deliverAll_eq_none_iff_of_quiet (y : BusRun P) (q : List (ItemEvent P))
    (hq : (scriptOf (deliveriesOf y q)).all BusCall.isQuiet = true) :
    deliverAll y q = none ↔
      ∃ q1 item q2 y1, q = q1 ++ item :: q2 ∧ deliverAll y q1 = some y1 ∧
        y1.bus.m_listeners.find item.type = none := by
  rw [deliverAll_eq_none_iff]
  constructor
  · rintro ⟨q1, item, q2, y1, e, h1, hcase⟩
    refine ⟨q1, item, q2, y1, e, h1, ?_⟩
    rcases hcase with hn | ⟨ls, hs, hd⟩
    · exact hn
    · exfalso
      have hget := deliveriesOf_getElem item q2 q1 y y1 h1
      rw [← e, hs] at hget
      have hmem : (item, ls) ∈ deliveriesOf y q := List.getElem?_mem hget
      have hquiet : (scripts ls item).all BusCall.isQuiet = true := by
        rw [List.all_eq_true] at hq ⊢
        intro c hc
        exact hq c (mem_scriptOf hmem hc)
      rw [deliverTo_quiet y1 ls item hquiet] at hd
      cases hd
  · rintro ⟨q1, item, q2, y1, e, h1, hn⟩
    exact ⟨q1, item, q2, y1, e, h1, Or.inl hn⟩

/-- C29 (counterexample): `Scored` has a listener list, and the callback of
its listener 1 unsubscribes an id that was never issued. The immediate
publish of `Scored` fails although `Scored` has a listener list, and so does
the flush of the queued `Scored` event although the type of every queued
event has a listener list: the failure is the one of the callback's own bus
call. So a failing publish or flush does not imply a missing listener list.
For the last part of the claim: on the bus with listeners 1 and 2 on `Scored`
both are unsubscribed by successful `RemoveListener` calls; the calls remove
neither (the defect shown for C27), and the immediate publish that follows
does not fail but invokes both. -/
theorem publish_fails_with_listeners :
    (staleBus.m_listeners.find "Scored").isSome = true ∧
    (∀ fuel, 4 ≤ fuel → Emit fuel ⟨staleBus, []⟩ "Scored" 10 true = .failed) ∧
    allHeard staleBus.m_listeners staleBus.m_eventQueue = true ∧
    (∀ fuel, 5 ≤ fuel → ProcessEvents fuel ⟨staleBus, []⟩ = .failed) ∧
    ¬ (∀ (x : BusRun Nat) (E : TypeName) (ev : Nat) (fuel : Nat),
      Emit fuel x E ev true = .failed → x.bus.m_listeners.find E = none) ∧
    (∃ bus1 bus2, scoreBus.RemoveListener "Scored" 1 = some bus1 ∧
      bus1.RemoveListener "Scored" 2 = some bus2 ∧
      bus2.listenerIDs "Scored" = [1, 2] ∧
      (Emit 4 ⟨bus2, []⟩ "Scored" 10 true).callsOf =
        some [⟨1, "Scored", 10⟩, ⟨2, "Scored", 10⟩]) := by
  have hfail : ∀ fuel, 4 ≤ fuel → Emit fuel ⟨staleBus, []⟩ "Scored" 10 true = .failed :=
    fun fuel hf => Emit_fast_flat ⟨staleBus, []⟩ "Scored" 10
      [⟨1, fun _ => [.removeListener "Scored" 9]⟩] rfl rfl fuel hf
  refine ⟨rfl, hfail, rfl, fun fuel hf => ProcessEvents_flat ⟨staleBus, []⟩ rfl fuel hf,
    fun hall => ?_, ⟨scoreBus, scoreBus, rfl, rfl, rfl, by decide⟩⟩
  have h := hall ⟨staleBus, []⟩ "Scored" 10 4 (hfail 4 (by decide))
  exact absurd (congrArg Option.isSome h) (by decide)

/-- C29 (amended): delivering an event to a type without a listener list
fails. An immediate publish of E fails whenever E has no listener list, and,
when the callbacks of E's listeners only queue events or subscribe (calls
that cannot fail), only then; whenever `ProcessEvent` reaches an event whose
type has no listener list at that moment, the run fails; a flush whose
callbacks only queue events or subscribe fails exactly when, the events
before it delivered, an event is reached whose type has no listener list in
the state reached; and after `RemoveListener` of the only listener of E the
entry of E is dropped and an immediate publish of E fails. -/
theorem delivery_without_listeners_fails (x : BusRun P) (E : TypeName) (ev : P) :
    (∀ fuel, 2 ≤ fuel → x.bus.m_listeners.find E = none →
      Emit fuel x E ev true = .failed) ∧
    ((scripts (x.bus.listenersOf E) ⟨E, ev⟩).all BusCall.isQuiet = true →
      ∀ fuel, deliveryCost (x.bus.listenersOf E) ⟨E, ev⟩ + 1 ≤ fuel →
        (Emit fuel x E ev true = .failed ↔ x.bus.m_listeners.find E = none)) ∧
    (∀ (item : ItemEvent P) (rest : List (Pending P)) (fuel : Nat),
      x.bus.m_listeners.find item.type = none →
        run (fuel + 1) x (.processEvent item :: rest) = .failed) ∧
    ((scriptOf (flushDeliveries x)).all BusCall.isQuiet = true →
      ∀ fuel, costOf (flushDeliveries x) + x.bus.m_eventQueue.length + 1 ≤ fuel →
        (ProcessEvents fuel x = .failed ↔
          ∃ q1 item q2 y, x.bus.m_eventQueue = q1 ++ item :: q2 ∧
            deliverAll (flushStart x) q1 = some y ∧
            y.bus.m_listeners.find item.type = none)) ∧
    (∀ l, x.bus.m_listeners.find E = some [l] →
      ∃ bus', x.bus.RemoveListener E l.id = some bus' ∧ bus'.m_listeners.find E = none ∧
        ∀ fuel, 2 ≤ fuel → Emit fuel ⟨bus', x.calls⟩ E ev true = .failed) := by
  refine ⟨?_, ?_, ?_, ?_, ?_⟩
  · intro fuel hf h
    exact Emit_fast_none x E ev h fuel hf
  · intro hq fuel hf
    cases hfind : x.bus.m_listeners.find E with
    | none =>
      have h2 : 2 ≤ fuel := by
        have : 1 ≤ deliveryCost (x.bus.listenersOf E) ⟨E, ev⟩ := by
          unfold deliveryCost
          omega
        omega
      simp [Emit_fast_none x E ev hfind fuel h2]
    | some ls =>
      have hl : x.bus.listenersOf E = ls := by simp [listenersOf, hfind]
      rw [hl] at hq hf
      rw [Emit_fast_quiet x E ev ls hfind hq fuel hf]
      simp
  · intro item rest fuel h
    exact run_processEvent_none x item h rest fuel
  · intro hq fuel hf
    rw [ProcessEvents_flat x (isFlat_of_isQuiet _ hq) fuel hf, ofOption_eq_failed_iff]
    exact deliverAll_eq_none_iff_of_quiet (flushStart x) x.bus.m_eventQueue hq
  · intro l hl
    have hr : x.bus.RemoveListener E l.id =
        some { x.bus with m_listeners := x.bus.m_listeners.erase E } := by
      simp [RemoveListener, hl]
    refine ⟨_, hr, ?_, fun fuel hf => Emit_fast_none _ E ev ?_ fuel hf⟩
    · simp [UMap.find_erase]
    · simp [UMap.find_erase]

/-- Witness for C29 (amended): an immediate publish of `Collision`, which has
no listeners, fails; the flush that reaches the queued `PlayerDead` event
fails after the `Scored` event; an immediate `PlayerDead` publish does not
fail while listener 3 is subscribed, and fails after this only `PlayerDead`
listener is removed. -/
theorem delivery_without_listeners_fails_witness :
    Emit 2 ⟨scoreBus, []⟩ "Collision" 0 true = .failed ∧
    ProcessEvents 5 ⟨unheardBus, []⟩ = .failed ∧
    (Emit 3 ⟨scoreBus, []⟩ "PlayerDead" 0 true).isFailed = false ∧
    (∃ bus', scoreBus.RemoveListener "PlayerDead" 3 = some bus' ∧
      bus'.m_listeners.find "PlayerDead" = none ∧
      ∀ fuel, 2 ≤ fuel → Emit fuel ⟨bus', []⟩ "PlayerDead" 0 true = .failed) :=
  ⟨(delivery_without_listeners_fails ⟨scoreBus, []⟩ "Collision" 0).1 2 (by decide) rfl,
    ((delivery_without_listeners_fails ⟨unheardBus, []⟩ "Scored" 0).2.2.2.1 rfl 5
      (by decide)).2 ⟨[⟨"Scored", 10⟩], ⟨"PlayerDead", 0⟩, [], _, rfl, rfl, rfl⟩,
    by decide,
    (delivery_without_listeners_fails ⟨scoreBus, []⟩ "PlayerDead" 0).2.2.2.2
      ⟨3, fun _ => []⟩ rfl⟩

end EventBus

namespace EventBus

variable {P : Type}

/-- C32 (counterexample): the id counter is a `std::size_t` that `AddListener`
increments without a check. Take the run in which each `AddListener` is
followed by `UnsubscribeAll()`, so that no more than one listener is ever
stored: after as many rounds as the largest `std::size_t` value, the state
is reachable, all these ids have been issued, and the next `AddListener`
returns the invalid id 0. So it is not true that a listener id is never
0. -/
theorem listener_id_zero_after_wrap :
    (∀ n, (churnN n (EventBus.new : EventBus Nat)).m_listeners = []) ∧
    (∃ ids, Issued (churnN (ListenerIDLimit - 1) (EventBus.new : EventBus Nat)) ids ∧
      ids.length = ListenerIDLimit - 1) ∧
    ((churnN (ListenerIDLimit - 1) (EventBus.new : EventBus Nat)).AddListener "Scored"
      (fun _ => [])).1 = 0 ∧
    ¬ (∀ (bus : EventBus Nat) (ids : List ListenerID), Issued bus ids →
      ∀ T cb, (bus.AddListener T cb).1 ≠ 0) := by
  obtain ⟨ids, h1, h2⟩ :=
    issued_churnN (ListenerIDLimit - 1) (EventBus.new : EventBus Nat) [] Issued.init
  have hlen : ids.length = ListenerIDLimit - 1 := h2.trans (Nat.zero_add _)
  have hnext : (churnN (ListenerIDLimit - 1) (EventBus.new : EventBus Nat)).m_nextListenerID
      = 0 := by
    rw [(issued_ids h1).1, hlen, Nat.sub_add_cancel (Nat.le_of_lt limit_pos)]
    exact Nat.mod_self _
  have hzero := (AddListener_fst (churnN (ListenerIDLimit - 1) (EventBus.new : EventBus Nat))
    "Scored" (fun _ => [])).trans hnext
  exact ⟨fun n => (churnN_stores_nothing n EventBus.new rfl rfl).1, ⟨ids, h1, hlen⟩, hzero,
    fun hall => hall _ ids h1 "Scored" (fun _ => []) hzero⟩

end EventBus

end ecs
